import Mathlib

/-! ## Bitonic sort on a tiled accelerator (`src/dx_amp/BitonicSort.cpp`)

A shallow embedding of the C++ AMP bitonic sort: the two kernels
(`bitonic_sort_kernel`, `transpose_kernel`), the host loop `bitonic_sort_amp`
that dispatches them, and the sequential checker `verify`.

Conventions of the embedding.

* Device buffers (`concurrency::array<_type, 1>`) and `tile_static` arrays are
  lists; every read and write is bounds checked and an access outside the
  allocation is the fault `out_of_range`.
* The macros `BITONIC_BLOCK_SIZE`, `NUM_ELEMENTS`, `MATRIX_WIDTH`,
  `MATRIX_HEIGHT` and `TRANSPOSE_BLOCK_SIZE` are the fields of `Config`;
  `Config.square T B` defines them from the tile edge the way the source does.
* `unsigned` values are naturals below `2 ^ 32`; `u32` is the conversion to
  `unsigned`, `not32` the 32-bit complement.
* The threads of one tile run in lockstep between barriers: each barrier
  separated phase of a kernel is one map over the local indices of the tile.
  The section on interleavings runs the threads of `bitonic_sort_kernel` one
  step at a time instead, and the two readings are proved to agree.
* Every `parallel_for_each` appends the descriptor of the stage it launches to
  the dispatch log of the device state.
-/

namespace BitonicSort

/-! ## Faults, machine words, buffers -/

/-- The ways a run fails to produce a result. -/
inductive Fault where
  /-- an `assert` at the head of `bitonic_sort_amp` failed -/
  | assertion
  /-- the compute domain is not a multiple of the tile extent -/
  | bad_extent
  /-- a buffer or `tile_static` access outside the allocation -/
  | out_of_range
  /-- division by zero -/
  | div_by_zero
  /-- a loop did not exit within its iteration budget -/
  | timeout
  deriving DecidableEq

/-- Conversion of a non-negative integer to `unsigned`. -/
def u32 (x : Nat) : Nat := x % 2 ^ 32

/-- The complement `~x` of an `unsigned`. -/
def not32 (x : Nat) : Nat := (2 ^ 32 - 1) - u32 x

/-- Bounds checked read `buf[i]`. -/
def readAt {α : Type} (buf : List α) (i : Nat) : Except Fault α :=
  match buf[i]? with
  | some v => .ok v
  | none => .error .out_of_range

/-- Bounds checked write `buf[i] = v`. -/
def writeAt {α : Type} (buf : List α) (i : Nat) (v : α) : Except Fault (List α) :=
  if i < buf.length then .ok (buf.set i v) else .error .out_of_range

/-! ## Configuration macros -/

/-- The `#define`s at the head of the source file. -/
structure Config where
  BITONIC_BLOCK_SIZE : Nat
  NUM_ELEMENTS : Nat
  MATRIX_WIDTH : Nat
  MATRIX_HEIGHT : Nat
  TRANSPOSE_BLOCK_SIZE : Nat
  deriving DecidableEq

/-- The macros as the source derives them from the tile edge:
`NUM_ELEMENTS = BITONIC_BLOCK_SIZE * BITONIC_BLOCK_SIZE`,
`MATRIX_WIDTH = MATRIX_HEIGHT = BITONIC_BLOCK_SIZE`. -/
def Config.square (T B : Nat) : Config :=
  { BITONIC_BLOCK_SIZE := T
    NUM_ELEMENTS := T * T
    MATRIX_WIDTH := T
    MATRIX_HEIGHT := T
    TRANSPOSE_BLOCK_SIZE := B }

/-- The macros for `N` elements in tiles of edge `T`:
`MATRIX_WIDTH = MATRIX_HEIGHT = BITONIC_BLOCK_SIZE` as in the source, with
`NUM_ELEMENTS` left free. -/
def Config.tiled (T N B : Nat) : Config :=
  { BITONIC_BLOCK_SIZE := T
    NUM_ELEMENTS := N
    MATRIX_WIDTH := T
    MATRIX_HEIGHT := T
    TRANSPOSE_BLOCK_SIZE := B }

/-- The values in the source: tile edge 1024, transpose block 16. -/
def Config.source : Config := Config.square 1024 16

/-! ## `bitonic_sort_kernel` -/

section Kernel

variable {α : Type} [LinearOrder α]

/-- Line 78 for the threads of one tile:
`sh_data[local_idx] = data[global_idx]`. -/
def loadTile (T : Nat) (data : List α) (tile : Nat) : Except Fault (List α) :=
  (List.range T).mapM (fun local_idx => readAt data (tile * T + local_idx))

/-- Line 86 for one thread: the value `result` it computes from the
`tile_static` array as it stands before the round. -/
def roundThread (ulevelmask j : Nat) (sh_data : List α) (local_idx global_idx : Nat) :
    Except Fault α := do
  let lo ← readAt sh_data (local_idx &&& not32 j)
  let hi ← readAt sh_data (local_idx ||| j)
  if (decide (lo ≤ hi)) == (decide (ulevelmask &&& global_idx ≠ 0)) then
    readAt sh_data (local_idx ^^^ j)
  else
    readAt sh_data local_idx

/-- Lines 86-89 for the threads of one tile: every thread computes `result`,
barrier, every thread stores it in its own slot, barrier. -/
def roundTile (T ulevelmask j : Nat) (sh_data : List α) (tile : Nat) :
    Except Fault (List α) :=
  (List.range T).mapM
    (fun local_idx => roundThread ulevelmask j sh_data local_idx (tile * T + local_idx))

/-- The loop of line 84, `for (j = ...; j > 0; j >>= 1)`, entered with the
current `j`; `fuel` bounds the number of iterations. -/
def roundsLoop (T ulevelmask tile : Nat) : Nat → Nat → List α → Except Fault (List α)
  | 0, j, sh_data => if j > 0 then .error .timeout else .ok sh_data
  | fuel + 1, j, sh_data =>
    if j > 0 then do
      let sh_next ← roundTile T ulevelmask j sh_data tile
      roundsLoop T ulevelmask tile fuel (j >>> 1) sh_next
    else .ok sh_data

/-- Line 93 for the threads of one tile:
`data[global_idx] = sh_data[local_idx]`. -/
def storeTile (T : Nat) (data : List α) (tile : Nat) (sh_data : List α) :
    Except Fault (List α) :=
  (List.range T).foldlM
    (fun buf local_idx => do
      let v ← readAt sh_data local_idx
      writeAt buf (tile * T + local_idx) v)
    data

/-- The kernel run by the `T` threads of tile number `tile`: load, barrier,
the compare-exchange rounds, store. An `unsigned` below `2 ^ 32` is shifted to
zero in at most 32 steps, which is the iteration budget of the loop. -/
def bitonic_sort_kernel (T : Nat) (data : List α) (ulevel ulevelmask tile : Nat) :
    Except Fault (List α) := do
  let sh_data ← loadTile T data tile
  let sh_done ← roundsLoop T ulevelmask tile 32 (u32 ulevel >>> 1) sh_data
  storeTile T data tile sh_done

/-- The launch `parallel_for_each(extent<1>(N).tile<T>(), ...)` of
`bitonic_sort_kernel`: the tiles touch disjoint parts of the buffer and are
run one after the other. -/
def dispatch_bitonic (N T : Nat) (data : List α) (ulevel ulevelmask : Nat) :
    Except Fault (List α) :=
  if T = 0 ∨ N % T ≠ 0 then .error .bad_extent
  else
    (List.range (N / T)).foldlM
      (fun buf tile => bitonic_sort_kernel T buf ulevel ulevelmask tile) data

end Kernel

/-! ## `transpose_kernel` -/

section Transpose

variable {α : Type}

/-- Linear index of `transpose_matrix_a[tidx.global[0]][tidx.global[1]]` for
the thread with local index `(k / B, k % B)` in tile `(t0, t1)`; the view has
extent `(width, height)`, so a row is `height` long. -/
def srcIndex (B height t0 t1 k : Nat) : Nat :=
  (t0 * B + k / B) * height + (t1 * B + k % B)

/-- Linear index of `transpose_matrix_b[tidx.global[1]][tidx.global[0]]` for
the same thread; the destination view has the same extent `(width, height)`. -/
def dstIndex (B height t0 t1 k : Nat) : Nat :=
  (t1 * B + k % B) * height + (t0 * B + k / B)

/-- The kernel run by the `B * B` threads of tile `(t0, t1)`: stage the block
in `transpose_shared_data` (slot `k` is `[k / B][k % B]`), barrier, write the
block to the swapped position of `data_out`. Both views have the extent
`e_mat_dim = (width, height)`; a row of a view is `e_mat_dim.2` long. -/
def transpose_kernel (B : Nat) (data_in data_out : List α) (width height t0 t1 : Nat) :
    Except Fault (List α) := do
  let e_mat_dim : Nat × Nat := (width, height)
  let transpose_shared_data ←
    (List.range (B * B)).mapM (fun k => readAt data_in (srcIndex B e_mat_dim.2 t0 t1 k))
  (List.range (B * B)).foldlM
    (fun buf k => do
      let v ← readAt transpose_shared_data k
      writeAt buf (dstIndex B e_mat_dim.2 t0 t1 k) v)
    data_out

/-- The launch `parallel_for_each(extent<2>(W, H).tile<B, B>(), ...)` of
`transpose_kernel`; tile number `t` is tile `(t / (H / B), t % (H / B))`. -/
def dispatch_transpose (W H B : Nat) (data_in data_out : List α) (width height : Nat) :
    Except Fault (List α) :=
  if B = 0 ∨ W % B ≠ 0 ∨ H % B ≠ 0 then .error .bad_extent
  else
    (List.range ((W / B) * (H / B))).foldlM
      (fun buf t => transpose_kernel B data_in buf width height (t / (H / B)) (t % (H / B)))
      data_out

/-- The destination indices written by one launch of `transpose_kernel`, one
entry per thread, in the order of the launch. -/
def transposeTargets (W H B height : Nat) : List Nat :=
  (List.range ((W / B) * (H / B))).flatMap
    (fun t => (List.range (B * B)).map (dstIndex B height (t / (H / B)) (t % (H / B))))

end Transpose

/-! ## `bitonic_sort_amp` -/

/-- The two device buffers of `bitonic_sort_amp`. -/
inductive Buffer where
  /-- the array `data` -/
  | primary
  /-- the array `temp` -/
  | scratch
  deriving DecidableEq

/-- Descriptor of one `parallel_for_each` launch. -/
inductive Stage where
  /-- `bitonic_sort_kernel(buf, ulevel, ulevelmask, tidx)` -/
  | bitonic (buf : Buffer) (ulevel ulevelmask : Nat)
  /-- `transpose_kernel(src, dst, width, height, tidx)` -/
  | transpose (src dst : Buffer) (width height : Nat)
  deriving DecidableEq

/-- Device state of `bitonic_sort_amp`: the arrays `data` and `temp`, and the
launches issued so far. -/
structure Device (α : Type) where
  data : List α
  temp : List α
  log : List Stage

section Host

variable {α : Type} [LinearOrder α]

/-- The first loop of `bitonic_sort_amp` (lines 142-149), entered with the
current `level`; `fuel` bounds the number of iterations. -/
def phase1 (cfg : Config) : Nat → Nat → Device α → Except Fault (Device α)
  | 0, level, dev => if level ≤ u32 cfg.BITONIC_BLOCK_SIZE then .error .timeout else .ok dev
  | fuel + 1, level, dev =>
    if level ≤ u32 cfg.BITONIC_BLOCK_SIZE then do
      let data ← dispatch_bitonic cfg.NUM_ELEMENTS cfg.BITONIC_BLOCK_SIZE dev.data level level
      phase1 cfg fuel (u32 (level * 2))
        { dev with data := data, log := dev.log ++ [Stage.bitonic .primary level level] }
    else .ok dev

/-- One iteration of the second loop (lines 160-196): transpose, sort the
columns, transpose back, sort the rows. -/
def sandwich (cfg : Config) (level : Nat) (dev : Device α) : Except Fault (Device α) := do
  if cfg.BITONIC_BLOCK_SIZE = 0 then throw Fault.div_by_zero
  let ulevel := level / u32 cfg.BITONIC_BLOCK_SIZE
  let ulevelMask := (level &&& not32 cfg.NUM_ELEMENTS) / u32 cfg.BITONIC_BLOCK_SIZE
  let width := u32 cfg.MATRIX_WIDTH
  let height := u32 cfg.MATRIX_HEIGHT
  let temp ← dispatch_transpose cfg.MATRIX_WIDTH cfg.MATRIX_HEIGHT cfg.TRANSPOSE_BLOCK_SIZE
    dev.data dev.temp width height
  let log := dev.log ++ [Stage.transpose .primary .scratch width height]
  let temp ← dispatch_bitonic cfg.NUM_ELEMENTS cfg.BITONIC_BLOCK_SIZE temp ulevel ulevelMask
  let log := log ++ [Stage.bitonic .scratch ulevel ulevelMask]
  let ulevel := u32 cfg.BITONIC_BLOCK_SIZE
  let ulevelMask := level
  let width := u32 cfg.MATRIX_HEIGHT
  let height := u32 cfg.MATRIX_WIDTH
  let data ← dispatch_transpose cfg.MATRIX_WIDTH cfg.MATRIX_HEIGHT cfg.TRANSPOSE_BLOCK_SIZE
    temp dev.data width height
  let log := log ++ [Stage.transpose .scratch .primary width height]
  let data ← dispatch_bitonic cfg.NUM_ELEMENTS cfg.BITONIC_BLOCK_SIZE data ulevel ulevelMask
  let log := log ++ [Stage.bitonic .primary ulevel ulevelMask]
  pure { data := data, temp := temp, log := log }

/-- The second loop of `bitonic_sort_amp` (lines 158-197), entered with the
current `level`; `fuel` bounds the number of iterations. -/
def phase2 (cfg : Config) : Nat → Nat → Device α → Except Fault (Device α)
  | 0, level, dev => if level ≤ u32 cfg.NUM_ELEMENTS then .error .timeout else .ok dev
  | fuel + 1, level, dev =>
    if level ≤ u32 cfg.NUM_ELEMENTS then do
      let dev ← sandwich cfg level dev
      phase2 cfg fuel (u32 (level * 2)) dev
    else .ok dev

/-- Result of `bitonic_sort_amp`: the contents of `data_out` on return and the
launches that were issued. -/
structure SortResult (α : Type) where
  data_out : List α
  log : List Stage

/-- The host function `bitonic_sort_amp(data_in, data_out)`. The scratch array
`temp` is allocated without initialisation; the embedding starts it with the
old contents of `data_out`, which have the right length and are otherwise
arbitrary. A `level` that is doubled modulo `2 ^ 32` either leaves a loop
within 33 iterations or is zero from then on, so the budget of 64 iterations
is exhausted exactly by the runs that do not terminate. -/
def bitonic_sort_amp (cfg : Config) (data_in data_out : List α) :
    Except Fault (SortResult α) := do
  if cfg.MATRIX_WIDTH = 0 ∨ cfg.TRANSPOSE_BLOCK_SIZE = 0 then throw Fault.div_by_zero
  if ¬ (cfg.NUM_ELEMENTS / cfg.MATRIX_WIDTH = cfg.MATRIX_WIDTH) then throw Fault.assertion
  if ¬ (cfg.MATRIX_WIDTH % cfg.TRANSPOSE_BLOCK_SIZE = 0
      ∧ cfg.MATRIX_HEIGHT % cfg.TRANSPOSE_BLOCK_SIZE = 0) then throw Fault.assertion
  if ¬ (data_out.length = cfg.NUM_ELEMENTS) then throw Fault.assertion
  if data_in.length < data_out.length then throw Fault.out_of_range
  let dev : Device α :=
    { data := data_in.take data_out.length, temp := data_out, log := [] }
  let dev ← phase1 cfg 64 2 dev
  let dev ← phase2 cfg 64 (u32 (cfg.BITONIC_BLOCK_SIZE * 2)) dev
  pure { data_out := dev.data, log := dev.log }

/-! ## `verify` -/

end Host

end BitonicSort

/-! ## The steps of the host loops on the two-buffer state -/

namespace BitonicSort

/-- The values taken by `j` in the loop of line 84 when it is entered with `j`,
one entry for each execution of the loop body, under the same iteration
budget as `roundsLoop`. -/
def roundsTrace : Nat → Nat → List Nat
  | 0, _ => []
  | fuel + 1, j => if j > 0 then j :: roundsTrace fuel (j >>> 1) else []

section TransposeSteps

variable {α : Type}

/-- Lines 162-171, "Transpose the data from buffer 1 into buffer 2", on the
two-buffer state. -/
def transpose_into_temp (cfg : Config) (dev : Device α) : Except Fault (Device α) := do
  let width := u32 cfg.MATRIX_WIDTH
  let height := u32 cfg.MATRIX_HEIGHT
  let temp ← dispatch_transpose cfg.MATRIX_WIDTH cfg.MATRIX_HEIGHT cfg.TRANSPOSE_BLOCK_SIZE
    dev.data dev.temp width height
  pure { dev with temp := temp, log := dev.log ++ [Stage.transpose .primary .scratch width height] }

/-- Lines 182-190, "Transpose the data from buffer 2 back into buffer 1", on
the two-buffer state. -/
def transpose_into_data (cfg : Config) (dev : Device α) : Except Fault (Device α) := do
  let width := u32 cfg.MATRIX_HEIGHT
  let height := u32 cfg.MATRIX_WIDTH
  let data ← dispatch_transpose cfg.MATRIX_WIDTH cfg.MATRIX_HEIGHT cfg.TRANSPOSE_BLOCK_SIZE
    dev.temp dev.data width height
  pure { dev with data := data, log := dev.log ++ [Stage.transpose .scratch .primary width height] }

end TransposeSteps

section SortSteps

variable {α : Type} [LinearOrder α]

/-- Lines 173-178, "Sort the transposed column data", on the two-buffer
state, with the `ulevel` and `ulevelMask` of lines 160-161. -/
def sort_columns (cfg : Config) (ulevel ulevelMask : Nat) (dev : Device α) :
    Except Fault (Device α) := do
  let temp ← dispatch_bitonic cfg.NUM_ELEMENTS cfg.BITONIC_BLOCK_SIZE dev.temp ulevel ulevelMask
  pure { dev with temp := temp, log := dev.log ++ [Stage.bitonic .scratch ulevel ulevelMask] }

/-- Lines 192-196, "Sort the row data", on the two-buffer state, with the
`ulevel` and `ulevelMask` of lines 180-181. -/
def sort_rows (cfg : Config) (ulevel ulevelMask : Nat) (dev : Device α) :
    Except Fault (Device α) := do
  let data ← dispatch_bitonic cfg.NUM_ELEMENTS cfg.BITONIC_BLOCK_SIZE dev.data ulevel ulevelMask
  pure { dev with data := data, log := dev.log ++ [Stage.bitonic .primary ulevel ulevelMask] }

/-- The launches of the first loop (lines 142-149) for the given levels, in
order, on the array `data`. -/
def phase1_levels (cfg : Config) (levels : List Nat) (data : List α) :
    Except Fault (List α) :=
  levels.foldlM
    (fun data level => dispatch_bitonic cfg.NUM_ELEMENTS cfg.BITONIC_BLOCK_SIZE data level level)
    data

end SortSteps

/-- The values of `level` for which the body of a host loop
`for (level = ...; level <= bound; level = level * 2)` runs when it is entered
with `level`, one entry for each execution of the body, under the same
iteration budget as `phase1` and `phase2`. -/
def levelsTrace (bound : Nat) : Nat → Nat → List Nat
  | 0, _ => []
  | fuel + 1, level =>
    if level ≤ bound then level :: levelsTrace bound fuel (u32 (level * 2)) else []

section LoopBodies

variable {α : Type} [LinearOrder α]

/-- The body of the first loop of `bitonic_sort_amp` (lines 144-148) for one
`level`. -/
def phase1_step (cfg : Config) (dev : Device α) (level : Nat) : Except Fault (Device α) := do
  let data ← dispatch_bitonic cfg.NUM_ELEMENTS cfg.BITONIC_BLOCK_SIZE dev.data level level
  pure { dev with data := data, log := dev.log ++ [Stage.bitonic .primary level level] }

end LoopBodies

/-! ## The threads of one tile under every interleaving

The kernel above runs the threads of a tile phase by phase. The definitions
below run them one step of one thread at a time, in any order: a thread is at
a program point of `bitonic_sort_kernel`, holding the locals that are live
there; an access to `data` or `sh_data` is one step and takes effect at once;
`tidx.barrier.wait()` holds a thread until every thread of the tile waits at a
barrier, and releases them together. -/

/-- The program points of `bitonic_sort_kernel` (lines 78-93) for one thread,
each with the locals that are live there. -/
inductive Pc (α : Type) where
  /-- before `sh_data[local_idx] = data[global_idx]` (line 78) -/
  | load
  /-- waiting at the barrier of line 81 -/
  | barrier0
  /-- line 86, before the read of `sh_data[local_idx & ~j]` -/
  | read_lo (j : Nat)
  /-- line 86, before the read of `sh_data[local_idx | j]` -/
  | read_hi (j : Nat) (lo : α)
  /-- line 86, before the read of the operand the comparison selects -/
  | read_sel (j : Nat) (lo hi : α)
  /-- waiting at the barrier of line 87 -/
  | barrierA (j : Nat) (result : α)
  /-- before `sh_data[local_idx] = result` (line 88) -/
  | write (j : Nat) (result : α)
  /-- waiting at the barrier of line 89 -/
  | barrierB (j : Nat)
  /-- before `data[global_idx] = sh_data[local_idx]` (line 93) -/
  | store
  /-- after the last statement -/
  | done
  deriving DecidableEq

/-- One tile in flight: the buffer, the `tile_static` array, and the program
point of every thread, by local index. -/
structure TileState (α : Type) where
  data : List α
  sh_data : List α
  pcs : List (Pc α)
  deriving DecidableEq

section Interleaving

variable {α : Type}

/-- The thread waits at a barrier. -/
def Pc.atBarrier : Pc α → Bool
  | .barrier0 => true
  | .barrierA _ _ => true
  | .barrierB _ => true
  | _ => false

/-- The thread has returned. -/
def Pc.isDone : Pc α → Bool
  | .done => true
  | _ => false

/-- The thread is in the first half of round `j`: at one of the reads of line
86 or at the barrier of line 87. -/
def Pc.inRead (j : Nat) : Pc α → Bool
  | .read_lo j' => j' = j
  | .read_hi j' _ => j' = j
  | .read_sel j' _ _ => j' = j
  | .barrierA j' _ => j' = j
  | _ => false

/-- The thread is in the second half of round `j`: at the write of line 88 or
at the barrier of line 89. -/
def Pc.inWrite (j : Nat) : Pc α → Bool
  | .write j' _ => j' = j
  | .barrierB j' => j' = j
  | _ => false

/-- The test `j > 0` of the loop of line 84: into the body, or to line 93. -/
def loopEntry (j : Nat) : Pc α :=
  if j > 0 then .read_lo j else .store

/-- Where a thread continues when the barrier it waits at opens: after line 81
the loop is entered with `j = ulevel >> 1`; after line 87 comes the write;
after line 89 `j >>= 1` and the loop test. -/
def release (ulevel : Nat) : Pc α → Pc α
  | .barrier0 => loopEntry (u32 ulevel >>> 1)
  | .barrierA j result => .write j result
  | .barrierB j => loopEntry (j >>> 1)
  | pc => pc

/-- The number of iterations of `for (...; j > 0; j >>= 1)` entered with `j`. -/
def iters (j : Nat) : Nat :=
  if j = 0 then 0 else Nat.log2 j + 1

/-- The number of steps a thread at the given program point has still to
take, a barrier counting as one step. -/
def Pc.rest (ulevel : Nat) : Pc α → Nat
  | .load => 6 * iters (u32 ulevel >>> 1) + 3
  | .barrier0 => 6 * iters (u32 ulevel >>> 1) + 2
  | .read_lo j => 6 * iters (j >>> 1) + 7
  | .read_hi j _ => 6 * iters (j >>> 1) + 6
  | .read_sel j _ _ => 6 * iters (j >>> 1) + 5
  | .barrierA j _ => 6 * iters (j >>> 1) + 4
  | .write j _ => 6 * iters (j >>> 1) + 3
  | .barrierB j => 6 * iters (j >>> 1) + 2
  | .store => 1
  | .done => 0

/-- The steps the threads of the tile have still to take, summed. -/
def remaining (ulevel : Nat) (s : TileState α) : Nat :=
  (s.pcs.map (Pc.rest ulevel)).sum

/-- The tile at launch: every thread before line 78; `sh_data` holds whatever
the `tile_static` memory held. -/
def initTile (T : Nat) (data sh_data : List α) : TileState α :=
  { data := data, sh_data := sh_data, pcs := List.replicate T Pc.load }

/-- Every thread has returned. -/
def finished (s : TileState α) : Bool :=
  s.pcs.all Pc.isDone

/-- Thread `i` can take a step: it has not returned, and if it waits at a
barrier then every thread of the tile waits at a barrier. -/
def enabled (s : TileState α) (i : Nat) : Bool :=
  match s.pcs[i]? with
  | none => false
  | some pc => if pc.atBarrier then s.pcs.all Pc.atBarrier else !pc.isDone

end Interleaving

section InterleavingSteps

variable {α : Type} [LinearOrder α]

/-- One step of the thread with the given local index, which is at the program
point `pc` and not at a barrier. -/
def threadStep (T ulevelmask tile : Nat) (s : TileState α) (local_idx : Nat) (pc : Pc α) :
    Except Fault (TileState α) :=
  let global_idx := tile * T + local_idx
  match pc with
  | .load => do
    let v ← readAt s.data global_idx
    let sh ← writeAt s.sh_data local_idx v
    pure { s with sh_data := sh, pcs := s.pcs.set local_idx .barrier0 }
  | .read_lo j => do
    let lo ← readAt s.sh_data (local_idx &&& not32 j)
    pure { s with pcs := s.pcs.set local_idx (.read_hi j lo) }
  | .read_hi j lo => do
    let hi ← readAt s.sh_data (local_idx ||| j)
    pure { s with pcs := s.pcs.set local_idx (.read_sel j lo hi) }
  | .read_sel j lo hi => do
    let result ←
      if (decide (lo ≤ hi)) == (decide (ulevelmask &&& global_idx ≠ 0)) then
        readAt s.sh_data (local_idx ^^^ j)
      else
        readAt s.sh_data local_idx
    pure { s with pcs := s.pcs.set local_idx (.barrierA j result) }
  | .write j result => do
    let sh ← writeAt s.sh_data local_idx result
    pure { s with sh_data := sh, pcs := s.pcs.set local_idx (.barrierB j) }
  | .store => do
    let v ← readAt s.sh_data local_idx
    let data ← writeAt s.data global_idx v
    pure { s with data := data, pcs := s.pcs.set local_idx .done }
  | _ => pure s

/-- The scheduler picks thread `i`. A thread that is not at a barrier takes
its next step. A thread at a barrier is held unless every thread of the tile
waits at a barrier; then the barrier opens and all of them continue. Picking a
thread that is held, has returned or does not exist changes nothing. -/
def step (T ulevel ulevelmask tile : Nat) (s : TileState α) (i : Nat) :
    Except Fault (TileState α) :=
  match s.pcs[i]? with
  | none => .ok s
  | some pc =>
    if pc.atBarrier then
      if s.pcs.all Pc.atBarrier then .ok { s with pcs := s.pcs.map (release ulevel) }
      else .ok s
    else threadStep T ulevelmask tile s i pc

/-- The tile under the schedule `sched`, the list of the threads picked. -/
def run (T ulevel ulevelmask tile : Nat) (sched : List Nat) (s : TileState α) :
    Except Fault (TileState α) :=
  sched.foldlM (step T ulevel ulevelmask tile) s

/-- Before the barrier of line 81: a thread is before its load, or has copied
its element of `data` into its slot and waits. -/
def LoadPhase (T : Nat) (data0 S0 : List α) (s : TileState α) : Prop :=
  s.data = data0 ∧ s.sh_data.length = T ∧ s.pcs.length = T ∧
  ∀ i < T, s.pcs[i]? = some .load ∨
    (s.pcs[i]? = some .barrier0 ∧ s.sh_data[i]? = S0[i]?)

/-- The first half of round `j`: every thread is at the reads of line 86 or at
the barrier of line 87, and what it holds it has read from `sh_data` as it
stands. -/
def ReadPhase (T ulevelmask tile : Nat) (data0 : List α) (j : Nat) (s : TileState α) : Prop :=
  s.data = data0 ∧ s.sh_data.length = T ∧ s.pcs.length = T ∧ 0 < j ∧
  ∀ i < T, s.pcs[i]? = some (.read_lo j) ∨
    (∃ lo, s.pcs[i]? = some (.read_hi j lo) ∧ readAt s.sh_data (i &&& not32 j) = .ok lo) ∨
    (∃ lo hi, s.pcs[i]? = some (.read_sel j lo hi) ∧
      readAt s.sh_data (i &&& not32 j) = .ok lo ∧ readAt s.sh_data (i ||| j) = .ok hi) ∨
    (∃ r, s.pcs[i]? = some (.barrierA j r) ∧
      roundThread ulevelmask j s.sh_data i (tile * T + i) = .ok r)

/-- The second half of round `j`, `S` being `sh_data` as it stood before the
round and `S'` the result of the round on `S`: every thread holds the
`result` it computed from `S`, and is before its write or has written it to
its slot and waits at the barrier of line 89. -/
def WritePhase (T ulevelmask tile : Nat) (data0 : List α) (j : Nat) (S S' : List α)
    (s : TileState α) : Prop :=
  s.data = data0 ∧ s.sh_data.length = T ∧ s.pcs.length = T ∧ 0 < j ∧
  roundTile T ulevelmask j S tile = .ok S' ∧
  ∀ i < T, ∃ r, roundThread ulevelmask j S i (tile * T + i) = .ok r ∧ S'[i]? = some r ∧
    (s.pcs[i]? = some (.write j r) ∨ (s.pcs[i]? = some (.barrierB j) ∧ s.sh_data[i]? = some r))

/-- After the loop, `out` being the buffer the kernel returns: a thread is
before its store, or has stored its slot and returned; the rest of the buffer
is untouched. -/
def StorePhase (T tile : Nat) (data0 out : List α) (s : TileState α) : Prop :=
  s.sh_data.length = T ∧ s.pcs.length = T ∧ s.data.length = data0.length ∧
  out.length = data0.length ∧ tile * T + T ≤ data0.length ∧
  (∀ x, (x < tile * T ∨ tile * T + T ≤ x) → s.data[x]? = data0[x]? ∧ out[x]? = data0[x]?) ∧
  ∀ i < T, s.sh_data[i]? = out[tile * T + i]? ∧
    ((s.pcs[i]? = some .store ∧ s.data[tile * T + i]? = data0[tile * T + i]?) ∨
     (s.pcs[i]? = some .done ∧ s.data[tile * T + i]? = out[tile * T + i]?))

/-- The states of a tile that the phase by phase reading of the kernel
accounts for: the tile is in one of the four phases, and from `sh_data` as it
stands at the head of a round the remaining rounds and the store of the
kernel lead to `out`. -/
def InPhase (T ulevel ulevelmask tile : Nat) (data0 out : List α) (s : TileState α) : Prop :=
  (∃ S0 Sfin, loadTile T data0 tile = .ok S0 ∧
      roundsLoop T ulevelmask tile 32 (u32 ulevel >>> 1) S0 = .ok Sfin ∧
      storeTile T data0 tile Sfin = .ok out ∧ LoadPhase T data0 S0 s) ∨
  (∃ j fuel Sfin, ReadPhase T ulevelmask tile data0 j s ∧
      roundsLoop T ulevelmask tile fuel j s.sh_data = .ok Sfin ∧
      storeTile T data0 tile Sfin = .ok out) ∨
  (∃ j S S' fuel Sfin, WritePhase T ulevelmask tile data0 j S S' s ∧
      roundsLoop T ulevelmask tile fuel (j >>> 1) S' = .ok Sfin ∧
      storeTile T data0 tile Sfin = .ok out) ∨
  StorePhase T tile data0 out s

end InterleavingSteps

/-! ## `transpose_kernel` on arrays passed by reference

`transpose_kernel` receives its two arrays as `array<_type, 1>&`. The
definitions below keep the two arrays of `bitonic_sort_amp` in one device
state and pass the kernel the names of its source and of its destination, so
that a read or a write of the kernel goes to the array its parameter refers
to. -/

section References

variable {α : Type}

/-- The array a buffer name refers to. -/
def Device.get (dev : Device α) : Buffer → List α
  | .primary => dev.data
  | .scratch => dev.temp

/-- The device state with the named array replaced. -/
def Device.put (dev : Device α) (buf : Buffer) (xs : List α) : Device α :=
  match buf with
  | .primary => { dev with data := xs }
  | .scratch => { dev with temp := xs }

/-- Bounds checked read `buf[i]` through a reference. -/
def readRef (dev : Device α) (buf : Buffer) (i : Nat) : Except Fault α :=
  readAt (dev.get buf) i

/-- Bounds checked write `buf[i] = v` through a reference. -/
def writeRef (dev : Device α) (buf : Buffer) (i : Nat) (v : α) : Except Fault (Device α) := do
  let xs ← writeAt (dev.get buf) i v
  pure (dev.put buf xs)

/-- The kernel `transpose_kernel(data_in, data_out, width, height, tidx)` run
by the `B * B` threads of tile `(t0, t1)`, the two arrays being references
into the device state: every thread reads `transpose_matrix_a`, a view of
`data_in`, into `transpose_shared_data`; barrier; every thread writes
`transpose_matrix_b`, a view of `data_out`. -/
def transpose_kernel_ref (B : Nat) (dev : Device α) (data_in data_out : Buffer)
    (width height t0 t1 : Nat) : Except Fault (Device α) := do
  let e_mat_dim : Nat × Nat := (width, height)
  let transpose_shared_data ←
    (List.range (B * B)).mapM (fun k => readRef dev data_in (srcIndex B e_mat_dim.2 t0 t1 k))
  (List.range (B * B)).foldlM
    (fun dev k => do
      let v ← readAt transpose_shared_data k
      writeRef dev data_out (dstIndex B e_mat_dim.2 t0 t1 k) v)
    dev

/-- The launch `parallel_for_each(extent<2>(W, H).tile<B, B>(), ...)` of
`transpose_kernel` with the arrays captured by reference; tile number `t` is
tile `(t / (H / B), t % (H / B))`, the tiles run one after the other. -/
def dispatch_transpose_ref (W H B : Nat) (dev : Device α) (data_in data_out : Buffer)
    (width height : Nat) : Except Fault (Device α) :=
  if B = 0 ∨ W % B ≠ 0 ∨ H % B ≠ 0 then .error .bad_extent
  else
    (List.range ((W / B) * (H / B))).foldlM
      (fun dev t =>
        transpose_kernel_ref B dev data_in data_out width height (t / (H / B)) (t % (H / B)))
      dev

end References

end BitonicSort

/-! ## Matrix multiplication (`dx_amp/matrixmult.cpp`)

The three multiplication routines are templates over the element type; the
embedding takes any type with `0`, `+` and `*` and assumes no law of them, so
that the order of the additions is part of what is computed. The output vector
`vresult` is passed by reference: a call ends by returning, by throwing the
dimension error, or by a fault, and the first two carry the contents of
`vresult` at that point. -/

namespace MatrixMult

/-- Ways a call can fail other than by the `throw` of the dimension check. -/
inductive Fault where
  /-- an `assert` failed -/
  | assertion
  /-- an `int` product left the range of `int` -/
  | overflow
  /-- an index outside a vector, a view or a `tile_static` array -/
  | out_of_range
  /-- an extent with a zero dimension, or a tile edge of zero -/
  | bad_extent
  /-- the iteration budget of a loop was exhausted -/
  | timeout
  deriving DecidableEq

/-- How a call of one of the routines ends. -/
inductive Outcome (α : Type) where
  /-- normal return, with the contents of `vresult` -/
  | returned (vresult : List α)
  /-- the dimension error was thrown, with the contents of `vresult` -/
  | threw (vresult : List α)
  /-- a fault -/
  | failed (f : Fault)

/-- Product of two non-negative `int`s. -/
def imul (a b : Nat) : Except Fault Nat :=
  if a * b < 2 ^ 31 then .ok (a * b) else .error .overflow

section Routines

variable {α : Type}

/-- Read `v[i]`. -/
def rd (v : List α) (i : Nat) : Except Fault α :=
  match v[i]? with
  | some x => .ok x
  | none => .error .out_of_range

/-- Write `v[i] = x`. -/
def wr (v : List α) (i : Nat) (x : α) : Except Fault (List α) :=
  if i < v.length then .ok (v.set i x) else .error .out_of_range

/-- Element `(i0, i1)` of a two-dimensional `array_view` of extent `(e0, e1)`
over the vector `v`; rows are `e1` long. -/
def viewRead (e0 e1 : Nat) (v : List α) (i0 i1 : Nat) : Except Fault α :=
  if i0 < e0 ∧ i1 < e1 then rd v (i0 * e1 + i1) else .error .out_of_range

/-- Assignment to element `(i0, i1)` of a view of extent `(e0, e1)`. -/
def viewWrite (e0 e1 : Nat) (v : List α) (i0 i1 : Nat) (x : α) : Except Fault (List α) :=
  if i0 < e0 ∧ i1 < e1 then wr v (i0 * e1 + i1) x else .error .out_of_range

/-- Construction of an `extent<2>(e0, e1)` for a view or a compute domain: the
runtime rejects a dimension that is not positive. -/
def checkExtent (e0 e1 : Nat) : Except Fault Unit :=
  if e0 = 0 ∨ e1 = 0 then .error .bad_extent else .ok ()

/-- The condition of the `if` in front of the `throw`,
`va.size() != M*N || vb.size() != N*W || vresult.size() != M*W`, evaluated
left to right with short circuit. -/
def dimension_mismatch (M N W : Nat) (va vb vresult : List α) : Except Fault Bool := do
  let mn ← imul M N
  if va.length ≠ mn then pure true
  else
    let nw ← imul N W
    if vb.length ≠ nw then pure true
    else
      let mw ← imul M W
      pure (decide (vresult.length ≠ mw))

variable [Zero α] [Add α] [Mul α]

/-- The innermost loop of `mxm_single_cpu` for row `k` and column `j`. -/
def cpu_cell (N W : Nat) (va vb : List α) (k j : Nat) : Except Fault α :=
  (List.range N).foldlM
    (fun result i => do
      let idx_a := k * N + i
      let idx_b := i * W + j
      let a ← rd va idx_a
      let b ← rd vb idx_b
      pure (result + a * b))
    0

/-- The loops over `k` and `j` of `mxm_single_cpu`. -/
def cpu_loops (M N W : Nat) (va vb vresult : List α) : Except Fault (List α) :=
  (List.range M).foldlM
    (fun vresult k =>
      (List.range W).foldlM
        (fun vresult j => do
          let result ← cpu_cell N W va vb k j
          let idx_c := k * W + j
          wr vresult idx_c result)
        vresult)
    vresult

/-- The host routine `mxm_single_cpu(M, N, W, va, vb, vresult)`. -/
def mxm_single_cpu (M N W : Nat) (va vb vresult : List α) : Outcome α :=
  match dimension_mismatch M N W va vb vresult with
  | .error f => .failed f
  | .ok true => .threw vresult
  | .ok false =>
    match cpu_loops M N W va vb vresult with
    | .ok r => .returned r
    | .error f => .failed f

/-- The kernel of `mxm_amp_simple` for the thread `idx = (idx0, idx1)`: the
value it assigns to `av_c[idx]`. -/
def simple_thread (M N W : Nat) (va vb : List α) (idx0 idx1 : Nat) : Except Fault α :=
  (List.range N).foldlM
    (fun result i => do
      let a ← viewRead M N va idx0 i
      let b ← viewRead N W vb i idx1
      pure (result + a * b))
    0

/-- The launch `parallel_for_each(av_c.extent, ...)` of `mxm_amp_simple`: one
thread for each index of the extent `(M, W)`; a thread reads the two inputs
only and writes its own element of `av_c`. -/
def simple_launch (M N W : Nat) (va vb av_c : List α) : Except Fault (List α) :=
  (List.range M).foldlM
    (fun av_c idx0 =>
      (List.range W).foldlM
        (fun av_c idx1 => do
          let result ← simple_thread M N W va vb idx0 idx1
          viewWrite M W av_c idx0 idx1 result)
        av_c)
    av_c

/-- The routine `mxm_amp_simple(M, N, W, va, vb, vresult)`; `av_c` is a view
of `vresult`, which receives its contents on `synchronize`. -/
def mxm_amp_simple (M N W : Nat) (va vb vresult : List α) : Outcome α :=
  match dimension_mismatch M N W va vb vresult with
  | .error f => .failed f
  | .ok true => .threw vresult
  | .ok false =>
    match (do
      checkExtent M N
      checkExtent N W
      checkExtent M W
      simple_launch M N W va vb vresult) with
    | .ok r => .returned r
    | .error f => .failed f

/-- The loop `for (i = 0; i < N; i += tile_size)` of the kernel of
`mxm_amp_tiled` for the threads of tile `(t0, t1)` in lockstep, entered with
the current `i` and the `temp_c` of every thread (thread `t` has the local
index `(t / tile_size, t % tile_size)`): all threads fill `localA` and
`localB`, barrier, all threads add their `tile_size` products, barrier.
`fuel` bounds the number of iterations. -/
def tiled_rounds (tile_size M N W : Nat) (va vb : List α) (t0 t1 : Nat) :
    Nat → Nat → List α → Except Fault (List α)
  | 0, i, temp_c => if i < N then .error .timeout else .ok temp_c
  | fuel + 1, i, temp_c =>
    if i < N then do
      let localA ← (List.range (tile_size * tile_size)).mapM
        (fun t => viewRead M N va (t0 * tile_size + t / tile_size) (i + t % tile_size))
      let localB ← (List.range (tile_size * tile_size)).mapM
        (fun t => viewRead N W vb (i + t / tile_size) (t1 * tile_size + t % tile_size))
      let temp_c ← (List.range (tile_size * tile_size)).mapM
        (fun t => do
          let c ← rd temp_c t
          (List.range tile_size).foldlM
            (fun acc k => do
              let a ← rd localA (t / tile_size * tile_size + k)
              let b ← rd localB (k * tile_size + t % tile_size)
              pure (acc + a * b))
            c)
      tiled_rounds tile_size M N W va vb t0 t1 fuel (i + tile_size) temp_c
    else .ok temp_c

/-- The kernel of `mxm_amp_tiled` for the threads of tile `(t0, t1)`:
`temp_c = 0`, the loop, and `av_c[tidx] = temp_c`. The loop advances `i` by
`tile_size ≥ 1` up to `N`, so `N` iterations are enough. -/
def tiled_tile (tile_size M N W : Nat) (va vb av_c : List α) (t0 t1 : Nat) :
    Except Fault (List α) := do
  let temp_c ← tiled_rounds tile_size M N W va vb t0 t1 N 0
    (List.replicate (tile_size * tile_size) 0)
  (List.range (tile_size * tile_size)).foldlM
    (fun av_c t => do
      let c ← rd temp_c t
      viewWrite M W av_c (t0 * tile_size + t / tile_size) (t1 * tile_size + t % tile_size) c)
    av_c

/-- The launch `parallel_for_each(av_c.extent.tile<tile_size, tile_size>(), ...)`
of `mxm_amp_tiled`: the tiles write disjoint parts of `av_c` and are run one
after the other. -/
def tiled_launch (tile_size M N W : Nat) (va vb av_c : List α) : Except Fault (List α) :=
  (List.range (M / tile_size)).foldlM
    (fun av_c t0 =>
      (List.range (W / tile_size)).foldlM
        (fun av_c t1 => tiled_tile tile_size M N W va vb av_c t0 t1)
        av_c)
    av_c

/-- The routine `mxm_amp_tiled<_type, tile_size>(M, N, W, va, vb, vresult)`:
the dimension check, the three asserts, the views, the launch. -/
def mxm_amp_tiled (tile_size M N W : Nat) (va vb vresult : List α) : Outcome α :=
  match dimension_mismatch M N W va vb vresult with
  | .error f => .failed f
  | .ok true => .threw vresult
  | .ok false =>
    if tile_size = 0 then .failed .bad_extent
    else if M % tile_size ≠ 0 then .failed .assertion
    else if W % tile_size ≠ 0 then .failed .assertion
    else if N % tile_size ≠ 0 then .failed .assertion
    else
      match (do
        checkExtent M N
        checkExtent N W
        checkExtent M W
        tiled_launch tile_size M N W va vb vresult) with
      | .ok r => .returned r
      | .error f => .failed f

/-- The sum `va[k*N+0]*vb[0*W+j] + ... ` of the first `n` products, added to
`0` one after the other in increasing `i`. -/
def dot (N W : Nat) (va vb : List α) (k j n : Nat) : α :=
  (List.range n).foldl (fun acc i => acc + va.getD (k * N + i) 0 * vb.getD (i * W + j) 0) 0

/-- The product matrix as a vector: element `c` is the sum for row `c / W` and
column `c % W`. -/
def product (M N W : Nat) (va vb : List α) : List α :=
  (List.range (M * W)).map (fun c => dot N W va vb (c / W) (c % W) N)

/-- The `temp_c` of the threads of tile `(t0, t1)` once the first `n` products
have been added. -/
def tileSums (tile_size N W : Nat) (va vb : List α) (t0 t1 n : Nat) : List α :=
  (List.range (tile_size * tile_size)).map
    (fun t => dot N W va vb (t0 * tile_size + t / tile_size) (t1 * tile_size + t % tile_size) n)

end Routines

/-- The cells selected by `P` hold their final values `val`, in a vector of
length `n`. -/
def Done {α : Type} (P : Nat → Prop) (val : Nat → α) (n : Nat) (L : List α) : Prop :=
  L.length = n ∧ ∀ c, P c → c < n → L[c]? = some (val c)

/-- Progress of the tiled launch: the cells of the tile rows before `a`, of
the tiles before `b` in tile row `a`, and of the first `n` threads of tile
`(a, b)`. -/
def tiledProgress (tile_size W a b n c : Nat) : Prop :=
  c / W / tile_size < a ∨
    (c / W / tile_size = a ∧
      (c % W / tile_size < b ∨
        (c % W / tile_size = b ∧ c / W % tile_size * tile_size + c % W % tile_size < n)))

end MatrixMult

/-! ## The number tests `is_prime` and `is_carmichael`

The two functions are written out identically in `parallel_filter.cpp`,
`parallel_find_any.cpp` and (`is_prime` only) `map_reduce_.cpp`. After the
test `n < 2` every `int` that occurs is non-negative and at most `n`, so the
bodies are embedded over the natural numbers; a division or a remainder by
zero is a fault. -/

namespace NumberTests

/-- Ways an evaluation can fail. -/
inductive Fault where
  /-- `/` or `%` with a zero divisor -/
  | div_by_zero
  /-- the iteration budget of a loop was exhausted -/
  | timeout
  deriving DecidableEq

/-- The quotient `a / b` of non-negative `int`s. -/
def idiv (a b : Nat) : Except Fault Nat :=
  if b = 0 then .error .div_by_zero else .ok (a / b)

/-- The remainder `a % b` of non-negative `int`s. -/
def imod (a b : Nat) : Except Fault Nat :=
  if b = 0 then .error .div_by_zero else .ok (a % b)

/-- The loop `for (int i = 2; i < n; ++i)` of `is_prime`, entered with the
current `i`; `fuel` bounds the number of iterations. -/
def is_prime_loop (n : Nat) : Nat → Nat → Except Fault Bool
  | 0, i => if i < n then .error .timeout else .ok true
  | fuel + 1, i =>
    if i < n then do
      let r ← imod n i
      if r = 0 then pure false
      else is_prime_loop n fuel (i + 1)
    else .ok true

/-- The function `is_prime(n)`. The loop runs fewer than `n` times. -/
def is_prime (n : Int) : Except Fault Bool :=
  if n < 2 then .ok false
  else is_prime_loop n.toNat n.toNat 2

/-- The `return` after the loop of `is_carmichael`:
`k != n && (n - 1) % (k - 1) == 0`, with short circuit. -/
def is_carmichael_return (n k : Nat) : Except Fault Bool :=
  if k ≠ n then do
    let r ← imod (n - 1) (k - 1)
    pure (decide (r = 0))
  else .ok false

/-- The loop `for (int i = 2; i <= k / i; ++i)` of `is_carmichael`, entered
with the current `k` and `i`, followed by the final `return`. When a factor is
found, `k /= i; i = 1;` and the `++i` of the loop header continue at `i = 2`.
`fuel` bounds the number of iterations. -/
def is_carmichael_loop (n : Nat) : Nat → Nat → Nat → Except Fault Bool
  | 0, k, i => do
    let q ← idiv k i
    if i ≤ q then .error .timeout
    else is_carmichael_return n k
  | fuel + 1, k, i => do
    let q ← idiv k i
    if i ≤ q then do
      let r ← imod k i
      if r = 0 then do
        let q1 ← idiv k i
        let r1 ← imod q1 i
        if r1 = 0 then pure false
        else do
          let r2 ← imod (n - 1) (i - 1)
          if r2 ≠ 0 then pure false
          else is_carmichael_loop n fuel q1 (1 + 1)
      else is_carmichael_loop n fuel k (i + 1)
    else is_carmichael_return n k

/-- The function `is_carmichael(n)`. Every iteration decreases `k - i`, so `n`
iterations are enough. -/
def is_carmichael (n : Int) : Except Fault Bool :=
  if n < 2 then .ok false
  else is_carmichael_loop n.toNat n.toNat n.toNat 2

/-- Korselt's criterion: `n` is composite, squarefree, and `p - 1` divides
`n - 1` for every prime `p` dividing `n`. -/
def Korselt (n : Int) : Prop :=
  2 ≤ n ∧ ¬ Nat.Prime n.toNat ∧ Squarefree n.toNat ∧
    ∀ p : Nat, p.Prime → p ∣ n.toNat → (p - 1) ∣ (n.toNat - 1)

/-- The text-book definition of a prime: `n ≥ 2` with no divisor `d`,
`2 ≤ d < n`. -/
def NoProperDivisor (n : Int) : Prop :=
  2 ≤ n ∧ ∀ d : Nat, 2 ≤ d → d < n.toNat → ¬ d ∣ n.toNat

end NumberTests

/-! ## The adjacency list of `parallel_topo_path.cxx`

`adj_list` is `vector<vector<int>>`: entry `a` is the list of the neighbours
of node `a`. `add_edge` and `remove_edge` take the table by reference and
return a `bool`; the embedding returns the flag together with the table on
return. Indexing a vector outside its size and an `int` sum outside the range
of `int` are faults. -/

namespace TopoPath

/-- Ways a call can fail. -/
inductive Fault where
  /-- `topo[a]` with `a` outside the table -/
  | out_of_range
  /-- `max(a, b) + 1` outside the range of `int` -/
  | overflow
  deriving DecidableEq

/-- The type `adj_list`. -/
abbrev adj_list := List (List Int)

/-- Read `topo[a]` for a non-negative `a`. -/
def rowAt (topo : adj_list) (a : Int) : Except Fault (List Int) :=
  match topo[a.toNat]? with
  | some row => .ok row
  | none => .error .out_of_range

/-- Replace `topo[a]` for a non-negative `a`. -/
def setRow (topo : adj_list) (a : Int) (row : List Int) : Except Fault adj_list :=
  if a.toNat < topo.length then .ok (topo.set a.toNat row) else .error .out_of_range

/-- The call `topo.resize(n)`: new entries are empty vectors. -/
def resize (topo : adj_list) (n : Nat) : adj_list :=
  topo.take n ++ List.replicate (n - topo.length) []

/-- The function `add_edge(topo, a, b)`: the returned flag and the table. -/
def add_edge (topo : adj_list) (a b : Int) : Except Fault (Bool × adj_list) :=
  if a = b ∨ a < 0 ∨ b < 0 then .ok (false, topo)
  else if 2 ^ 31 ≤ max a b + 1 then .error .overflow
  else
    let topo := if (topo.length : Int) < max a b + 1 then resize topo (max a b + 1).toNat else topo
    do
      let row_a ← rowAt topo a
      let row_b ← rowAt topo b
      if b ∈ row_a ∨ a ∈ row_b then pure (false, topo)
      else
        let topo ← setRow topo a (row_a ++ [b])
        let row_b ← rowAt topo b
        let topo ← setRow topo b (row_b ++ [a])
        pure (true, topo)

/-- The function `remove_edge(topo, a, b)`: the returned flag and the table.
The iterators `ia` and `ib` are taken before the first `erase`; `erase`
removes the first occurrence, the one `find` has returned. -/
def remove_edge (topo : adj_list) (a b : Int) : Except Fault (Bool × adj_list) :=
  if a = b ∨ a < 0 ∨ b < 0 then .ok (false, topo)
  else do
    let row_a ← rowAt topo a
    let row_b ← rowAt topo b
    if b ∉ row_a ∨ a ∉ row_b then pure (false, topo)
    else
      let topo ← setRow topo a (row_a.erase b)
      let topo ← setRow topo b (row_b.erase a)
      pure (true, topo)

/-- The neighbour list of node `v`, empty for a `v` outside the table. -/
def nbrs (topo : adj_list) (v : Int) : List Int :=
  if 0 ≤ v then topo.getD v.toNat [] else []

/-- The table is a simple undirected graph: symmetric, without self-loops and
without duplicate neighbours. -/
def Simple (topo : adj_list) : Prop :=
  (∀ a b : Int, b ∈ nbrs topo a ↔ a ∈ nbrs topo b) ∧
  (∀ a : Int, a ∉ nbrs topo a) ∧
  (∀ a : Int, (nbrs topo a).Nodup)

end TopoPath

/-! ## Functional reading of the kernels and the sorting network

The definitions below restate what the launches compute on buffers read as
functions of the index; the theorems relate them to the executable embedding
above. -/

namespace BitonicSort

/-! ## Buffers as functions -/

/-- The list `[f 0, ..., f (n - 1)]`. -/
def tab {α : Type} (n : Nat) (f : Nat → α) : List α := (List.range n).map f

/-- The buffer `buf` read as a function of the index, `d` outside of it. -/
def fn {α : Type} (d : α) (buf : List α) (i : Nat) : α := buf.getD i d

/-- The writes `buf[tgt x] = v x` for `x` in `xs`, in this order. -/
def setAll {α : Type} (tgt : Nat → Nat) (v : Nat → α) (xs : List Nat) (buf : List α) : List α :=
  xs.foldl (fun b x => b.set (tgt x) (v x)) buf

section KernelFn

variable {α : Type} [LinearOrder α]

/-- One round of `bitonic_sort_kernel` on the whole buffer, the buffer being
the function `f`: the value thread `g` of tile `g / T` holds after the round
with distance `j`. -/
def roundFn (T ulevelmask j : Nat) (f : Nat → α) (g : Nat) : α :=
  if (decide (f (g / T * T + (g % T &&& not32 j)) ≤ f (g / T * T + (g % T ||| j))))
      == (decide (ulevelmask &&& g ≠ 0)) then
    f (g / T * T + (g % T ^^^ j))
  else f g

/-- The rounds of the loop of line 84 on the whole buffer, entered with `j`. -/
def roundsFn (T ulevelmask : Nat) : Nat → Nat → (Nat → α) → (Nat → α)
  | 0, _, f => f
  | fuel + 1, j, f =>
    if j > 0 then roundsFn T ulevelmask fuel (j >>> 1) (roundFn T ulevelmask j f) else f

/-- One launch of `bitonic_sort_kernel` on the whole buffer. -/
def stageFn (T ulevel ulevelmask : Nat) (f : Nat → α) : Nat → α :=
  roundsFn T ulevelmask 32 (u32 ulevel >>> 1) f

end KernelFn

/-- Linear index of the transposed position: entry `(r, c)` of a row-major
`n × n` matrix sits at `r * n + c`, its transposed position is `c * n + r`. -/
def trIdx (n i : Nat) : Nat := (i % n) * n + i / n

/-- The transpose of the buffer `f` viewed as an `n × n` matrix. -/
def transposeFn {α : Type} (n : Nat) (f : Nat → α) : Nat → α := fun i => f (trIdx n i)

section Network

variable {α : Type} [LinearOrder α]

/-- One compare-exchange round at distance `j` over the whole buffer: index
`i` with `(i / j) % 2 = 0` is the lower element of the pair `(i, i + j)`, the
other indices are upper elements of `(i - j, i)`. Where `desc i` holds the
pair is put in descending order, elsewhere in ascending order. -/
def ce (j : Nat) (desc : Nat → Bool) (f : Nat → α) (i : Nat) : α :=
  if (i / j) % 2 = 0 then
    if desc i then max (f i) (f (i + j)) else min (f i) (f (i + j))
  else
    if desc i then min (f (i - j)) (f i) else max (f (i - j)) (f i)

/-- The rounds at distance `2 ^ (lo + s - 1)`, ..., `2 ^ lo`, in this order. -/
def ceRange (desc : Nat → Bool) (lo : Nat) : Nat → (Nat → α) → (Nat → α)
  | 0, f => f
  | s + 1, f => ceRange desc lo s (ce (2 ^ (lo + s)) desc f)

/-- Direction of the pairs at the level with block size `2 ^ p`: descending
where bit `p` of the index is set. -/
def dirBit (p : Nat) (i : Nat) : Bool := i.testBit p

/-- The bitonic merge of level `p`: rounds at distance `2 ^ (q - 1)`, ...,
`1`. -/
def mergeNet (p q : Nat) (f : Nat → α) : Nat → α := ceRange (dirBit p) 0 q f

/-- The bitonic sorting network on blocks of `2 ^ p` elements: the merges of
the levels `1`, ..., `p`. -/
def sortNet : Nat → (Nat → α) → (Nat → α)
  | 0, f => f
  | p + 1, f => mergeNet (p + 1) (p + 1) (sortNet p f)

/-- Order of a pair: `x ≤ y` ascending, `y ≤ x` descending. -/
def ord (d : Bool) (x y : α) : Prop := if d then y ≤ x else x ≤ y

/-- The block of `n` elements starting at `s` is sorted in direction `d`. -/
def SortedBlk (d : Bool) (g : Nat → α) (s n : Nat) : Prop :=
  ∀ o o', o ≤ o' → o' < n → ord d (g (s + o)) (g (s + o'))

/-- A block of booleans that is `v` on an interval and `!v` around it. -/
def Bitonic01 (g : Nat → Bool) (s n : Nat) : Prop :=
  ∃ a b : Nat, ∃ v : Bool, a ≤ b ∧ b ≤ n ∧
    ∀ o < n, g (s + o) = (if a ≤ o ∧ o < b then v else !v)

end Network

/-- The direction flag `(bool)(ulevelmask & global_idx)` of the kernel as a
function of the global index. -/
def maskDir (ulevelmask : Nat) (i : Nat) : Bool := decide (ulevelmask &&& i ≠ 0)

/-- The partner of index `i` in a round at distance `j`. -/
def partner (j i : Nat) : Nat := if (i / j) % 2 = 0 then i + j else i - j

/-- The four launches of one iteration of the second loop of
`bitonic_sort_amp`, for tile edge `T`, `N` elements and the given `level`. -/
def sandwichLog (T N level : Nat) : List Stage :=
  [Stage.transpose .primary .scratch T T,
   Stage.bitonic .scratch (level / T) ((level &&& not32 N) / T),
   Stage.transpose .scratch .primary T T,
   Stage.bitonic .primary T level]

/-- The levels `lo`, `2 * lo`, `4 * lo`, ... (`n` of them). -/
def doublings (lo n : Nat) : List Nat := (List.range n).map (fun i => lo * 2 ^ i)

/-- The launches of the first loop of `bitonic_sort_amp` for the given
levels. -/
def phase1Log (levels : List Nat) : List Stage :=
  levels.map (fun level => Stage.bitonic .primary level level)

/-- The launches of the second loop of `bitonic_sort_amp` for the given
levels. -/
def phase2Log (T N : Nat) (levels : List Nat) : List Stage :=
  levels.flatMap (sandwichLog T N)

/-- The schedule the specification describes for tile edge `T` and `N`
elements: one row sort for each level `2`, `4`, ..., `T`, then for each level
`2 * T`, `4 * T`, ..., `N` the four steps transpose, column sort with
`(level / T, (level & ~N) / T)`, transpose back, row sort with `(T, level)`. -/
def specSchedule (T N : Nat) : List Stage :=
  phase1Log (doublings 2 (Nat.log2 T))
    ++ phase2Log T N (doublings (2 * T) (Nat.log2 N - Nat.log2 T))

section Naive

variable {α : Type} [LinearOrder α]

/-- One round of the naive reference of the specification, after its words:
at distance `j` in level `level` every index `i` of the whole buffer is
compare-exchanged with `i XOR j`, ascending when `(i & level) == 0` and
descending otherwise. -/
def naiveRound (level j : Nat) (buf : List α) : List α :=
  buf.mapIdx (fun i x =>
    let y := buf.getD (i ^^^ j) x
    if i &&& level = 0 then
      if i < i ^^^ j then min x y else max x y
    else
      if i < i ^^^ j then max x y else min x y)

/-- The rounds of the naive reference for the distances `js`, in order, at one
level. -/
def naiveRounds (level : Nat) (js : List Nat) (buf : List α) : List α :=
  js.foldl (fun b j => naiveRound level j b) buf

/-- The distances `level / 2`, `level / 4`, ..., `1` of one level. -/
def halvings (level : Nat) : List Nat :=
  (List.range (Nat.log2 level)).map (fun t => level / 2 ^ (t + 1))

/-- The naive reference of the specification on a buffer of `N` elements: for
`level = 2, 4, ..., N` and for `j = level / 2, level / 4, ..., 1` one round. -/
def naiveSort (N : Nat) (buf : List α) : List α :=
  (doublings 2 (Nat.log2 N)).foldl (fun b level => naiveRounds level (halvings level) b) buf

end Naive

/-- The distances `2 ^ (lo + s - 1)`, ..., `2 ^ lo`, in this order. -/
def descending (lo : Nat) : Nat → List Nat
  | 0 => []
  | s + 1 => 2 ^ (lo + s) :: descending lo s

section Assertions

variable {β : Type}

/-- The result is not the failure of an assertion. -/
def NoAssert (r : Except Fault β) : Prop := r ≠ .error .assertion

end Assertions

end BitonicSort

/-! ## Lemmas -/

namespace BitonicSort

section Plumbing

variable {α β : Type}

theorem tab_length (n : Nat) (f : Nat → α) : (tab n f).length = n := by
  simp [tab]

theorem tab_getElem? (n : Nat) (f : Nat → α) (i : Nat) :
    (tab n f)[i]? = if i < n then some (f i) else none := by
  unfold tab
  by_cases h : i < n
  · simp [h, List.getElem?_map, List.getElem?_range]
  · simp [h, List.getElem?_eq_none]
    omega

theorem fn_tab (d : α) (n : Nat) (f : Nat → α) (i : Nat) (h : i < n) :
    fn d (tab n f) i = f i := by
  simp [fn, List.getD, tab_getElem?, h]

theorem fn_eq_getElem (d : α) (buf : List α) (i : Nat) (h : i < buf.length) :
    fn d buf i = buf[i] := by
  simp [fn, List.getD, List.getElem?_eq_getElem h]

theorem tab_fn (d : α) (buf : List α) : tab buf.length (fn d buf) = buf := by
  apply List.ext_getElem?
  intro i
  rw [tab_getElem?]
  by_cases h : i < buf.length
  · simp [h, fn, List.getD, List.getElem?_eq_getElem h]
  · simp [h, List.getElem?_eq_none]
    omega

theorem tab_congr (n : Nat) (f g : Nat → α) (h : ∀ i < n, f i = g i) : tab n f = tab n g := by
  unfold tab
  apply List.map_congr_left
  intro i hi
  exact h i (List.mem_range.mp hi)

theorem readAt_ok (buf : List α) (i : Nat) (h : i < buf.length) : readAt buf i = .ok buf[i] := by
  simp [readAt, List.getElem?_eq_getElem h]

theorem readAt_tab (n : Nat) (f : Nat → α) (i : Nat) (h : i < n) :
    readAt (tab n f) i = .ok (f i) := by
  simp [readAt, tab_getElem?, h]

theorem readAt_fn (d : α) (buf : List α) (i : Nat) (h : i < buf.length) :
    readAt buf i = .ok (fn d buf i) := by
  rw [readAt_ok buf i h, fn_eq_getElem d buf i h]

theorem readAt_error (buf : List α) (i : Nat) (h : buf.length ≤ i) :
    readAt buf i = .error .out_of_range := by
  simp [readAt, List.getElem?_eq_none h]

theorem mapM_ok (xs : List Nat) (f : Nat → Except Fault β) (g : Nat → β)
    (h : ∀ x ∈ xs, f x = .ok (g x)) : xs.mapM f = .ok (xs.map g) := by
  induction xs with
  | nil => rfl
  | cons x xs ih =>
    have hx : f x = .ok (g x) := h x (List.mem_cons_self _ _)
    have hxs : xs.mapM f = .ok (xs.map g) := ih (fun y hy => h y (List.mem_cons_of_mem _ hy))
    rw [List.mapM_cons, hx, hxs]
    rfl

theorem mapM_range_ok (n : Nat) (f : Nat → Except Fault β) (g : Nat → β)
    (h : ∀ i < n, f i = .ok (g i)) : (List.range n).mapM f = .ok (tab n g) :=
  mapM_ok _ f g (fun x hx => h x (List.mem_range.mp hx))

theorem foldlM_write_ok (xs : List Nat) (tgt : Nat → Nat) (val : Nat → Except Fault α)
    (v : Nat → α) (buf : List α) (hv : ∀ x ∈ xs, val x = .ok (v x))
    (ht : ∀ x ∈ xs, tgt x < buf.length) :
    xs.foldlM (fun b x => do let y ← val x; writeAt b (tgt x) y) buf
      = .ok (setAll tgt v xs buf) := by
  induction xs generalizing buf with
  | nil => rfl
  | cons x xs ih =>
    have hx : val x = .ok (v x) := hv x (List.mem_cons_self _ _)
    have hl : tgt x < buf.length := ht x (List.mem_cons_self _ _)
    rw [List.foldlM_cons, hx]
    have hw : writeAt buf (tgt x) (v x) = .ok (buf.set (tgt x) (v x)) := by
      simp [writeAt, hl]
    show (writeAt buf (tgt x) (v x) >>= fun b =>
      xs.foldlM (fun b x => do let y ← val x; writeAt b (tgt x) y) b) = _
    rw [hw]
    exact ih (buf.set (tgt x) (v x)) (fun y hy => hv y (List.mem_cons_of_mem _ hy))
      (fun y hy => by simpa using ht y (List.mem_cons_of_mem _ hy))

theorem setAll_length (tgt : Nat → Nat) (v : Nat → α) (xs : List Nat) (buf : List α) :
    (setAll tgt v xs buf).length = buf.length := by
  induction xs generalizing buf with
  | nil => rfl
  | cons x xs ih =>
    show (setAll tgt v xs (buf.set (tgt x) (v x))).length = _
    rw [ih]; simp

theorem setAll_frame (tgt : Nat → Nat) (v : Nat → α) (xs : List Nat) (buf : List α) (i : Nat)
    (h : ∀ x ∈ xs, tgt x ≠ i) : (setAll tgt v xs buf)[i]? = buf[i]? := by
  induction xs generalizing buf with
  | nil => rfl
  | cons x xs ih =>
    show (setAll tgt v xs (buf.set (tgt x) (v x)))[i]? = _
    rw [ih _ (fun y hy => h y (List.mem_cons_of_mem _ hy))]
    rw [List.getElem?_set_ne (h x (List.mem_cons_self _ _))]

theorem setAll_hit (tgt : Nat → Nat) (v : Nat → α) (xs : List Nat) (buf : List α) (x : Nat)
    (hx : x ∈ xs) (hn : (xs.map tgt).Nodup) (hl : tgt x < buf.length) :
    (setAll tgt v xs buf)[tgt x]? = some (v x) := by
  induction xs generalizing buf with
  | nil => cases hx
  | cons y ys ih =>
    rw [List.map_cons, List.nodup_cons] at hn
    show (setAll tgt v ys (buf.set (tgt y) (v y)))[tgt x]? = _
    rcases List.mem_cons.mp hx with rfl | hmem
    · rw [setAll_frame]
      · simp [hl]
      · intro z hz hzx
        exact hn.1 (hzx ▸ List.mem_map_of_mem tgt hz)
    · exact ih _ hmem hn.2 (by simpa using hl)

end Plumbing

section KernelRefine

variable {α : Type} [LinearOrder α]

theorem tile_div (T t l : Nat) (hl : l < T) : (t * T + l) / T = t := by
  have hT : 0 < T := by omega
  rw [Nat.add_comm, Nat.add_mul_div_right _ _ hT, Nat.div_eq_of_lt hl, Nat.zero_add]

theorem tile_mod (T t l : Nat) (hl : l < T) : (t * T + l) % T = l := by
  rw [Nat.add_comm, Nat.add_mul_mod_self_right, Nat.mod_eq_of_lt hl]

theorem tile_split (T g : Nat) : g / T * T + g % T = g := by
  rw [Nat.mul_comm]; exact Nat.div_add_mod g T

theorem and_not32_lt (l j T : Nat) (hl : l < T) : l &&& not32 j < T :=
  Nat.lt_of_le_of_lt Nat.and_le_left hl

theorem roundThread_ok (k T mask j t l : Nat) (f : Nat → α) (hT : T = 2 ^ k) (hj : j < T)
    (hl : l < T) :
    roundThread mask j (tab T (fun x => f (t * T + x))) l (t * T + l)
      = .ok (roundFn T mask j f (t * T + l)) := by
  have h1 : l &&& not32 j < T := and_not32_lt l j T hl
  have h2 : l ||| j < T := by subst hT; exact Nat.or_lt_two_pow hl hj
  have h3 : l ^^^ j < T := by subst hT; exact Nat.xor_lt_two_pow hl hj
  unfold roundThread roundFn
  rw [readAt_tab _ _ _ h1, readAt_tab _ _ _ h2, tile_div T t l hl, tile_mod T t l hl]
  show (if _ then readAt _ _ else readAt _ _) = _
  rw [readAt_tab _ _ _ h3, readAt_tab _ _ _ hl]
  split <;> rfl

theorem roundTile_ok (k T mask j t : Nat) (f : Nat → α) (hT : T = 2 ^ k) (hj : j < T) :
    roundTile T mask j (tab T (fun x => f (t * T + x))) t
      = .ok (tab T (fun x => roundFn T mask j f (t * T + x))) :=
  mapM_range_ok _ _ _ (fun l hl => roundThread_ok k T mask j t l f hT hj hl)

theorem roundsLoop_ok (k T mask t : Nat) (hT : T = 2 ^ k) (fuel j : Nat) (f : Nat → α)
    (hj : j < T) (hfuel : j < 2 ^ fuel) :
    roundsLoop T mask t fuel j (tab T (fun x => f (t * T + x)))
      = .ok (tab T (fun x => roundsFn T mask fuel j f (t * T + x))) := by
  induction fuel generalizing j f with
  | zero =>
    have : j = 0 := by simpa using hfuel
    subst this
    rfl
  | succ fuel ih =>
    by_cases h0 : j > 0
    · have hhalf : j >>> 1 < T := by
        rw [Nat.shiftRight_eq_div_pow]; exact Nat.lt_of_le_of_lt (Nat.div_le_self _ _) hj
      have hhalf2 : j >>> 1 < 2 ^ fuel := by
        rw [Nat.shiftRight_eq_div_pow, pow_one]
        rw [pow_succ] at hfuel
        omega
      rw [roundsLoop, if_pos h0, roundTile_ok k T mask j t f hT hj]
      refine (ih (j >>> 1) (roundFn T mask j f) hhalf hhalf2).trans ?_
      simp [roundsFn, h0]
    · rw [roundsLoop, if_neg h0]
      simp [roundsFn, h0]

end KernelRefine

section KernelRefine2

variable {α : Type} [LinearOrder α]

theorem roundFn_tile_congr (k T mask j t : Nat) (f f' : Nat → α) (hT : T = 2 ^ k) (hj : j < T)
    (h : ∀ l < T, f (t * T + l) = f' (t * T + l)) (l : Nat) (hl : l < T) :
    roundFn T mask j f (t * T + l) = roundFn T mask j f' (t * T + l) := by
  have h1 : l &&& not32 j < T := and_not32_lt l j T hl
  have h2 : l ||| j < T := by subst hT; exact Nat.or_lt_two_pow hl hj
  have h3 : l ^^^ j < T := by subst hT; exact Nat.xor_lt_two_pow hl hj
  unfold roundFn
  rw [tile_div T t l hl, tile_mod T t l hl, h _ h1, h _ h2, h _ h3, h _ hl]

theorem roundsFn_tile_congr (k T mask t : Nat) (hT : T = 2 ^ k) (fuel j : Nat) (f f' : Nat → α)
    (hj : j < T) (h : ∀ l < T, f (t * T + l) = f' (t * T + l)) (l : Nat) (hl : l < T) :
    roundsFn T mask fuel j f (t * T + l) = roundsFn T mask fuel j f' (t * T + l) := by
  induction fuel generalizing j f f' with
  | zero => exact h l hl
  | succ fuel ih =>
    by_cases h0 : j > 0
    · have hhalf : j >>> 1 < T := by
        rw [Nat.shiftRight_eq_div_pow]; exact Nat.lt_of_le_of_lt (Nat.div_le_self _ _) hj
      simp only [roundsFn, h0, if_true]
      exact ih (j >>> 1) _ _ hhalf (fun x hx => roundFn_tile_congr k T mask j t f f' hT hj h x hx)
    · simp only [roundsFn, h0, if_false]
      exact h l hl

theorem u32_lt (x : Nat) : u32 x < 2 ^ 32 := Nat.mod_lt _ (by norm_num)

theorem u32_of_lt (x : Nat) (h : x < 2 ^ 32) : u32 x = x := Nat.mod_eq_of_lt h

theorem kernel_ok (k T : Nat) (hT : T = 2 ^ k) (buf : List α) (d : α) (ulevel mask t : Nat)
    (hj : u32 ulevel >>> 1 < T) (hlen : (t + 1) * T ≤ buf.length) :
    bitonic_sort_kernel T buf ulevel mask t
      = .ok (setAll (fun l => t * T + l)
          (fun l => stageFn T ulevel mask (fn d buf) (t * T + l)) (List.range T) buf) := by
  have hin : ∀ l < T, t * T + l < buf.length := by
    intro l hl
    have : (t + 1) * T = t * T + T := by ring
    omega
  have hload : loadTile T buf t = .ok (tab T (fun l => fn d buf (t * T + l))) :=
    mapM_range_ok _ _ _ (fun l hl => readAt_fn d buf _ (hin l hl))
  have hfuel : u32 ulevel >>> 1 < 2 ^ 32 := by
    rw [Nat.shiftRight_eq_div_pow]
    exact Nat.lt_of_le_of_lt (Nat.div_le_self _ _) (u32_lt ulevel)
  unfold bitonic_sort_kernel
  rw [hload]
  show (roundsLoop T mask t 32 (u32 ulevel >>> 1) (tab T (fun l => fn d buf (t * T + l)))
    >>= fun sh_done => storeTile T buf t sh_done) = _
  rw [roundsLoop_ok k T mask t hT 32 _ (fn d buf) hj hfuel]
  show storeTile T buf t _ = _
  unfold storeTile
  exact foldlM_write_ok (List.range T) (fun l => t * T + l) _ _ buf
    (fun l hl => readAt_tab _ _ _ (List.mem_range.mp hl))
    (fun l hl => hin l (List.mem_range.mp hl))

theorem nodup_tile (T t : Nat) : ((List.range T).map (fun l => t * T + l)).Nodup :=
  List.Nodup.map (fun a b h => by simpa using h) (List.nodup_range T)

theorem dispatch_fold_ok (k T m : Nat) (hT : T = 2 ^ k) (data : List α) (d : α)
    (ulevel mask : Nat) (hj : u32 ulevel >>> 1 < T) (hlen : data.length = m * T)
    (n : Nat) (hn : n ≤ m) :
    (List.range n).foldlM (fun buf tile => bitonic_sort_kernel T buf ulevel mask tile) data
      = .ok (tab (m * T) (fun g =>
          if g < n * T then stageFn T ulevel mask (fn d data) g else fn d data g)) := by
  induction n with
  | zero =>
    simp only [List.range_zero, List.foldlM_nil, Nat.zero_mul, Nat.not_lt_zero, if_false]
    rw [← hlen, tab_fn]
    rfl
  | succ n ih =>
    have hTpos : 0 < T := by subst hT; exact Nat.two_pow_pos k
    have hmul : (n + 1) * T = n * T + T := by ring
    have hle : (n + 1) * T ≤ m * T := Nat.mul_le_mul_right T hn
    rw [List.range_succ, List.foldlM_append, ih (by omega)]
    simp only [List.foldlM_cons, List.foldlM_nil]
    show (bitonic_sort_kernel T _ ulevel mask n >>= pure) = _
    rw [bind_pure]
    rw [kernel_ok k T hT _ d ulevel mask n hj (by rw [tab_length]; exact hle)]
    congr 1
    apply List.ext_getElem?
    intro i
    rw [tab_getElem?]
    by_cases hi : n * T ≤ i ∧ i < (n + 1) * T
    · obtain ⟨l, rfl⟩ : ∃ l, i = n * T + l := ⟨i - n * T, by omega⟩
      have hl : l < T := by omega
      have := setAll_hit (fun l => n * T + l)
        (fun l => stageFn T ulevel mask
          (fn d (tab (m * T) (fun g =>
            if g < n * T then stageFn T ulevel mask (fn d data) g else fn d data g)))
          (n * T + l)) (List.range T)
        (tab (m * T) (fun g =>
            if g < n * T then stageFn T ulevel mask (fn d data) g else fn d data g)) l
        (List.mem_range.mpr hl) (nodup_tile T n) (by rw [tab_length]; show n * T + l < m * T; omega)
      rw [this, if_pos (by omega), if_pos (by omega)]
      congr 1
      apply roundsFn_tile_congr k T mask n hT 32 _ _ _ hj _ l hl
      intro x hx
      rw [fn_tab _ _ _ _ (by omega), if_neg (by omega)]
    · rw [setAll_frame _ _ _ _ _ (by
        intro x hx hxi
        have := List.mem_range.mp hx
        apply hi
        constructor <;> omega)]
      rw [tab_getElem?]
      by_cases him : i < m * T
      · simp only [him, if_true]
        by_cases h1 : i < n * T
        · rw [if_pos h1, if_pos (by omega)]
        · rw [if_neg h1, if_neg (by omega)]
      · simp only [him, if_false]

theorem dispatch_bitonic_ok (k T m : Nat) (hT : T = 2 ^ k) (data : List α) (d : α)
    (ulevel mask : Nat) (hj : u32 ulevel >>> 1 < T) (hlen : data.length = m * T) :
    dispatch_bitonic (m * T) T data ulevel mask
      = .ok (tab (m * T) (stageFn T ulevel mask (fn d data))) := by
  have hTpos : 0 < T := by subst hT; exact Nat.two_pow_pos k
  unfold dispatch_bitonic
  rw [if_neg (by simp; omega), Nat.mul_div_cancel _ hTpos,
    dispatch_fold_ok k T m hT data d ulevel mask hj hlen m (le_refl m)]
  congr 1
  apply tab_congr
  intro i hi
  rw [if_pos hi]

end KernelRefine2

section TransposeRefine

variable {α β : Type}

theorem foldlM_ok_inv (xs : List Nat) (F : β → Nat → Except Fault β) (G : β → Nat → β)
    (P : β → Prop) (hstep : ∀ b x, x ∈ xs → P b → F b x = .ok (G b x) ∧ P (G b x))
    (b0 : β) (h0 : P b0) :
    xs.foldlM F b0 = .ok (xs.foldl G b0) ∧ P (xs.foldl G b0) := by
  induction xs generalizing b0 with
  | nil => exact ⟨rfl, h0⟩
  | cons x xs ih =>
    obtain ⟨h1, h2⟩ := hstep b0 x (List.mem_cons_self _ _) h0
    rw [List.foldlM_cons, h1]
    exact ih (fun b y hy hb => hstep b y (List.mem_cons_of_mem _ hy) hb) (G b0 x) h2

theorem foldl_setAll_length (tgt : Nat → Nat → Nat) (v : Nat → Nat → α) (ks ts : List Nat)
    (buf : List α) :
    (ts.foldl (fun b t => setAll (tgt t) (v t) ks b) buf).length = buf.length := by
  induction ts generalizing buf with
  | nil => rfl
  | cons t ts ih =>
    rw [List.foldl_cons, ih, setAll_length]

theorem foldl_setAll_frame (tgt : Nat → Nat → Nat) (v : Nat → Nat → α) (ks ts : List Nat)
    (buf : List α) (i : Nat) (h : ∀ t ∈ ts, ∀ k ∈ ks, tgt t k ≠ i) :
    (ts.foldl (fun b t => setAll (tgt t) (v t) ks b) buf)[i]? = buf[i]? := by
  induction ts generalizing buf with
  | nil => rfl
  | cons t ts ih =>
    rw [List.foldl_cons, ih _ (fun t' ht' => h t' (List.mem_cons_of_mem _ ht'))]
    exact setAll_frame _ _ _ _ _ (h t (List.mem_cons_self _ _))

theorem foldl_setAll_hit (tgt : Nat → Nat → Nat) (v : Nat → Nat → α) (ks ts : List Nat)
    (buf : List α)
    (hinj : ∀ t ∈ ts, ∀ k ∈ ks, ∀ t' ∈ ts, ∀ k' ∈ ks, tgt t k = tgt t' k' → t = t' ∧ k = k')
    (hts : ts.Nodup) (hks : ks.Nodup) (hlt : ∀ t ∈ ts, ∀ k ∈ ks, tgt t k < buf.length)
    (t k : Nat) (ht : t ∈ ts) (hk : k ∈ ks) :
    (ts.foldl (fun b t => setAll (tgt t) (v t) ks b) buf)[tgt t k]? = some (v t k) := by
  induction ts generalizing buf with
  | nil => cases ht
  | cons t0 rest ih =>
    rw [List.nodup_cons] at hts
    rw [List.foldl_cons]
    rcases List.mem_cons.mp ht with rfl | hmem
    · rw [foldl_setAll_frame]
      · apply setAll_hit _ _ _ _ _ hk
        · apply List.Nodup.map_on _ hks
          intro a ha b hb hab
          exact (hinj t (List.mem_cons_self _ _) a ha t (List.mem_cons_self _ _) b hb hab).2
        · exact hlt t (List.mem_cons_self _ _) k hk
      · intro t' ht' k' hk' heq
        have := (hinj t' (List.mem_cons_of_mem _ ht') k' hk' t (List.mem_cons_self _ _) k hk heq).1
        exact hts.1 (this ▸ ht')
    · apply ih
      · intro a ha b hb a' ha' b' hb' hab
        exact hinj a (List.mem_cons_of_mem _ ha) b hb a' (List.mem_cons_of_mem _ ha') b' hb' hab
      · exact hts.2
      · intro a ha b hb
        rw [setAll_length]
        exact hlt a (List.mem_cons_of_mem _ ha) b hb
      · exact hmem

theorem transpose_kernel_ok (B : Nat) (src buf : List α) (d : α) (width height t0 t1 : Nat)
    (hsrc : ∀ k < B * B, srcIndex B height t0 t1 k < src.length)
    (hdst : ∀ k < B * B, dstIndex B height t0 t1 k < buf.length) :
    transpose_kernel B src buf width height t0 t1
      = .ok (setAll (dstIndex B height t0 t1) (fun k => fn d src (srcIndex B height t0 t1 k))
          (List.range (B * B)) buf) := by
  unfold transpose_kernel
  simp only []
  rw [mapM_range_ok (B * B) _ (fun k => fn d src (srcIndex B height t0 t1 k))
    (fun k hk => readAt_fn d src _ (hsrc k hk))]
  exact foldlM_write_ok (List.range (B * B)) (dstIndex B height t0 t1) _ _ buf
    (fun k hk => readAt_tab _ _ _ (List.mem_range.mp hk))
    (fun k hk => hdst k (List.mem_range.mp hk))

/-- The launch of `transpose_kernel` as nested pure writes, when every access
is inside its buffer. -/
theorem dispatch_transpose_pure (W H B : Nat) (src dst : List α) (d : α) (width height : Nat)
    (hB : 0 < B) (hW : W % B = 0) (hH : H % B = 0)
    (hsrc : ∀ t < (W / B) * (H / B), ∀ k < B * B,
      srcIndex B height (t / (H / B)) (t % (H / B)) k < src.length)
    (hdst : ∀ t < (W / B) * (H / B), ∀ k < B * B,
      dstIndex B height (t / (H / B)) (t % (H / B)) k < dst.length) :
    dispatch_transpose W H B src dst width height
      = .ok ((List.range ((W / B) * (H / B))).foldl
          (fun b t => setAll (dstIndex B height (t / (H / B)) (t % (H / B)))
            (fun k => fn d src (srcIndex B height (t / (H / B)) (t % (H / B)) k))
            (List.range (B * B)) b) dst) := by
  unfold dispatch_transpose
  rw [if_neg (by omega)]
  refine (foldlM_ok_inv (List.range ((W / B) * (H / B))) _ _ (fun b => b.length = dst.length)
    ?_ dst rfl).1
  intro b t ht hb
  have ht' := List.mem_range.mp ht
  refine ⟨transpose_kernel_ok B src b d width height _ _ (hsrc t ht') ?_, ?_⟩
  · intro k hk
    rw [hb]; exact hdst t ht' k hk
  · show (setAll _ _ _ b).length = dst.length
    rw [setAll_length, hb]

end TransposeRefine

section TransposeSquare

variable {α : Type}

theorem pair_lt (a b q r : Nat) (hq : q < a) (hr : r < b) : q * b + r < a * b := by
  have : (q + 1) * b ≤ a * b := Nat.mul_le_mul_right b hq
  have h2 : (q + 1) * b = q * b + b := by ring
  omega

theorem pair_unique (b q r q' r' : Nat) (hr : r < b) (hr' : r' < b)
    (h : q * b + r = q' * b + r') : q = q' ∧ r = r' := by
  have h1 := tile_div b q r hr
  have h2 := tile_mod b q r hr
  rw [h, tile_div b q' r' hr', tile_mod b q' r' hr'] at *
  exact ⟨h1.symm, h2.symm⟩

theorem div_lt_sq (m t : Nat) (ht : t < m * m) : t / m < m :=
  Nat.div_lt_of_lt_mul ht

theorem mod_lt_sq (m t : Nat) (ht : t < m * m) : t % m < m := by
  have : 0 < m := by
    rcases Nat.eq_zero_or_pos m with h | h
    · subst h; simp at ht
    · exact h
  exact Nat.mod_lt _ this

theorem trIdx_pair (n r c : Nat) (hc : c < n) : trIdx n (r * n + c) = c * n + r := by
  unfold trIdx
  rw [tile_div n r c hc, tile_mod n r c hc]

theorem trIdx_lt (n i : Nat) (hi : i < n * n) : trIdx n i < n * n :=
  pair_lt n n _ _ (mod_lt_sq n i hi) (div_lt_sq n i hi)

theorem trIdx_trIdx (n i : Nat) (hi : i < n * n) : trIdx n (trIdx n i) = i := by
  have h1 := div_lt_sq n i hi
  show trIdx n (i % n * n + i / n) = i
  rw [trIdx_pair n _ _ h1]
  exact tile_split n i

theorem srcIndex_eq_trIdx (B n t0 t1 k : Nat) (h0 : t0 * B + k / B < n) :
    srcIndex B n t0 t1 k = trIdx n (dstIndex B n t0 t1 k) := by
  unfold srcIndex dstIndex
  rw [trIdx_pair n _ _ h0]

theorem dstIndex_inj (m B t k t' k' : Nat) (ht : t < m * m) (hk : k < B * B)
    (ht' : t' < m * m) (hk' : k' < B * B)
    (h : dstIndex B (m * B) (t / m) (t % m) k = dstIndex B (m * B) (t' / m) (t' % m) k') :
    t = t' ∧ k = k' := by
  have a1 := pair_lt m B _ _ (div_lt_sq m t ht) (div_lt_sq B k hk)
  have a2 := pair_lt m B _ _ (div_lt_sq m t' ht') (div_lt_sq B k' hk')
  unfold dstIndex at h
  obtain ⟨h1, h0⟩ := pair_unique (m * B) _ _ _ _ a1 a2 h
  obtain ⟨e1, e2⟩ := pair_unique B _ _ _ _ (mod_lt_sq B k hk) (mod_lt_sq B k' hk') h1
  obtain ⟨e3, e4⟩ := pair_unique B _ _ _ _ (div_lt_sq B k hk) (div_lt_sq B k' hk') h0
  constructor
  · rw [← tile_split m t, ← tile_split m t', e1, e3]
  · rw [← tile_split B k, ← tile_split B k', e2, e4]

theorem dstIndex_surj (m B i : Nat) (hB : 0 < B) (hi : i < (m * B) * (m * B)) :
    ∃ t k, t < m * m ∧ k < B * B ∧ dstIndex B (m * B) (t / m) (t % m) k = i := by
  have hr := mod_lt_sq (m * B) i hi
  have hc := div_lt_sq (m * B) i hi
  have hr0 : i % (m * B) / B < m := Nat.div_lt_of_lt_mul (Nat.lt_of_lt_of_eq hr (Nat.mul_comm m B))
  have hc0 : i / (m * B) / B < m := Nat.div_lt_of_lt_mul (Nat.lt_of_lt_of_eq hc (Nat.mul_comm m B))
  have hr1 : i % (m * B) % B < B := Nat.mod_lt _ hB
  have hc1 : i / (m * B) % B < B := Nat.mod_lt _ hB
  refine ⟨(i % (m * B) / B) * m + i / (m * B) / B, (i % (m * B) % B) * B + i / (m * B) % B,
    pair_lt m m _ _ hr0 hc0, pair_lt B B _ _ hr1 hc1, ?_⟩
  unfold dstIndex
  rw [tile_div m _ _ hc0, tile_mod m _ _ hc0, tile_div B _ _ hc1, tile_mod B _ _ hc1,
    tile_split B, tile_split B, tile_split (m * B)]

theorem dstIndex_lt (m B t k : Nat) (ht : t < m * m) (hk : k < B * B) :
    dstIndex B (m * B) (t / m) (t % m) k < (m * B) * (m * B) :=
  pair_lt (m * B) (m * B) _ _
    (pair_lt m B _ _ (mod_lt_sq m t ht) (mod_lt_sq B k hk))
    (pair_lt m B _ _ (div_lt_sq m t ht) (div_lt_sq B k hk))

theorem srcIndex_lt (m B t k : Nat) (ht : t < m * m) (hk : k < B * B) :
    srcIndex B (m * B) (t / m) (t % m) k < (m * B) * (m * B) :=
  pair_lt (m * B) (m * B) _ _
    (pair_lt m B _ _ (div_lt_sq m t ht) (div_lt_sq B k hk))
    (pair_lt m B _ _ (mod_lt_sq m t ht) (mod_lt_sq B k hk))

/-- On a square matrix whose edge is a multiple of the block edge the launch
of `transpose_kernel` returns the transpose of the source. -/
theorem dispatch_transpose_square (m B : Nat) (hB : 0 < B) (src dst : List α) (d : α)
    (width : Nat) (hs : src.length = (m * B) * (m * B)) (hd : dst.length = (m * B) * (m * B)) :
    dispatch_transpose (m * B) (m * B) B src dst width (m * B)
      = .ok (tab ((m * B) * (m * B)) (transposeFn (m * B) (fn d src))) := by
  have hdiv : m * B / B = m := Nat.mul_div_cancel _ hB
  rw [dispatch_transpose_pure (m * B) (m * B) B src dst d width (m * B) hB
    (Nat.mul_mod_left _ _) (Nat.mul_mod_left _ _)
    (by rw [hdiv, hs]; exact fun t ht k hk => srcIndex_lt m B t k ht hk)
    (by rw [hdiv, hd]; exact fun t ht k hk => dstIndex_lt m B t k ht hk)]
  rw [hdiv]
  congr 1
  apply List.ext_getElem?
  intro i
  rw [tab_getElem?]
  by_cases hi : i < (m * B) * (m * B)
  · rw [if_pos hi]
    obtain ⟨t, k, ht, hk, rfl⟩ := dstIndex_surj m B i hB hi
    rw [foldl_setAll_hit (fun t => dstIndex B (m * B) (t / m) (t % m))
      (fun t k => fn d src (srcIndex B (m * B) (t / m) (t % m) k))
      (List.range (B * B)) (List.range (m * m)) dst _ (List.nodup_range _) (List.nodup_range _)
      _ t k (List.mem_range.mpr ht) (List.mem_range.mpr hk)]
    · rw [srcIndex_eq_trIdx B (m * B) _ _ k
        (pair_lt m B _ _ (div_lt_sq m t ht) (div_lt_sq B k hk))]
      rfl
    · intro a ha b hb a' ha' b' hb' hab
      exact dstIndex_inj m B a b a' b' (List.mem_range.mp ha) (List.mem_range.mp hb)
        (List.mem_range.mp ha') (List.mem_range.mp hb') hab
    · intro a ha b hb
      rw [hd]
      exact dstIndex_lt m B a b (List.mem_range.mp ha) (List.mem_range.mp hb)
  · rw [if_neg hi]
    apply List.getElem?_eq_none
    rw [foldl_setAll_length, hd]
    omega

end TransposeSquare

section NetworkBasics

variable {α : Type} [LinearOrder α]

theorem two_mul_block (c j o : Nat) : c * (2 * j) + o = (2 * c) * j + o := by ring

theorem ce_lower (j c o : Nat) (desc : Nat → Bool) (f : Nat → α) (ho : o < j) :
    ce j desc f (c * (2 * j) + o)
      = if desc (c * (2 * j) + o) then max (f (c * (2 * j) + o)) (f (c * (2 * j) + o + j))
        else min (f (c * (2 * j) + o)) (f (c * (2 * j) + o + j)) := by
  have h : (c * (2 * j) + o) / j % 2 = 0 := by
    rw [two_mul_block, tile_div j (2 * c) o ho]; exact Nat.mul_mod_right 2 c
  unfold ce
  rw [if_pos h]

theorem ce_upper (j c o : Nat) (desc : Nat → Bool) (f : Nat → α) (ho : o < j) :
    ce j desc f (c * (2 * j) + j + o)
      = if desc (c * (2 * j) + j + o) then min (f (c * (2 * j) + o)) (f (c * (2 * j) + j + o))
        else max (f (c * (2 * j) + o)) (f (c * (2 * j) + j + o)) := by
  have e : c * (2 * j) + j + o = (2 * c + 1) * j + o := by ring
  have h : ¬ ((c * (2 * j) + j + o) / j % 2 = 0) := by
    rw [e, tile_div j (2 * c + 1) o ho]; omega
  have hsub : c * (2 * j) + j + o - j = c * (2 * j) + o := by omega
  unfold ce
  rw [if_neg h, hsub]

/-- A round only moves values inside the aligned blocks of twice its
distance. -/
theorem ce_closed (j c o : Nat) (desc : Nat → Bool) (f : Nat → α) (ho : o < 2 * j) :
    ∃ o' < 2 * j, ce j desc f (c * (2 * j) + o) = f (c * (2 * j) + o') := by
  by_cases h : o < j
  · rw [ce_lower j c o desc f h]
    split
    · rcases max_choice (f (c * (2 * j) + o)) (f (c * (2 * j) + o + j)) with e | e
      · exact ⟨o, ho, e⟩
      · exact ⟨o + j, by omega, by rw [e, Nat.add_assoc]⟩
    · rcases min_choice (f (c * (2 * j) + o)) (f (c * (2 * j) + o + j)) with e | e
      · exact ⟨o, ho, e⟩
      · exact ⟨o + j, by omega, by rw [e, Nat.add_assoc]⟩
  · obtain ⟨o2, rfl⟩ : ∃ o2, o = j + o2 := ⟨o - j, by omega⟩
    have ho2 : o2 < j := by omega
    rw [← Nat.add_assoc, ce_upper j c o2 desc f ho2]
    split
    · rcases min_choice (f (c * (2 * j) + o2)) (f (c * (2 * j) + j + o2)) with e | e
      · exact ⟨o2, by omega, e⟩
      · exact ⟨j + o2, ho, by rw [e, Nat.add_assoc]⟩
    · rcases max_choice (f (c * (2 * j) + o2)) (f (c * (2 * j) + j + o2)) with e | e
      · exact ⟨o2, by omega, e⟩
      · exact ⟨j + o2, ho, by rw [e, Nat.add_assoc]⟩

/-- Split of an offset inside a block of `2 ^ (q + 1)` elements into the half
it lies in and the offset inside the half. -/
theorem half_split (q c o : Nat) (ho : o < 2 ^ (q + 1)) :
    ∃ b o1, b ≤ 1 ∧ o1 < 2 ^ q ∧ o = b * 2 ^ q + o1
      ∧ c * 2 ^ (q + 1) + o = (2 * c + b) * 2 ^ q + o1 := by
  have hp : 2 ^ (q + 1) = 2 * 2 ^ q := by rw [pow_succ]; ring
  by_cases h : o < 2 ^ q
  · exact ⟨0, o, by omega, h, by omega, by rw [hp]; ring⟩
  · exact ⟨1, o - 2 ^ q, by omega, by omega, by omega, by
      rw [hp]
      have : o = 2 ^ q + (o - 2 ^ q) := by omega
      rw [this]
      simp only [Nat.add_sub_cancel_left]
      ring⟩

/-- The merge rounds at distances below `2 ^ q` only move values inside the
aligned blocks of `2 ^ q` elements. -/
theorem ceRange_closed (desc : Nat → Bool) (q : Nat) (f : Nat → α) (c o : Nat)
    (ho : o < 2 ^ q) :
    ∃ o' < 2 ^ q, ceRange desc 0 q f (c * 2 ^ q + o) = f (c * 2 ^ q + o') := by
  induction q generalizing f c o with
  | zero => exact ⟨o, ho, rfl⟩
  | succ q ih =>
    have hp : 2 ^ (q + 1) = 2 * 2 ^ q := by rw [pow_succ]; ring
    obtain ⟨b, o1, hb, ho1, hob, hidx⟩ := half_split q c o ho
    show ∃ o' < 2 ^ (q + 1),
      ceRange desc 0 q (ce (2 ^ (0 + q)) desc f) (c * 2 ^ (q + 1) + o) = f (c * 2 ^ (q + 1) + o')
    rw [hidx, Nat.zero_add]
    obtain ⟨o2, ho2, e2⟩ := ih (ce (2 ^ q) desc f) (2 * c + b) o1 ho1
    rw [e2]
    have hidx2 : (2 * c + b) * 2 ^ q + o2 = c * (2 * 2 ^ q) + (b * 2 ^ q + o2) := by ring
    have hlt : b * 2 ^ q + o2 < 2 * 2 ^ q := by
      rcases Nat.le_one_iff_eq_zero_or_eq_one.mp hb with rfl | rfl <;> omega
    rw [hidx2]
    obtain ⟨o3, ho3, e3⟩ := ce_closed (2 ^ q) c (b * 2 ^ q + o2) desc f hlt
    exact ⟨o3, by omega, by rw [e3, hp]⟩

end NetworkBasics

section ZeroOne

/-- The half cleaner on a bitonic block of booleans: the pairwise minima and
the pairwise maxima of the two halves are bitonic again, and the minima are
all `false` or the maxima are all `true`. -/
theorem half_clean01 (x : Nat → Bool) (n a b : Nat) (v : Bool) (hab : a ≤ b) (hb : b ≤ 2 * n)
    (hx : ∀ o < 2 * n, x o = (if a ≤ o ∧ o < b then v else !v)) :
    (∃ a' b' v', a' ≤ b' ∧ b' ≤ n ∧
        ∀ o < n, (x o && x (o + n)) = (if a' ≤ o ∧ o < b' then v' else !v')) ∧
    (∃ a' b' v', a' ≤ b' ∧ b' ≤ n ∧
        ∀ o < n, (x o || x (o + n)) = (if a' ≤ o ∧ o < b' then v' else !v')) ∧
    ((∀ o < n, (x o && x (o + n)) = false) ∨ (∀ o < n, (x o || x (o + n)) = true)) := by
  have hx1 : ∀ o < n, x o = (if a ≤ o ∧ o < b then v else !v) := fun o ho => hx o (by omega)
  have hx2 : ∀ o < n, x (o + n) = (if a ≤ o + n ∧ o + n < b then v else !v) :=
    fun o ho => hx (o + n) (by omega)
  cases v
  · -- zeros exactly on [a, b)
    by_cases hlen : n ≤ b - a
    · refine ⟨⟨0, 0, true, ?_, ?_, ?_⟩, ⟨a, b - n, false, ?_, ?_, ?_⟩, Or.inl ?_⟩
      all_goals
        first
          | omega
          | (intro o ho; rw [hx1 o ho, hx2 o ho, Bool.eq_iff_iff]; simp; omega)
    · by_cases h1 : b ≤ n
      · refine ⟨⟨a, b, false, ?_, ?_, ?_⟩, ⟨0, 0, false, ?_, ?_, ?_⟩, Or.inr ?_⟩
        all_goals
          first
            | omega
            | (intro o ho; rw [hx1 o ho, hx2 o ho, Bool.eq_iff_iff]; simp; omega)
      · by_cases h2 : n ≤ a
        · refine ⟨⟨a - n, b - n, false, ?_, ?_, ?_⟩, ⟨0, 0, false, ?_, ?_, ?_⟩, Or.inr ?_⟩
          all_goals
            first
              | omega
              | (intro o ho; rw [hx1 o ho, hx2 o ho, Bool.eq_iff_iff]; simp; omega)
        · refine ⟨⟨b - n, a, true, ?_, ?_, ?_⟩, ⟨0, 0, false, ?_, ?_, ?_⟩, Or.inr ?_⟩
          all_goals
            first
              | omega
              | (intro o ho; rw [hx1 o ho, hx2 o ho, Bool.eq_iff_iff]; simp; omega)
  · -- ones exactly on [a, b)
    by_cases hlen : n ≤ b - a
    · refine ⟨⟨a, b - n, true, ?_, ?_, ?_⟩, ⟨0, 0, false, ?_, ?_, ?_⟩, Or.inr ?_⟩
      all_goals
        first
          | omega
          | (intro o ho; rw [hx1 o ho, hx2 o ho, Bool.eq_iff_iff]; simp; omega)
    · by_cases h1 : b ≤ n
      · refine ⟨⟨0, 0, true, ?_, ?_, ?_⟩, ⟨a, b, true, ?_, ?_, ?_⟩, Or.inl ?_⟩
        all_goals
          first
            | omega
            | (intro o ho; rw [hx1 o ho, hx2 o ho, Bool.eq_iff_iff]; simp; omega)
      · by_cases h2 : n ≤ a
        · refine ⟨⟨0, 0, true, ?_, ?_, ?_⟩, ⟨a - n, b - n, true, ?_, ?_, ?_⟩, Or.inl ?_⟩
          all_goals
            first
              | omega
              | (intro o ho; rw [hx1 o ho, hx2 o ho, Bool.eq_iff_iff]; simp; omega)
        · refine ⟨⟨0, 0, true, ?_, ?_, ?_⟩, ⟨b - n, a, false, ?_, ?_, ?_⟩, Or.inl ?_⟩
          all_goals
            first
              | omega
              | (intro o ho; rw [hx1 o ho, hx2 o ho, Bool.eq_iff_iff]; simp; omega)

theorem ce_lower_bool (q c o : Nat) (P : Nat) (d : Bool) (g : Nat → Bool)
    (hd : ∀ o < 2 ^ (q + 1), dirBit P (c * 2 ^ (q + 1) + o) = d) (ho : o < 2 ^ q) :
    ce (2 ^ q) (dirBit P) g (c * 2 ^ (q + 1) + o)
      = if d then (g (c * 2 ^ (q + 1) + o) || g (c * 2 ^ (q + 1) + (o + 2 ^ q)))
        else (g (c * 2 ^ (q + 1) + o) && g (c * 2 ^ (q + 1) + (o + 2 ^ q))) := by
  have hp : 2 ^ (q + 1) = 2 * 2 ^ q := by rw [pow_succ]; ring
  have := ce_lower (2 ^ q) c o (dirBit P) g ho
  rw [← hp, hd o (by omega)] at this
  rw [this, Nat.add_assoc]
  cases d <;> simp [Bool.min_eq_and, Bool.max_eq_or]

theorem ce_upper_bool (q c o : Nat) (P : Nat) (d : Bool) (g : Nat → Bool)
    (hd : ∀ o < 2 ^ (q + 1), dirBit P (c * 2 ^ (q + 1) + o) = d) (ho : o < 2 ^ q) :
    ce (2 ^ q) (dirBit P) g (c * 2 ^ (q + 1) + 2 ^ q + o)
      = if d then (g (c * 2 ^ (q + 1) + o) && g (c * 2 ^ (q + 1) + (o + 2 ^ q)))
        else (g (c * 2 ^ (q + 1) + o) || g (c * 2 ^ (q + 1) + (o + 2 ^ q))) := by
  have hp : 2 ^ (q + 1) = 2 * 2 ^ q := by rw [pow_succ]; ring
  have := ce_upper (2 ^ q) c o (dirBit P) g ho
  rw [← hp, Nat.add_assoc (c * 2 ^ (q + 1)), hd (2 ^ q + o) (by omega)] at this
  rw [Nat.add_assoc (c * 2 ^ (q + 1)), this, Nat.add_comm o (2 ^ q)]
  cases d <;> simp [Bool.min_eq_and, Bool.max_eq_or]

theorem mergeNet_succ {α : Type} [LinearOrder α] (P q : Nat) (f : Nat → α) :
    mergeNet P (q + 1) f = mergeNet P q (ce (2 ^ q) (dirBit P) f) := by
  show ceRange (dirBit P) 0 q (ce (2 ^ (0 + q)) (dirBit P) f) = _
  rw [Nat.zero_add]
  rfl

/-- The merge of level `P` sorts every bitonic block of `2 ^ q` booleans in
the direction of the block. -/
theorem merge01 (P q : Nat) (g : Nat → Bool) (c : Nat) (d : Bool)
    (hd : ∀ o < 2 ^ q, dirBit P (c * 2 ^ q + o) = d) (hb : Bitonic01 g (c * 2 ^ q) (2 ^ q)) :
    SortedBlk d (mergeNet P q g) (c * 2 ^ q) (2 ^ q) := by
  induction q generalizing g c with
  | zero =>
    intro o o' hoo ho'
    have h1 : o' = 0 := by simpa using ho'
    have h2 : o = 0 := by omega
    subst h1; subst h2
    cases d <;> simp [ord]
  | succ q ih =>
    have hp : 2 ^ (q + 1) = 2 * 2 ^ q := by rw [pow_succ]; ring
    obtain ⟨a, b, v, hab, hb2, hx⟩ := hb
    obtain ⟨⟨a1, b1, v1, hab1, hb1, hlo⟩, ⟨a2, b2, v2, hab2, hbb2, hhi⟩, hord⟩ :=
      half_clean01 (fun o => g (c * 2 ^ (q + 1) + o)) (2 ^ q) a b v hab (by omega)
        (fun o ho => hx o (by omega))
    have e0 : ∀ o, (2 * c) * 2 ^ q + o = c * 2 ^ (q + 1) + o := fun o => by rw [hp]; ring
    have e1 : ∀ o, (2 * c + 1) * 2 ^ q + o = c * 2 ^ (q + 1) + 2 ^ q + o := fun o => by
      rw [hp]; ring
    have hL := fun o ho => ce_lower_bool q c o P d g hd ho
    have hU := fun o ho => ce_upper_bool q c o P d g hd ho
    have B1 : Bitonic01 (ce (2 ^ q) (dirBit P) g) ((2 * c) * 2 ^ q) (2 ^ q) := by
      cases d
      · refine ⟨a1, b1, v1, hab1, hb1, fun o ho => ?_⟩
        rw [e0, hL o ho]; simpa using hlo o ho
      · refine ⟨a2, b2, v2, hab2, hbb2, fun o ho => ?_⟩
        rw [e0, hL o ho]; simpa using hhi o ho
    have B2 : Bitonic01 (ce (2 ^ q) (dirBit P) g) ((2 * c + 1) * 2 ^ q) (2 ^ q) := by
      cases d
      · refine ⟨a2, b2, v2, hab2, hbb2, fun o ho => ?_⟩
        rw [e1, hU o ho]; simpa using hhi o ho
      · refine ⟨a1, b1, v1, hab1, hb1, fun o ho => ?_⟩
        rw [e1, hU o ho]; simpa using hlo o ho
    have S1 := ih (ce (2 ^ q) (dirBit P) g) (2 * c)
      (fun o ho => by rw [e0]; exact hd o (by omega)) B1
    have S2 := ih (ce (2 ^ q) (dirBit P) g) (2 * c + 1)
      (fun o ho => by rw [e1, Nat.add_assoc]; exact hd (2 ^ q + o) (by omega)) B2
    have hcross : ∀ o3 < 2 ^ q, ∀ o4 < 2 ^ q,
        ord d (ce (2 ^ q) (dirBit P) g ((2 * c) * 2 ^ q + o3))
          (ce (2 ^ q) (dirBit P) g ((2 * c + 1) * 2 ^ q + o4)) := by
      intro o3 h3 o4 h4
      rw [e0, e1, hL o3 h3, hU o4 h4]
      cases d
      · rcases hord with h | h
        · have := h o3 h3
          simp only [ord, Bool.false_eq_true, if_false] at this ⊢
          rw [this]; exact Bool.false_le _
        · have := h o4 h4
          simp only [ord, Bool.false_eq_true, if_false] at this ⊢
          rw [this]; exact Bool.le_true _
      · rcases hord with h | h
        · have := h o4 h4
          simp only [ord, if_true] at this ⊢
          rw [this]; exact Bool.false_le _
        · have := h o3 h3
          simp only [ord, if_true] at this ⊢
          rw [this]; exact Bool.le_true _
    rw [mergeNet_succ]
    intro o o' hoo ho'
    obtain ⟨b', o1', hb', ho1', hob', hidx'⟩ := half_split q c o' ho'
    obtain ⟨b0, o1, hb0, ho1, hob, hidx⟩ := half_split q c o (by omega)
    rw [hidx, hidx']
    rcases Nat.le_one_iff_eq_zero_or_eq_one.mp hb0 with rfl | rfl <;>
      rcases Nat.le_one_iff_eq_zero_or_eq_one.mp hb' with rfl | rfl
    · exact S1 o1 o1' (by omega) ho1'
    · obtain ⟨o3, h3, e3⟩ := ceRange_closed (dirBit P) q (ce (2 ^ q) (dirBit P) g) (2 * c) o1 ho1
      obtain ⟨o4, h4, e4⟩ :=
        ceRange_closed (dirBit P) q (ce (2 ^ q) (dirBit P) g) (2 * c + 1) o1' ho1'
      show ord d (ceRange (dirBit P) 0 q _ ((2 * c + 0) * 2 ^ q + o1))
        (ceRange (dirBit P) 0 q _ ((2 * c + 1) * 2 ^ q + o1'))
      rw [Nat.add_zero, e3, e4]
      exact hcross o3 h3 o4 h4
    · exfalso; omega
    · exact S2 o1 o1' (by omega) ho1'

end ZeroOne

section ZeroOnePrinciple

variable {α : Type} [LinearOrder α]

theorem threshold_up (x : Nat → Bool) (n : Nat)
    (hx : ∀ o o', o ≤ o' → o' < n → x o ≤ x o') :
    ∃ a, a ≤ n ∧ ∀ o < n, x o = decide (a ≤ o) := by
  induction n with
  | zero => exact ⟨0, le_refl _, fun o ho => by omega⟩
  | succ n ih =>
    obtain ⟨a, han, ha⟩ := ih (fun o o' h1 h2 => hx o o' h1 (by omega))
    by_cases hn : x n = true
    · refine ⟨a, by omega, fun o ho => ?_⟩
      by_cases hon : o < n
      · exact ha o hon
      · have : o = n := by omega
        subst this
        rw [hn]; simp; omega
    · refine ⟨n + 1, le_refl _, fun o ho => ?_⟩
      have h1 := hx o n (by omega) (by omega)
      have hn' : x n = false := by simpa using hn
      rw [hn'] at h1
      have : x o = false := by
        cases hxo : x o
        · rfl
        · rw [hxo] at h1; exact absurd h1 (by decide)
      rw [this]; simp; omega

theorem threshold_down (x : Nat → Bool) (n : Nat)
    (hx : ∀ o o', o ≤ o' → o' < n → x o' ≤ x o) :
    ∃ a, a ≤ n ∧ ∀ o < n, x o = decide (o < a) := by
  obtain ⟨a, han, ha⟩ := threshold_up (fun o => !x o) n (fun o o' h1 h2 => by
    have := hx o o' h1 h2
    show (!x o) ≤ (!x o')
    generalize x o = u at this ⊢
    generalize x o' = w at this ⊢
    revert this
    cases u <;> cases w <;> decide)
  refine ⟨a, han, fun o ho => ?_⟩
  have := ha o ho
  have h2 : x o = !decide (a ≤ o) := by
    rw [← this]; simp
  rw [h2, Bool.eq_iff_iff]; simp

theorem bitonic01_of_up_down (x : Nat → Bool) (s n : Nat) (h1 : SortedBlk false x s n)
    (h2 : SortedBlk true x (s + n) n) : Bitonic01 x s (2 * n) := by
  obtain ⟨a, han, ha⟩ := threshold_up (fun o => x (s + o)) n (fun o o' e1 e2 => by
    simpa [ord] using h1 o o' e1 e2)
  obtain ⟨a', han', ha'⟩ := threshold_down (fun o => x (s + n + o)) n (fun o o' e1 e2 => by
    simpa [ord] using h2 o o' e1 e2)
  refine ⟨a, n + a', true, by omega, by omega, fun o ho => ?_⟩
  by_cases hon : o < n
  · have := ha o hon
    simp only at this
    rw [this, Bool.eq_iff_iff]; simp; omega
  · obtain ⟨o2, rfl⟩ : ∃ o2, o = n + o2 := ⟨o - n, by omega⟩
    have := ha' o2 (by omega)
    simp only at this
    rw [← Nat.add_assoc, this, Bool.eq_iff_iff]; simp; omega

theorem bitonic01_of_down_up (x : Nat → Bool) (s n : Nat) (h1 : SortedBlk true x s n)
    (h2 : SortedBlk false x (s + n) n) : Bitonic01 x s (2 * n) := by
  obtain ⟨a, han, ha⟩ := threshold_down (fun o => x (s + o)) n (fun o o' e1 e2 => by
    simpa [ord] using h1 o o' e1 e2)
  obtain ⟨a', han', ha'⟩ := threshold_up (fun o => x (s + n + o)) n (fun o o' e1 e2 => by
    simpa [ord] using h2 o o' e1 e2)
  refine ⟨a, n + a', false, by omega, by omega, fun o ho => ?_⟩
  by_cases hon : o < n
  · have := ha o hon
    simp only at this
    rw [this, Bool.eq_iff_iff]; simp; omega
  · obtain ⟨o2, rfl⟩ : ∃ o2, o = n + o2 := ⟨o - n, by omega⟩
    have := ha' o2 (by omega)
    simp only at this
    rw [← Nat.add_assoc, this, Bool.eq_iff_iff]; simp; omega

theorem dirBit_block (p c o : Nat) (ho : o < 2 ^ p) :
    dirBit p (c * 2 ^ p + o) = decide (c % 2 = 1) := by
  unfold dirBit
  rw [Nat.mul_comm, Nat.testBit_mul_pow_two_add c ho p, if_neg (lt_irrefl p), Nat.sub_self,
    Nat.testBit_zero]

/-- On booleans the network of `p` levels sorts every aligned block of `2 ^ p`
elements, ascending in the even blocks and descending in the odd ones. -/
theorem sortNet01 (p : Nat) (f : Nat → Bool) (c : Nat) :
    SortedBlk (decide (c % 2 = 1)) (sortNet p f) (c * 2 ^ p) (2 ^ p) := by
  induction p generalizing c with
  | zero =>
    intro o o' hoo ho'
    have h1 : o' = 0 := by simpa using ho'
    have h2 : o = 0 := by omega
    subst h1; subst h2
    cases decide (c % 2 = 1) <;> simp [ord]
  | succ p ih =>
    have hp : 2 ^ (p + 1) = 2 * 2 ^ p := by rw [pow_succ]; ring
    have e0 : (2 * c) * 2 ^ p = c * 2 ^ (p + 1) := by rw [hp]; ring
    have e1 : (2 * c + 1) * 2 ^ p = c * 2 ^ (p + 1) + 2 ^ p := by rw [hp]; ring
    have h1 := ih (2 * c)
    have h2 := ih (2 * c + 1)
    rw [e0] at h1
    rw [e1] at h2
    have d1 : decide (2 * c % 2 = 1) = false := by simp
    have d2 : decide ((2 * c + 1) % 2 = 1) = true := by simp; omega
    rw [d1] at h1
    rw [d2] at h2
    have hb := bitonic01_of_up_down (sortNet p f) (c * 2 ^ (p + 1)) (2 ^ p) h1 h2
    rw [← hp] at hb
    exact merge01 (p + 1) (p + 1) (sortNet p f) c _
      (fun o ho => dirBit_block (p + 1) c o ho) hb

theorem ce_comp {β : Type} [LinearOrder β] (h : α → β) (hm : Monotone h) (j : Nat)
    (desc : Nat → Bool) (f : Nat → α) :
    ce j desc (fun x => h (f x)) = fun x => h (ce j desc f x) := by
  funext i
  unfold ce
  split <;> split <;> first | exact (hm.map_max).symm | exact (hm.map_min).symm

theorem ceRange_comp {β : Type} [LinearOrder β] (h : α → β) (hm : Monotone h)
    (desc : Nat → Bool) (lo s : Nat) (f : Nat → α) :
    ceRange desc lo s (fun x => h (f x)) = fun x => h (ceRange desc lo s f x) := by
  induction s generalizing f with
  | zero => rfl
  | succ s ih =>
    show ceRange desc lo s (ce (2 ^ (lo + s)) desc (fun x => h (f x))) = _
    rw [ce_comp h hm, ih]
    rfl

theorem sortNet_comp {β : Type} [LinearOrder β] (h : α → β) (hm : Monotone h) (p : Nat)
    (f : Nat → α) : sortNet p (fun x => h (f x)) = fun x => h (sortNet p f x) := by
  induction p generalizing f with
  | zero => rfl
  | succ p ih =>
    show mergeNet (p + 1) (p + 1) (sortNet p (fun x => h (f x))) = _
    rw [ih]
    exact ceRange_comp h hm _ _ _ _

theorem true_le_bool (b : Bool) (h : true ≤ b) : b = true := by
  revert h
  cases b <;> decide

theorem ord_of_bool (d : Bool) (x y : α)
    (H : ∀ h : α → Bool, Monotone h → ord d (h x) (h y)) : ord d x y := by
  cases d
  · have := H (fun z => decide (x ≤ z)) (fun a b hab => by
      simp only
      by_cases hxa : x ≤ a
      · simp [hxa, le_trans hxa hab]
      · simp [hxa])
    simp only [ord, Bool.false_eq_true, if_false, le_refl, decide_True] at this ⊢
    exact of_decide_eq_true (true_le_bool _ this)
  · have := H (fun z => decide (y ≤ z)) (fun a b hab => by
      simp only
      by_cases hxa : y ≤ a
      · simp [hxa, le_trans hxa hab]
      · simp [hxa])
    simp only [ord, if_true, le_refl, decide_True] at this ⊢
    exact of_decide_eq_true (true_le_bool _ this)

theorem ord_map {β : Type} [LinearOrder β] (h : α → β) (hm : Monotone h) (d : Bool) (x y : α)
    (hxy : ord d x y) : ord d (h x) (h y) := by
  cases d
  · exact hm (by simpa [ord] using hxy)
  · exact hm (by simpa [ord] using hxy)

theorem SortedBlk_map {β : Type} [LinearOrder β] (h : α → β) (hm : Monotone h) (d : Bool)
    (g : Nat → α) (s n : Nat) (hs : SortedBlk d g s n) :
    SortedBlk d (fun x => h (g x)) s n :=
  fun o o' h1 h2 => ord_map h hm d _ _ (hs o o' h1 h2)

/-- The bitonic sorting network of `p` levels sorts every aligned block of
`2 ^ p` elements, ascending in the even blocks and descending in the odd
ones. -/
theorem sortNet_sorted (p : Nat) (f : Nat → α) (c : Nat) :
    SortedBlk (decide (c % 2 = 1)) (sortNet p f) (c * 2 ^ p) (2 ^ p) := by
  intro o o' hoo ho'
  apply ord_of_bool
  intro h hm
  have := sortNet01 p (fun x => h (f x)) c o o' hoo ho'
  rw [sortNet_comp h hm] at this
  exact this

/-- The merge of level `P` sorts an aligned block of `2 ^ (q + 1)` elements
whose halves are sorted in opposite directions. -/
theorem mergeNet_sorts (P q c : Nat) (d : Bool) (f : Nat → α)
    (hd : ∀ o < 2 ^ (q + 1), dirBit P (c * 2 ^ (q + 1) + o) = d)
    (hb : (SortedBlk false f (c * 2 ^ (q + 1)) (2 ^ q)
            ∧ SortedBlk true f (c * 2 ^ (q + 1) + 2 ^ q) (2 ^ q))
        ∨ (SortedBlk true f (c * 2 ^ (q + 1)) (2 ^ q)
            ∧ SortedBlk false f (c * 2 ^ (q + 1) + 2 ^ q) (2 ^ q))) :
    SortedBlk d (mergeNet P (q + 1) f) (c * 2 ^ (q + 1)) (2 ^ (q + 1)) := by
  have hp : 2 ^ (q + 1) = 2 * 2 ^ q := by rw [pow_succ]; ring
  intro o o' hoo ho'
  apply ord_of_bool
  intro h hm
  have hb01 : Bitonic01 (fun x => h (f x)) (c * 2 ^ (q + 1)) (2 ^ (q + 1)) := by
    rw [hp]
    rcases hb with ⟨h1, h2⟩ | ⟨h1, h2⟩
    · have := bitonic01_of_up_down (fun x => h (f x)) (c * (2 * 2 ^ q)) (2 ^ q)
        (by rw [← hp]; exact SortedBlk_map h hm _ _ _ _ h1)
        (by rw [← hp]; exact SortedBlk_map h hm _ _ _ _ h2)
      exact this
    · have := bitonic01_of_down_up (fun x => h (f x)) (c * (2 * 2 ^ q)) (2 ^ q)
        (by rw [← hp]; exact SortedBlk_map h hm _ _ _ _ h1)
        (by rw [← hp]; exact SortedBlk_map h hm _ _ _ _ h2)
      exact this
  have := merge01 P (q + 1) (fun x => h (f x)) c d hd hb01 o o' hoo ho'
  unfold mergeNet at this
  rw [ceRange_comp h hm] at this
  exact this

end ZeroOnePrinciple

section Bits

theorem two_pow_succ_div_two (q : Nat) : 2 ^ (q + 1) / 2 = 2 ^ q := by
  rw [pow_succ, Nat.mul_div_cancel _ (by norm_num)]

theorem two_pow_succ_mod_two (q : Nat) : 2 ^ (q + 1) % 2 = 0 := by
  rw [pow_succ, Nat.mul_mod_left]

theorem or_two_pow (q l : Nat) : l ||| 2 ^ q = if l.testBit q then l else l + 2 ^ q := by
  induction q generalizing l with
  | zero =>
    have h1 : (l ||| 1) / 2 = l / 2 := by rw [Nat.or_div_two]; simp
    have h2 : (l ||| 1) % 2 = 1 := Nat.or_mod_two_eq_one.mpr (Or.inr rfl)
    rw [Nat.testBit_zero, pow_zero]
    by_cases hb : l % 2 = 1
    · simp only [hb, decide_True, if_true]; omega
    · simp only [hb, decide_False, Bool.false_eq_true, if_false]; omega
  | succ q ih =>
    have hp : 2 ^ (q + 1) = 2 * 2 ^ q := by rw [pow_succ]; ring
    have h1 : (l ||| 2 ^ (q + 1)) / 2 = l / 2 ||| 2 ^ q := by
      rw [Nat.or_div_two, two_pow_succ_div_two]
    have h2 : (l ||| 2 ^ (q + 1)) % 2 = 1 ↔ l % 2 = 1 ∨ 2 ^ (q + 1) % 2 = 1 :=
      Nat.or_mod_two_eq_one
    rw [two_pow_succ_mod_two] at h2
    rw [ih] at h1
    rw [Nat.testBit_add_one]
    by_cases hb : (l / 2).testBit q = true
    · simp only [hb, if_true] at h1 ⊢; omega
    · simp only [hb, Bool.false_eq_true, if_false] at h1 ⊢; omega

theorem xor_two_pow (q l : Nat) :
    l ^^^ 2 ^ q = if l.testBit q then l - 2 ^ q else l + 2 ^ q := by
  induction q generalizing l with
  | zero =>
    have h1 : (l ^^^ 1) / 2 = l / 2 := by rw [Nat.xor_div_two]; simp
    have h2 : (l ^^^ 1) % 2 = (l + 1) % 2 := Nat.xor_mod_two_eq
    rw [Nat.testBit_zero, pow_zero]
    by_cases hb : l % 2 = 1
    · simp only [hb, decide_True, if_true]; omega
    · simp only [hb, decide_False, Bool.false_eq_true, if_false]; omega
  | succ q ih =>
    have hp : 2 ^ (q + 1) = 2 * 2 ^ q := by rw [pow_succ]; ring
    have h1 : (l ^^^ 2 ^ (q + 1)) / 2 = l / 2 ^^^ 2 ^ q := by
      rw [Nat.xor_div_two, two_pow_succ_div_two]
    have h2 : (l ^^^ 2 ^ (q + 1)) % 2 = (l + 2 ^ (q + 1)) % 2 := Nat.xor_mod_two_eq
    rw [ih] at h1
    rw [Nat.testBit_add_one]
    by_cases hb : (l / 2).testBit q = true
    · have hge := Nat.testBit_implies_ge hb
      simp only [hb, if_true] at h1 ⊢; omega
    · simp only [hb, Bool.false_eq_true, if_false] at h1 ⊢; omega

theorem not32_two_pow (q : Nat) (hq : q < 32) : not32 (2 ^ q) = 2 ^ 32 - (2 ^ q + 1) := by
  have : 2 ^ q < 2 ^ 32 := Nat.pow_lt_pow_right (by norm_num) hq
  unfold not32 u32
  rw [Nat.mod_eq_of_lt this]
  omega

theorem testBit_not32_two_pow (q i : Nat) (hq : q < 32) :
    (not32 (2 ^ q)).testBit i = (decide (i < 32) && !decide (q = i)) := by
  have : 2 ^ q < 2 ^ 32 := Nat.pow_lt_pow_right (by norm_num) hq
  rw [not32_two_pow q hq, Nat.testBit_two_pow_sub_succ this, Nat.testBit_two_pow]

theorem testBit_eq_false_of_lt (l i w : Nat) (hl : l < 2 ^ w) (hi : w ≤ i) :
    l.testBit i = false :=
  Nat.testBit_lt_two_pow (Nat.lt_of_lt_of_le hl (Nat.pow_le_pow_right (by norm_num) hi))

theorem and_not32_two_pow (q l : Nat) (hq : q < 32) (hl : l < 2 ^ 32) :
    l &&& not32 (2 ^ q) = if l.testBit q then l - 2 ^ q else l := by
  have key : l &&& not32 (2 ^ q) = (l ||| 2 ^ q) ^^^ 2 ^ q := by
    apply Nat.eq_of_testBit_eq
    intro i
    rw [Nat.testBit_and, testBit_not32_two_pow q i hq, Nat.testBit_xor, Nat.testBit_or,
      Nat.testBit_two_pow]
    by_cases hqi : q = i
    · simp [hqi]
    · by_cases hi : i < 32
      · simp [hqi, hi]
      · simp [hqi, hi, testBit_eq_false_of_lt l i 32 hl (by omega)]
  have hset : (l ||| 2 ^ q).testBit q = true := by
    rw [Nat.testBit_or, Nat.testBit_two_pow_self]; simp
  rw [key, xor_two_pow, hset, if_pos rfl, or_two_pow]
  by_cases hb : l.testBit q = true
  · simp only [hb, if_true]
  · simp only [hb, Bool.false_eq_true, if_false]; omega

theorem testBit_tile (k t l q : Nat) (hl : l < 2 ^ k) (hq : q < k) :
    (t * 2 ^ k + l).testBit q = l.testBit q := by
  rw [Nat.mul_comm, Nat.testBit_mul_pow_two_add t hl q, if_pos hq]

theorem testBit_iff_div (g q : Nat) : g / 2 ^ q % 2 = 0 ↔ g.testBit q = false := by
  rw [Nat.testBit_to_div_mod]
  by_cases h : g / 2 ^ q % 2 = 1
  · simp [h]
  · simp [h]; omega

/-- The direction flag `(bool)(ulevelmask & global_idx)` of the kernel. -/
theorem mask_two_pow (p g : Nat) : decide (2 ^ p &&& g ≠ 0) = g.testBit p := by
  rw [Nat.two_pow_and]
  have hpos : 0 < 2 ^ p := Nat.two_pow_pos p
  cases h : g.testBit p
  · simp
  · simp [Nat.ne_of_gt hpos]

end Bits

section RoundIsCe

variable {α : Type} [LinearOrder α]

/-- The direction flag of the kernel as a function of the global index. -/
theorem roundFn_eq_ce (k T q mask : Nat) (hT : T = 2 ^ k) (hk : k ≤ 32) (hq : q < k)
    (f : Nat → α) (g : Nat) :
    roundFn T mask (2 ^ q) f g = ce (2 ^ q) (fun i => decide (mask &&& i ≠ 0)) f g := by
  have hTpos : 0 < T := by subst hT; exact Nat.two_pow_pos k
  have hl : g % T < T := Nat.mod_lt _ hTpos
  have hl32 : g % T < 2 ^ 32 :=
    Nat.lt_of_lt_of_le hl (by subst hT; exact Nat.pow_le_pow_right (by norm_num) hk)
  have hsplit := tile_split T g
  have hbit : g.testBit q = (g % T).testBit q := by
    conv_lhs => rw [← hsplit]
    subst hT
    exact testBit_tile k (g / 2 ^ k) (g % 2 ^ k) q hl hq
  unfold roundFn ce
  rw [and_not32_two_pow q (g % T) (by omega) hl32, or_two_pow, xor_two_pow, ← hbit]
  by_cases hb : g.testBit q = true
  · have hge : 2 ^ q ≤ g % T := Nat.testBit_implies_ge (hbit ▸ hb)
    have hne : ¬ (g / 2 ^ q % 2 = 0) := by
      rw [testBit_iff_div]; simp [hb]
    have e1 : g / T * T + (g % T - 2 ^ q) = g - 2 ^ q := by omega
    simp only [hb, if_true, hne, if_false, e1, hsplit]
    by_cases hd : mask &&& g = 0 <;> by_cases hle : f (g - 2 ^ q) ≤ f g
    · simp [hd, hle]
    · simp [hd, hle, le_of_not_le hle]
    · simp [hd, hle]
    · simp [hd, hle, le_of_not_le hle]
  · have hb' : g.testBit q = false := by simpa using hb
    have hz : g / 2 ^ q % 2 = 0 := (testBit_iff_div g q).mpr hb'
    have e1 : g / T * T + (g % T + 2 ^ q) = g + 2 ^ q := by omega
    simp only [hb', Bool.false_eq_true, if_false, hz, if_true, e1, hsplit]
    by_cases hd : mask &&& g = 0 <;> by_cases hle : f g ≤ f (g + 2 ^ q)
    · simp [hd, hle]
    · simp [hd, hle, le_of_not_le hle]
    · simp [hd, hle]
    · simp [hd, hle, le_of_not_le hle]

end RoundIsCe

section StageIsMerge

variable {α : Type} [LinearOrder α]

theorem roundsFn_zero (T mask fuel : Nat) (f : Nat → α) : roundsFn T mask fuel 0 f = f := by
  cases fuel <;> simp [roundsFn]

theorem two_pow_succ_shiftRight (q : Nat) : 2 ^ (q + 1) >>> 1 = 2 ^ q := by
  rw [Nat.shiftRight_eq_div_pow, pow_one, two_pow_succ_div_two]

theorem roundsFn_two_pow (k T mask : Nat) (hT : T = 2 ^ k) (hk : k ≤ 32) (q fuel : Nat)
    (hq : q < k) (hfuel : q < fuel) (f : Nat → α) :
    roundsFn T mask fuel (2 ^ q) f = ceRange (maskDir mask) 0 (q + 1) f := by
  induction q generalizing fuel f with
  | zero =>
    obtain ⟨fuel', rfl⟩ : ∃ n, fuel = n + 1 := ⟨fuel - 1, by omega⟩
    have hround : roundFn T mask (2 ^ 0) f = ce (2 ^ 0) (maskDir mask) f :=
      funext (fun g => roundFn_eq_ce k T 0 mask hT hk hq f g)
    show (if 2 ^ 0 > 0 then roundsFn T mask fuel' (2 ^ 0 >>> 1) (roundFn T mask (2 ^ 0) f)
      else f) = _
    rw [if_pos (by norm_num), hround]
    have : (2 ^ 0 >>> 1) = 0 := by decide
    rw [this, roundsFn_zero]
    rfl
  | succ q ih =>
    obtain ⟨fuel', rfl⟩ : ∃ n, fuel = n + 1 := ⟨fuel - 1, by omega⟩
    have hround : roundFn T mask (2 ^ (q + 1)) f = ce (2 ^ (q + 1)) (maskDir mask) f :=
      funext (fun g => roundFn_eq_ce k T (q + 1) mask hT hk hq f g)
    show (if 2 ^ (q + 1) > 0 then
      roundsFn T mask fuel' (2 ^ (q + 1) >>> 1) (roundFn T mask (2 ^ (q + 1)) f) else f) = _
    rw [if_pos (Nat.two_pow_pos _), hround, two_pow_succ_shiftRight,
      ih fuel' (by omega) (by omega)]
    show _ = ceRange (maskDir mask) 0 (q + 1) (ce (2 ^ (0 + (q + 1))) (maskDir mask) f)
    rw [Nat.zero_add]

/-- One launch of the kernel with `ulevel = 2 ^ q` is the `q` compare-exchange
rounds at distance `2 ^ (q - 1)`, ..., `1` with the direction flag of the
mask. -/
theorem stageFn_two_pow (k T q mask : Nat) (hT : T = 2 ^ k) (hk : k ≤ 31) (hq : q ≤ k)
    (f : Nat → α) : stageFn T (2 ^ q) mask f = ceRange (maskDir mask) 0 q f := by
  have hlt : 2 ^ q < 2 ^ 32 := Nat.pow_lt_pow_right (by norm_num) (by omega)
  unfold stageFn
  rw [u32_of_lt _ hlt]
  cases q with
  | zero =>
    have : (2 ^ 0 >>> 1) = 0 := by decide
    rw [this, roundsFn_zero]
    rfl
  | succ q =>
    rw [two_pow_succ_shiftRight]
    exact roundsFn_two_pow k T mask hT (by omega) q 32 (by omega) (by omega) f

theorem ce_congr (j c n : Nat) (hn : n = c * (2 * j)) (desc desc' : Nat → Bool)
    (f f' : Nat → α) (hf : ∀ i < n, f i = f' i) (hd : ∀ i < n, desc i = desc' i)
    (i : Nat) (hi : i < n) : ce j desc f i = ce j desc' f' i := by
  rcases Nat.eq_zero_or_pos j with hj | hj
  · subst hj; subst hn; simp at hi
  have h2j : 0 < 2 * j := by omega
  have hsplit := tile_split (2 * j) i
  have ho : i % (2 * j) < 2 * j := Nat.mod_lt _ h2j
  have hc : i / (2 * j) < c := Nat.div_lt_of_lt_mul (by rw [Nat.mul_comm]; omega)
  have hblock : (i / (2 * j) + 1) * (2 * j) ≤ c * (2 * j) := Nat.mul_le_mul_right _ hc
  have hexp : (i / (2 * j) + 1) * (2 * j) = i / (2 * j) * (2 * j) + 2 * j := by ring
  by_cases hlow : i % (2 * j) < j
  · have e1 := ce_lower j (i / (2 * j)) (i % (2 * j)) desc f hlow
    have e2 := ce_lower j (i / (2 * j)) (i % (2 * j)) desc' f' hlow
    rw [hsplit] at e1 e2
    rw [e1, e2, hd i hi, hf i hi, hf (i + j) (by omega)]
  · obtain ⟨o2, ho2⟩ : ∃ o2, i % (2 * j) = j + o2 := ⟨i % (2 * j) - j, by omega⟩
    have hlt2 : o2 < j := by omega
    have e1 := ce_upper j (i / (2 * j)) o2 desc f hlt2
    have e2 := ce_upper j (i / (2 * j)) o2 desc' f' hlt2
    have hidx : i / (2 * j) * (2 * j) + j + o2 = i := by omega
    rw [hidx] at e1 e2
    rw [e1, e2, hd i hi, hf i hi, hf (i / (2 * j) * (2 * j) + o2) (by omega)]

theorem ceRange_congr (lo s c n : Nat) (hn : n = c * 2 ^ (lo + s)) (desc desc' : Nat → Bool)
    (f f' : Nat → α) (hf : ∀ i < n, f i = f' i) (hd : ∀ i < n, desc i = desc' i)
    (i : Nat) (hi : i < n) : ceRange desc lo s f i = ceRange desc' lo s f' i := by
  induction s generalizing f f' c i with
  | zero => exact hf i hi
  | succ s ih =>
    have hp : 2 ^ (lo + (s + 1)) = 2 * 2 ^ (lo + s) := by rw [← Nat.add_assoc, pow_succ]; ring
    show ceRange desc lo s (ce (2 ^ (lo + s)) desc f) i
      = ceRange desc' lo s (ce (2 ^ (lo + s)) desc' f') i
    apply ih (2 * c) (by rw [hn, hp]; ring) _ _ _ i hi
    intro x hx
    exact ce_congr (2 ^ (lo + s)) c n (by rw [hn, hp]) desc desc' f f' hf hd x hx

theorem ceRange_split (desc : Nat → Bool) (lo s : Nat) (f : Nat → α) :
    ceRange desc 0 (lo + s) f = ceRange desc 0 lo (ceRange desc lo s f) := by
  induction s generalizing f with
  | zero => rfl
  | succ s ih =>
    show ceRange desc 0 (lo + s) (ce (2 ^ (0 + (lo + s))) desc f)
      = ceRange desc 0 lo (ceRange desc lo s (ce (2 ^ (lo + s)) desc f))
    rw [Nat.zero_add, ih]

end StageIsMerge

section TransposeConjugation

variable {α : Type} [LinearOrder α]

theorem add_two_pow_lt (c q k : Nat) (hc : c < 2 ^ k) (hq : q < k)
    (hb : c.testBit q = false) : c + 2 ^ q < 2 ^ k := by
  have h := or_two_pow q c
  rw [hb] at h
  simp only [Bool.false_eq_true, if_false] at h
  rw [← h]
  exact Nat.or_lt_two_pow hc (Nat.pow_lt_pow_right (by norm_num) hq)

theorem testBit_high (k c r q : Nat) (hr : r < 2 ^ k) :
    (c * 2 ^ k + r).testBit (k + q) = c.testBit q := by
  rw [Nat.mul_comm, Nat.testBit_mul_pow_two_add c hr (k + q), if_neg (by omega),
    Nat.add_sub_cancel_left]

theorem testBit_trIdx (k i q : Nat) (hq : q < k) (hi : i < 2 ^ k * 2 ^ k) :
    (trIdx (2 ^ k) i).testBit q = i.testBit (k + q) := by
  have hc : i / 2 ^ k < 2 ^ k := div_lt_sq _ i hi
  have hr : i % 2 ^ k < 2 ^ k := mod_lt_sq _ i hi
  unfold trIdx
  rw [testBit_tile k _ _ q hc hq]
  conv_rhs => rw [← tile_split (2 ^ k) i]
  rw [testBit_high k _ _ q hr]

/-- A round at distance `2 ^ q` on the transposed matrix is the round at
distance `2 ^ (k + q)` on the matrix itself. -/
theorem ce_transpose (k q : Nat) (hq : q < k) (desc' : Nat → Bool) (f : Nat → α)
    (i : Nat) (hi : i < 2 ^ k * 2 ^ k) :
    ce (2 ^ q) desc' (transposeFn (2 ^ k) f) (trIdx (2 ^ k) i)
      = ce (2 ^ (k + q)) (fun x => desc' (trIdx (2 ^ k) x)) f i := by
  have hc : i / 2 ^ k < 2 ^ k := div_lt_sq _ i hi
  have hr : i % 2 ^ k < 2 ^ k := mod_lt_sq _ i hi
  have hsplit := tile_split (2 ^ k) i
  have hpow : 2 ^ (k + q) = 2 ^ q * 2 ^ k := by rw [pow_add]; ring
  have hbit := testBit_trIdx k i q hq hi
  have hbitc : (trIdx (2 ^ k) i).testBit q = (i / 2 ^ k).testBit q := by
    unfold trIdx
    exact testBit_tile k _ _ q hc hq
  have htt : transposeFn (2 ^ k) f (trIdx (2 ^ k) i) = f i := by
    unfold transposeFn
    rw [trIdx_trIdx _ i hi]
  unfold ce
  by_cases hb : i.testBit (k + q) = true
  · have hb1 : (trIdx (2 ^ k) i).testBit q = true := by rw [hbit, hb]
    have hn1 : ¬ (trIdx (2 ^ k) i / 2 ^ q % 2 = 0) := by
      rw [testBit_iff_div]; simp [hb1]
    have hn2 : ¬ (i / 2 ^ (k + q) % 2 = 0) := by
      rw [testBit_iff_div]; simp [hb]
    have hge : 2 ^ q ≤ i / 2 ^ k := Nat.testBit_implies_ge (hbitc ▸ hb1)
    have hpart : transposeFn (2 ^ k) f (trIdx (2 ^ k) i - 2 ^ q) = f (i - 2 ^ (k + q)) := by
      unfold transposeFn
      congr 1
      have e1 : trIdx (2 ^ k) i - 2 ^ q = (i % 2 ^ k) * 2 ^ k + (i / 2 ^ k - 2 ^ q) := by
        unfold trIdx; omega
      rw [e1, trIdx_pair _ _ _ (Nat.lt_of_le_of_lt (Nat.sub_le _ _) hc), hpow, Nat.sub_mul]
      have hm : 2 ^ q * 2 ^ k ≤ i / 2 ^ k * 2 ^ k := Nat.mul_le_mul_right _ hge
      omega
    rw [if_neg hn1, if_neg hn2, htt, hpart]
  · have hb' : i.testBit (k + q) = false := by simpa using hb
    have hb1 : (trIdx (2 ^ k) i).testBit q = false := by rw [hbit, hb']
    have hz1 : trIdx (2 ^ k) i / 2 ^ q % 2 = 0 := (testBit_iff_div _ _).mpr hb1
    have hz2 : i / 2 ^ (k + q) % 2 = 0 := (testBit_iff_div _ _).mpr hb'
    have hlt : i / 2 ^ k + 2 ^ q < 2 ^ k := add_two_pow_lt _ q k hc hq (hbitc ▸ hb1)
    have hpart : transposeFn (2 ^ k) f (trIdx (2 ^ k) i + 2 ^ q) = f (i + 2 ^ (k + q)) := by
      unfold transposeFn
      congr 1
      have e1 : trIdx (2 ^ k) i + 2 ^ q = (i % 2 ^ k) * 2 ^ k + (i / 2 ^ k + 2 ^ q) := by
        unfold trIdx; omega
      rw [e1, trIdx_pair _ _ _ hlt, hpow, Nat.add_mul]
      omega
    rw [if_pos hz1, if_pos hz2, htt, hpart]

/-- The rounds at distance `2 ^ (s - 1)`, ..., `1` between two transposes are
the rounds at distance `2 ^ (k + s - 1)`, ..., `2 ^ k`. -/
theorem ceRange_transpose (k s : Nat) (hs : s ≤ k) (desc' : Nat → Bool) (f : Nat → α)
    (i : Nat) (hi : i < 2 ^ k * 2 ^ k) :
    ceRange desc' 0 s (transposeFn (2 ^ k) f) (trIdx (2 ^ k) i)
      = ceRange (fun x => desc' (trIdx (2 ^ k) x)) k s f i := by
  induction s generalizing f i with
  | zero =>
    show transposeFn (2 ^ k) f (trIdx (2 ^ k) i) = f i
    unfold transposeFn
    rw [trIdx_trIdx _ i hi]
  | succ s ih =>
    show ceRange desc' 0 s (ce (2 ^ (0 + s)) desc' (transposeFn (2 ^ k) f)) (trIdx (2 ^ k) i)
      = ceRange (fun x => desc' (trIdx (2 ^ k) x)) k s
          (ce (2 ^ (k + s)) (fun x => desc' (trIdx (2 ^ k) x)) f) i
    rw [Nat.zero_add, ← ih (by omega) _ i hi]
    have hN : 2 ^ k * 2 ^ k = 2 ^ (k + (k - s)) * 2 ^ (0 + s) := by
      rw [← pow_add, ← pow_add]; congr 1; omega
    apply ceRange_congr 0 s (2 ^ (k + (k - s))) (2 ^ k * 2 ^ k) hN desc' desc' _ _ _
      (fun _ _ => rfl) _ (trIdx_lt _ i hi)
    intro x hx
    have := ce_transpose k s (by omega) desc' f (trIdx (2 ^ k) x) (trIdx_lt _ x hx)
    rw [trIdx_trIdx _ x hx] at this
    rw [this]
    rfl

end TransposeConjugation

section Permutation

variable {α : Type}

/-- Reading a buffer through an involution of its index range permutes it. -/
theorem perm_of_involution (n : Nat) (π : Nat → Nat)
    (hπ : ∀ i < n, π i < n ∧ π (π i) = i) (f : Nat → α) :
    (tab n (fun i => f (π i))).Perm (tab n f) := by
  have hmap : tab n (fun i => f (π i)) = ((List.range n).map π).map f := by
    unfold tab; rw [List.map_map]; rfl
  rw [hmap]
  apply List.Perm.map
  apply (List.perm_ext_iff_of_nodup _ (List.nodup_range n)).mpr
  · intro a
    constructor
    · intro ha
      obtain ⟨i, hi, rfl⟩ := List.mem_map.mp ha
      exact List.mem_range.mpr (hπ i (List.mem_range.mp hi)).1
    · intro ha
      have han := List.mem_range.mp ha
      exact List.mem_map.mpr ⟨π a, List.mem_range.mpr (hπ a han).1, (hπ a han).2⟩
  · apply List.Nodup.map_on _ (List.nodup_range n)
    intro a ha b hb hab
    rw [← (hπ a (List.mem_range.mp ha)).2, ← (hπ b (List.mem_range.mp hb)).2, hab]

variable [LinearOrder α]

theorem minmax_swap (a b : α) :
    (min a b = a ∧ max a b = b) ∨ (min a b = b ∧ max a b = a ∧ a ≠ b) := by
  by_cases h : a ≤ b
  · exact Or.inl ⟨min_eq_left h, max_eq_right h⟩
  · have h' : b ≤ a := le_of_not_le h
    exact Or.inr ⟨min_eq_right h', max_eq_left h', fun e => h (e ▸ le_refl _)⟩

/-- Facts on the partner of an index below `n = c * (2 * j)`. -/
theorem partner_facts (j c n : Nat) (hj : 0 < j) (hn : n = c * (2 * j)) (i : Nat) (hi : i < n) :
    partner j i < n ∧ partner j (partner j i) = i
      ∧ ((i / j) % 2 = 0 → partner j i = i + j ∧ ¬ ((i + j) / j % 2 = 0))
      ∧ (¬ ((i / j) % 2 = 0) → partner j i = i - j ∧ j ≤ i ∧ (i - j) / j % 2 = 0) := by
  have h2j : 0 < 2 * j := by omega
  have hsplit := tile_split (2 * j) i
  have ho : i % (2 * j) < 2 * j := Nat.mod_lt _ h2j
  have hc : i / (2 * j) < c := Nat.div_lt_of_lt_mul (by rw [Nat.mul_comm]; omega)
  have hblock : (i / (2 * j) + 1) * (2 * j) ≤ c * (2 * j) := Nat.mul_le_mul_right _ hc
  have hexp : (i / (2 * j) + 1) * (2 * j) = i / (2 * j) * (2 * j) + 2 * j := by ring
  have hdiv : ∀ b o, o < j → (i / (2 * j) * (2 * j) + b * j + o) / j = 2 * (i / (2 * j)) + b := by
    intro b o hlt
    have : i / (2 * j) * (2 * j) + b * j + o = (2 * (i / (2 * j)) + b) * j + o := by ring
    rw [this, tile_div j _ o hlt]
  by_cases hlow : i % (2 * j) < j
  · have hi0 : i / j = 2 * (i / (2 * j)) + 0 := by
      have := hdiv 0 (i % (2 * j)) hlow
      rw [Nat.zero_mul, Nat.add_zero, hsplit] at this
      exact this
    have hi1 : (i + j) / j = 2 * (i / (2 * j)) + 1 := by
      have := hdiv 1 (i % (2 * j)) hlow
      rw [Nat.one_mul] at this
      rw [← this]; congr 1; omega
    have hz : i / j % 2 = 0 := by omega
    have hp : partner j i = i + j := by unfold partner; rw [if_pos hz]
    have hnz : ¬ ((i + j) / j % 2 = 0) := by omega
    refine ⟨by rw [hp]; omega, ?_, fun _ => ⟨hp, hnz⟩, fun h => absurd hz h⟩
    rw [hp]; unfold partner; rw [if_neg hnz]; omega
  · obtain ⟨o2, ho2⟩ : ∃ o2, i % (2 * j) = j + o2 := ⟨i % (2 * j) - j, by omega⟩
    have hlt2 : o2 < j := by omega
    have hi1 : i / j = 2 * (i / (2 * j)) + 1 := by
      have := hdiv 1 o2 hlt2
      rw [Nat.one_mul] at this
      rw [← this]; congr 1; omega
    have hi0 : (i - j) / j = 2 * (i / (2 * j)) + 0 := by
      have := hdiv 0 o2 hlt2
      rw [Nat.zero_mul, Nat.add_zero] at this
      rw [← this]; congr 1; omega
    have hnz : ¬ (i / j % 2 = 0) := by omega
    have hp : partner j i = i - j := by unfold partner; rw [if_neg hnz]
    have hz : (i - j) / j % 2 = 0 := by omega
    refine ⟨by rw [hp]; omega, ?_, fun h => absurd h hnz, fun _ => ⟨hp, by omega, hz⟩⟩
    rw [hp]; unfold partner; rw [if_pos hz]; omega

theorem pair_vals (a b : α) (d : Bool) :
    ((if d then max a b else min a b) = a
      ∨ ((if d then max a b else min a b) = b ∧ (if d then min a b else max a b) = a ∧ b ≠ a))
    ∧ ((if d then min a b else max a b) = b
      ∨ ((if d then min a b else max a b) = a ∧ (if d then max a b else min a b) = b
          ∧ a ≠ b)) := by
  rcases lt_trichotomy a b with h | h | h
  · have h1 := min_eq_left h.le
    have h2 := max_eq_right h.le
    cases d <;> simp [h1, h2, h.ne, h.ne']
  · subst h
    cases d <;> simp
  · have h1 := min_eq_right h.le
    have h2 := max_eq_left h.le
    cases d <;> simp [h1, h2, h.ne, h.ne']

/-- In a round whose direction flag agrees on the two elements of every pair,
an element keeps its value or the pair exchanges its values. -/
theorem ce_keep_or_swap (j c n : Nat) (hj : 0 < j) (hn : n = c * (2 * j)) (desc : Nat → Bool)
    (hdesc : ∀ i < n, desc (partner j i) = desc i) (f : Nat → α) (i : Nat) (hi : i < n) :
    ce j desc f i = f i
      ∨ (ce j desc f i = f (partner j i) ∧ ce j desc f (partner j i) = f i
          ∧ f (partner j i) ≠ f i) := by
  obtain ⟨hlt, hinv, hlo, hup⟩ := partner_facts j c n hj hn i hi
  have hd := hdesc i hi
  by_cases hz : i / j % 2 = 0
  · obtain ⟨hp, hnz⟩ := hlo hz
    rw [hp] at hd
    have e1 : ce j desc f i
        = if desc i then max (f i) (f (i + j)) else min (f i) (f (i + j)) := by
      unfold ce; rw [if_pos hz]
    have e2 : ce j desc f (i + j)
        = if desc i then min (f i) (f (i + j)) else max (f i) (f (i + j)) := by
      unfold ce; rw [if_neg hnz, hd, Nat.add_sub_cancel]
    rw [hp, e1, e2]
    exact (pair_vals (f i) (f (i + j)) (desc i)).1
  · obtain ⟨hp, hge, hz2⟩ := hup hz
    rw [hp] at hd
    have e1 : ce j desc f i
        = if desc i then min (f (i - j)) (f i) else max (f (i - j)) (f i) := by
      unfold ce; rw [if_neg hz]
    have e2 : ce j desc f (i - j)
        = if desc i then max (f (i - j)) (f i) else min (f (i - j)) (f i) := by
      unfold ce; rw [if_pos hz2, hd, Nat.sub_add_cancel hge]
    rw [hp, e1, e2]
    exact (pair_vals (f (i - j)) (f i) (desc i)).2

/-- A round whose direction flag agrees on the two elements of every pair
permutes the buffer. -/
theorem ce_perm (j c n : Nat) (hn : n = c * (2 * j)) (desc : Nat → Bool)
    (hdesc : ∀ i < n, desc (partner j i) = desc i) (f : Nat → α) :
    (tab n (ce j desc f)).Perm (tab n f) := by
  rcases Nat.eq_zero_or_pos j with hj | hj
  · subst hj
    have : n = 0 := by rw [hn]; simp
    subst this
    exact List.Perm.refl _
  have hks := ce_keep_or_swap j c n hj hn desc hdesc f
  have hconv : tab n (ce j desc f)
      = tab n (fun i => f (if ce j desc f i = f i then i else partner j i)) := by
    apply tab_congr
    intro i hi
    by_cases h : ce j desc f i = f i
    · rw [if_pos h, h]
    · rw [if_neg h]
      rcases hks i hi with h1 | ⟨h1, _, _⟩
      · exact absurd h1 h
      · exact h1
  rw [hconv]
  apply perm_of_involution n (fun i => if ce j desc f i = f i then i else partner j i)
  intro i hi
  obtain ⟨hlt, hinv, _, _⟩ := partner_facts j c n hj hn i hi
  by_cases h : ce j desc f i = f i
  · simp only [h, if_true]
    exact ⟨hi, trivial⟩
  · simp only [h, if_false]
    refine ⟨hlt, ?_⟩
    rcases hks i hi with h1 | ⟨h1, h2, h3⟩
    · exact absurd h1 h
    · have : ¬ (ce j desc f (partner j i) = f (partner j i)) := by
        rw [h2]; exact fun e => h3 e.symm
      rw [if_neg this, hinv]

theorem ceRange_perm (lo s c n : Nat) (hn : n = c * 2 ^ (lo + s)) (desc : Nat → Bool)
    (hdesc : ∀ t < s, ∀ i < n, desc (partner (2 ^ (lo + t)) i) = desc i) (f : Nat → α) :
    (tab n (ceRange desc lo s f)).Perm (tab n f) := by
  induction s generalizing f c with
  | zero => exact List.Perm.refl _
  | succ s ih =>
    have hp : 2 ^ (lo + (s + 1)) = 2 * 2 ^ (lo + s) := by rw [← Nat.add_assoc, pow_succ]; ring
    show (tab n (ceRange desc lo s (ce (2 ^ (lo + s)) desc f))).Perm (tab n f)
    refine List.Perm.trans (ih (2 * c) (by rw [hn, hp]; ring)
      (fun t ht => hdesc t (by omega)) _) ?_
    exact ce_perm (2 ^ (lo + s)) c n (by rw [hn, hp]) desc (hdesc s (by omega)) f

theorem dirBit_partner (P q i : Nat) (hq : q < P) :
    dirBit P (partner (2 ^ q) i) = dirBit P i := by
  unfold partner dirBit
  by_cases hz : i / 2 ^ q % 2 = 0
  · have hb : i.testBit q = false := (testBit_iff_div i q).mp hz
    have h := or_two_pow q i
    rw [hb] at h
    simp only [Bool.false_eq_true, if_false] at h
    rw [if_pos hz, ← h, Nat.testBit_or, Nat.testBit_two_pow]
    simp [Nat.ne_of_lt hq]
  · have hb : i.testBit q = true := by
      rw [testBit_iff_div] at hz; simpa using hz
    have h := xor_two_pow q i
    rw [hb] at h
    simp only [if_true] at h
    rw [if_neg hz, ← h, Nat.testBit_xor, Nat.testBit_two_pow]
    simp [Nat.ne_of_lt hq]

/-- The merge of level `P` permutes the buffer. -/
theorem mergeNet_perm (P q c n : Nat) (hq : q ≤ P) (hn : n = c * 2 ^ q) (f : Nat → α) :
    (tab n (mergeNet P q f)).Perm (tab n f) :=
  ceRange_perm 0 q c n (by rw [hn, Nat.zero_add]) (dirBit P)
    (fun t ht i _ => by rw [Nat.zero_add]; exact dirBit_partner P t i (by omega)) f

/-- The sorting network permutes the buffer. -/
theorem sortNet_perm (p c n : Nat) (hn : n = c * 2 ^ p) (f : Nat → α) :
    (tab n (sortNet p f)).Perm (tab n f) := by
  induction p generalizing c with
  | zero => exact List.Perm.refl _
  | succ p ih =>
    have hp : 2 ^ (p + 1) = 2 * 2 ^ p := by rw [pow_succ]; ring
    show (tab n (mergeNet (p + 1) (p + 1) (sortNet p f))).Perm (tab n f)
    exact List.Perm.trans (mergeNet_perm (p + 1) (p + 1) c n (le_refl _) hn _)
      (ih (2 * c) (by rw [hn, hp]; ring))

end Permutation

theorem dispatch_transpose_sq {α : Type} (n m B : Nat) (hn : n = m * B) (hB : 0 < B)
    (src dst : List α) (d : α) (width : Nat) (hs : src.length = n * n)
    (hd : dst.length = n * n) :
    dispatch_transpose n n B src dst width n = .ok (tab (n * n) (transposeFn n (fn d src))) := by
  subst hn
  exact dispatch_transpose_square m B hB src dst d width hs hd

section HostSteps

variable {α : Type} [LinearOrder α]

theorem maskDir_two_pow (p : Nat) : maskDir (2 ^ p) = dirBit p :=
  funext (fun g => mask_two_pow p g)

theorem maskDir_zero (i : Nat) : maskDir 0 i = false := by
  simp [maskDir]

/-- The mask of the column sort: `(level & ~NUM_ELEMENTS) / BITONIC_BLOCK_SIZE`
is `level / BITONIC_BLOCK_SIZE` below the last level and `0` at the last
level. -/
theorem cross_mask (k s : Nat) (hk : k ≤ 15) (hs : s ≤ k) :
    (2 ^ (k + s) &&& not32 (2 ^ k * 2 ^ k)) / 2 ^ k = if s < k then 2 ^ s else 0 := by
  have hN : 2 ^ k * 2 ^ k = 2 ^ (k + k) := by rw [pow_add]
  rw [hN, Nat.two_pow_and, testBit_not32_two_pow (k + k) (k + s) (by omega)]
  by_cases h : s < k
  · have h1 : decide (k + s < 32) = true := by simp; omega
    have h2 : decide (k + k = k + s) = false := by simp; omega
    rw [h1, h2, if_pos h]
    simp only [Bool.not_false, Bool.and_self, Bool.toNat_true, Nat.mul_one]
    rw [pow_add, Nat.mul_div_cancel_left _ (Nat.two_pow_pos k)]
  · have h2 : decide (k + k = k + s) = true := by simp; omega
    rw [h2, if_neg h]
    simp

theorem cross_level (k s : Nat) : 2 ^ (k + s) / 2 ^ k = 2 ^ s := by
  rw [pow_add, Nat.mul_div_cancel_left _ (Nat.two_pow_pos k)]

/-- The direction flag of the column sort, read at the transposed position, is
the direction of the level. -/
theorem cross_dir (k s : Nat) (hk : k ≤ 15) (hs : s ≤ k) (i : Nat)
    (hi : i < 2 ^ k * 2 ^ k) :
    maskDir ((2 ^ (k + s) &&& not32 (2 ^ k * 2 ^ k)) / 2 ^ k) (trIdx (2 ^ k) i)
      = dirBit (k + s) i := by
  rw [cross_mask k s hk hs]
  by_cases h : s < k
  · rw [if_pos h, maskDir_two_pow]
    exact testBit_trIdx k i s h hi
  · have : s = k := by omega
    subst this
    rw [if_neg h, maskDir_zero]
    unfold dirBit
    rw [testBit_eq_false_of_lt i (s + s) (s + s) (by rw [pow_add]; exact hi) (le_refl _)]

theorem u32_two_pow (k : Nat) (hk : k < 32) : u32 (2 ^ k) = 2 ^ k :=
  u32_of_lt _ (Nat.pow_lt_pow_right (by norm_num) hk)

/-- One iteration of the second loop at `level = 2 ^ (k + s)` is the merge of
that level. -/
theorem sandwich_ok (k m B s : Nat) (hk : k ≤ 15) (hB : 0 < B) (hT : 2 ^ k = m * B)
    (hs : s ≤ k) (dev : Device α) (f : Nat → α)
    (hdata : dev.data = tab (2 ^ k * 2 ^ k) f) (htemp : dev.temp.length = 2 ^ k * 2 ^ k) :
    ∃ temp : List α, temp.length = 2 ^ k * 2 ^ k ∧
      sandwich (Config.square (2 ^ k) B) (2 ^ (k + s)) dev
        = .ok { data := tab (2 ^ k * 2 ^ k) (mergeNet (k + s) (k + s) f)
                temp := temp
                log := dev.log ++ sandwichLog (2 ^ k) (2 ^ k * 2 ^ k) (2 ^ (k + s)) } := by
  have d : α := f 0
  have hTpos : 0 < 2 ^ k := Nat.two_pow_pos k
  have hu : u32 (2 ^ k) = 2 ^ k := u32_two_pow k (by omega)
  -- step 1
  have h1 : dispatch_transpose (2 ^ k) (2 ^ k) B dev.data dev.temp (2 ^ k) (2 ^ k)
      = .ok (tab (2 ^ k * 2 ^ k) (transposeFn (2 ^ k) f)) := by
    rw [dispatch_transpose_sq (2 ^ k) m B hT hB dev.data dev.temp d (2 ^ k)
      (by rw [hdata, tab_length]) htemp]
    congr 1
    apply tab_congr
    intro i hi
    unfold transposeFn
    rw [hdata, fn_tab _ _ _ _ (trIdx_lt _ i hi)]
  -- step 2
  have hj2 : u32 (2 ^ (k + s) / 2 ^ k) >>> 1 < 2 ^ k := by
    rw [cross_level, u32_two_pow s (by omega), Nat.shiftRight_eq_div_pow, pow_one]
    have : 2 ^ s ≤ 2 ^ k := Nat.pow_le_pow_right (by norm_num) hs
    omega
  have hN2 : 2 ^ k * 2 ^ k = 2 ^ (k + (k - s)) * 2 ^ (0 + s) := by
    rw [← pow_add, ← pow_add]; congr 1; omega
  have h2 : dispatch_bitonic (2 ^ k * 2 ^ k) (2 ^ k) (tab (2 ^ k * 2 ^ k) (transposeFn (2 ^ k) f))
      (2 ^ (k + s) / 2 ^ k) ((2 ^ (k + s) &&& not32 (2 ^ k * 2 ^ k)) / 2 ^ k)
      = .ok (tab (2 ^ k * 2 ^ k)
          (ceRange (maskDir ((2 ^ (k + s) &&& not32 (2 ^ k * 2 ^ k)) / 2 ^ k)) 0 s
            (transposeFn (2 ^ k) f))) := by
    rw [dispatch_bitonic_ok k (2 ^ k) (2 ^ k) rfl _ d _ _ hj2 (tab_length _ _)]
    congr 1
    apply tab_congr
    intro i hi
    rw [cross_level, stageFn_two_pow k (2 ^ k) s _ rfl (by omega) hs]
    exact ceRange_congr 0 s _ _ hN2 _ _ _ _ (fun x hx => fn_tab _ _ _ _ hx)
      (fun _ _ => rfl) i hi
  -- step 3
  have hN3 : 2 ^ k * 2 ^ k = 2 ^ (k - s) * 2 ^ (k + s) := by
    rw [← pow_add, ← pow_add]; congr 1; omega
  have h3 : dispatch_transpose (2 ^ k) (2 ^ k) B
      (tab (2 ^ k * 2 ^ k)
          (ceRange (maskDir ((2 ^ (k + s) &&& not32 (2 ^ k * 2 ^ k)) / 2 ^ k)) 0 s
            (transposeFn (2 ^ k) f))) dev.data (2 ^ k) (2 ^ k)
      = .ok (tab (2 ^ k * 2 ^ k) (ceRange (dirBit (k + s)) k s f)) := by
    rw [dispatch_transpose_sq (2 ^ k) m B hT hB _ dev.data d (2 ^ k) (tab_length _ _)
      (by rw [hdata, tab_length])]
    congr 1
    apply tab_congr
    intro i hi
    unfold transposeFn
    rw [fn_tab _ _ _ _ (trIdx_lt _ i hi)]
    have := ceRange_transpose k s hs
      (maskDir ((2 ^ (k + s) &&& not32 (2 ^ k * 2 ^ k)) / 2 ^ k)) f i hi
    unfold transposeFn at this
    rw [this]
    exact ceRange_congr k s _ _ hN3 _ _ _ _ (fun _ _ => rfl)
      (fun x hx => cross_dir k s hk hs x hx) i hi
  -- step 4
  have hj4 : u32 (2 ^ k) >>> 1 < 2 ^ k := by
    rw [hu, Nat.shiftRight_eq_div_pow, pow_one]; omega
  have hN4 : 2 ^ k * 2 ^ k = 2 ^ k * 2 ^ (0 + k) := by rw [Nat.zero_add]
  have h4 : dispatch_bitonic (2 ^ k * 2 ^ k) (2 ^ k)
      (tab (2 ^ k * 2 ^ k) (ceRange (dirBit (k + s)) k s f)) (2 ^ k) (2 ^ (k + s))
      = .ok (tab (2 ^ k * 2 ^ k) (mergeNet (k + s) (k + s) f)) := by
    rw [dispatch_bitonic_ok k (2 ^ k) (2 ^ k) rfl _ d _ _ hj4 (tab_length _ _)]
    congr 1
    apply tab_congr
    intro i hi
    rw [stageFn_two_pow k (2 ^ k) k _ rfl (by omega) (le_refl _), maskDir_two_pow]
    unfold mergeNet
    rw [ceRange_split]
    exact ceRange_congr 0 k _ _ hN4 _ _ _ _ (fun x hx => fn_tab _ _ _ _ hx)
      (fun _ _ => rfl) i hi
  refine ⟨_, tab_length _ (ceRange (maskDir ((2 ^ (k + s) &&& not32 (2 ^ k * 2 ^ k)) / 2 ^ k))
    0 s (transposeFn (2 ^ k) f)), ?_⟩
  unfold sandwich
  simp only [Config.square, hu]
  rw [if_neg (Nat.ne_of_gt hTpos)]
  simp only [h1, h2, h3, h4, sandwichLog, pure, bind, Except.bind, Except.pure]
  simp

end HostSteps

theorem doublings_succ (lo n : Nat) : doublings lo (n + 1) = lo :: doublings (lo * 2) n := by
  unfold doublings
  rw [List.range_succ_eq_map, List.map_cons, List.map_map]
  simp only [pow_zero, Nat.mul_one, List.cons.injEq, true_and]
  apply List.map_congr_left
  intro i _
  simp only [Function.comp, Nat.succ_eq_add_one, pow_succ]
  ring

section HostLoops

variable {α : Type} [LinearOrder α]

/-- The first loop, entered at `level = 2 ^ (p + 1)` with the first `p` levels
of the network done, runs the remaining `n = k - p` levels. -/
theorem phase1_ok (k : Nat) (B : Nat) (hk : k ≤ 15) (f : Nat → α) (n p fuel : Nat)
    (hp : p + n = k) (hfuel : n ≤ fuel) (dev : Device α)
    (hdata : dev.data = tab (2 ^ k * 2 ^ k) (sortNet p f)) :
    phase1 (Config.square (2 ^ k) B) fuel (2 ^ (p + 1)) dev
      = .ok { data := tab (2 ^ k * 2 ^ k) (sortNet k f)
              temp := dev.temp
              log := dev.log ++ phase1Log (doublings (2 ^ (p + 1)) n) } := by
  have d : α := f 0
  have hu : u32 (2 ^ k) = 2 ^ k := u32_two_pow k (by omega)
  induction n generalizing p fuel dev with
  | zero =>
    have hpk : p = k := by omega
    subst hpk
    have hgt : ¬ (2 ^ (p + 1) ≤ u32 (2 ^ p)) := by
      rw [hu, pow_succ]; have := Nat.two_pow_pos p; omega
    have hres : (Except.ok dev : Except Fault (Device α))
        = .ok { data := tab (2 ^ p * 2 ^ p) (sortNet p f), temp := dev.temp,
                log := dev.log ++ phase1Log (doublings (2 ^ (p + 1)) 0) } := by
      rw [← hdata]; simp [phase1Log, doublings]
    cases fuel with
    | zero => rw [phase1]; simp only [Config.square]; rw [if_neg hgt, hres]
    | succ fuel => rw [phase1]; simp only [Config.square]; rw [if_neg hgt, hres]
  | succ n ih =>
    obtain ⟨fuel', rfl⟩ : ∃ x, fuel = x + 1 := ⟨fuel - 1, by omega⟩
    have hle : 2 ^ (p + 1) ≤ u32 (2 ^ k) := by
      rw [hu]; exact Nat.pow_le_pow_right (by norm_num) (by omega)
    have hj : u32 (2 ^ (p + 1)) >>> 1 < 2 ^ k := by
      rw [u32_two_pow _ (by omega), two_pow_succ_shiftRight]
      exact Nat.pow_lt_pow_right (by norm_num) (by omega)
    have hN : 2 ^ k * 2 ^ k = 2 ^ (k + (k - (p + 1))) * 2 ^ (0 + (p + 1)) := by
      rw [← pow_add, ← pow_add]; congr 1; omega
    have hstage : dispatch_bitonic (2 ^ k * 2 ^ k) (2 ^ k) dev.data (2 ^ (p + 1)) (2 ^ (p + 1))
        = .ok (tab (2 ^ k * 2 ^ k) (sortNet (p + 1) f)) := by
      rw [dispatch_bitonic_ok k (2 ^ k) (2 ^ k) rfl _ d _ _ hj (by rw [hdata, tab_length])]
      congr 1
      apply tab_congr
      intro i hi
      rw [stageFn_two_pow k (2 ^ k) (p + 1) _ rfl (by omega) (by omega), maskDir_two_pow, hdata]
      show _ = mergeNet (p + 1) (p + 1) (sortNet p f) i
      exact ceRange_congr 0 (p + 1) _ _ hN _ _ _ _ (fun x hx => fn_tab _ _ _ _ hx)
        (fun _ _ => rfl) i hi
    have hnext : u32 (2 ^ (p + 1) * 2) = 2 ^ (p + 1 + 1) := by
      rw [← pow_succ]; exact u32_two_pow _ (by omega)
    rw [phase1]
    simp only [Config.square]
    rw [if_pos hle, hstage]
    show phase1 (Config.square (2 ^ k) B) fuel' (u32 (2 ^ (p + 1) * 2)) _ = _
    rw [hnext, ih (p + 1) fuel' (by omega) (by omega) _ rfl]
    simp only [doublings_succ, phase1Log, List.map_cons, List.append_assoc, List.singleton_append,
      pow_succ]

/-- The second loop, entered at `level = 2 ^ (k + s + 1)` with the first
`k + s` levels of the network done, runs the remaining `n = k - s` levels. -/
theorem phase2_ok (k m B : Nat) (hk : k ≤ 15) (hB : 0 < B) (hT : 2 ^ k = m * B) (f : Nat → α)
    (n s fuel : Nat) (hs : s + n = k) (hfuel : n ≤ fuel) (dev : Device α)
    (hdata : dev.data = tab (2 ^ k * 2 ^ k) (sortNet (k + s) f))
    (htemp : dev.temp.length = 2 ^ k * 2 ^ k) :
    ∃ temp : List α, temp.length = 2 ^ k * 2 ^ k ∧
      phase2 (Config.square (2 ^ k) B) fuel (2 ^ (k + s + 1)) dev
        = .ok { data := tab (2 ^ k * 2 ^ k) (sortNet (k + k) f)
                temp := temp
                log := dev.log ++ phase2Log (2 ^ k) (2 ^ k * 2 ^ k)
                  (doublings (2 ^ (k + s + 1)) n) } := by
  have hu : u32 (2 ^ k * 2 ^ k) = 2 ^ k * 2 ^ k := by
    rw [← pow_add]; exact u32_two_pow _ (by omega)
  induction n generalizing s fuel dev with
  | zero =>
    have hsk : s = k := by omega
    subst hsk
    have hgt : ¬ (2 ^ (s + s + 1) ≤ u32 (2 ^ s * 2 ^ s)) := by
      rw [hu, pow_succ, pow_add]; have := Nat.two_pow_pos s
      have := Nat.mul_pos this this; omega
    have hres : (Except.ok dev : Except Fault (Device α))
        = .ok { data := tab (2 ^ s * 2 ^ s) (sortNet (s + s) f), temp := dev.temp,
                log := dev.log ++ phase2Log (2 ^ s) (2 ^ s * 2 ^ s)
                  (doublings (2 ^ (s + s + 1)) 0) } := by
      rw [← hdata]; simp [phase2Log, doublings]
    refine ⟨dev.temp, htemp, ?_⟩
    cases fuel with
    | zero => rw [phase2]; simp only [Config.square]; rw [if_neg hgt, hres]
    | succ fuel => rw [phase2]; simp only [Config.square]; rw [if_neg hgt, hres]
  | succ n ih =>
    obtain ⟨fuel', rfl⟩ : ∃ x, fuel = x + 1 := ⟨fuel - 1, by omega⟩
    have hle : 2 ^ (k + s + 1) ≤ u32 (2 ^ k * 2 ^ k) := by
      rw [hu, ← pow_add]; exact Nat.pow_le_pow_right (by norm_num) (by omega)
    obtain ⟨temp1, htemp1, hsand⟩ :=
      sandwich_ok k m B (s + 1) hk hB hT (by omega) dev (sortNet (k + s) f) hdata htemp
    have hnext : u32 (2 ^ (k + s + 1) * 2) = 2 ^ (k + s + 1 + 1) := by
      rw [← pow_succ]; exact u32_two_pow _ (by omega)
    obtain ⟨temp2, htemp2, hrest⟩ := ih (s + 1) fuel' (by omega) (by omega)
      { data := tab (2 ^ k * 2 ^ k) (mergeNet (k + (s + 1)) (k + (s + 1)) (sortNet (k + s) f))
        temp := temp1
        log := dev.log ++ sandwichLog (2 ^ k) (2 ^ k * 2 ^ k) (2 ^ (k + (s + 1))) } rfl htemp1
    refine ⟨temp2, htemp2, ?_⟩
    rw [phase2]
    simp only [Config.square]
    rw [if_pos hle]
    have hsand' := hsand
    simp only [Config.square, ← Nat.add_assoc] at hsand'
    rw [hsand']
    show phase2 (Config.square (2 ^ k) B) fuel' (u32 (2 ^ (k + s + 1) * 2)) _ = _
    rw [hnext]
    simp only [← Nat.add_assoc] at hrest
    rw [hrest]
    simp only [doublings_succ, phase2Log, List.flatMap_cons, List.append_assoc, pow_succ]

end HostLoops

section HostRun

variable {α : Type} [LinearOrder α]

/-- On a valid configuration `bitonic_sort_amp` returns the bitonic sorting
network of `2 * k` levels applied to the first `N` input elements, after the
launches of the schedule. -/
theorem bitonic_sort_amp_run (k m B : Nat) (hk : k ≤ 15) (hB : 0 < B) (hT : 2 ^ k = m * B)
    (data_in data_out : List α) (d : α) (hin : 2 ^ k * 2 ^ k ≤ data_in.length)
    (hout : data_out.length = 2 ^ k * 2 ^ k) :
    bitonic_sort_amp (Config.square (2 ^ k) B) data_in data_out
      = .ok { data_out := tab (2 ^ k * 2 ^ k)
                (sortNet (k + k) (fn d (data_in.take (2 ^ k * 2 ^ k))))
              log := specSchedule (2 ^ k) (2 ^ k * 2 ^ k) } := by
  have hTpos : 0 < 2 ^ k := Nat.two_pow_pos k
  have hdata : (data_in.take data_out.length)
      = tab (2 ^ k * 2 ^ k) (sortNet 0 (fn d (data_in.take (2 ^ k * 2 ^ k)))) := by
    have hl : (data_in.take (2 ^ k * 2 ^ k)).length = 2 ^ k * 2 ^ k := by
      rw [List.length_take]; omega
    rw [hout]
    conv_lhs => rw [← tab_fn d (data_in.take (2 ^ k * 2 ^ k)), hl]
    rfl
  have h1 := phase1_ok k B hk (fn d (data_in.take (2 ^ k * 2 ^ k))) k 0 64 (by omega) (by omega)
    { data := data_in.take data_out.length, temp := data_out, log := [] } hdata
  obtain ⟨temp, _, h2⟩ := phase2_ok k m B hk hB hT (fn d (data_in.take (2 ^ k * 2 ^ k))) k 0 64
    (by omega) (by omega)
    { data := tab (2 ^ k * 2 ^ k) (sortNet k (fn d (data_in.take (2 ^ k * 2 ^ k))))
      temp := data_out
      log := [] ++ phase1Log (doublings (2 ^ (0 + 1)) k) } rfl hout
  have hstart : u32 (2 ^ k * 2) = 2 ^ (k + 0 + 1) := by
    rw [Nat.add_zero, ← pow_succ]; exact u32_two_pow _ (by omega)
  have hlog : specSchedule (2 ^ k) (2 ^ k * 2 ^ k)
      = [] ++ phase1Log (doublings (2 ^ (0 + 1)) k)
          ++ phase2Log (2 ^ k) (2 ^ k * 2 ^ k) (doublings (2 ^ (k + 0 + 1)) k) := by
    unfold specSchedule
    rw [← pow_add, Nat.log2_two_pow, Nat.log2_two_pow, Nat.add_sub_cancel]
    simp only [List.nil_append, Nat.zero_add, pow_one, Nat.add_zero, pow_succ, pow_add]
    congr 3
    ring
  unfold bitonic_sort_amp
  simp only [Config.square]
  rw [if_neg (by simp; omega), if_neg (by simp [Nat.mul_div_cancel _ hTpos]),
    if_neg (by simp [hT]), if_neg (by simp [hout]), if_neg (by omega)]
  simp only [Config.square, pow_one, Nat.zero_add, Nat.add_zero] at h1 h2 hstart hlog
  simp only [pure, bind, Except.bind, Except.pure, h1, hstart, h2, hlog]

end HostRun

theorem tab_getElem {α : Type} (n : Nat) (f : Nat → α) (i : Nat) (h : i < (tab n f).length) :
    (tab n f)[i] = f i := by
  have hn : i < n := by rw [tab_length] at h; exact h
  have := tab_getElem? n f i
  rw [if_pos hn, List.getElem?_eq_getElem h] at this
  exact Option.some.inj this

section SortContract

variable {α : Type} [LinearOrder α]

/-- A valid tile edge: a power of two whose square fits an `unsigned`. -/
theorem valid_exponent (k T : Nat) (hT : T = 2 ^ k) (hN : T * T < 2 ^ 32) : k ≤ 15 := by
  subst hT
  rw [← pow_add] at hN
  have := (Nat.pow_lt_pow_iff_right (by norm_num : 1 < 2)).mp hN
  omega

/-- The output of the network on the whole buffer is non-decreasing. -/
theorem sortNet_mono (k : Nat) (f : Nat → α) (i j : Nat) (hij : i ≤ j)
    (hj : j < 2 ^ k * 2 ^ k) : sortNet (k + k) f i ≤ sortNet (k + k) f j := by
  have h := sortNet_sorted (k + k) f 0 i j hij (by rw [pow_add]; exact hj)
  simpa [ord] using h

theorem sortNet_list_sorted (k : Nat) (f : Nat → α) :
    List.Sorted (· ≤ ·) (tab (2 ^ k * 2 ^ k) (sortNet (k + k) f)) := by
  unfold List.Sorted
  rw [List.pairwise_iff_getElem]
  intro i j hi hj hij
  rw [tab_getElem, tab_getElem]
  exact sortNet_mono k f i j (le_of_lt hij) (by rw [tab_length] at hj; exact hj)

/-- The run of `bitonic_sort_amp` on a valid configuration with buffers of
`N` elements, in the terms of the claims. -/
theorem bitonic_sort_amp_network (k T B : Nat) (hT : T = 2 ^ k) (hN : T * T < 2 ^ 32)
    (hB : 0 < B) (hdiv : B ∣ T) (data_in data_out : List α) (d : α)
    (hin : data_in.length = T * T) (hout : data_out.length = T * T) :
    bitonic_sort_amp (Config.square T B) data_in data_out
      = .ok { data_out := tab (T * T) (sortNet (k + k) (fn d data_in))
              log := specSchedule T (T * T) } := by
  have hk := valid_exponent k T hT hN
  obtain ⟨m, hm⟩ := hdiv
  subst hT
  have := bitonic_sort_amp_run k m B hk hB (by rw [hm, Nat.mul_comm]) data_in data_out d
    (by omega) hout
  rw [List.take_of_length_le (by omega)] at this
  exact this

end SortContract

section Idempotence

variable {α : Type} [LinearOrder α]

/-- A list whose neighbours are in order is sorted. -/
theorem sorted_of_adjacent (l : List α)
    (h : ∀ i (hi : i < l.length), 1 ≤ i → l[i - 1] ≤ l[i]) : List.Sorted (· ≤ ·) l := by
  unfold List.Sorted
  rw [List.pairwise_iff_getElem]
  intro i j hi hj hij
  obtain ⟨n, rfl⟩ : ∃ n, j = i + n := ⟨j - i, by omega⟩
  clear hij
  induction n with
  | zero => exact le_refl _
  | succ n ih =>
    have h1 := ih (by omega)
    have h2 := h (i + (n + 1)) hj (by omega)
    exact le_trans h1 h2

end Idempotence

section TransposeClaims

variable {α : Type}

/-- On a square matrix every destination index is the target of exactly one
thread of the launch. -/
theorem transposeTargets_perm (m B : Nat) (hB : 0 < B) :
    (transposeTargets (m * B) (m * B) B (m * B)).Perm (List.range ((m * B) * (m * B))) := by
  have hdiv : m * B / B = m := Nat.mul_div_cancel _ hB
  unfold transposeTargets
  rw [hdiv]
  apply (List.perm_ext_iff_of_nodup _ (List.nodup_range _)).mpr
  · intro a
    rw [List.mem_flatMap, List.mem_range]
    constructor
    · rintro ⟨t, ht, ha⟩
      obtain ⟨k, hk, rfl⟩ := List.mem_map.mp ha
      exact dstIndex_lt m B t k (List.mem_range.mp ht) (List.mem_range.mp hk)
    · intro ha
      obtain ⟨t, k, ht, hk, rfl⟩ := dstIndex_surj m B a hB ha
      exact ⟨t, List.mem_range.mpr ht, List.mem_map.mpr ⟨k, List.mem_range.mpr hk, rfl⟩⟩
  · rw [List.nodup_flatMap]
    constructor
    · intro t ht
      apply List.Nodup.map_on _ (List.nodup_range _)
      intro a ha b hb hab
      exact (dstIndex_inj m B t a t b (List.mem_range.mp ht) (List.mem_range.mp ha)
        (List.mem_range.mp ht) (List.mem_range.mp hb) hab).2
    · apply List.Nodup.pairwise_of_forall_ne (List.nodup_range _)
      intro t ht t' ht' hne
      show List.Disjoint _ _
      intro x hx hx'
      obtain ⟨a, ha, rfl⟩ := List.mem_map.mp hx
      obtain ⟨b, hb, hab⟩ := List.mem_map.mp hx'
      exact hne (dstIndex_inj m B t a t' b (List.mem_range.mp ht) (List.mem_range.mp ha)
        (List.mem_range.mp ht') (List.mem_range.mp hb) hab.symm).1

/-- The launch of `transpose_kernel` on a square matrix, with the inhabitant
of the element type taken from the source. -/
theorem dispatch_transpose_square_ex (n B : Nat) (hB : 0 < B) (hdiv : B ∣ n) (src dst : List α)
    (width : Nat) (hs : src.length = n * n) (hd : dst.length = n * n) :
    ∃ out, dispatch_transpose n n B src dst width n = .ok out ∧ out.length = n * n
      ∧ ∀ r c, r < n → c < n → out[c * n + r]? = src[r * n + c]? := by
  obtain ⟨m, hm⟩ := hdiv
  have hn : n = m * B := by rw [hm, Nat.mul_comm]
  subst hn
  cases src with
  | nil =>
    have h0 : m * B * (m * B) = 0 := by simpa using hs.symm
    have hm0 : m = 0 := by
      rcases Nat.mul_eq_zero.mp h0 with h | h <;>
        rcases Nat.mul_eq_zero.mp h with h' | h' <;> omega
    subst hm0
    have hdnil : dst = [] := List.eq_nil_of_length_eq_zero (by simpa using hd)
    subst hdnil
    refine ⟨[], ?_, by simp, fun r c hr _ => by omega⟩
    unfold dispatch_transpose
    rw [if_neg (by simp; omega)]
    simp only [Nat.zero_mul, Nat.zero_div, List.range_zero, List.foldlM_nil]
    rfl
  | cons d tl =>
    refine ⟨_, dispatch_transpose_square m B hB (d :: tl) dst d width hs hd, tab_length _ _, ?_⟩
    intro r c hr hc
    have h1 : c * (m * B) + r < m * B * (m * B) := pair_lt _ _ c r hc hr
    have h2 : r * (m * B) + c < (d :: tl).length := by rw [hs]; exact pair_lt _ _ r c hr hc
    rw [tab_getElem?, if_pos h1, List.getElem?_eq_getElem h2]
    congr 1
    unfold transposeFn
    rw [trIdx_pair _ c r hr]
    exact fn_eq_getElem d _ _ h2

end TransposeClaims

section StageClaims

variable {α : Type} [LinearOrder α]

theorem sortedBlk_up_of_adjacent (f : Nat → α) (s n : Nat)
    (h : ∀ o, 1 ≤ o → o < n → f (s + (o - 1)) ≤ f (s + o)) : SortedBlk false f s n := by
  intro o o' hoo ho'
  obtain ⟨t, rfl⟩ : ∃ t, o' = o + t := ⟨o' - o, by omega⟩
  clear hoo
  simp only [ord, Bool.false_eq_true, if_false]
  induction t with
  | zero => exact le_refl _
  | succ t ih =>
    have h1 := ih (by omega)
    have h2 := h (o + (t + 1)) (by omega) ho'
    exact le_trans h1 h2

theorem sortedBlk_down_of_adjacent (f : Nat → α) (s n : Nat)
    (h : ∀ o, 1 ≤ o → o < n → f (s + o) ≤ f (s + (o - 1))) : SortedBlk true f s n := by
  intro o o' hoo ho'
  obtain ⟨t, rfl⟩ : ∃ t, o' = o + t := ⟨o' - o, by omega⟩
  clear hoo
  simp only [ord, if_true]
  induction t with
  | zero => exact le_refl _
  | succ t ih =>
    have h1 := ih (by omega)
    have h2 := h (o + (t + 1)) (by omega) ho'
    exact le_trans h2 h1

end StageClaims

section ScheduleClaims

variable {α : Type} [LinearOrder α]

theorem doublings_length (lo n : Nat) : (doublings lo n).length = n := by
  simp [doublings]

theorem phase1Log_length (levels : List Nat) : (phase1Log levels).length = levels.length := by
  simp [phase1Log]

theorem phase2Log_length (T N : Nat) (levels : List Nat) :
    (phase2Log T N levels).length = 4 * levels.length := by
  induction levels with
  | nil => rfl
  | cons l ls ih =>
    show (sandwichLog T N l ++ phase2Log T N ls).length = _
    rw [List.length_append, ih]
    simp only [sandwichLog, List.length_cons, List.length_nil]
    omega

theorem specSchedule_length (T N : Nat) :
    (specSchedule T N).length = Nat.log2 T + 4 * (Nat.log2 N - Nat.log2 T) := by
  unfold specSchedule
  rw [List.length_append, phase1Log_length, phase2Log_length, doublings_length,
    doublings_length]

end ScheduleClaims

section NoLateAssertion

variable {α β : Type}

theorem NoAssert_ok (b : β) : NoAssert (.ok b : Except Fault β) := fun h => nomatch h

theorem NoAssert_bind {γ : Type} (x : Except Fault β) (f : β → Except Fault γ)
    (hx : NoAssert x) (hf : ∀ b, NoAssert (f b)) : NoAssert (x >>= f) := by
  cases x with
  | error e => intro h; exact hx (by cases e <;> first | rfl | exact nomatch h)
  | ok b => exact hf b

theorem NoAssert_readAt (buf : List α) (i : Nat) : NoAssert (readAt buf i) := by
  unfold readAt
  cases buf[i]? with
  | none => exact fun h => nomatch h
  | some v => exact NoAssert_ok v

theorem NoAssert_writeAt (buf : List α) (i : Nat) (v : α) : NoAssert (writeAt buf i v) := by
  unfold writeAt
  split
  · exact NoAssert_ok _
  · exact fun h => nomatch h

theorem NoAssert_mapM (xs : List Nat) (f : Nat → Except Fault β) (hf : ∀ x, NoAssert (f x)) :
    NoAssert (xs.mapM f) := by
  induction xs with
  | nil => exact NoAssert_ok _
  | cons x xs ih =>
    rw [List.mapM_cons]
    exact NoAssert_bind _ _ (hf x) (fun b => NoAssert_bind _ _ ih (fun bs => NoAssert_ok _))

theorem NoAssert_foldlM (xs : List Nat) (f : β → Nat → Except Fault β)
    (hf : ∀ b x, NoAssert (f b x)) (b : β) : NoAssert (xs.foldlM f b) := by
  induction xs generalizing b with
  | nil => exact NoAssert_ok _
  | cons x xs ih =>
    rw [List.foldlM_cons]
    exact NoAssert_bind _ _ (hf b x) (fun b' => ih b')

theorem NoAssert_dispatch_transpose (W H B : Nat) (src dst : List α) (width height : Nat) :
    NoAssert (dispatch_transpose W H B src dst width height) := by
  unfold dispatch_transpose
  split
  · exact fun h => nomatch h
  · refine NoAssert_foldlM _ _ (fun b t => ?_) _
    unfold transpose_kernel
    simp only []
    refine NoAssert_bind _ _ (NoAssert_mapM _ _ (fun l => NoAssert_readAt _ _)) (fun sh => ?_)
    exact NoAssert_foldlM _ _ (fun b l =>
      NoAssert_bind _ _ (NoAssert_readAt _ _) (fun v => NoAssert_writeAt _ _ _)) _

end NoLateAssertion

section NoLateAssertionKernels

variable {α : Type} [LinearOrder α]

theorem NoAssert_roundThread (mask j : Nat) (sh : List α) (l g : Nat) :
    NoAssert (roundThread mask j sh l g) := by
  unfold roundThread
  refine NoAssert_bind _ _ (NoAssert_readAt _ _) (fun lo => ?_)
  refine NoAssert_bind _ _ (NoAssert_readAt _ _) (fun hi => ?_)
  split <;> exact NoAssert_readAt _ _

theorem NoAssert_roundsLoop (T mask tile fuel j : Nat) (sh : List α) :
    NoAssert (roundsLoop T mask tile fuel j sh) := by
  induction fuel generalizing j sh with
  | zero =>
    rw [roundsLoop]
    split
    · exact fun h => nomatch h
    · exact NoAssert_ok _
  | succ fuel ih =>
    rw [roundsLoop]
    split
    · exact NoAssert_bind _ _ (NoAssert_mapM _ _ (fun l => NoAssert_roundThread _ _ _ _ _))
        (fun sh' => ih _ sh')
    · exact NoAssert_ok _

theorem NoAssert_kernel (T : Nat) (data : List α) (ulevel mask tile : Nat) :
    NoAssert (bitonic_sort_kernel T data ulevel mask tile) := by
  unfold bitonic_sort_kernel
  refine NoAssert_bind _ _ (NoAssert_mapM _ _ (fun l => NoAssert_readAt _ _)) (fun sh => ?_)
  refine NoAssert_bind _ _ (NoAssert_roundsLoop _ _ _ _ _ _) (fun sh' => ?_)
  exact NoAssert_foldlM _ _ (fun b l =>
    NoAssert_bind _ _ (NoAssert_readAt _ _) (fun v => NoAssert_writeAt _ _ _)) _

theorem NoAssert_dispatch_bitonic (N T : Nat) (data : List α) (ulevel mask : Nat) :
    NoAssert (dispatch_bitonic N T data ulevel mask) := by
  unfold dispatch_bitonic
  split
  · exact fun h => nomatch h
  · exact NoAssert_foldlM _ _ (fun b t => NoAssert_kernel _ _ _ _ _) _

theorem NoAssert_phase1 (cfg : Config) (fuel level : Nat) (dev : Device α) :
    NoAssert (phase1 cfg fuel level dev) := by
  induction fuel generalizing level dev with
  | zero =>
    rw [phase1]
    split
    · exact fun h => nomatch h
    · exact NoAssert_ok _
  | succ fuel ih =>
    rw [phase1]
    split
    · exact NoAssert_bind _ _ (NoAssert_dispatch_bitonic _ _ _ _ _) (fun d => ih _ _)
    · exact NoAssert_ok _

theorem NoAssert_sandwich (cfg : Config) (level : Nat) (dev : Device α) :
    NoAssert (sandwich cfg level dev) := by
  unfold sandwich
  by_cases h0 : cfg.BITONIC_BLOCK_SIZE = 0
  · simp only [h0, if_true]
    exact fun h => nomatch h
  · simp only [h0, if_false]
    refine NoAssert_bind _ _ (NoAssert_ok _) (fun _ => ?_)
    refine NoAssert_bind _ _ (NoAssert_dispatch_transpose _ _ _ _ _ _ _) (fun t => ?_)
    refine NoAssert_bind _ _ (NoAssert_dispatch_bitonic _ _ _ _ _) (fun t' => ?_)
    refine NoAssert_bind _ _ (NoAssert_dispatch_transpose _ _ _ _ _ _ _) (fun d => ?_)
    refine NoAssert_bind _ _ (NoAssert_dispatch_bitonic _ _ _ _ _) (fun d' => ?_)
    exact NoAssert_ok _

theorem NoAssert_phase2 (cfg : Config) (fuel level : Nat) (dev : Device α) :
    NoAssert (phase2 cfg fuel level dev) := by
  induction fuel generalizing level dev with
  | zero =>
    rw [phase2]
    split
    · exact fun h => nomatch h
    · exact NoAssert_ok _
  | succ fuel ih =>
    rw [phase2]
    split
    · exact NoAssert_bind _ _ (NoAssert_sandwich _ _ _) (fun d => ih _ _)
    · exact NoAssert_ok _

/-- The assertions at the head of `bitonic_sort_amp`: the call fails on an
assertion exactly when one of the three asserted conditions is false; no later
step raises this fault. -/
theorem assertion_iff (cfg : Config) (hW : cfg.MATRIX_WIDTH ≠ 0)
    (hB : cfg.TRANSPOSE_BLOCK_SIZE ≠ 0) (data_in data_out : List α) :
    bitonic_sort_amp cfg data_in data_out = .error Fault.assertion
      ↔ (cfg.NUM_ELEMENTS / cfg.MATRIX_WIDTH ≠ cfg.MATRIX_WIDTH
        ∨ cfg.MATRIX_WIDTH % cfg.TRANSPOSE_BLOCK_SIZE ≠ 0
        ∨ cfg.MATRIX_HEIGHT % cfg.TRANSPOSE_BLOCK_SIZE ≠ 0
        ∨ data_out.length ≠ cfg.NUM_ELEMENTS) := by
  unfold bitonic_sort_amp
  rw [if_neg (by simp [hW, hB])]
  by_cases h1 : cfg.NUM_ELEMENTS / cfg.MATRIX_WIDTH = cfg.MATRIX_WIDTH
  · by_cases h2 : cfg.MATRIX_WIDTH % cfg.TRANSPOSE_BLOCK_SIZE = 0
        ∧ cfg.MATRIX_HEIGHT % cfg.TRANSPOSE_BLOCK_SIZE = 0
    · by_cases h3 : data_out.length = cfg.NUM_ELEMENTS
      · simp only [h1, h2, h3, not_true_eq_false, if_false, and_self, ne_eq, or_self, iff_false]
        by_cases h4 : data_in.length < cfg.NUM_ELEMENTS
        · simp only [h4, if_true]
          exact fun h => nomatch h
        · simp only [h4, if_false]
          refine NoAssert_bind _ _ (NoAssert_ok _) (fun _ => ?_)
          refine NoAssert_bind _ _ (NoAssert_ok _) (fun _ => ?_)
          refine NoAssert_bind _ _ (NoAssert_ok _) (fun _ => ?_)
          refine NoAssert_bind _ _ (NoAssert_ok _) (fun _ => ?_)
          refine NoAssert_bind _ _ (NoAssert_ok _) (fun _ => ?_)
          refine NoAssert_bind _ _ (NoAssert_phase1 _ _ _ _) (fun d => ?_)
          refine NoAssert_bind _ _ (NoAssert_phase2 _ _ _ _) (fun d' => ?_)
          exact NoAssert_ok _
      · simp only [h1, h2, h3, not_true_eq_false, if_false, not_false_eq_true, if_true, and_self,
          ne_eq, or_true, iff_true]
        rfl
    · simp only [h1, h2, not_true_eq_false, if_false, not_false_eq_true, if_true]
      constructor
      · intro _
        right
        by_cases hw : cfg.MATRIX_WIDTH % cfg.TRANSPOSE_BLOCK_SIZE = 0
        · right; left; exact fun hh => h2 ⟨hw, hh⟩
        · left; exact hw
      · intro _; rfl
  · simp only [h1, not_false_eq_true, if_true, ne_eq, true_or, iff_true]
    rfl

/-- When the assertions pass although `N` is not `T * T`, the tile edge does
not divide `N`, and the first launch of the first loop is rejected. -/
theorem first_launch_rejected (T N B : Nat) (hT : 0 < T) (hT32 : T < 2 ^ 32) (hdiv : N / T = T)
    (hsq : N ≠ T * T) (hb : T % B = 0) (hB : 0 < B) (data_in data_out : List α)
    (hout : data_out.length = N) (hin : ¬ data_in.length < data_out.length) :
    dispatch_bitonic N T (data_in.take data_out.length) 2 2 = .error Fault.bad_extent
      ∧ bitonic_sort_amp (Config.tiled T N B) data_in data_out = .error Fault.bad_extent := by
  have hm := Nat.div_add_mod N T
  rw [hdiv] at hm
  have hmod : N % T ≠ 0 := fun h0 => hsq (by rw [← hm, h0, Nat.add_zero])
  have hT2 : 2 ≤ T := by
    rcases Nat.lt_or_ge T 2 with h | h
    · exfalso
      have : T = 1 := by omega
      subst this
      exact hmod (Nat.mod_one N)
    · exact h
  have hd : ∀ buf : List α, dispatch_bitonic N T buf 2 2 = .error Fault.bad_extent := by
    intro buf
    unfold dispatch_bitonic
    rw [if_pos (Or.inr hmod)]
  refine ⟨hd _, ?_⟩
  unfold bitonic_sort_amp
  simp only [Config.tiled]
  rw [if_neg (by simp; omega), if_neg (by simp [hdiv]), if_neg (by simp [hb]),
    if_neg (by simp [hout]), if_neg hin]
  have hp : ∀ dev : Device α,
      phase1 (Config.tiled T N B) 64 2 dev = .error Fault.bad_extent := by
    intro dev
    rw [phase1]
    simp only [Config.tiled]
    rw [if_pos (by rw [u32_of_lt T hT32]; exact hT2), hd]
    rfl
  have hp' := hp { data := data_in.take data_out.length, temp := data_out, log := [] }
  simp only [Config.tiled] at hp'
  simp only [pure, bind, Except.bind, Except.pure, hp']

end NoLateAssertionKernels

section VerifyClaims

variable {α : Type} [LinearOrder α]

end VerifyClaims

theorem roundsTrace_length (fuel j : Nat) (hj : j < 2 ^ fuel) :
    (roundsTrace fuel j).length = if j = 0 then 0 else Nat.log2 j + 1 := by
  induction fuel generalizing j with
  | zero =>
    have : j = 0 := by simpa using hj
    subst this
    rfl
  | succ fuel ih =>
    rw [roundsTrace]
    by_cases h0 : j > 0
    · rw [if_pos h0, if_neg (by omega), List.length_cons, Nat.shiftRight_eq_div_pow, pow_one,
        ih (j / 2) (by rw [pow_succ] at hj; omega)]
      by_cases h2 : j ≥ 2
      · rw [if_neg (by omega)]
        conv_rhs => rw [Nat.log2, if_pos h2]
      · have h1 : j = 1 := by omega
        subst h1
        rw [if_pos (by norm_num), Nat.log2, if_neg (by norm_num)]
    · rw [if_neg h0, if_pos (by omega)]
      rfl

theorem kernel_rounds (ulevel : Nat) :
    (roundsTrace 32 (u32 ulevel >>> 1)).length = Nat.log2 (u32 ulevel) := by
  have hlt : u32 ulevel >>> 1 < 2 ^ 32 := by
    rw [Nat.shiftRight_eq_div_pow]
    exact Nat.lt_of_le_of_lt (Nat.div_le_self _ _) (u32_lt ulevel)
  rw [roundsTrace_length 32 _ hlt, Nat.shiftRight_eq_div_pow, pow_one]
  by_cases h2 : u32 ulevel ≥ 2
  · rw [if_neg (by omega)]
    conv_rhs => rw [Nat.log2, if_pos h2]
  · rw [if_pos (by omega), Nat.log2, if_neg h2]

section Trace

variable {α : Type} [LinearOrder α]

theorem roundsLoop_trace (T mask tile fuel j : Nat) (hj : j < 2 ^ fuel) (sh : List α) :
    roundsLoop T mask tile fuel j sh
      = (roundsTrace fuel j).foldlM (fun s j => roundTile T mask j s tile) sh := by
  induction fuel generalizing j sh with
  | zero =>
    have : j = 0 := by simpa using hj
    subst this
    rfl
  | succ fuel ih =>
    rw [roundsLoop, roundsTrace]
    by_cases h0 : j > 0
    · rw [if_pos h0, if_pos h0, List.foldlM_cons]
      congr 1
      funext s
      exact ih (j >>> 1) (by rw [Nat.shiftRight_eq_div_pow, pow_one, pow_succ] at *; omega) s
    · rw [if_neg h0, if_neg h0]
      rfl

end Trace

section Steps

variable {α : Type} [LinearOrder α]

/-- One iteration of the second loop is the four steps on the two-buffer
state, run in order. -/
theorem sandwich_steps (cfg : Config) (level : Nat) (dev : Device α) :
    sandwich cfg level dev =
      if cfg.BITONIC_BLOCK_SIZE = 0 then .error .div_by_zero
      else
        transpose_into_temp cfg dev
          >>= sort_columns cfg (level / u32 cfg.BITONIC_BLOCK_SIZE)
                ((level &&& not32 cfg.NUM_ELEMENTS) / u32 cfg.BITONIC_BLOCK_SIZE)
          >>= transpose_into_data cfg
          >>= sort_rows cfg (u32 cfg.BITONIC_BLOCK_SIZE) level := by
  unfold sandwich transpose_into_temp sort_columns transpose_into_data sort_rows
  by_cases h0 : cfg.BITONIC_BLOCK_SIZE = 0
  · simp only [h0, if_true]
    rfl
  · simp only [h0, if_false]
    cases h1 : dispatch_transpose cfg.MATRIX_WIDTH cfg.MATRIX_HEIGHT cfg.TRANSPOSE_BLOCK_SIZE
      dev.data dev.temp (u32 cfg.MATRIX_WIDTH) (u32 cfg.MATRIX_HEIGHT) with
    | error e => simp only [pure, bind, Except.bind, Except.pure, h1]
    | ok temp =>
      cases h2 : dispatch_bitonic cfg.NUM_ELEMENTS cfg.BITONIC_BLOCK_SIZE temp
        (level / u32 cfg.BITONIC_BLOCK_SIZE)
        ((level &&& not32 cfg.NUM_ELEMENTS) / u32 cfg.BITONIC_BLOCK_SIZE) with
      | error e => simp only [pure, bind, Except.bind, Except.pure, h1, h2]
      | ok temp2 =>
        cases h3 : dispatch_transpose cfg.MATRIX_WIDTH cfg.MATRIX_HEIGHT
          cfg.TRANSPOSE_BLOCK_SIZE temp2 dev.data (u32 cfg.MATRIX_HEIGHT)
          (u32 cfg.MATRIX_WIDTH) with
        | error e => simp only [pure, bind, Except.bind, Except.pure, h1, h2, h3]
        | ok data =>
          cases h4 : dispatch_bitonic cfg.NUM_ELEMENTS cfg.BITONIC_BLOCK_SIZE data
            (u32 cfg.BITONIC_BLOCK_SIZE) level with
          | error e => simp only [pure, bind, Except.bind, Except.pure, h1, h2, h3, h4]
          | ok data2 => simp only [pure, bind, Except.bind, Except.pure, h1, h2, h3, h4]

end Steps

theorem testBit_not32 (j i : Nat) (hj : j < 2 ^ 32) :
    (not32 j).testBit i = (decide (i < 32) && !j.testBit i) := by
  have h : not32 j = 2 ^ 32 - (j + 1) := by
    unfold not32 u32
    rw [Nat.mod_eq_of_lt hj]
    omega
  rw [h, Nat.testBit_two_pow_sub_succ hj]

/-- The lower and the upper index of the pair of `l` at distance `j`, for any
`j`: each of them has the pair `(l & ~j, l | j)` and the other one as its
partner. -/
theorem pair_indices (l j : Nat) (hl : l < 2 ^ 32) (hj : j < 2 ^ 32) :
    (l &&& not32 j) &&& not32 j = l &&& not32 j ∧ (l &&& not32 j) ||| j = l ||| j
      ∧ (l &&& not32 j) ^^^ j = l ||| j ∧ (l ||| j) &&& not32 j = l &&& not32 j
      ∧ (l ||| j) ||| j = l ||| j ∧ (l ||| j) ^^^ j = l &&& not32 j := by
  have key : ∀ i, (decide (i < 32) = false → l.testBit i = false ∧ j.testBit i = false) := by
    intro i hi
    have h32 : 32 ≤ i := by simpa using hi
    exact ⟨testBit_eq_false_of_lt l i 32 hl h32, testBit_eq_false_of_lt j i 32 hj h32⟩
  refine ⟨?_, ?_, ?_, ?_, ?_, ?_⟩ <;>
  · apply Nat.eq_of_testBit_eq
    intro i
    simp only [Nat.testBit_and, Nat.testBit_or, Nat.testBit_xor, testBit_not32 j i hj]
    have hk := key i
    revert hk
    cases decide (i < 32) <;> cases l.testBit i <;> cases j.testBit i <;> simp

section Round

variable {α : Type} [LinearOrder α]

theorem roundThread_fn (k T mask j l g : Nat) (sh : List α) (d : α) (hT : T = 2 ^ k)
    (hlen : sh.length = T) (hj : j < T) (hl : l < T) :
    roundThread mask j sh l g
      = .ok (if (decide (fn d sh (l &&& not32 j) ≤ fn d sh (l ||| j)))
              == (decide (mask &&& g ≠ 0)) then fn d sh (l ^^^ j) else fn d sh l) := by
  have h1 : l &&& not32 j < sh.length := by rw [hlen]; exact and_not32_lt l j T hl
  have h2 : l ||| j < sh.length := by rw [hlen]; subst hT; exact Nat.or_lt_two_pow hl hj
  have h3 : l ^^^ j < sh.length := by rw [hlen]; subst hT; exact Nat.xor_lt_two_pow hl hj
  have h4 : l < sh.length := by rw [hlen]; exact hl
  unfold roundThread
  rw [readAt_fn d sh _ h1, readAt_fn d sh _ h2]
  show (if _ then readAt _ _ else readAt _ _) = _
  rw [readAt_fn d sh _ h3, readAt_fn d sh _ h4]
  split <;> rfl

theorem exchange_lower (a b : α) (flag : Bool) :
    (if (decide (a ≤ b)) == flag then b else a) = if flag then max a b else min a b := by
  by_cases hab : a ≤ b
  · cases flag <;> simp [hab]
  · have hba : b ≤ a := le_of_not_le hab
    cases flag <;> simp [hab, hba]

theorem exchange_upper (a b : α) (flag : Bool) :
    (if (decide (a ≤ b)) == flag then a else b) = if flag then min a b else max a b := by
  by_cases hab : a ≤ b
  · cases flag <;> simp [hab]
  · have hba : b ≤ a := le_of_not_le hab
    cases flag <;> simp [hab, hba]

end Round

theorem doublings_snoc (lo n : Nat) : doublings lo (n + 1) = doublings lo n ++ [lo * 2 ^ n] := by
  unfold doublings
  rw [List.range_succ, List.map_append]
  rfl

section PhaseOne

variable {α : Type} [LinearOrder α]

/-- One launch of the first loop at `level = 2 ^ (p + 1)` runs level `p + 1`
of the network. -/
theorem phase1_level (k p : Nat) (hk : k ≤ 15) (hp : p < k) (f : Nat → α) :
    dispatch_bitonic (2 ^ k * 2 ^ k) (2 ^ k) (tab (2 ^ k * 2 ^ k) (sortNet p f))
        (2 ^ (p + 1)) (2 ^ (p + 1))
      = .ok (tab (2 ^ k * 2 ^ k) (sortNet (p + 1) f)) := by
  have d : α := f 0
  have hj : u32 (2 ^ (p + 1)) >>> 1 < 2 ^ k := by
    rw [u32_two_pow _ (by omega), two_pow_succ_shiftRight]
    exact Nat.pow_lt_pow_right (by norm_num) (by omega)
  have hN : 2 ^ k * 2 ^ k = 2 ^ (k + (k - (p + 1))) * 2 ^ (0 + (p + 1)) := by
    rw [← pow_add, ← pow_add]; congr 1; omega
  rw [dispatch_bitonic_ok k (2 ^ k) (2 ^ k) rfl _ d _ _ hj (by rw [tab_length])]
  congr 1
  apply tab_congr
  intro i hi
  rw [stageFn_two_pow k (2 ^ k) (p + 1) _ rfl (by omega) (by omega), maskDir_two_pow]
  show _ = mergeNet (p + 1) (p + 1) (sortNet p f) i
  exact ceRange_congr 0 (p + 1) _ _ hN _ _ _ _ (fun x hx => fn_tab _ _ _ _ hx)
    (fun _ _ => rfl) i hi

/-- The launches of the first loop for the levels `2`, ..., `2 ^ p` run the
first `p` levels of the network. -/
theorem phase1_levels_ok (k B p : Nat) (hk : k ≤ 15) (hp : p ≤ k) (f : Nat → α) :
    phase1_levels (Config.square (2 ^ k) B) (doublings 2 p) (tab (2 ^ k * 2 ^ k) f)
      = .ok (tab (2 ^ k * 2 ^ k) (sortNet p f)) := by
  induction p with
  | zero => rfl
  | succ p ih =>
    unfold phase1_levels at ih ⊢
    rw [doublings_snoc, List.foldlM_append, ih (by omega)]
    simp only [Config.square]
    have h2 : 2 * 2 ^ p = 2 ^ (p + 1) := by rw [pow_succ]; ring
    rw [h2]
    show (dispatch_bitonic (2 ^ k * 2 ^ k) (2 ^ k) (tab (2 ^ k * 2 ^ k) (sortNet p f))
      (2 ^ (p + 1)) (2 ^ (p + 1)) >>= fun x => pure x) = _
    rw [phase1_level k p hk (by omega) f]
    rfl

end PhaseOne

theorem drop_take_tab {α : Type} (buf : List α) (d : α) (s n : Nat) (h : s + n ≤ buf.length) :
    (buf.drop s).take n = tab n (fun o => fn d buf (s + o)) := by
  apply List.ext_getElem?
  intro i
  rw [tab_getElem?]
  by_cases hi : i < n
  · rw [if_pos hi, List.getElem?_take_of_lt hi, List.getElem?_drop,
      List.getElem?_eq_getElem (by omega), fn_eq_getElem d buf _ (by omega)]
  · rw [if_neg hi, List.getElem?_eq_none]
    rw [List.length_take]
    omega

section Shift

variable {α : Type} [LinearOrder α]

/-- A round at distance `j` on a block that starts at a multiple of `2 * j`
is the round on the block taken by itself. -/
theorem ce_shift (j c : Nat) (hj : 0 < j) (desc : Nat → Bool) (g : Nat → α) (o : Nat) :
    ce j desc g (c * (2 * j) + o)
      = ce j (fun x => desc (c * (2 * j) + x)) (fun x => g (c * (2 * j) + x)) o := by
  have hdiv : (c * (2 * j) + o) / j = 2 * c + o / j := by
    rw [two_mul_block, Nat.add_comm, Nat.add_mul_div_right _ _ hj, Nat.add_comm]
  unfold ce
  rw [hdiv, Nat.mul_add_mod]
  by_cases hz : o / j % 2 = 0
  · rw [if_pos hz, if_pos hz, Nat.add_assoc]
  · rw [if_neg hz, if_neg hz]
    have hoj : j ≤ o := by
      by_contra hlt
      exact hz (by rw [Nat.div_eq_of_lt (by omega)])
    rw [Nat.add_sub_assoc hoj]

/-- The rounds at distances `2 ^ (s - 1)`, ..., `1` on a block that starts at
a multiple of `2 ^ s` are the rounds on the block taken by itself. -/
theorem ceRange_shift (s c : Nat) (desc : Nat → Bool) (g : Nat → α) (o : Nat) :
    ceRange desc 0 s g (c * 2 ^ s + o)
      = ceRange (fun x => desc (c * 2 ^ s + x)) 0 s (fun x => g (c * 2 ^ s + x)) o := by
  induction s generalizing g c o with
  | zero => rfl
  | succ s ih =>
    have hp : 2 ^ (s + 1) = 2 * 2 ^ s := by rw [pow_succ]; ring
    have hc : c * 2 ^ (s + 1) = (2 * c) * 2 ^ s := by rw [hp]; ring
    show ceRange desc 0 s (ce (2 ^ (0 + s)) desc g) (c * 2 ^ (s + 1) + o)
      = ceRange (fun x => desc (c * 2 ^ (s + 1) + x)) 0 s
          (ce (2 ^ (0 + s)) (fun x => desc (c * 2 ^ (s + 1) + x))
            (fun x => g (c * 2 ^ (s + 1) + x))) o
    rw [Nat.zero_add, hc, ih (2 * c) (ce (2 ^ s) desc g) o]
    congr 1
    funext x
    rw [← hc, hp]
    exact ce_shift (2 ^ s) c (Nat.two_pow_pos s) desc g x

/-- The merge of level `P` permutes every aligned block of `2 ^ p` elements,
`p ≤ P`, within itself. -/
theorem mergeNet_block_perm (P p c : Nat) (hp : p ≤ P) (g : Nat → α) :
    (tab (2 ^ p) (fun o => mergeNet P p g (c * 2 ^ p + o))).Perm
      (tab (2 ^ p) (fun o => g (c * 2 ^ p + o))) := by
  have h1 : tab (2 ^ p) (fun o => mergeNet P p g (c * 2 ^ p + o))
      = tab (2 ^ p) (ceRange (fun x => dirBit P (c * 2 ^ p + x)) 0 p
          (fun x => g (c * 2 ^ p + x))) :=
    tab_congr _ _ _ (fun o _ => ceRange_shift p c (dirBit P) g o)
  rw [h1]
  refine ceRange_perm 0 p 1 (2 ^ p) (by rw [Nat.zero_add, Nat.one_mul]) _ ?_ _
  intro t ht i _
  rw [Nat.zero_add]
  unfold dirBit
  have hpart : c * 2 ^ p + partner (2 ^ t) i = partner (2 ^ t) (c * 2 ^ p + i) := by
    have hpt : 2 ^ p = 2 ^ (p - t - 1) * (2 * 2 ^ t) := by
      rw [← pow_succ', ← pow_add]
      congr 1
      omega
    have hdiv : (c * 2 ^ p + i) / 2 ^ t = 2 * (c * 2 ^ (p - t - 1)) + i / 2 ^ t := by
      rw [hpt, ← Nat.mul_assoc, two_mul_block, Nat.add_comm,
        Nat.add_mul_div_right _ _ (Nat.two_pow_pos t), Nat.add_comm]
    unfold partner
    rw [hdiv, Nat.mul_add_mod]
    by_cases hz : i / 2 ^ t % 2 = 0
    · rw [if_pos hz, if_pos hz, Nat.add_assoc]
    · rw [if_neg hz, if_neg hz]
      have hoj : 2 ^ t ≤ i := by
        by_contra hlt
        exact hz (by rw [Nat.div_eq_of_lt (by omega)])
      rw [Nat.add_sub_assoc hoj]
  rw [hpart]
  exact dirBit_partner P t (c * 2 ^ p + i) (by omega)

end Shift

theorem and_two_pow_eq_zero (i p : Nat) : i &&& 2 ^ p = 0 ↔ i.testBit p = false := by
  have h := mask_two_pow p i
  rw [Nat.and_comm] at h
  cases hb : i.testBit p
  · rw [hb] at h
    simpa using h
  · rw [hb] at h
    simpa using h

theorem descending_mem (lo s x : Nat) (h : x ∈ descending lo s) :
    ∃ t, lo ≤ t ∧ t < lo + s ∧ x = 2 ^ t := by
  induction s with
  | zero => cases h
  | succ s ih =>
    rcases List.mem_cons.mp h with h1 | h1
    · exact ⟨lo + s, by omega, by omega, h1⟩
    · obtain ⟨t, h2, h3, h4⟩ := ih h1
      exact ⟨t, h2, by omega, h4⟩

theorem descending_filter_ge (k s : Nat) :
    (descending 0 (k + s)).filter (fun j => decide (2 ^ k ≤ j)) = descending k s := by
  induction s with
  | zero =>
    apply List.filter_eq_nil_iff.mpr
    intro x hx
    obtain ⟨t, _, h2, h3⟩ := descending_mem 0 k x hx
    have : 2 ^ t < 2 ^ k := Nat.pow_lt_pow_right (by norm_num) (by omega)
    simp only [decide_eq_true_eq]
    omega
  | succ s ih =>
    show List.filter _ (2 ^ (0 + (k + s)) :: descending 0 (k + s)) = 2 ^ (k + s) :: descending k s
    have hle : 2 ^ k ≤ 2 ^ (0 + (k + s)) := Nat.pow_le_pow_right (by norm_num) (by omega)
    rw [List.filter_cons_of_pos (by simpa using hle), ih, Nat.zero_add]

theorem descending_filter_lt (k s : Nat) :
    (descending 0 (k + s)).filter (fun j => decide (j < 2 ^ k)) = descending 0 k := by
  induction s with
  | zero =>
    apply List.filter_eq_self.mpr
    intro x hx
    obtain ⟨t, _, h2, h3⟩ := descending_mem 0 k x hx
    have : 2 ^ t < 2 ^ k := Nat.pow_lt_pow_right (by norm_num) (by omega)
    simp only [decide_eq_true_eq]
    omega
  | succ s ih =>
    show List.filter _ (2 ^ (0 + (k + s)) :: descending 0 (k + s)) = _
    have hle : 2 ^ k ≤ 2 ^ (0 + (k + s)) := Nat.pow_le_pow_right (by norm_num) (by omega)
    rw [List.filter_cons_of_neg (by simpa using hle), ih]

theorem halvings_two_pow (p : Nat) : halvings (2 ^ p) = descending 0 p := by
  induction p with
  | zero => simp [halvings, descending, Nat.log2]
  | succ p ih =>
    have h1 : halvings (2 ^ (p + 1)) = 2 ^ p :: halvings (2 ^ p) := by
      unfold halvings
      rw [Nat.log2_two_pow, Nat.log2_two_pow, List.range_succ_eq_map, List.map_cons,
        List.map_map]
      congr 1
      · rw [Nat.zero_add, pow_one, pow_succ, Nat.mul_div_cancel _ (by norm_num)]
      · apply List.map_congr_left
        intro t _
        show 2 ^ (p + 1) / 2 ^ (t + 1 + 1) = 2 ^ p / 2 ^ (t + 1)
        rw [pow_succ 2 p, pow_succ 2 (t + 1), Nat.mul_div_mul_right _ _ (by norm_num)]
    rw [h1, ih]
    show _ = 2 ^ (0 + p) :: descending 0 p
    rw [Nat.zero_add]

section Naive

variable {α : Type} [LinearOrder α]

theorem naiveRound_tab (n level j : Nat) (f : Nat → α) (hx : ∀ i < n, i ^^^ j < n) :
    naiveRound level j (tab n f)
      = tab n (fun i =>
          if i &&& level = 0 then
            if i < i ^^^ j then min (f i) (f (i ^^^ j)) else max (f i) (f (i ^^^ j))
          else
            if i < i ^^^ j then max (f i) (f (i ^^^ j)) else min (f i) (f (i ^^^ j))) := by
  apply List.ext_getElem?
  intro i
  rw [naiveRound, List.getElem?_mapIdx, tab_getElem?, tab_getElem?]
  by_cases hi : i < n
  · have hget : (tab n f).getD (i ^^^ j) (f i) = f (i ^^^ j) := by
      simp [List.getD, tab_getElem?, hx i hi]
    rw [if_pos hi, if_pos hi, Option.map_some', hget]
  · rw [if_neg hi, if_neg hi]
    rfl

/-- A round of the naive reference at a distance `2 ^ q` below the level
`2 ^ p` is the compare-exchange round of the network. -/
theorem naiveRound_ce (p q c n : Nat) (hn : n = c * 2 ^ (q + 1)) (f : Nat → α) :
    naiveRound (2 ^ p) (2 ^ q) (tab n f) = tab n (ce (2 ^ q) (dirBit p) f) := by
  have hp2 : 2 ^ (q + 1) = 2 * 2 ^ q := by rw [pow_succ]; ring
  have hJ : 0 < 2 ^ q := Nat.two_pow_pos q
  have hform : ∀ i < n, ∃ a o, a < c ∧ o < 2 * 2 ^ q ∧ i = a * (2 * 2 ^ q) + o := by
    intro i hi
    refine ⟨i / (2 * 2 ^ q), i % (2 * 2 ^ q), ?_, Nat.mod_lt _ (by omega),
      (tile_split (2 * 2 ^ q) i).symm⟩
    apply Nat.div_lt_of_lt_mul
    rw [Nat.mul_comm, ← hp2, ← hn]
    exact hi
  have hbitlo : ∀ a o, o < 2 ^ q → (a * (2 * 2 ^ q) + o).testBit q = false := by
    intro a o ho
    apply (testBit_iff_div _ q).mp
    rw [two_mul_block, tile_div (2 ^ q) (2 * a) o ho]
    exact Nat.mul_mod_right 2 a
  have hbithi : ∀ a o, o < 2 ^ q → (a * (2 * 2 ^ q) + 2 ^ q + o).testBit q = true := by
    intro a o ho
    have e : a * (2 * 2 ^ q) + 2 ^ q + o = (2 * a + 1) * 2 ^ q + o := by ring
    have hdiv : (a * (2 * 2 ^ q) + 2 ^ q + o) / 2 ^ q % 2 = 1 := by
      rw [e, tile_div (2 ^ q) (2 * a + 1) o ho]
      omega
    rw [Nat.testBit_to_div_mod, hdiv]
    rfl
  have hxor : ∀ i < n, i ^^^ 2 ^ q < n := by
    intro i hi
    obtain ⟨a, o, ha, ho, rfl⟩ := hform i hi
    have hle : (a + 1) * (2 * 2 ^ q) ≤ n := by
      rw [hn, hp2]
      exact Nat.mul_le_mul_right _ ha
    have hs : (a + 1) * (2 * 2 ^ q) = a * (2 * 2 ^ q) + 2 * 2 ^ q := by ring
    rw [xor_two_pow]
    by_cases hlo : o < 2 ^ q
    · rw [hbitlo a o hlo]
      simp only [Bool.false_eq_true, if_false]
      omega
    · have := hbithi a (o - 2 ^ q) (by omega)
      rw [show a * (2 * 2 ^ q) + 2 ^ q + (o - 2 ^ q) = a * (2 * 2 ^ q) + o by omega] at this
      rw [this]
      simp only [if_true]
      omega
  rw [naiveRound_tab n _ _ f hxor]
  apply tab_congr
  intro i hi
  obtain ⟨a, o, ha, ho, rfl⟩ := hform i hi
  have hdir : ∀ x, (x &&& 2 ^ p = 0) ↔ dirBit p x = false := fun x => and_two_pow_eq_zero x p
  rw [xor_two_pow]
  by_cases hlo : o < 2 ^ q
  · rw [hbitlo a o hlo, ce_lower (2 ^ q) a o (dirBit p) f hlo]
    simp only [Bool.false_eq_true, if_false]
    rw [if_pos (by omega : a * (2 * 2 ^ q) + o < a * (2 * 2 ^ q) + o + 2 ^ q),
      if_pos (by omega : a * (2 * 2 ^ q) + o < a * (2 * 2 ^ q) + o + 2 ^ q)]
    cases hd : dirBit p (a * (2 * 2 ^ q) + o)
    · rw [if_pos ((hdir _).mpr hd)]
      simp
    · rw [if_neg (fun h => by rw [(hdir _).mp h] at hd; exact absurd hd (by decide))]
      simp
  · obtain ⟨o', ho', rfl⟩ : ∃ o', o' < 2 ^ q ∧ o = 2 ^ q + o' := ⟨o - 2 ^ q, by omega, by omega⟩
    rw [← Nat.add_assoc, hbithi a o' ho', ce_upper (2 ^ q) a o' (dirBit p) f ho']
    simp only [if_true]
    have hsub : a * (2 * 2 ^ q) + 2 ^ q + o' - 2 ^ q = a * (2 * 2 ^ q) + o' := by omega
    rw [hsub, if_neg (by omega : ¬ a * (2 * 2 ^ q) + 2 ^ q + o' < a * (2 * 2 ^ q) + o'),
      if_neg (by omega : ¬ a * (2 * 2 ^ q) + 2 ^ q + o' < a * (2 * 2 ^ q) + o')]
    cases hd : dirBit p (a * (2 * 2 ^ q) + 2 ^ q + o')
    · rw [if_pos ((hdir _).mpr hd)]
      simp [max_comm]
    · rw [if_neg (fun h => by rw [(hdir _).mp h] at hd; exact absurd hd (by decide))]
      simp [min_comm]

end Naive

section Naive

variable {α : Type} [LinearOrder α]

/-- The rounds of the naive reference at the distances `2 ^ (lo + s - 1)`,
..., `2 ^ lo` of level `2 ^ p` are the rounds of the network. -/
theorem naiveRounds_ceRange (p lo s c n : Nat) (hn : n = c * 2 ^ (lo + s)) (f : Nat → α) :
    naiveRounds (2 ^ p) (descending lo s) (tab n f) = tab n (ceRange (dirBit p) lo s f) := by
  induction s generalizing f c with
  | zero => rfl
  | succ s ih =>
    have hp : 2 ^ (lo + (s + 1)) = 2 * 2 ^ (lo + s) := by rw [← Nat.add_assoc, pow_succ]; ring
    show naiveRounds (2 ^ p) (descending lo s) (naiveRound (2 ^ p) (2 ^ (lo + s)) (tab n f))
      = tab n (ceRange (dirBit p) lo s (ce (2 ^ (lo + s)) (dirBit p) f))
    rw [naiveRound_ce p (lo + s) c n (by rw [hn, Nat.add_assoc]) f]
    exact ih (2 * c) (by rw [hn, hp]; ring) _

/-- The naive reference runs the levels of the network one after the other. -/
theorem naiveLevels_sortNet (P p : Nat) (hp : p ≤ P) (f : Nat → α) :
    (doublings 2 p).foldl (fun b level => naiveRounds level (halvings level) b) (tab (2 ^ P) f)
      = tab (2 ^ P) (sortNet p f) := by
  induction p with
  | zero => rfl
  | succ p ih =>
    have h2 : 2 * 2 ^ p = 2 ^ (p + 1) := by rw [pow_succ]; ring
    have hn : 2 ^ P = 2 ^ (P - (p + 1)) * 2 ^ (0 + (p + 1)) := by
      rw [← pow_add]; congr 1; omega
    rw [doublings_snoc, List.foldl_append, ih (by omega)]
    show naiveRounds (2 * 2 ^ p) (halvings (2 * 2 ^ p)) (tab (2 ^ P) (sortNet p f)) = _
    rw [h2, halvings_two_pow, naiveRounds_ceRange (p + 1) 0 (p + 1) _ _ hn]
    rfl

theorem naiveSort_sortNet (P : Nat) (f : Nat → α) :
    naiveSort (2 ^ P) (tab (2 ^ P) f) = tab (2 ^ P) (sortNet P f) := by
  unfold naiveSort
  rw [Nat.log2_two_pow]
  exact naiveLevels_sortNet P P (le_refl P) f

end Naive

section CrossSteps

variable {α : Type} [LinearOrder α]

/-- Steps 1 to 3 of the iteration at `level = 2 ^ (k + s)`: transpose, column
sort, transpose back run the rounds at the distances `2 ^ (k + s - 1)`, ...,
`2 ^ k` of that level on the array `data`. -/
theorem cross_steps_ok (k m B s : Nat) (hk : k ≤ 15) (hB : 0 < B) (hT : 2 ^ k = m * B)
    (hs : s ≤ k) (dev : Device α) (f : Nat → α)
    (hdata : dev.data = tab (2 ^ k * 2 ^ k) f) (htemp : dev.temp.length = 2 ^ k * 2 ^ k) :
    ∃ temp : List α, temp.length = 2 ^ k * 2 ^ k ∧
      (transpose_into_temp (Config.square (2 ^ k) B) dev
        >>= sort_columns (Config.square (2 ^ k) B) (2 ^ (k + s) / u32 (2 ^ k))
              ((2 ^ (k + s) &&& not32 (2 ^ k * 2 ^ k)) / u32 (2 ^ k))
        >>= transpose_into_data (Config.square (2 ^ k) B))
        = .ok { data := tab (2 ^ k * 2 ^ k) (ceRange (dirBit (k + s)) k s f)
                temp := temp
                log := dev.log ++ [Stage.transpose .primary .scratch (2 ^ k) (2 ^ k)]
                  ++ [Stage.bitonic .scratch (2 ^ (k + s) / 2 ^ k)
                        ((2 ^ (k + s) &&& not32 (2 ^ k * 2 ^ k)) / 2 ^ k)]
                  ++ [Stage.transpose .scratch .primary (2 ^ k) (2 ^ k)] } := by
  have d : α := f 0
  have hu : u32 (2 ^ k) = 2 ^ k := u32_two_pow k (by omega)
  have h1 : dispatch_transpose (2 ^ k) (2 ^ k) B dev.data dev.temp (2 ^ k) (2 ^ k)
      = .ok (tab (2 ^ k * 2 ^ k) (transposeFn (2 ^ k) f)) := by
    rw [dispatch_transpose_sq (2 ^ k) m B hT hB dev.data dev.temp d (2 ^ k)
      (by rw [hdata, tab_length]) htemp]
    congr 1
    apply tab_congr
    intro i hi
    unfold transposeFn
    rw [hdata, fn_tab _ _ _ _ (trIdx_lt _ i hi)]
  have hj2 : u32 (2 ^ (k + s) / 2 ^ k) >>> 1 < 2 ^ k := by
    rw [cross_level, u32_two_pow s (by omega), Nat.shiftRight_eq_div_pow, pow_one]
    have : 2 ^ s ≤ 2 ^ k := Nat.pow_le_pow_right (by norm_num) hs
    have := Nat.two_pow_pos s
    omega
  have hN2 : 2 ^ k * 2 ^ k = 2 ^ (k + (k - s)) * 2 ^ (0 + s) := by
    rw [← pow_add, ← pow_add]; congr 1; omega
  have h2 : dispatch_bitonic (2 ^ k * 2 ^ k) (2 ^ k) (tab (2 ^ k * 2 ^ k) (transposeFn (2 ^ k) f))
      (2 ^ (k + s) / 2 ^ k) ((2 ^ (k + s) &&& not32 (2 ^ k * 2 ^ k)) / 2 ^ k)
      = .ok (tab (2 ^ k * 2 ^ k)
          (ceRange (maskDir ((2 ^ (k + s) &&& not32 (2 ^ k * 2 ^ k)) / 2 ^ k)) 0 s
            (transposeFn (2 ^ k) f))) := by
    rw [dispatch_bitonic_ok k (2 ^ k) (2 ^ k) rfl _ d _ _ hj2 (tab_length _ _)]
    congr 1
    apply tab_congr
    intro i hi
    rw [cross_level, stageFn_two_pow k (2 ^ k) s _ rfl (by omega) hs]
    exact ceRange_congr 0 s _ _ hN2 _ _ _ _ (fun x hx => fn_tab _ _ _ _ hx)
      (fun _ _ => rfl) i hi
  have hN3 : 2 ^ k * 2 ^ k = 2 ^ (k - s) * 2 ^ (k + s) := by
    rw [← pow_add, ← pow_add]; congr 1; omega
  have h3 : dispatch_transpose (2 ^ k) (2 ^ k) B
      (tab (2 ^ k * 2 ^ k)
          (ceRange (maskDir ((2 ^ (k + s) &&& not32 (2 ^ k * 2 ^ k)) / 2 ^ k)) 0 s
            (transposeFn (2 ^ k) f))) dev.data (2 ^ k) (2 ^ k)
      = .ok (tab (2 ^ k * 2 ^ k) (ceRange (dirBit (k + s)) k s f)) := by
    rw [dispatch_transpose_sq (2 ^ k) m B hT hB _ dev.data d (2 ^ k) (tab_length _ _)
      (by rw [hdata, tab_length])]
    congr 1
    apply tab_congr
    intro i hi
    unfold transposeFn
    rw [fn_tab _ _ _ _ (trIdx_lt _ i hi)]
    have := ceRange_transpose k s hs
      (maskDir ((2 ^ (k + s) &&& not32 (2 ^ k * 2 ^ k)) / 2 ^ k)) f i hi
    unfold transposeFn at this
    rw [this]
    exact ceRange_congr k s _ _ hN3 _ _ _ _ (fun _ _ => rfl)
      (fun x hx => cross_dir k s hk hs x hx) i hi
  refine ⟨_, tab_length _ (ceRange (maskDir ((2 ^ (k + s) &&& not32 (2 ^ k * 2 ^ k)) / 2 ^ k))
    0 s (transposeFn (2 ^ k) f)), ?_⟩
  simp only [transpose_into_temp, sort_columns, transpose_into_data, Config.square, hu, h1, h2,
    h3, pure, bind, Except.bind, Except.pure]

/-- Step 4 of the iteration at `level = 2 ^ (k + s)`: the row sort runs the
rounds at the distances `2 ^ (k - 1)`, ..., `1` of that level on the array
`data`. -/
theorem row_step_ok (k B s : Nat) (hk : k ≤ 15) (dev : Device α) (g : Nat → α)
    (hdata : dev.data = tab (2 ^ k * 2 ^ k) g) :
    sort_rows (Config.square (2 ^ k) B) (u32 (2 ^ k)) (2 ^ (k + s)) dev
      = .ok { data := tab (2 ^ k * 2 ^ k) (ceRange (dirBit (k + s)) 0 k g)
              temp := dev.temp
              log := dev.log ++ [Stage.bitonic .primary (2 ^ k) (2 ^ (k + s))] } := by
  have d : α := g 0
  have hu : u32 (2 ^ k) = 2 ^ k := u32_two_pow k (by omega)
  have hj4 : u32 (2 ^ k) >>> 1 < 2 ^ k := by
    have := Nat.two_pow_pos k
    rw [hu, Nat.shiftRight_eq_div_pow, pow_one]; omega
  have hN4 : 2 ^ k * 2 ^ k = 2 ^ k * 2 ^ (0 + k) := by rw [Nat.zero_add]
  have h4 : dispatch_bitonic (2 ^ k * 2 ^ k) (2 ^ k) dev.data (2 ^ k) (2 ^ (k + s))
      = .ok (tab (2 ^ k * 2 ^ k) (ceRange (dirBit (k + s)) 0 k g)) := by
    rw [dispatch_bitonic_ok k (2 ^ k) (2 ^ k) rfl _ d _ _ hj4 (by rw [hdata, tab_length])]
    congr 1
    apply tab_congr
    intro i hi
    rw [stageFn_two_pow k (2 ^ k) k _ rfl (by omega) (le_refl _), maskDir_two_pow, hdata]
    exact ceRange_congr 0 k _ _ hN4 _ _ _ _ (fun x hx => fn_tab _ _ _ _ hx)
      (fun _ _ => rfl) i hi
  simp only [sort_rows, Config.square, hu, h4, pure, bind, Except.bind, Except.pure]

end CrossSteps

/-- A power-of-two level between `2 * T` and `T * T` is `2 ^ (k + s)` with
`1 ≤ s ≤ k`. -/
theorem level_exponent (k p : Nat) (hlo : 2 * 2 ^ k ≤ 2 ^ p) (hhi : 2 ^ p ≤ 2 ^ k * 2 ^ k) :
    ∃ s, 1 ≤ s ∧ s ≤ k ∧ p = k + s := by
  have h1 : k + 1 ≤ p := by
    rw [← pow_succ'] at hlo
    exact (Nat.pow_le_pow_iff_right (by norm_num : 1 < 2)).mp hlo
  have h2 : p ≤ k + k := by
    rw [← pow_add] at hhi
    exact (Nat.pow_le_pow_iff_right (by norm_num : 1 < 2)).mp hhi
  exact ⟨p - k, by omega, by omega, by omega⟩

/-- The mask of the column sort in closed form, and the direction flag it
gives. -/
theorem cross_mask_cases (k T p level : Nat) (hT : T = 2 ^ k) (hN : T * T < 2 ^ 32)
    (hlev : level = 2 ^ p) (hlo : 2 * T ≤ level) (hhi : level ≤ T * T) :
    (level &&& not32 (T * T)) / u32 T = (if level < T * T then level / T else 0) ∧
    (level < T * T →
      (∃ s, s < k ∧ level / T = 2 ^ s) ∧
      ∀ tile l, l < T →
        maskDir ((level &&& not32 (T * T)) / u32 T) (tile * T + l)
          = decide (level / T &&& l ≠ 0)) ∧
    (level = T * T → ∀ g, maskDir ((level &&& not32 (T * T)) / u32 T) g = false) := by
  have hk := valid_exponent k T hT hN
  subst hT hlev
  obtain ⟨s, hs1, hs, rfl⟩ := level_exponent k p hlo hhi
  have hu : u32 (2 ^ k) = 2 ^ k := u32_two_pow k (by omega)
  have hmask := cross_mask k s hk hs
  have hlt : 2 ^ (k + s) < 2 ^ k * 2 ^ k ↔ s < k := by
    rw [← pow_add]
    constructor
    · intro h
      have := (Nat.pow_lt_pow_iff_right (by norm_num : 1 < 2)).mp h
      omega
    · intro h
      exact Nat.pow_lt_pow_right (by norm_num) (by omega)
  rw [hu, hmask]
  refine ⟨?_, ?_, ?_⟩
  · by_cases h : s < k
    · rw [if_pos h, if_pos (hlt.mpr h), cross_level]
    · rw [if_neg h, if_neg (fun h' => h (hlt.mp h'))]
  · intro h
    have hsk := hlt.mp h
    rw [if_pos hsk, cross_level]
    refine ⟨⟨s, hsk, rfl⟩, ?_⟩
    intro tile l hl
    unfold maskDir
    rw [mask_two_pow, mask_two_pow, testBit_tile k tile l s hl hsk]
  · intro h g
    have hsk : ¬ s < k := fun h' => by
      have := hlt.mpr h'
      omega
    rw [if_neg hsk]
    exact maskDir_zero g

section CrossMaskSteps

variable {α : Type} [LinearOrder α]

/-- The flag of line 86 is the only use a thread makes of the mask and of its
global index. -/
theorem roundThread_flag (mask mask' j l g g' : Nat) (sh : List α)
    (h : maskDir mask g = maskDir mask' g') :
    roundThread mask j sh l g = roundThread mask' j sh l g' := by
  unfold maskDir at h
  unfold roundThread
  rw [h]

end CrossMaskSteps

/-- The levels of a doubling loop that starts at `2 ^ p` and runs up to
`2 ^ b`, when `2 ^ (b + 1)` does not wrap. -/
theorem levelsTrace_doublings (b : Nat) (hb : b + 1 < 32) :
    ∀ n p fuel, p + n = b + 1 → n < fuel →
      levelsTrace (2 ^ b) fuel (2 ^ p) = doublings (2 ^ p) n := by
  intro n
  induction n with
  | zero =>
    intro p fuel hp hf
    obtain ⟨f, rfl⟩ : ∃ f, fuel = f + 1 := ⟨fuel - 1, by omega⟩
    have hgt : ¬ 2 ^ p ≤ 2 ^ b := by
      have : 2 ^ b < 2 ^ p := Nat.pow_lt_pow_right (by norm_num) (by omega)
      omega
    rw [levelsTrace, if_neg hgt]
    rfl
  | succ n ih =>
    intro p fuel hp hf
    obtain ⟨f, rfl⟩ : ∃ f, fuel = f + 1 := ⟨fuel - 1, by omega⟩
    have hle : 2 ^ p ≤ 2 ^ b := Nat.pow_le_pow_right (by norm_num) (by omega)
    have hnext : u32 (2 ^ p * 2) = 2 ^ (p + 1) := by
      rw [← pow_succ]
      exact u32_two_pow _ (by omega)
    rw [levelsTrace, if_pos hle, hnext, ih (p + 1) f (by omega) (by omega), doublings_succ,
      pow_succ]

theorem doublings_mem (lo n x : Nat) (h : x ∈ doublings lo n) : ∃ i < n, x = lo * 2 ^ i := by
  unfold doublings at h
  obtain ⟨i, hi, rfl⟩ := List.mem_map.mp h
  exact ⟨i, List.mem_range.mp hi, rfl⟩

theorem doublings_getLast (lo n : Nat) :
    (doublings lo (n + 1)).getLast? = some (lo * 2 ^ n) := by
  rw [doublings_snoc, List.getLast?_append]
  rfl

section Traces

variable {α : Type} [LinearOrder α]

/-- The first loop runs its body for the levels of `levelsTrace`, in order,
whenever it leaves the loop within its budget. -/
theorem phase1_trace (cfg : Config) :
    ∀ fuel level (dev : Device α),
      (levelsTrace (u32 cfg.BITONIC_BLOCK_SIZE) fuel level).length < fuel →
      phase1 cfg fuel level dev
        = (levelsTrace (u32 cfg.BITONIC_BLOCK_SIZE) fuel level).foldlM (phase1_step cfg) dev := by
  intro fuel
  induction fuel with
  | zero => intro level dev h; exact absurd h (Nat.not_lt_zero _)
  | succ fuel ih =>
    intro level dev h
    rw [phase1, levelsTrace]
    rw [levelsTrace] at h
    by_cases hle : level ≤ u32 cfg.BITONIC_BLOCK_SIZE
    · rw [if_pos hle] at h ⊢
      rw [if_pos hle, List.foldlM_cons]
      show (dispatch_bitonic cfg.NUM_ELEMENTS cfg.BITONIC_BLOCK_SIZE dev.data level level
          >>= fun data => phase1 cfg fuel (u32 (level * 2))
            { dev with data := data, log := dev.log ++ [Stage.bitonic .primary level level] })
        = (phase1_step cfg dev level >>= fun dev' =>
            (levelsTrace (u32 cfg.BITONIC_BLOCK_SIZE) fuel (u32 (level * 2))).foldlM
              (phase1_step cfg) dev')
      unfold phase1_step
      cases hd : dispatch_bitonic cfg.NUM_ELEMENTS cfg.BITONIC_BLOCK_SIZE dev.data level level with
      | error e => rfl
      | ok data =>
        exact ih _ _ (by simpa using h)
    · rw [if_neg hle, if_neg hle]
      rfl

/-- The second loop runs its body for the levels of `levelsTrace`, in order,
whenever it leaves the loop within its budget. -/
theorem phase2_trace (cfg : Config) :
    ∀ fuel level (dev : Device α),
      (levelsTrace (u32 cfg.NUM_ELEMENTS) fuel level).length < fuel →
      phase2 cfg fuel level dev
        = (levelsTrace (u32 cfg.NUM_ELEMENTS) fuel level).foldlM
            (fun dev level => sandwich cfg level dev) dev := by
  intro fuel
  induction fuel with
  | zero => intro level dev h; exact absurd h (Nat.not_lt_zero _)
  | succ fuel ih =>
    intro level dev h
    rw [phase2, levelsTrace]
    rw [levelsTrace] at h
    by_cases hle : level ≤ u32 cfg.NUM_ELEMENTS
    · rw [if_pos hle] at h ⊢
      rw [if_pos hle, List.foldlM_cons]
      show (sandwich cfg level dev >>= fun dev' => phase2 cfg fuel (u32 (level * 2)) dev')
        = (sandwich cfg level dev >>= fun dev' =>
            (levelsTrace (u32 cfg.NUM_ELEMENTS) fuel (u32 (level * 2))).foldlM
              (fun dev level => sandwich cfg level dev) dev')
      cases hd : sandwich cfg level dev with
      | error e => rfl
      | ok dev' => exact ih _ _ (by simpa using h)
    · rw [if_neg hle, if_neg hle]
      rfl

end Traces

section SingleTile

variable {α : Type} [LinearOrder α]

/-- One launch of the first loop on a buffer of a single tile runs the next
level of the network. -/
theorem single_tile_level (k p : Nat) (hk : k ≤ 31) (hp : p < k) (f : Nat → α) :
    dispatch_bitonic (2 ^ k) (2 ^ k) (tab (2 ^ k) (sortNet p f)) (2 ^ (p + 1)) (2 ^ (p + 1))
      = .ok (tab (2 ^ k) (sortNet (p + 1) f)) := by
  have d : α := f 0
  have hj : u32 (2 ^ (p + 1)) >>> 1 < 2 ^ k := by
    rw [u32_two_pow _ (by omega), two_pow_succ_shiftRight]
    exact Nat.pow_lt_pow_right (by norm_num) (by omega)
  have hN : 2 ^ k = 2 ^ (k - (p + 1)) * 2 ^ (0 + (p + 1)) := by
    rw [← pow_add]; congr 1; omega
  have h := dispatch_bitonic_ok k (2 ^ k) 1 rfl (tab (2 ^ k) (sortNet p f)) d
    (2 ^ (p + 1)) (2 ^ (p + 1)) hj (by rw [tab_length, Nat.one_mul])
  rw [Nat.one_mul] at h
  rw [h]
  congr 1
  apply tab_congr
  intro i hi
  rw [stageFn_two_pow k (2 ^ k) (p + 1) _ rfl hk (by omega), maskDir_two_pow]
  show _ = mergeNet (p + 1) (p + 1) (sortNet p f) i
  exact ceRange_congr 0 (p + 1) _ _ hN _ _ _ _ (fun x hx => fn_tab _ _ _ _ hx)
    (fun _ _ => rfl) i hi

/-- The bodies of the first loop for the levels `2`, ..., `2 ^ p` on a buffer
of a single tile. -/
theorem single_tile_fold (k W B p : Nat) (hk : k ≤ 31) (hp : p ≤ k) (dev : Device α)
    (f : Nat → α) (hdata : dev.data = tab (2 ^ k) f) :
    (doublings 2 p).foldlM
        (phase1_step { BITONIC_BLOCK_SIZE := 2 ^ k, NUM_ELEMENTS := 2 ^ k, MATRIX_WIDTH := W,
                       MATRIX_HEIGHT := W, TRANSPOSE_BLOCK_SIZE := B }) dev
      = .ok { data := tab (2 ^ k) (sortNet p f)
              temp := dev.temp
              log := dev.log ++ phase1Log (doublings 2 p) } := by
  induction p with
  | zero =>
    have hdev : dev = { data := tab (2 ^ k) (sortNet 0 f)
                        temp := dev.temp
                        log := dev.log ++ phase1Log (doublings 2 0) } := by
      show dev = { data := tab (2 ^ k) f
                   temp := dev.temp
                   log := dev.log ++ phase1Log (doublings 2 0) }
      rw [← hdata]
      simp [phase1Log, doublings]
    exact congrArg Except.ok hdev
  | succ p ih =>
    have h2 : 2 * 2 ^ p = 2 ^ (p + 1) := by rw [pow_succ]; ring
    rw [doublings_snoc, List.foldlM_append, ih (by omega)]
    show (phase1_step _ _ (2 * 2 ^ p) >>= fun x => pure x) = _
    unfold phase1_step
    simp only [h2, single_tile_level k p hk (by omega) f, phase1Log, List.map_append,
      List.map_cons, List.map_nil, List.append_assoc, pure, bind, Except.bind, Except.pure]

end SingleTile

section SingleTileRun

variable {α : Type} [LinearOrder α]

/-- The call on a buffer of a single tile, the matrix macros being set to the
square root of the tile edge: the first loop runs the network of `k` levels,
the second loop does nothing. -/
theorem single_tile_run (k W B : Nat) (hk : k ≤ 30) (hW : W * W = 2 ^ k) (hB : 0 < B)
    (hdiv : B ∣ W) (data_in data_out : List α) (d : α) (hin : data_in.length = 2 ^ k)
    (hout : data_out.length = 2 ^ k) :
    bitonic_sort_amp { BITONIC_BLOCK_SIZE := 2 ^ k, NUM_ELEMENTS := 2 ^ k, MATRIX_WIDTH := W,
                       MATRIX_HEIGHT := W, TRANSPOSE_BLOCK_SIZE := B } data_in data_out
      = .ok { data_out := tab (2 ^ k) (sortNet k (fn d data_in))
              log := phase1Log (doublings 2 k) } := by
  have hWpos : 0 < W := by
    rcases Nat.eq_zero_or_pos W with h | h
    · subst h
      have := Nat.two_pow_pos k
      omega
    · exact h
  have hu : u32 (2 ^ k) = 2 ^ k := u32_two_pow k (by omega)
  have htake : data_in.take data_out.length = tab (2 ^ k) (fn d data_in) := by
    rw [List.take_of_length_le (by omega), ← hin, tab_fn]
  have htrace : levelsTrace (u32 (2 ^ k)) 64 2 = doublings 2 k := by
    have := levelsTrace_doublings k (by omega) k 1 64 (by omega) (by omega)
    rw [pow_one] at this
    rw [hu, this]
  have h1 : phase1 { BITONIC_BLOCK_SIZE := 2 ^ k, NUM_ELEMENTS := 2 ^ k, MATRIX_WIDTH := W,
                     MATRIX_HEIGHT := W, TRANSPOSE_BLOCK_SIZE := B } 64 2
      { data := data_in.take data_out.length, temp := data_out, log := [] }
      = .ok { data := tab (2 ^ k) (sortNet k (fn d data_in))
              temp := data_out
              log := [] ++ phase1Log (doublings 2 k) } := by
    rw [phase1_trace _ 64 2 _ (by
      show (levelsTrace (u32 (2 ^ k)) 64 2).length < 64
      rw [htrace, doublings_length]
      omega)]
    show (levelsTrace (u32 (2 ^ k)) 64 2).foldlM _ _ = _
    rw [htrace]
    exact single_tile_fold k W B k (by omega) (le_refl k) _ (fn d data_in) htake
  have hstart : u32 (2 ^ k * 2) = 2 ^ (k + 1) := by
    rw [← pow_succ]; exact u32_two_pow _ (by omega)
  have h2 : ∀ dev : Device α,
      phase2 { BITONIC_BLOCK_SIZE := 2 ^ k, NUM_ELEMENTS := 2 ^ k, MATRIX_WIDTH := W,
               MATRIX_HEIGHT := W, TRANSPOSE_BLOCK_SIZE := B } 64 (2 ^ (k + 1)) dev = .ok dev := by
    intro dev
    rw [phase2, if_neg]
    show ¬ 2 ^ (k + 1) ≤ u32 (2 ^ k)
    rw [hu, pow_succ]
    have := Nat.two_pow_pos k
    omega
  have hdivW : 2 ^ k / W = W := by
    rw [← hW]
    exact Nat.mul_div_cancel _ hWpos
  unfold bitonic_sort_amp
  simp only []
  rw [if_neg (by simp; omega), if_neg (by simp [hdivW]),
    if_neg (by simp [Nat.mod_eq_zero_of_dvd hdiv]), if_neg (by simp [hout]),
    if_neg (by omega)]
  simp only [pure, bind, Except.bind, Except.pure, h1, hstart, h2, List.nil_append]

/-- The network of `k` levels sorts a buffer of `2 ^ k` elements in
non-decreasing order. -/
theorem sortNet_single_block (k : Nat) (f : Nat → α) (i j : Nat) (hij : i ≤ j) (hj : j < 2 ^ k) :
    sortNet k f i ≤ sortNet k f j := by
  have h := sortNet_sorted k f 0 i j hij hj
  simpa [ord] using h

end SingleTileRun

theorem roundsTrace_two_pow (t fuel : Nat) (h : t < fuel) :
    roundsTrace fuel (2 ^ t) = descending 0 (t + 1) := by
  induction t generalizing fuel with
  | zero =>
    obtain ⟨f, rfl⟩ : ∃ f, fuel = f + 1 := ⟨fuel - 1, by omega⟩
    rw [roundsTrace, if_pos (by norm_num)]
    have h0 : (2 ^ 0 >>> 1) = 0 := by decide
    rw [h0]
    cases f with
    | zero => rfl
    | succ f => rfl
  | succ t ih =>
    obtain ⟨f, rfl⟩ : ∃ f, fuel = f + 1 := ⟨fuel - 1, by omega⟩
    rw [roundsTrace, if_pos (Nat.two_pow_pos _), two_pow_succ_shiftRight, ih f (by omega)]
    show _ = 2 ^ (0 + (t + 1)) :: descending 0 (t + 1)
    rw [Nat.zero_add]

/-- The values of `j` in a launch with `ulevel = 2 ^ q` are
`2 ^ (q - 1)`, ..., `1`. -/
theorem kernel_trace (q : Nat) (hq : q ≤ 31) :
    roundsTrace 32 (u32 (2 ^ q) >>> 1) = descending 0 q := by
  rw [u32_two_pow q (by omega)]
  cases q with
  | zero => rfl
  | succ t => rw [two_pow_succ_shiftRight, roundsTrace_two_pow t 32 (by omega)]

theorem two_pow_and_pred (p q : Nat) (h : q ≤ p) : 2 ^ p &&& (2 ^ q - 1) = 0 := by
  rw [Nat.two_pow_and, Nat.testBit_two_pow_sub_one]
  have : decide (p < q) = false := by simpa using h
  rw [this]
  rfl

/-- The schedule for a tile edge `2 ^ k`, written with its levels. -/
theorem specSchedule_levels (k : Nat) :
    specSchedule (2 ^ k) (2 ^ k * 2 ^ k)
      = phase1Log (doublings 2 k)
          ++ phase2Log (2 ^ k) (2 ^ k * 2 ^ k) (doublings (2 * 2 ^ k) k) := by
  unfold specSchedule
  rw [← pow_add, Nat.log2_two_pow, Nat.log2_two_pow, Nat.add_sub_cancel]

/-- Every launch of `bitonic_sort_kernel` in the schedule has a power of two
`ulevel ≤ T` and a mask with no bit below `ulevel`. -/
theorem schedule_stage_shape (k : Nat) (hk : k ≤ 15) (st : Stage)
    (hst : st ∈ specSchedule (2 ^ k) (2 ^ k * 2 ^ k)) (buf : Buffer) (ulevel mask : Nat)
    (he : st = Stage.bitonic buf ulevel mask) :
    ∃ q, q ≤ k ∧ ulevel = 2 ^ q ∧ mask &&& (ulevel - 1) = 0 := by
  rw [specSchedule_levels] at hst
  rcases List.mem_append.mp hst with h | h
  · obtain ⟨level, hl, hlev⟩ := List.mem_map.mp h
    obtain ⟨i, hi, rfl⟩ := doublings_mem _ _ _ hl
    rw [he] at hlev
    cases hlev
    have h2 : 2 * 2 ^ i = 2 ^ (i + 1) := by rw [pow_succ]; ring
    rw [h2]
    exact ⟨i + 1, by omega, rfl, two_pow_and_pred _ _ (le_refl _)⟩
  · obtain ⟨level, hl, hmem⟩ := List.mem_flatMap.mp h
    obtain ⟨i, hi, rfl⟩ := doublings_mem _ _ _ hl
    have hlev : 2 * 2 ^ k * 2 ^ i = 2 ^ (k + (i + 1)) := by rw [pow_add, pow_succ]; ring
    rw [hlev] at hmem
    unfold sandwichLog at hmem
    rw [he] at hmem
    simp only [List.mem_cons, List.mem_singleton, List.not_mem_nil, or_false, reduceCtorEq,
      false_or, Stage.bitonic.injEq] at hmem
    rcases hmem with ⟨_, h1, h2⟩ | ⟨_, h1, h2⟩
    · rw [cross_level] at h1
      rw [cross_mask k (i + 1) hk (by omega)] at h2
      subst h1 h2
      refine ⟨i + 1, by omega, rfl, ?_⟩
      by_cases hlt : i + 1 < k
      · rw [if_pos hlt]
        exact two_pow_and_pred _ _ (le_refl _)
      · rw [if_neg hlt]
        exact Nat.zero_and _
    · subst h1 h2
      exact ⟨k, le_refl k, rfl, two_pow_and_pred _ _ (by omega)⟩

/-- The partner at distance `2 ^ t` inside a block that starts at a multiple
of `2 ^ p`, `t < p`. -/
theorem partner_shift (p t c i : Nat) (ht : t < p) :
    c * 2 ^ p + partner (2 ^ t) i = partner (2 ^ t) (c * 2 ^ p + i) := by
  have hpt : 2 ^ p = 2 ^ (p - t - 1) * (2 * 2 ^ t) := by
    rw [← pow_succ', ← pow_add]
    congr 1
    omega
  have hdiv : (c * 2 ^ p + i) / 2 ^ t = 2 * (c * 2 ^ (p - t - 1)) + i / 2 ^ t := by
    rw [hpt, ← Nat.mul_assoc, two_mul_block, Nat.add_comm,
      Nat.add_mul_div_right _ _ (Nat.two_pow_pos t), Nat.add_comm]
  unfold partner
  rw [hdiv, Nat.mul_add_mod]
  by_cases hz : i / 2 ^ t % 2 = 0
  · rw [if_pos hz, if_pos hz, Nat.add_assoc]
  · rw [if_neg hz, if_neg hz]
    have hoj : 2 ^ t ≤ i := by
      by_contra hlt
      exact hz (by rw [Nat.div_eq_of_lt (by omega)])
    rw [Nat.add_sub_assoc hoj]

theorem partner_xor (t g : Nat) : partner (2 ^ t) g = g ^^^ 2 ^ t := by
  unfold partner
  rw [xor_two_pow]
  by_cases hz : g / 2 ^ t % 2 = 0
  · rw [if_pos hz, (testBit_iff_div g t).mp hz]
    rfl
  · rw [if_neg hz]
    have hb : g.testBit t = true := by
      cases h : g.testBit t
      · exact absurd ((testBit_iff_div g t).mpr h) hz
      · rfl
    rw [hb]
    rfl

/-- A mask with no bit below `2 ^ q` gives both elements of a pair at a
distance below `2 ^ q` the same direction flag. -/
theorem maskDir_partner (mask q t g : Nat) (hm : mask &&& (2 ^ q - 1) = 0) (ht : t < q) :
    maskDir mask (partner (2 ^ t) g) = maskDir mask g := by
  have hbit : mask.testBit t = false := by
    have h := congrArg (fun x => x.testBit t) hm
    simp only [Nat.testBit_and, Nat.testBit_two_pow_sub_one, Nat.zero_testBit] at h
    have hd : decide (t < q) = true := by simpa using ht
    rw [hd, Bool.and_true] at h
    exact h
  have heq : mask &&& (g ^^^ 2 ^ t) = mask &&& g := by
    apply Nat.eq_of_testBit_eq
    intro i
    rw [Nat.testBit_and, Nat.testBit_and, Nat.testBit_xor, Nat.testBit_two_pow]
    by_cases hti : t = i
    · subst hti
      rw [hbit]
      rfl
    · have : decide (t = i) = false := by simpa using hti
      rw [this, Bool.xor_false]
  unfold maskDir
  rw [partner_xor, heq]

section BlockPerm

variable {α : Type} [LinearOrder α]

/-- A round at distance `2 ^ t` whose flag agrees on the two elements of every
pair permutes every aligned block of `2 ^ k` elements, `t < k`, within
itself. -/
theorem ce_block_perm (t k c : Nat) (ht : t < k) (desc : Nat → Bool)
    (hdesc : ∀ g, desc (partner (2 ^ t) g) = desc g) (f : Nat → α) :
    (tab (2 ^ k) (fun o => ce (2 ^ t) desc f (c * 2 ^ k + o))).Perm
      (tab (2 ^ k) (fun o => f (c * 2 ^ k + o))) := by
  have hkt : 2 ^ k = 2 ^ (k - t - 1) * (2 * 2 ^ t) := by
    rw [← pow_succ', ← pow_add]
    congr 1
    omega
  have hstart : c * 2 ^ k = (c * 2 ^ (k - t - 1)) * (2 * 2 ^ t) := by
    rw [hkt]; ring_nf
  have h1 : tab (2 ^ k) (fun o => ce (2 ^ t) desc f (c * 2 ^ k + o))
      = tab (2 ^ k) (ce (2 ^ t) (fun x => desc (c * 2 ^ k + x)) (fun x => f (c * 2 ^ k + x))) := by
    apply tab_congr
    intro o _
    rw [hstart]
    exact ce_shift (2 ^ t) _ (Nat.two_pow_pos t) desc f o
  rw [h1]
  refine ce_perm (2 ^ t) (2 ^ (k - t - 1)) (2 ^ k) hkt _ ?_ _
  intro i _
  show desc (c * 2 ^ k + partner (2 ^ t) i) = desc (c * 2 ^ k + i)
  rw [partner_shift k t c i ht]
  exact hdesc _

/-- The rounds at distances `2 ^ (q - 1)`, ..., `1`, `q ≤ k`, permute every
aligned block of `2 ^ k` elements within itself when the flag agrees on the
elements of every pair. -/
theorem ceRange_block_perm (q k c : Nat) (hq : q ≤ k) (desc : Nat → Bool)
    (hdesc : ∀ t < q, ∀ g, desc (partner (2 ^ t) g) = desc g) (f : Nat → α) :
    (tab (2 ^ k) (fun o => ceRange desc 0 q f (c * 2 ^ k + o))).Perm
      (tab (2 ^ k) (fun o => f (c * 2 ^ k + o))) := by
  induction q generalizing f with
  | zero => exact List.Perm.refl _
  | succ q ih =>
    show (tab (2 ^ k) (fun o => ceRange desc 0 q (ce (2 ^ (0 + q)) desc f) (c * 2 ^ k + o))).Perm _
    rw [Nat.zero_add]
    exact List.Perm.trans
      (ih (by omega) (fun t ht g => hdesc t (by omega) g) (ce (2 ^ q) desc f))
      (ce_block_perm q k c (by omega) desc (hdesc q (by omega)) f)

end BlockPerm

section InterleavingLemmas

variable {α : Type}

theorem mapM_inv {β : Type} (f : Nat → Except Fault β) :
    ∀ (xs : List Nat) (ys : List β), xs.mapM f = .ok ys →
      ys.length = xs.length ∧
      ∀ i (h : i < xs.length), ∃ v, f (xs.get ⟨i, h⟩) = .ok v ∧ ys[i]? = some v := by
  intro xs
  induction xs with
  | nil =>
    intro ys h
    have : ys = [] := by
      cases h
      rfl
    subst this
    exact ⟨rfl, fun i h => absurd h (Nat.not_lt_zero i)⟩
  | cons x xs ih =>
    intro ys h
    rw [List.mapM_cons] at h
    cases hx : f x with
    | error e =>
      rw [hx] at h
      cases h
    | ok v =>
      cases hxs : xs.mapM f with
      | error e =>
        rw [hx, hxs] at h
        cases h
      | ok zs =>
        rw [hx, hxs] at h
        have hy : ys = v :: zs := by
          cases h
          rfl
        subst hy
        obtain ⟨hlen, hall⟩ := ih zs hxs
        refine ⟨by simp [hlen], ?_⟩
        intro i hi
        cases i with
        | zero => exact ⟨v, hx, by simp⟩
        | succ i =>
          obtain ⟨w, hw1, hw2⟩ := hall i (by simpa using hi)
          exact ⟨w, hw1, by simpa using hw2⟩

theorem mapM_range_inv {β : Type} (f : Nat → Except Fault β) (n : Nat) (ys : List β)
    (h : (List.range n).mapM f = .ok ys) :
    ys.length = n ∧ ∀ i < n, ∃ v, f i = .ok v ∧ ys[i]? = some v := by
  obtain ⟨hlen, hall⟩ := mapM_inv f (List.range n) ys h
  rw [List.length_range] at hlen
  refine ⟨hlen, fun i hi => ?_⟩
  obtain ⟨v, hv1, hv2⟩ := hall i (by rw [List.length_range]; exact hi)
  refine ⟨v, ?_, hv2⟩
  simpa using hv1

theorem readAt_some (buf : List α) (i : Nat) (v : α) :
    readAt buf i = .ok v ↔ buf[i]? = some v := by
  unfold readAt
  cases h : buf[i]? with
  | none => simp
  | some w =>
    constructor
    · intro e
      cases e
      rfl
    · intro e
      cases e
      rfl

theorem readAt_lt (buf : List α) (i : Nat) (v : α) (h : readAt buf i = .ok v) :
    i < buf.length := by
  rw [readAt_some] at h
  by_contra hn
  rw [List.getElem?_eq_none (by omega)] at h
  cases h

theorem writeAt_set (buf : List α) (i : Nat) (v : α) (h : i < buf.length) :
    writeAt buf i v = .ok (buf.set i v) := by
  rw [writeAt, if_pos h]

theorem loadTile_inv (T tile : Nat) (data S0 : List α) (h : loadTile T data tile = .ok S0) :
    S0.length = T ∧ ∀ i < T, ∃ v, readAt data (tile * T + i) = .ok v ∧ S0[i]? = some v :=
  mapM_range_inv _ T S0 h

theorem storeTile_inv (T tile : Nat) (data sh : List α) :
    ∀ n out, (List.range n).foldlM
        (fun buf local_idx => do
          let v ← readAt sh local_idx
          writeAt buf (tile * T + local_idx) v) data = .ok out →
      out.length = data.length ∧
      (∀ l < n, tile * T + l < data.length ∧ out[tile * T + l]? = sh[l]?) ∧
      ∀ x, (x < tile * T ∨ tile * T + n ≤ x) → out[x]? = data[x]? := by
  intro n
  induction n with
  | zero =>
    intro out h
    have : out = data := by
      cases h
      rfl
    subst this
    exact ⟨rfl, fun l hl => absurd hl (Nat.not_lt_zero l), fun _ _ => rfl⟩
  | succ n ih =>
    intro out h
    rw [List.range_succ, List.foldlM_append] at h
    cases hb : (List.range n).foldlM
        (fun buf local_idx => do
          let v ← readAt sh local_idx
          writeAt buf (tile * T + local_idx) v) data with
    | error e =>
      rw [hb] at h
      cases h
    | ok b =>
      rw [hb] at h
      obtain ⟨hlen, hin, hframe⟩ := ih b hb
      simp only [bind, Except.bind, List.foldlM, pure, Except.pure] at h
      cases hr : readAt sh n with
      | error e =>
        rw [hr] at h
        cases h
      | ok v =>
        rw [hr] at h
        simp only [writeAt] at h
        by_cases hlt : tile * T + n < b.length
        · rw [if_pos hlt] at h
          have hout : out = b.set (tile * T + n) v := by
            cases h
            rfl
          subst hout
          refine ⟨by rw [List.length_set, hlen], ?_, ?_⟩
          · intro l hl
            by_cases hln : l = n
            · subst hln
              refine ⟨by omega, ?_⟩
              rw [List.getElem?_set_self hlt]
              exact ((readAt_some sh l v).mp hr).symm
            · obtain ⟨h1, h2⟩ := hin l (by omega)
              refine ⟨h1, ?_⟩
              rw [List.getElem?_set_ne (by omega)]
              exact h2
          · intro x hx
            rw [List.getElem?_set_ne (by omega)]
            exact hframe x (by omega)
        · rw [if_neg hlt] at h
          cases h

theorem ext_of_slots (T : Nat) (a b : List α) (ha : a.length = T) (hb : b.length = T)
    (h : ∀ i < T, a[i]? = b[i]?) : a = b := by
  apply List.ext_getElem?
  intro n
  by_cases hn : n < T
  · exact h n hn
  · rw [List.getElem?_eq_none (by omega), List.getElem?_eq_none (by omega)]

end InterleavingLemmas

section InterleavingOrder

variable {α : Type} [LinearOrder α]

theorem roundTile_inv (T mask j tile : Nat) (S S' : List α)
    (h : roundTile T mask j S tile = .ok S') :
    S'.length = T ∧
    ∀ i < T, ∃ r, roundThread mask j S i (tile * T + i) = .ok r ∧ S'[i]? = some r :=
  mapM_range_inv _ T S' h

theorem roundThread_inv (mask j : Nat) (S : List α) (l g : Nat) (r : α)
    (h : roundThread mask j S l g = .ok r) :
    ∃ lo hi, readAt S (l &&& not32 j) = .ok lo ∧ readAt S (l ||| j) = .ok hi ∧
      (if (decide (lo ≤ hi)) == (decide (mask &&& g ≠ 0)) then readAt S (l ^^^ j)
        else readAt S l) = .ok r := by
  unfold roundThread at h
  cases h1 : readAt S (l &&& not32 j) with
  | error e =>
    rw [h1] at h
    cases h
  | ok lo =>
    cases h2 : readAt S (l ||| j) with
    | error e =>
      rw [h1, h2] at h
      cases h
    | ok hi =>
      rw [h1, h2] at h
      exact ⟨lo, hi, rfl, rfl, h⟩

theorem roundThread_of_reads (mask j : Nat) (S : List α) (l g : Nat) (lo hi : α)
    (h1 : readAt S (l &&& not32 j) = .ok lo) (h2 : readAt S (l ||| j) = .ok hi) :
    roundThread mask j S l g =
      (if (decide (lo ≤ hi)) == (decide (mask &&& g ≠ 0)) then readAt S (l ^^^ j)
        else readAt S l) := by
  unfold roundThread
  rw [h1, h2]
  rfl

theorem roundsLoop_zero (T mask tile fuel : Nat) (S : List α) :
    roundsLoop T mask tile fuel 0 S = .ok S := by
  cases fuel <;> simp [roundsLoop]

theorem roundsLoop_inv (T mask tile fuel j : Nat) (S Sfin : List α) (hj : 0 < j)
    (h : roundsLoop T mask tile fuel j S = .ok Sfin) :
    ∃ fuel' S', roundTile T mask j S tile = .ok S' ∧
      roundsLoop T mask tile fuel' (j >>> 1) S' = .ok Sfin := by
  cases fuel with
  | zero =>
    rw [roundsLoop, if_pos hj] at h
    cases h
  | succ fuel =>
    rw [roundsLoop, if_pos hj] at h
    cases hr : roundTile T mask j S tile with
    | error e =>
      rw [hr] at h
      cases h
    | ok S' =>
      rw [hr] at h
      exact ⟨fuel, S', rfl, h⟩

end InterleavingOrder

section InterleavingMeasure

variable {α : Type}

theorem bind_ok_inv {ε β γ : Type} (x : Except ε β) (f : β → Except ε γ) (c : γ)
    (h : (x >>= f) = .ok c) : ∃ b, x = .ok b ∧ f b = .ok c := by
  cases x with
  | error e => cases h
  | ok b => exact ⟨b, rfl, h⟩

theorem iters_shift (j : Nat) (hj : 0 < j) : iters j = iters (j >>> 1) + 1 := by
  unfold iters
  rw [if_neg (by omega), Nat.shiftRight_eq_div_pow, pow_one]
  by_cases h2 : 2 ≤ j
  · have hpos : j / 2 ≠ 0 := by omega
    rw [if_neg hpos]
    conv_lhs => rw [Nat.log2]
    rw [if_pos h2]
  · have h1 : j = 1 := by omega
    subst h1
    rw [Nat.log2]
    simp

theorem rest_loopEntry (ulevel j : Nat) :
    Pc.rest ulevel (loopEntry j : Pc α) < 6 * iters j + 2 := by
  unfold loopEntry
  by_cases hj : 0 < j
  · rw [if_pos hj, iters_shift j hj]
    show 6 * iters (j >>> 1) + 7 < _
    omega
  · rw [if_neg hj]
    show 1 < _
    omega

theorem rest_release (ulevel : Nat) (pc : Pc α) (h : pc.atBarrier = true) :
    Pc.rest ulevel (release ulevel pc) < Pc.rest ulevel pc := by
  cases pc with
  | barrier0 => exact rest_loopEntry ulevel _
  | barrierA j r =>
    show 6 * iters (j >>> 1) + 3 < 6 * iters (j >>> 1) + 4
    omega
  | barrierB j => exact rest_loopEntry ulevel _
  | load => cases h
  | read_lo j => cases h
  | read_hi j lo => cases h
  | read_sel j lo hi => cases h
  | write j r => cases h
  | store => cases h
  | done => cases h

theorem sum_set_lt {β : Type} (f : β → Nat) (x y : β) :
    ∀ (l : List β) (i : Nat), l[i]? = some y → f x < f y →
      ((l.set i x).map f).sum < (l.map f).sum := by
  intro l
  induction l with
  | nil =>
    intro i h
    cases h
  | cons a l ih =>
    intro i h hlt
    cases i with
    | zero =>
      have ha : a = y := by simpa using h
      subst ha
      simp only [List.set_cons_zero, List.map_cons, List.sum_cons]
      omega
    | succ i =>
      have h2 : l[i]? = some y := by simpa using h
      have := ih i h2 hlt
      simp only [List.set_cons_succ, List.map_cons, List.sum_cons]
      omega

theorem all_atBarrier_iff (pcs : List (Pc α)) :
    pcs.all Pc.atBarrier = true ↔ ∀ (i : Nat) (pc : Pc α), pcs[i]? = some pc → pc.atBarrier = true := by
  rw [List.all_eq_true]
  constructor
  · intro h i pc hi
    exact h pc (List.mem_iff_getElem?.mpr ⟨i, hi⟩)
  · intro h pc hpc
    obtain ⟨i, hi, rfl⟩ := List.getElem_of_mem hpc
    exact h i _ (List.getElem?_eq_getElem hi)

theorem finished_iff (s : TileState α) :
    finished s = true ↔ ∀ (i : Nat) (pc : Pc α), s.pcs[i]? = some pc → pc = .done := by
  unfold finished
  rw [List.all_eq_true]
  constructor
  · intro h i pc hi
    have := h pc (List.mem_iff_getElem?.mpr ⟨i, hi⟩)
    cases pc <;> first | rfl | cases this
  · intro h pc hpc
    obtain ⟨i, hi, rfl⟩ := List.getElem_of_mem hpc
    rw [h i _ (List.getElem?_eq_getElem hi)]
    rfl

end InterleavingMeasure

section InterleavingStepShape

variable {α : Type} [LinearOrder α]

theorem step_thread (T ulevel mask tile : Nat) (s : TileState α) (i : Nat) (pc : Pc α)
    (hpc : s.pcs[i]? = some pc) (hb : pc.atBarrier = false) :
    step T ulevel mask tile s i = threadStep T mask tile s i pc := by
  unfold step
  rw [hpc]
  simp [hb]

theorem step_release (T ulevel mask tile : Nat) (s : TileState α) (i : Nat) (pc : Pc α)
    (hpc : s.pcs[i]? = some pc) (hb : pc.atBarrier = true)
    (hall : s.pcs.all Pc.atBarrier = true) :
    step T ulevel mask tile s i = .ok { s with pcs := s.pcs.map (release ulevel) } := by
  unfold step
  rw [hpc]
  simp only [hb, if_true]
  rw [if_pos hall]

theorem step_held (T ulevel mask tile : Nat) (s : TileState α) (i : Nat) (pc : Pc α)
    (hpc : s.pcs[i]? = some pc) (hb : pc.atBarrier = true)
    (hall : ¬ s.pcs.all Pc.atBarrier = true) :
    step T ulevel mask tile s i = .ok s := by
  unfold step
  rw [hpc]
  simp only [hb, if_true]
  rw [if_neg hall]

theorem step_none (T ulevel mask tile : Nat) (s : TileState α) (i : Nat)
    (hpc : s.pcs[i]? = none) :
    step T ulevel mask tile s i = .ok s := by
  unfold step
  rw [hpc]

theorem threadStep_rest (T ulevel mask tile : Nat) (s s' : TileState α) (i : Nat) (pc : Pc α)
    (hb : pc.atBarrier = false) (hd : pc.isDone = false)
    (h : threadStep T mask tile s i pc = .ok s') :
    ∃ pc', s'.pcs = s.pcs.set i pc' ∧ Pc.rest ulevel pc' < Pc.rest ulevel pc := by
  cases pc with
  | barrier0 => cases hb
  | barrierA j r => cases hb
  | barrierB j => cases hb
  | done => cases hd
  | load =>
    simp only [threadStep] at h
    obtain ⟨v, _, h⟩ := bind_ok_inv _ _ _ h
    obtain ⟨sh, _, h⟩ := bind_ok_inv _ _ _ h
    cases h
    exact ⟨.barrier0, rfl, Nat.lt_succ_self _⟩
  | read_lo j =>
    simp only [threadStep] at h
    obtain ⟨lo, _, h⟩ := bind_ok_inv _ _ _ h
    cases h
    exact ⟨.read_hi j lo, rfl, Nat.lt_succ_self _⟩
  | read_hi j lo =>
    simp only [threadStep] at h
    obtain ⟨hi, _, h⟩ := bind_ok_inv _ _ _ h
    cases h
    exact ⟨.read_sel j lo hi, rfl, Nat.lt_succ_self _⟩
  | read_sel j lo hi =>
    simp only [threadStep] at h
    split at h
    · obtain ⟨r, _, h⟩ := bind_ok_inv _ _ _ h
      cases h
      exact ⟨.barrierA j r, rfl, Nat.lt_succ_self _⟩
    · obtain ⟨r, _, h⟩ := bind_ok_inv _ _ _ h
      cases h
      exact ⟨.barrierA j r, rfl, Nat.lt_succ_self _⟩
  | write j r =>
    simp only [threadStep] at h
    obtain ⟨sh, _, h⟩ := bind_ok_inv _ _ _ h
    cases h
    exact ⟨.barrierB j, rfl, Nat.lt_succ_self _⟩
  | store =>
    simp only [threadStep] at h
    obtain ⟨v, _, h⟩ := bind_ok_inv _ _ _ h
    obtain ⟨d, _, h⟩ := bind_ok_inv _ _ _ h
    cases h
    exact ⟨.done, rfl, Nat.lt_succ_self _⟩

/-- Every step of a thread that can take one brings the tile closer to the
end. -/
theorem step_decreases (T ulevel mask tile : Nat) (s s' : TileState α) (i : Nat)
    (he : enabled s i = true) (h : step T ulevel mask tile s i = .ok s') :
    remaining ulevel s' < remaining ulevel s := by
  unfold enabled at he
  cases hpc : s.pcs[i]? with
  | none =>
    rw [hpc] at he
    cases he
  | some pc =>
    rw [hpc] at he
    simp only at he
    by_cases hb : pc.atBarrier = true
    · rw [if_pos hb] at he
      rw [step_release T ulevel mask tile s i pc hpc hb he] at h
      cases h
      unfold remaining
      show ((s.pcs.map (release ulevel)).map (Pc.rest ulevel)).sum < _
      rw [List.map_map]
      apply List.sum_lt_sum_of_ne_nil
      · intro hnil
        rw [hnil] at hpc
        cases hpc
      · intro pc' hpc'
        obtain ⟨k, hk, rfl⟩ := List.getElem_of_mem hpc'
        exact rest_release ulevel _
          ((all_atBarrier_iff s.pcs).mp he k _ (List.getElem?_eq_getElem hk))
    · have hb' : pc.atBarrier = false := by
        cases hx : pc.atBarrier
        · rfl
        · exact absurd hx hb
      rw [if_neg hb] at he
      have hd : pc.isDone = false := by
        cases hx : pc.isDone
        · rfl
        · rw [hx] at he
          cases he
      rw [step_thread T ulevel mask tile s i pc hpc hb'] at h
      obtain ⟨pc', hset, hlt⟩ := threadStep_rest T ulevel mask tile s s' i pc hb' hd h
      unfold remaining
      rw [hset]
      exact sum_set_lt (Pc.rest ulevel) pc' pc s.pcs i hpc hlt

end InterleavingStepShape

section InterleavingPhases

variable {α : Type} [LinearOrder α]

theorem threadStep_load (T mask tile : Nat) (s : TileState α) (i : Nat) (v : α)
    (hr : readAt s.data (tile * T + i) = .ok v) (hi : i < s.sh_data.length) :
    threadStep T mask tile s i .load
      = .ok { s with sh_data := s.sh_data.set i v, pcs := s.pcs.set i .barrier0 } := by
  simp only [threadStep, hr, writeAt_set s.sh_data i v hi, bind, Except.bind, pure, Except.pure]

theorem threadStep_read_lo (T mask tile : Nat) (s : TileState α) (i j : Nat) (lo : α)
    (hr : readAt s.sh_data (i &&& not32 j) = .ok lo) :
    threadStep T mask tile s i (.read_lo j)
      = .ok { s with pcs := s.pcs.set i (.read_hi j lo) } := by
  simp only [threadStep, hr, bind, Except.bind, pure, Except.pure]

theorem threadStep_read_hi (T mask tile : Nat) (s : TileState α) (i j : Nat) (lo hi : α)
    (hr : readAt s.sh_data (i ||| j) = .ok hi) :
    threadStep T mask tile s i (.read_hi j lo)
      = .ok { s with pcs := s.pcs.set i (.read_sel j lo hi) } := by
  simp only [threadStep, hr, bind, Except.bind, pure, Except.pure]

theorem threadStep_read_sel (T mask tile : Nat) (s : TileState α) (i j : Nat) (lo hi r : α)
    (hr : (if (decide (lo ≤ hi)) == (decide (mask &&& (tile * T + i) ≠ 0)) then
        readAt s.sh_data (i ^^^ j) else readAt s.sh_data i) = .ok r) :
    threadStep T mask tile s i (.read_sel j lo hi)
      = .ok { s with pcs := s.pcs.set i (.barrierA j r) } := by
  by_cases hc : ((decide (lo ≤ hi)) == (decide (mask &&& (tile * T + i) ≠ 0))) = true
  · rw [if_pos hc] at hr
    simp only [threadStep, if_pos hc, hr, bind, Except.bind, pure, Except.pure]
  · rw [if_neg hc] at hr
    simp only [threadStep, if_neg hc, hr, bind, Except.bind, pure, Except.pure]

theorem threadStep_write (T mask tile : Nat) (s : TileState α) (i j : Nat) (r : α)
    (hi : i < s.sh_data.length) :
    threadStep T mask tile s i (.write j r)
      = .ok { s with sh_data := s.sh_data.set i r, pcs := s.pcs.set i (.barrierB j) } := by
  simp only [threadStep, writeAt_set s.sh_data i r hi, bind, Except.bind, pure, Except.pure]

theorem threadStep_store (T mask tile : Nat) (s : TileState α) (i : Nat) (v : α)
    (hr : readAt s.sh_data i = .ok v) (hi : tile * T + i < s.data.length) :
    threadStep T mask tile s i .store
      = .ok { s with data := s.data.set (tile * T + i) v, pcs := s.pcs.set i .done } := by
  simp only [threadStep, hr, writeAt_set s.data (tile * T + i) v hi, bind, Except.bind, pure,
    Except.pure]

/-- The head of the loop, every thread arriving from a barrier. -/
theorem enter_loop (T ulevel mask tile : Nat) (data0 out : List α) (s : TileState α)
    (j fuel : Nat) (Sfin : List α) (hT : 0 < T) (hdata : s.data = data0)
    (hsh : s.sh_data.length = T) (hpcs : s.pcs.length = T)
    (hall : ∀ i < T, s.pcs[i]? = some (loopEntry j))
    (hloop : roundsLoop T mask tile fuel j s.sh_data = .ok Sfin)
    (hstore : storeTile T data0 tile Sfin = .ok out) :
    InPhase T ulevel mask tile data0 out s := by
  by_cases hj : 0 < j
  · refine Or.inr (Or.inl ⟨j, fuel, Sfin, ⟨hdata, hsh, hpcs, hj, fun i hi => Or.inl ?_⟩,
      hloop, hstore⟩)
    rw [hall i hi, loopEntry, if_pos hj]
  · have hj0 : j = 0 := by omega
    subst hj0
    rw [roundsLoop_zero] at hloop
    have hS : s.sh_data = Sfin := by
      cases hloop
      rfl
    subst hS
    obtain ⟨hlen, hin, hframe⟩ := storeTile_inv T tile data0 s.sh_data T out hstore
    refine Or.inr (Or.inr (Or.inr ⟨hsh, hpcs, by rw [hdata], hlen, ?_, ?_, ?_⟩))
    · have := (hin (T - 1) (by omega)).1
      omega
    · intro x hx
      exact ⟨by rw [hdata], hframe x hx⟩
    · intro i hi
      refine ⟨((hin i hi).2).symm, Or.inl ⟨?_, by rw [hdata]⟩⟩
      rw [hall i hi, loopEntry, if_neg (by omega)]

theorem load_phase_step (T ulevel mask tile : Nat) (data0 out S0 Sfin : List α)
    (s : TileState α) (hload : loadTile T data0 tile = .ok S0)
    (hloop : roundsLoop T mask tile 32 (u32 ulevel >>> 1) S0 = .ok Sfin)
    (hstore : storeTile T data0 tile Sfin = .ok out) (hP : LoadPhase T data0 S0 s) (i : Nat) :
    ∃ s', step T ulevel mask tile s i = .ok s' ∧ InPhase T ulevel mask tile data0 out s' := by
  obtain ⟨hdata, hsh, hpcs, hall⟩ := hP
  have hsame : InPhase T ulevel mask tile data0 out s :=
    Or.inl ⟨S0, Sfin, hload, hloop, hstore, hdata, hsh, hpcs, hall⟩
  by_cases hi : i < T
  · obtain ⟨hS0len, hS0⟩ := loadTile_inv T tile data0 S0 hload
    rcases hall i hi with hl | ⟨hb, hv⟩
    · obtain ⟨v, hr, hv⟩ := hS0 i hi
      rw [← hdata] at hr
      rw [step_thread T ulevel mask tile s i _ hl rfl,
        threadStep_load T mask tile s i v hr (by omega)]
      refine ⟨_, rfl, Or.inl ⟨S0, Sfin, hload, hloop, hstore, hdata, ?_, ?_, ?_⟩⟩
      · show (s.sh_data.set i v).length = T
        rw [List.length_set, hsh]
      · show (s.pcs.set i _).length = T
        rw [List.length_set, hpcs]
      · intro i' hi'
        show (s.pcs.set i Pc.barrier0)[i']? = _ ∨
          ((s.pcs.set i Pc.barrier0)[i']? = _ ∧ (s.sh_data.set i v)[i']? = _)
        by_cases he : i' = i
        · subst he
          right
          rw [List.getElem?_set_self (by omega), List.getElem?_set_self (by omega), hv]
          exact ⟨rfl, rfl⟩
        · rw [List.getElem?_set_ne (Ne.symm he), List.getElem?_set_ne (Ne.symm he)]
          exact hall i' hi'
    · by_cases hallb : s.pcs.all Pc.atBarrier = true
      · rw [step_release T ulevel mask tile s i _ hb rfl hallb]
        refine ⟨_, rfl, ?_⟩
        have hb0 : ∀ i' < T, s.pcs[i']? = some Pc.barrier0 ∧ s.sh_data[i']? = S0[i']? := by
          intro i' hi'
          rcases hall i' hi' with h1 | h1
          · have := (all_atBarrier_iff s.pcs).mp hallb i' _ h1
            cases this
          · exact h1
        have hS : s.sh_data = S0 :=
          ext_of_slots T _ _ hsh hS0len (fun i' hi' => (hb0 i' hi').2)
        apply enter_loop T ulevel mask tile data0 out
          { s with pcs := s.pcs.map (release ulevel) } (u32 ulevel >>> 1) 32 Sfin
          (by omega) hdata hsh
        · show (s.pcs.map (release ulevel)).length = T
          rw [List.length_map, hpcs]
        · intro i' hi'
          show (s.pcs.map (release ulevel))[i']? = _
          rw [List.getElem?_map, (hb0 i' hi').1]
          rfl
        · show roundsLoop T mask tile 32 (u32 ulevel >>> 1) s.sh_data = _
          rw [hS]
          exact hloop
        · exact hstore
      · rw [step_held T ulevel mask tile s i _ hb rfl hallb]
        exact ⟨s, rfl, hsame⟩
  · rw [step_none T ulevel mask tile s i (List.getElem?_eq_none (by omega))]
    exact ⟨s, rfl, hsame⟩

theorem read_phase_set (T mask tile : Nat) (data0 : List α) (j : Nat) (s : TileState α)
    (hP : ReadPhase T mask tile data0 j s) (i : Nat) (hi : i < T) (pc : Pc α)
    (hpc : pc = .read_lo j ∨
      (∃ lo, pc = .read_hi j lo ∧ readAt s.sh_data (i &&& not32 j) = .ok lo) ∨
      (∃ lo hi, pc = .read_sel j lo hi ∧
        readAt s.sh_data (i &&& not32 j) = .ok lo ∧ readAt s.sh_data (i ||| j) = .ok hi) ∨
      (∃ r, pc = .barrierA j r ∧ roundThread mask j s.sh_data i (tile * T + i) = .ok r)) :
    ReadPhase T mask tile data0 j { s with pcs := s.pcs.set i pc } := by
  obtain ⟨hdata, hsh, hpcs, hj, hall⟩ := hP
  refine ⟨hdata, hsh, ?_, hj, ?_⟩
  · show (s.pcs.set i pc).length = T
    rw [List.length_set, hpcs]
  · intro i' hi'
    show (s.pcs.set i pc)[i']? = _ ∨ (∃ lo, (s.pcs.set i pc)[i']? = _ ∧ _) ∨
      (∃ lo hi, (s.pcs.set i pc)[i']? = _ ∧ _) ∨ (∃ r, (s.pcs.set i pc)[i']? = _ ∧ _)
    by_cases he : i' = i
    · subst he
      rw [List.getElem?_set_self (by omega)]
      rcases hpc with h | ⟨lo, h, h1⟩ | ⟨lo, hi2, h, h1, h2⟩ | ⟨r, h, h1⟩
      · exact Or.inl (congrArg some h)
      · exact Or.inr (Or.inl ⟨lo, congrArg some h, h1⟩)
      · exact Or.inr (Or.inr (Or.inl ⟨lo, hi2, congrArg some h, h1, h2⟩))
      · exact Or.inr (Or.inr (Or.inr ⟨r, congrArg some h, h1⟩))
    · rw [List.getElem?_set_ne (Ne.symm he)]
      exact hall i' hi'

theorem read_phase_step (T ulevel mask tile : Nat) (data0 out Sfin : List α)
    (s : TileState α) (j fuel : Nat) (hP : ReadPhase T mask tile data0 j s)
    (hloop : roundsLoop T mask tile fuel j s.sh_data = .ok Sfin)
    (hstore : storeTile T data0 tile Sfin = .ok out) (i : Nat) :
    ∃ s', step T ulevel mask tile s i = .ok s' ∧ InPhase T ulevel mask tile data0 out s' := by
  have hsame : InPhase T ulevel mask tile data0 out s :=
    Or.inr (Or.inl ⟨j, fuel, Sfin, hP, hloop, hstore⟩)
  have hP' := hP
  obtain ⟨hdata, hsh, hpcs, hj, hall⟩ := hP
  obtain ⟨fuel', S', hround, hloop'⟩ := roundsLoop_inv T mask tile fuel j _ Sfin hj hloop
  obtain ⟨hS'len, hS'⟩ := roundTile_inv T mask j tile _ S' hround
  by_cases hi : i < T
  · obtain ⟨r, hr, hrS⟩ := hS' i hi
    obtain ⟨lo0, hi0, hlo0, hhi0, hsel0⟩ := roundThread_inv mask j _ i _ r hr
    have hnext : ∀ pc, ReadPhase T mask tile data0 j { s with pcs := s.pcs.set i pc } →
        InPhase T ulevel mask tile data0 out { s with pcs := s.pcs.set i pc } :=
      fun pc h => Or.inr (Or.inl ⟨j, fuel, Sfin, h, hloop, hstore⟩)
    rcases hall i hi with h1 | ⟨lo, h2, hlo⟩ | ⟨lo, hi', h3, hlo, hhi⟩ | ⟨r', h4, hr'⟩
    · rw [step_thread T ulevel mask tile s i _ h1 rfl,
        threadStep_read_lo T mask tile s i j lo0 hlo0]
      exact ⟨_, rfl, hnext _ (read_phase_set T mask tile data0 j s hP' i hi _
        (Or.inr (Or.inl ⟨lo0, rfl, hlo0⟩)))⟩
    · rw [step_thread T ulevel mask tile s i _ h2 rfl,
        threadStep_read_hi T mask tile s i j lo hi0 hhi0]
      exact ⟨_, rfl, hnext _ (read_phase_set T mask tile data0 j s hP' i hi _
        (Or.inr (Or.inr (Or.inl ⟨lo, hi0, rfl, hlo, hhi0⟩))))⟩
    · have hsel : (if (decide (lo ≤ hi')) == (decide (mask &&& (tile * T + i) ≠ 0)) then
          readAt s.sh_data (i ^^^ j) else readAt s.sh_data i) = .ok r := by
        rw [← roundThread_of_reads mask j s.sh_data i (tile * T + i) lo hi' hlo hhi]
        exact hr
      rw [step_thread T ulevel mask tile s i _ h3 rfl,
        threadStep_read_sel T mask tile s i j lo hi' r hsel]
      exact ⟨_, rfl, hnext _ (read_phase_set T mask tile data0 j s hP' i hi _
        (Or.inr (Or.inr (Or.inr ⟨r, rfl, hr⟩))))⟩
    · by_cases hallb : s.pcs.all Pc.atBarrier = true
      · rw [step_release T ulevel mask tile s i _ h4 rfl hallb]
        refine ⟨_, rfl, Or.inr (Or.inr (Or.inl ⟨j, s.sh_data, S', fuel', Sfin,
          ⟨hdata, hsh, ?_, hj, hround, ?_⟩, hloop', hstore⟩))⟩
        · show (s.pcs.map (release ulevel)).length = T
          rw [List.length_map, hpcs]
        · intro i' hi'
          obtain ⟨r2, hr2, hrS2⟩ := hS' i' hi'
          refine ⟨r2, hr2, hrS2, Or.inl ?_⟩
          show (s.pcs.map (release ulevel))[i']? = _
          rw [List.getElem?_map]
          rcases hall i' hi' with g1 | ⟨lo, g2, _⟩ | ⟨lo, hi2, g3, _, _⟩ | ⟨r3, g4, hr3⟩
          · have := (all_atBarrier_iff s.pcs).mp hallb i' _ g1
            cases this
          · have := (all_atBarrier_iff s.pcs).mp hallb i' _ g2
            cases this
          · have := (all_atBarrier_iff s.pcs).mp hallb i' _ g3
            cases this
          · rw [hr2] at hr3
            cases hr3
            rw [g4]
            rfl
      · rw [step_held T ulevel mask tile s i _ h4 rfl hallb]
        exact ⟨s, rfl, hsame⟩
  · rw [step_none T ulevel mask tile s i (List.getElem?_eq_none (by omega))]
    exact ⟨s, rfl, hsame⟩

theorem write_phase_step (T ulevel mask tile : Nat) (data0 out S S' Sfin : List α)
    (s : TileState α) (j fuel : Nat) (hP : WritePhase T mask tile data0 j S S' s)
    (hloop : roundsLoop T mask tile fuel (j >>> 1) S' = .ok Sfin)
    (hstore : storeTile T data0 tile Sfin = .ok out) (i : Nat) :
    ∃ s', step T ulevel mask tile s i = .ok s' ∧ InPhase T ulevel mask tile data0 out s' := by
  have hsame : InPhase T ulevel mask tile data0 out s :=
    Or.inr (Or.inr (Or.inl ⟨j, S, S', fuel, Sfin, hP, hloop, hstore⟩))
  obtain ⟨hdata, hsh, hpcs, hj, hround, hall⟩ := hP
  obtain ⟨hS'len, _⟩ := roundTile_inv T mask j tile S S' hround
  by_cases hi : i < T
  · obtain ⟨r, hr, hrS, hpc | ⟨hpc, hslot⟩⟩ := hall i hi
    · rw [step_thread T ulevel mask tile s i _ hpc rfl,
        threadStep_write T mask tile s i j r (by omega)]
      refine ⟨_, rfl, Or.inr (Or.inr (Or.inl ⟨j, S, S', fuel, Sfin,
        ⟨hdata, ?_, ?_, hj, hround, ?_⟩, hloop, hstore⟩))⟩
      · show (s.sh_data.set i r).length = T
        rw [List.length_set, hsh]
      · show (s.pcs.set i _).length = T
        rw [List.length_set, hpcs]
      · intro i' hi'
        obtain ⟨r2, hr2, hrS2, hcase⟩ := hall i' hi'
        refine ⟨r2, hr2, hrS2, ?_⟩
        show (s.pcs.set i (Pc.barrierB j))[i']? = _ ∨
          ((s.pcs.set i (Pc.barrierB j))[i']? = _ ∧ (s.sh_data.set i r)[i']? = _)
        by_cases he : i' = i
        · subst he
          right
          rw [List.getElem?_set_self (by omega), List.getElem?_set_self (by omega)]
          rw [hr] at hr2
          cases hr2
          exact ⟨rfl, rfl⟩
        · rw [List.getElem?_set_ne (Ne.symm he), List.getElem?_set_ne (Ne.symm he)]
          exact hcase
    · by_cases hallb : s.pcs.all Pc.atBarrier = true
      · rw [step_release T ulevel mask tile s i _ hpc rfl hallb]
        refine ⟨_, rfl, ?_⟩
        have hb0 : ∀ i' < T, s.pcs[i']? = some (Pc.barrierB j) ∧ s.sh_data[i']? = S'[i']? := by
          intro i' hi'
          obtain ⟨r2, _, hrS2, h1 | h1⟩ := hall i' hi'
          · have := (all_atBarrier_iff s.pcs).mp hallb i' _ h1
            cases this
          · exact ⟨h1.1, by rw [h1.2, hrS2]⟩
        have hS : s.sh_data = S' :=
          ext_of_slots T _ _ hsh hS'len (fun i' hi' => (hb0 i' hi').2)
        apply enter_loop T ulevel mask tile data0 out
          { s with pcs := s.pcs.map (release ulevel) } (j >>> 1) fuel Sfin
          (by omega) hdata hsh
        · show (s.pcs.map (release ulevel)).length = T
          rw [List.length_map, hpcs]
        · intro i' hi'
          show (s.pcs.map (release ulevel))[i']? = _
          rw [List.getElem?_map, (hb0 i' hi').1]
          rfl
        · show roundsLoop T mask tile fuel (j >>> 1) s.sh_data = _
          rw [hS]
          exact hloop
        · exact hstore
      · rw [step_held T ulevel mask tile s i _ hpc rfl hallb]
        exact ⟨s, rfl, hsame⟩
  · rw [step_none T ulevel mask tile s i (List.getElem?_eq_none (by omega))]
    exact ⟨s, rfl, hsame⟩

theorem store_phase_step (T ulevel mask tile : Nat) (data0 out : List α)
    (s : TileState α) (hP : StorePhase T tile data0 out s) (i : Nat) :
    ∃ s', step T ulevel mask tile s i = .ok s' ∧ InPhase T ulevel mask tile data0 out s' := by
  have hsame : InPhase T ulevel mask tile data0 out s := Or.inr (Or.inr (Or.inr hP))
  obtain ⟨hsh, hpcs, hdlen, holen, hfit, hframe, hall⟩ := hP
  by_cases hi : i < T
  · obtain ⟨hslot, ⟨hpc, hd⟩ | ⟨hpc, hd⟩⟩ := hall i hi
    · have hlt : i < s.sh_data.length := by omega
      have hr : readAt s.sh_data i = .ok s.sh_data[i] :=
        (readAt_some _ _ _).mpr (List.getElem?_eq_getElem hlt)
      rw [step_thread T ulevel mask tile s i _ hpc rfl,
        threadStep_store T mask tile s i _ hr (by omega)]
      refine ⟨_, rfl, Or.inr (Or.inr (Or.inr ⟨hsh, ?_, ?_, holen, hfit, ?_, ?_⟩))⟩
      · show (s.pcs.set i _).length = T
        rw [List.length_set, hpcs]
      · show (s.data.set _ _).length = _
        rw [List.length_set, hdlen]
      · intro x hx
        show (s.data.set _ _)[x]? = _ ∧ _
        rw [List.getElem?_set_ne (by omega)]
        exact hframe x hx
      · intro i' hi'
        obtain ⟨hslot2, hcase⟩ := hall i' hi'
        refine ⟨hslot2, ?_⟩
        show ((s.pcs.set i Pc.done)[i']? = _ ∧ (s.data.set (tile * T + i) s.sh_data[i])[_]? = _) ∨
          ((s.pcs.set i Pc.done)[i']? = _ ∧ (s.data.set (tile * T + i) s.sh_data[i])[_]? = _)
        by_cases he : i' = i
        · subst he
          right
          rw [List.getElem?_set_self (by omega), List.getElem?_set_self (by omega),
            ← hslot, List.getElem?_eq_getElem hlt]
          exact ⟨rfl, rfl⟩
        · rw [List.getElem?_set_ne (Ne.symm he), List.getElem?_set_ne (by omega)]
          exact hcase
    · rw [step_thread T ulevel mask tile s i _ hpc rfl]
      exact ⟨s, rfl, hsame⟩
  · rw [step_none T ulevel mask tile s i (List.getElem?_eq_none (by omega))]
    exact ⟨s, rfl, hsame⟩

/-- A step of any thread keeps the tile in one of the phases, and does not
fault. -/
theorem phase_step (T ulevel mask tile : Nat) (data0 out : List α) (s : TileState α)
    (hP : InPhase T ulevel mask tile data0 out s) (i : Nat) :
    ∃ s', step T ulevel mask tile s i = .ok s' ∧ InPhase T ulevel mask tile data0 out s' := by
  rcases hP with ⟨S0, Sfin, h1, h2, h3, h4⟩ | ⟨j, fuel, Sfin, h1, h2, h3⟩ |
    ⟨j, S, S', fuel, Sfin, h1, h2, h3⟩ | h
  · exact load_phase_step T ulevel mask tile data0 out S0 Sfin s h1 h2 h3 h4 i
  · exact read_phase_step T ulevel mask tile data0 out Sfin s j fuel h1 h2 h3 i
  · exact write_phase_step T ulevel mask tile data0 out S S' Sfin s j fuel h1 h2 h3 i
  · exact store_phase_step T ulevel mask tile data0 out s h i

theorem phase_init (T ulevel mask tile : Nat) (data sh0 out : List α) (hsh : sh0.length = T)
    (hsync : bitonic_sort_kernel T data ulevel mask tile = .ok out) :
    InPhase T ulevel mask tile data out (initTile T data sh0) := by
  unfold bitonic_sort_kernel at hsync
  obtain ⟨S0, hload, hsync⟩ := bind_ok_inv _ _ _ hsync
  obtain ⟨Sfin, hloop, hstore⟩ := bind_ok_inv _ _ _ hsync
  refine Or.inl ⟨S0, Sfin, hload, hloop, hstore, rfl, hsh, ?_, ?_⟩
  · show (List.replicate T Pc.load).length = T
    rw [List.length_replicate]
  · intro i hi
    left
    show (List.replicate T Pc.load)[i]? = _
    rw [List.getElem?_replicate, if_pos hi]

theorem phase_run (T ulevel mask tile : Nat) (data0 out : List α) (sched : List Nat) :
    ∀ s : TileState α, InPhase T ulevel mask tile data0 out s →
      ∃ s', run T ulevel mask tile sched s = .ok s' ∧
        InPhase T ulevel mask tile data0 out s' := by
  induction sched with
  | nil => exact fun s hs => ⟨s, rfl, hs⟩
  | cons i sched ih =>
    intro s hs
    obtain ⟨s1, h1, hs1⟩ := phase_step T ulevel mask tile data0 out s hs i
    obtain ⟨s2, h2, hs2⟩ := ih s1 hs1
    refine ⟨s2, ?_, hs2⟩
    unfold run
    rw [List.foldlM_cons, h1]
    exact h2

end InterleavingPhases

section InterleavingClasses

variable {α : Type}

theorem slot_of_mem (T : Nat) (pcs : List (Pc α)) (hlen : pcs.length = T) (pc : Pc α)
    (h : pc ∈ pcs) : ∃ i < T, pcs[i]? = some pc := by
  obtain ⟨i, hi, rfl⟩ := List.getElem_of_mem h
  exact ⟨i, by omega, List.getElem?_eq_getElem hi⟩

theorem inRead_inj (pc : Pc α) (j j' : Nat) (h : pc.inRead j = true) (h' : pc.inRead j' = true) :
    j = j' := by
  cases pc <;> simp [Pc.inRead] at h h' <;> omega

theorem inWrite_inj (pc : Pc α) (j j' : Nat) (h : pc.inWrite j = true)
    (h' : pc.inWrite j' = true) : j = j' := by
  cases pc <;> simp [Pc.inWrite] at h h' <;> omega

theorem not_inRead_inWrite (pc : Pc α) (j j' : Nat) (h : pc.inRead j = true)
    (h' : pc.inWrite j' = true) : False := by
  cases pc <;> simp [Pc.inRead, Pc.inWrite] at h h'

theorem remaining_init (T ulevel : Nat) (data sh0 : List α) :
    remaining ulevel (initTile T data sh0) = T * (6 * iters (u32 ulevel >>> 1) + 3) := by
  unfold remaining initTile
  show ((List.replicate T (Pc.load : Pc α)).map (Pc.rest ulevel)).sum = _
  rw [List.map_replicate, List.sum_replicate, smul_eq_mul]
  rfl

end InterleavingClasses

section InterleavingEnd

variable {α : Type} [LinearOrder α]

/-- The program points that occur together in one state of a tile. -/
theorem phase_classes (T ulevel mask tile : Nat) (data0 out : List α) (s : TileState α)
    (hP : InPhase T ulevel mask tile data0 out s) :
    s.pcs.length = T ∧
    ((∀ pc ∈ s.pcs, pc = Pc.load ∨ pc = Pc.barrier0) ∨
     (∃ j, ∀ pc ∈ s.pcs, pc.inRead j = true) ∨
     (∃ j, ∀ pc ∈ s.pcs, pc.inWrite j = true) ∨
     (∀ pc ∈ s.pcs, pc = Pc.store ∨ pc = Pc.done)) := by
  rcases hP with ⟨S0, Sfin, _, _, _, _, _, hpcs, hall⟩ | ⟨j, fuel, Sfin, ⟨_, _, hpcs, _, hall⟩, _, _⟩ |
    ⟨j, S, S', fuel, Sfin, ⟨_, _, hpcs, _, _, hall⟩, _, _⟩ | ⟨_, hpcs, _, _, _, _, hall⟩
  · refine ⟨hpcs, Or.inl ?_⟩
    intro pc hpc
    obtain ⟨i, hi, hsl⟩ := slot_of_mem T s.pcs hpcs pc hpc
    rcases hall i hi with h | ⟨h, _⟩
    · rw [hsl] at h
      exact Or.inl (Option.some.inj h)
    · rw [hsl] at h
      exact Or.inr (Option.some.inj h)
  · refine ⟨hpcs, Or.inr (Or.inl ⟨j, ?_⟩)⟩
    intro pc hpc
    obtain ⟨i, hi, hsl⟩ := slot_of_mem T s.pcs hpcs pc hpc
    rcases hall i hi with h | ⟨lo, h, _⟩ | ⟨lo, hi2, h, _, _⟩ | ⟨r, h, _⟩ <;>
    · rw [hsl] at h
      rw [Option.some.inj h]
      simp [Pc.inRead]
  · refine ⟨hpcs, Or.inr (Or.inr (Or.inl ⟨j, ?_⟩))⟩
    intro pc hpc
    obtain ⟨i, hi, hsl⟩ := slot_of_mem T s.pcs hpcs pc hpc
    obtain ⟨r, _, _, h | ⟨h, _⟩⟩ := hall i hi <;>
    · rw [hsl] at h
      rw [Option.some.inj h]
      simp [Pc.inWrite]
  · refine ⟨hpcs, Or.inr (Or.inr (Or.inr ?_))⟩
    intro pc hpc
    obtain ⟨i, hi, hsl⟩ := slot_of_mem T s.pcs hpcs pc hpc
    obtain ⟨_, ⟨h, _⟩ | ⟨h, _⟩⟩ := hall i hi
    · rw [hsl] at h
      exact Or.inl (Option.some.inj h)
    · rw [hsl] at h
      exact Or.inr (Option.some.inj h)

/-- The two halves of a round do not overlap: when a thread is in one half of
round `j`, every thread of the tile is. -/
theorem phase_halves (T ulevel mask tile : Nat) (data0 out : List α) (s : TileState α)
    (hP : InPhase T ulevel mask tile data0 out s) (i : Nat) (pc : Pc α) (j : Nat)
    (hpc : s.pcs[i]? = some pc) :
    (pc.inWrite j = true → ∀ pc' ∈ s.pcs, pc'.inWrite j = true) ∧
    (pc.inRead j = true → ∀ pc' ∈ s.pcs, pc'.inRead j = true) := by
  have hmem : pc ∈ s.pcs := List.mem_iff_getElem?.mpr ⟨i, hpc⟩
  obtain ⟨_, h | ⟨j', h⟩ | ⟨j', h⟩ | h⟩ := phase_classes T ulevel mask tile data0 out s hP
  · constructor <;>
    · intro hx
      rcases h pc hmem with e | e <;>
      · rw [e] at hx
        cases hx
  · constructor
    · intro hx
      exact absurd (not_inRead_inWrite pc j' j (h pc hmem) hx) id
    · intro hx
      rw [inRead_inj pc j j' hx (h pc hmem)]
      exact h
  · constructor
    · intro hx
      rw [inWrite_inj pc j j' hx (h pc hmem)]
      exact h
    · intro hx
      exact absurd (not_inRead_inWrite pc j j' hx (h pc hmem)) id
  · constructor <;>
    · intro hx
      rcases h pc hmem with e | e <;>
      · rw [e] at hx
        cases hx

/-- When every thread has returned, the buffer is the one the kernel
returns. -/
theorem phase_finished (T ulevel mask tile : Nat) (data0 out : List α) (s : TileState α)
    (hT : 0 < T) (hP : InPhase T ulevel mask tile data0 out s) (hfin : finished s = true) :
    s.data = out := by
  have hdone := (finished_iff s).mp hfin
  have hlen := (phase_classes T ulevel mask tile data0 out s hP).1
  have h0 : s.pcs[0]? = some Pc.done := by
    have hlt : 0 < s.pcs.length := by omega
    rw [List.getElem?_eq_getElem hlt, hdone 0 _ (List.getElem?_eq_getElem hlt)]
  rcases hP with ⟨S0, Sfin, _, _, _, _, _, _, hall⟩ | ⟨j, fuel, Sfin, ⟨_, _, _, _, hall⟩, _, _⟩ |
    ⟨j, S, S', fuel, Sfin, ⟨_, _, _, _, _, hall⟩, _, _⟩ | ⟨_, _, hdlen, holen, hfit, hframe, hall⟩
  · rcases hall 0 hT with h | ⟨h, _⟩ <;>
    · rw [h0] at h
      cases h
  · rcases hall 0 hT with h | ⟨lo, h, _⟩ | ⟨lo, hi2, h, _, _⟩ | ⟨r, h, _⟩ <;>
    · rw [h0] at h
      cases h
  · obtain ⟨r, _, _, h | ⟨h, _⟩⟩ := hall 0 hT <;>
    · rw [h0] at h
      cases h
  · apply List.ext_getElem?
    intro x
    by_cases hx : x < tile * T ∨ tile * T + T ≤ x
    · rw [(hframe x hx).1, (hframe x hx).2]
    · have hi : x - tile * T < T := by omega
      have hxe : tile * T + (x - tile * T) = x := by omega
      obtain ⟨_, ⟨h, _⟩ | ⟨_, h⟩⟩ := hall (x - tile * T) hi
      · have hx := hdone _ _ h
        cases hx
      · rw [hxe] at h
        exact h

/-- A held or returned thread, or a thread that does not exist, takes no
step. -/
theorem step_not_enabled (T ulevel mask tile : Nat) (s : TileState α) (i : Nat)
    (h : enabled s i = false) : step T ulevel mask tile s i = .ok s := by
  unfold enabled at h
  cases hpc : s.pcs[i]? with
  | none => exact step_none T ulevel mask tile s i hpc
  | some pc =>
    rw [hpc] at h
    simp only at h
    by_cases hb : pc.atBarrier = true
    · rw [if_pos hb] at h
      exact step_held T ulevel mask tile s i pc hpc hb (by rw [h]; exact Bool.false_ne_true)
    · rw [if_neg hb] at h
      have hb' : pc.atBarrier = false := by
        cases hx : pc.atBarrier
        · rfl
        · exact absurd hx hb
      rw [step_thread T ulevel mask tile s i pc hpc hb']
      cases pc <;> first | rfl | cases h

/-- No deadlock: while a thread has not returned, some thread can take a
step. -/
theorem phase_enabled (T ulevel mask tile : Nat) (data0 out : List α) (s : TileState α)
    (hT : 0 < T) (hP : InPhase T ulevel mask tile data0 out s) (hfin : finished s = false) :
    ∃ i < T, enabled s i = true := by
  obtain ⟨hlen, hcl⟩ := phase_classes T ulevel mask tile data0 out s hP
  have hnd : (∀ pc ∈ s.pcs, pc.isDone = false) ∨ (∀ pc ∈ s.pcs, pc.atBarrier = false) := by
    rcases hcl with h | ⟨j, h⟩ | ⟨j, h⟩ | h
    · left
      intro pc hpc
      rcases h pc hpc with e | e <;> rw [e] <;> rfl
    · left
      intro pc hpc
      have := h pc hpc
      cases pc <;> first | rfl | cases this
    · left
      intro pc hpc
      have := h pc hpc
      cases pc <;> first | rfl | cases this
    · right
      intro pc hpc
      rcases h pc hpc with e | e <;> rw [e] <;> rfl
  rcases hnd with hnd | hnb
  · by_cases hallb : s.pcs.all Pc.atBarrier = true
    · have hlt : 0 < s.pcs.length := by omega
      refine ⟨0, hT, ?_⟩
      unfold enabled
      rw [List.getElem?_eq_getElem hlt]
      have hb := (all_atBarrier_iff s.pcs).mp hallb 0 _ (List.getElem?_eq_getElem hlt)
      simp only [hb, if_true]
      exact hallb
    · have hex : ∃ pc ∈ s.pcs, pc.atBarrier = false := by
        by_contra hno
        apply hallb
        rw [List.all_eq_true]
        intro pc hpc
        cases hx : pc.atBarrier
        · exact absurd ⟨pc, hpc, hx⟩ hno
        · rfl
      obtain ⟨pc, hpc, hb⟩ := hex
      obtain ⟨i, hi, hsl⟩ := slot_of_mem T s.pcs hlen pc hpc
      refine ⟨i, hi, ?_⟩
      unfold enabled
      rw [hsl]
      simp [hb, hnd pc hpc]
  · have hex : ∃ pc ∈ s.pcs, pc.isDone = false := by
      by_contra hno
      have : finished s = true := by
        unfold finished
        rw [List.all_eq_true]
        intro pc hpc
        cases hx : pc.isDone
        · exact absurd ⟨pc, hpc, hx⟩ hno
        · rfl
      rw [this] at hfin
      cases hfin
    obtain ⟨pc, hpc, hd⟩ := hex
    obtain ⟨i, hi, hsl⟩ := slot_of_mem T s.pcs hlen pc hpc
    refine ⟨i, hi, ?_⟩
    unfold enabled
    rw [hsl]
    simp [hd, hnb pc hpc]

/-- No step moves the tile away from the end. -/
theorem step_remaining (T ulevel mask tile : Nat) (s s' : TileState α) (i : Nat)
    (h : step T ulevel mask tile s i = .ok s') : remaining ulevel s' ≤ remaining ulevel s := by
  cases he : enabled s i
  · rw [step_not_enabled T ulevel mask tile s i he] at h
    cases h
    exact Nat.le_refl _
  · exact Nat.le_of_lt (step_decreases T ulevel mask tile s s' i he h)

theorem run_remaining (T ulevel mask tile : Nat) (sched : List Nat) :
    ∀ s s' : TileState α, run T ulevel mask tile sched s = .ok s' →
      remaining ulevel s' ≤ remaining ulevel s := by
  induction sched with
  | nil =>
    intro s s' h
    cases h
    exact Nat.le_refl _
  | cons i sched ih =>
    intro s s' h
    unfold run at h
    rw [List.foldlM_cons] at h
    obtain ⟨s1, h1, h2⟩ := bind_ok_inv _ _ _ h
    exact Nat.le_trans (ih s1 s' h2) (step_remaining T ulevel mask tile s s1 i h1)

/-- From every state in a phase the tile can be run to the end, in no more
steps than remain. -/
theorem phase_complete (T ulevel mask tile : Nat) (data0 out : List α) (hT : 0 < T) :
    ∀ (n : Nat) (s : TileState α), InPhase T ulevel mask tile data0 out s →
      remaining ulevel s ≤ n →
      ∃ sched s', sched.length ≤ n ∧ run T ulevel mask tile sched s = .ok s' ∧
        finished s' = true ∧ s'.data = out := by
  intro n
  induction n with
  | zero =>
    intro s hP hn
    cases hfin : finished s
    · obtain ⟨i, _, he⟩ := phase_enabled T ulevel mask tile data0 out s hT hP hfin
      obtain ⟨s1, h1, _⟩ := phase_step T ulevel mask tile data0 out s hP i
      have := step_decreases T ulevel mask tile s s1 i he h1
      omega
    · exact ⟨[], s, Nat.le_refl _, rfl, hfin,
        phase_finished T ulevel mask tile data0 out s hT hP hfin⟩
  | succ n ih =>
    intro s hP hn
    cases hfin : finished s
    · obtain ⟨i, _, he⟩ := phase_enabled T ulevel mask tile data0 out s hT hP hfin
      obtain ⟨s1, h1, hP1⟩ := phase_step T ulevel mask tile data0 out s hP i
      have hlt := step_decreases T ulevel mask tile s s1 i he h1
      obtain ⟨sched, s', hlen, hrun, hf, hd⟩ := ih s1 hP1 (by omega)
      refine ⟨i :: sched, s', by simpa using hlen, ?_, hf, hd⟩
      unfold run
      rw [List.foldlM_cons, h1]
      exact hrun
    · exact ⟨[], s, Nat.zero_le _, rfl, hfin,
        phase_finished T ulevel mask tile data0 out s hT hP hfin⟩

end InterleavingEnd

section ReferenceLemmas

variable {α : Type}

theorem get_put_same (dev : Device α) (buf : Buffer) (xs : List α) :
    (dev.put buf xs).get buf = xs := by
  cases buf <;> rfl

theorem get_put_ne (dev : Device α) (src dst : Buffer) (xs : List α) (h : src ≠ dst) :
    (dev.put dst xs).get src = dev.get src := by
  cases src <;> cases dst <;> first | rfl | exact absurd rfl h

theorem put_put (dev : Device α) (buf : Buffer) (xs ys : List α) :
    (dev.put buf xs).put buf ys = dev.put buf ys := by
  cases buf <;> rfl

theorem put_log (dev : Device α) (buf : Buffer) (xs : List α) :
    (dev.put buf xs).log = dev.log := by
  cases buf <;> rfl

theorem put_get (dev : Device α) (buf : Buffer) : dev.put buf (dev.get buf) = dev := by
  cases buf <;> rfl

/-- A write through a reference changes the array referred to, and nothing
else. -/
theorem writeRef_frame (dev dev' : Device α) (src dst : Buffer) (i : Nat) (v : α)
    (hne : src ≠ dst) (h : writeRef dev dst i v = .ok dev') :
    dev'.get src = dev.get src ∧ dev'.log = dev.log := by
  unfold writeRef at h
  cases hw : writeAt (dev.get dst) i v with
  | error e =>
    rw [hw] at h
    cases h
  | ok xs =>
    rw [hw] at h
    cases h
    exact ⟨get_put_ne dev src dst xs hne, put_log dev dst xs⟩

theorem foldlM_preserves {σ ι : Type} (P : σ → Prop) (f : σ → ι → Except Fault σ)
    (hstep : ∀ s x s', f s x = .ok s' → P s → P s') :
    ∀ (xs : List ι) (s s' : σ), xs.foldlM f s = .ok s' → P s → P s' := by
  intro xs
  induction xs with
  | nil =>
    intro s s' h hP
    cases h
    exact hP
  | cons x xs ih =>
    intro s s' h hP
    rw [List.foldlM_cons] at h
    cases hx : f s x with
    | error e =>
      rw [hx] at h
      cases h
    | ok s1 =>
      rw [hx] at h
      exact ih s1 s' h (hstep s x s1 hx hP)

/-- One tile of the transpose writes to its destination only. -/
theorem transpose_kernel_ref_frame (B : Nat) (dev dev' : Device α) (src dst : Buffer)
    (width height t0 t1 : Nat) (hne : src ≠ dst)
    (h : transpose_kernel_ref B dev src dst width height t0 t1 = .ok dev') :
    dev'.get src = dev.get src ∧ dev'.log = dev.log := by
  have h' : ((List.range (B * B)).mapM (fun k => readRef dev src (srcIndex B height t0 t1 k))
      >>= fun sh => (List.range (B * B)).foldlM (fun dev k => do
          let v ← readAt sh k
          writeRef dev dst (dstIndex B height t0 t1 k) v) dev) = .ok dev' := h
  clear h
  cases hsh : (List.range (B * B)).mapM
      (fun k => readRef dev src (srcIndex B height t0 t1 k)) with
  | error e =>
    rw [hsh] at h'
    cases h'
  | ok sh =>
    rw [hsh] at h'
    have h : (List.range (B * B)).foldlM (fun dev k => do
          let v ← readAt sh k
          writeRef dev dst (dstIndex B height t0 t1 k) v) dev = .ok dev' := h'
    refine foldlM_preserves (fun d : Device α => d.get src = dev.get src ∧ d.log = dev.log)
      _ ?_ _ dev dev' h ⟨rfl, rfl⟩
    intro s k s' hk hP
    cases hv : readAt sh k with
    | error e =>
      rw [hv] at hk
      cases hk
    | ok v =>
      rw [hv] at hk
      obtain ⟨h1, h2⟩ := writeRef_frame s s' src dst _ v hne hk
      exact ⟨h1.trans hP.1, h2.trans hP.2⟩

/-- A launch of the transpose writes to its destination only: the array its
source parameter refers to is the same list after the launch. -/
theorem dispatch_transpose_ref_frame (W H B : Nat) (dev dev' : Device α) (src dst : Buffer)
    (width height : Nat) (hne : src ≠ dst)
    (h : dispatch_transpose_ref W H B dev src dst width height = .ok dev') :
    dev'.get src = dev.get src ∧ dev'.log = dev.log := by
  unfold dispatch_transpose_ref at h
  by_cases hext : B = 0 ∨ W % B ≠ 0 ∨ H % B ≠ 0
  · rw [if_pos hext] at h
    cases h
  · rw [if_neg hext] at h
    refine foldlM_preserves (fun d : Device α => d.get src = dev.get src ∧ d.log = dev.log)
      _ ?_ _ dev dev' h ⟨rfl, rfl⟩
    intro s t s' ht hP
    obtain ⟨h1, h2⟩ := transpose_kernel_ref_frame B s s' src dst width height _ _ hne ht
    exact ⟨h1.trans hP.1, h2.trans hP.2⟩

theorem writeRef_eq (dev : Device α) (dst : Buffer) (i : Nat) (v : α) :
    writeRef dev dst i v = (writeAt (dev.get dst) i v).map (dev.put dst) := by
  unfold writeRef
  cases writeAt (dev.get dst) i v <;> rfl

/-- The writes of one tile, through the reference and on the array. -/
theorem writes_ref (sh : List α) (tgt : Nat → Nat) (dst : Buffer) :
    ∀ (ks : List Nat) (dev : Device α),
      ks.foldlM (fun dev k => do
          let v ← readAt sh k
          writeRef dev dst (tgt k) v) dev
        = (ks.foldlM (fun buf k => do
            let v ← readAt sh k
            writeAt buf (tgt k) v) (dev.get dst)).map (dev.put dst) := by
  intro ks
  induction ks with
  | nil =>
    intro dev
    show Except.ok dev = Except.ok (dev.put dst (dev.get dst))
    rw [put_get]
  | cons k ks ih =>
    intro dev
    rw [List.foldlM_cons, List.foldlM_cons]
    cases hv : readAt sh k with
    | error e => rfl
    | ok v =>
      show (writeRef dev dst (tgt k) v >>= fun s => ks.foldlM _ s)
        = Except.map _ (writeAt (dev.get dst) (tgt k) v >>= fun b => ks.foldlM _ b)
      rw [writeRef_eq]
      cases hw : writeAt (dev.get dst) (tgt k) v with
      | error e => rfl
      | ok xs =>
        show ks.foldlM _ (dev.put dst xs) = Except.map _ (ks.foldlM _ xs)
        rw [ih (dev.put dst xs), get_put_same]
        congr 1
        funext ys
        exact put_put dev dst xs ys

/-- One tile of the transpose on references is the kernel on the two arrays
referred to. -/
theorem transpose_kernel_ref_eq (B : Nat) (dev : Device α) (src dst : Buffer)
    (width height t0 t1 : Nat) :
    transpose_kernel_ref B dev src dst width height t0 t1
      = (transpose_kernel B (dev.get src) (dev.get dst) width height t0 t1).map
          (dev.put dst) := by
  unfold transpose_kernel_ref transpose_kernel
  show ((List.range (B * B)).mapM (fun k => readAt (dev.get src) (srcIndex B height t0 t1 k))
      >>= fun sh => (List.range (B * B)).foldlM (fun dev k => do
          let v ← readAt sh k
          writeRef dev dst (dstIndex B height t0 t1 k) v) dev)
    = Except.map (dev.put dst)
      ((List.range (B * B)).mapM (fun k => readAt (dev.get src) (srcIndex B height t0 t1 k))
        >>= fun sh => (List.range (B * B)).foldlM (fun buf k => do
          let v ← readAt sh k
          writeAt buf (dstIndex B height t0 t1 k) v) (dev.get dst))
  cases (List.range (B * B)).mapM
      (fun k => readAt (dev.get src) (srcIndex B height t0 t1 k)) with
  | error e => rfl
  | ok sh => exact writes_ref sh (dstIndex B height t0 t1) dst (List.range (B * B)) dev

theorem tiles_ref (B : Nat) (src dst : Buffer) (width height H : Nat) (hne : src ≠ dst) :
    ∀ (ts : List Nat) (dev : Device α),
      ts.foldlM (fun dev t =>
          transpose_kernel_ref B dev src dst width height (t / (H / B)) (t % (H / B))) dev
        = (ts.foldlM (fun buf t =>
            transpose_kernel B (dev.get src) buf width height (t / (H / B)) (t % (H / B)))
            (dev.get dst)).map (dev.put dst) := by
  intro ts
  induction ts with
  | nil =>
    intro dev
    show Except.ok dev = Except.ok (dev.put dst (dev.get dst))
    rw [put_get]
  | cons t ts ih =>
    intro dev
    rw [List.foldlM_cons, List.foldlM_cons, transpose_kernel_ref_eq]
    cases transpose_kernel B (dev.get src) (dev.get dst) width height (t / (H / B))
        (t % (H / B)) with
    | error e => rfl
    | ok xs =>
      show ts.foldlM _ (dev.put dst xs) = Except.map _ (ts.foldlM _ xs)
      rw [ih (dev.put dst xs), get_put_same, get_put_ne dev src dst xs hne]
      congr 1
      funext ys
      exact put_put dev dst xs ys

/-- A launch of the transpose on references with distinct source and
destination is the launch on the two arrays referred to. -/
theorem dispatch_transpose_ref_eq (W H B : Nat) (dev : Device α) (src dst : Buffer)
    (width height : Nat) (hne : src ≠ dst) :
    dispatch_transpose_ref W H B dev src dst width height
      = (dispatch_transpose W H B (dev.get src) (dev.get dst) width height).map
          (dev.put dst) := by
  unfold dispatch_transpose_ref dispatch_transpose
  by_cases hext : B = 0 ∨ W % B ≠ 0 ∨ H % B ≠ 0
  · rw [if_pos hext, if_pos hext]
    rfl
  · rw [if_neg hext, if_neg hext]
    exact tiles_ref B src dst width height H hne _ dev

/-- Step 1 of the sandwich is the launch with `data` as source and `temp` as
destination, followed by the entry in the log. -/
theorem transpose_into_temp_ref (cfg : Config) (dev : Device α) :
    transpose_into_temp cfg dev
      = (dispatch_transpose_ref cfg.MATRIX_WIDTH cfg.MATRIX_HEIGHT cfg.TRANSPOSE_BLOCK_SIZE dev
          .primary .scratch (u32 cfg.MATRIX_WIDTH) (u32 cfg.MATRIX_HEIGHT)).map
        (fun d => { d with log := d.log ++
          [Stage.transpose .primary .scratch (u32 cfg.MATRIX_WIDTH) (u32 cfg.MATRIX_HEIGHT)] }) := by
  rw [dispatch_transpose_ref_eq _ _ _ dev .primary .scratch _ _ (by decide)]
  unfold transpose_into_temp
  show (dispatch_transpose _ _ _ dev.data dev.temp _ _ >>= _)
    = Except.map _ (Except.map _ (dispatch_transpose _ _ _ dev.data dev.temp _ _))
  cases dispatch_transpose cfg.MATRIX_WIDTH cfg.MATRIX_HEIGHT cfg.TRANSPOSE_BLOCK_SIZE
      dev.data dev.temp (u32 cfg.MATRIX_WIDTH) (u32 cfg.MATRIX_HEIGHT) with
  | error e => rfl
  | ok xs => rfl

/-- Step 3 of the sandwich is the launch with `temp` as source and `data` as
destination, followed by the entry in the log. -/
theorem transpose_into_data_ref (cfg : Config) (dev : Device α) :
    transpose_into_data cfg dev
      = (dispatch_transpose_ref cfg.MATRIX_WIDTH cfg.MATRIX_HEIGHT cfg.TRANSPOSE_BLOCK_SIZE dev
          .scratch .primary (u32 cfg.MATRIX_HEIGHT) (u32 cfg.MATRIX_WIDTH)).map
        (fun d => { d with log := d.log ++
          [Stage.transpose .scratch .primary (u32 cfg.MATRIX_HEIGHT) (u32 cfg.MATRIX_WIDTH)] }) := by
  rw [dispatch_transpose_ref_eq _ _ _ dev .scratch .primary _ _ (by decide)]
  unfold transpose_into_data
  show (dispatch_transpose _ _ _ dev.temp dev.data _ _ >>= _)
    = Except.map _ (Except.map _ (dispatch_transpose _ _ _ dev.temp dev.data _ _))
  cases dispatch_transpose cfg.MATRIX_WIDTH cfg.MATRIX_HEIGHT cfg.TRANSPOSE_BLOCK_SIZE
      dev.temp dev.data (u32 cfg.MATRIX_HEIGHT) (u32 cfg.MATRIX_WIDTH) with
  | error e => rfl
  | ok xs => rfl

end ReferenceLemmas

end BitonicSort

namespace MatrixMult

section Plumbing

variable {ε β α : Type}

theorem range_foldlM_inv (n : Nat) (f : β → Nat → Except ε β) (I : Nat → β → Prop) (b : β)
    (h0 : I 0 b) (hs : ∀ i < n, ∀ b, I i b → ∃ b', f b i = .ok b' ∧ I (i + 1) b') :
    ∃ b', (List.range n).foldlM f b = .ok b' ∧ I n b' := by
  induction n with
  | zero => exact ⟨b, rfl, h0⟩
  | succ n ih =>
    obtain ⟨b1, h1, hI1⟩ := ih (fun i hi => hs i (Nat.lt_succ_of_lt hi))
    obtain ⟨b2, h2, hI2⟩ := hs n (Nat.lt_succ_self n) b1 hI1
    refine ⟨b2, ?_, hI2⟩
    rw [List.range_succ, List.foldlM_append, h1]
    show (f b1 n >>= fun b' => pure b') = _
    rw [h2]
    rfl

theorem mapM_range_pure (n : Nat) (f : Nat → Except ε β) (g : Nat → β)
    (h : ∀ i < n, f i = .ok (g i)) : (List.range n).mapM f = .ok ((List.range n).map g) := by
  have key : ∀ xs : List Nat, (∀ x ∈ xs, f x = .ok (g x)) → xs.mapM f = .ok (xs.map g) := by
    intro xs
    induction xs with
    | nil => intro _; rfl
    | cons x xs ih =>
      intro hx
      rw [List.mapM_cons, hx x (List.mem_cons_self _ _),
        ih (fun y hy => hx y (List.mem_cons_of_mem _ hy))]
      rfl
  exact key _ (fun x hx => h x (List.mem_range.mp hx))

theorem rd_ok (v : List α) (i : Nat) (d : α) (h : i < v.length) : rd v i = .ok (v.getD i d) := by
  simp [rd, List.getD, List.getElem?_eq_getElem h]

theorem rd_map (n : Nat) (g : Nat → α) (i : Nat) (h : i < n) :
    rd ((List.range n).map g) i = .ok (g i) := by
  simp [rd, List.getElem?_map, List.getElem?_range h]

theorem viewRead_ok (e0 e1 : Nat) (v : List α) (i0 i1 : Nat) (d : α) (h0 : i0 < e0)
    (h1 : i1 < e1) (hv : v.length = e0 * e1) :
    viewRead e0 e1 v i0 i1 = .ok (v.getD (i0 * e1 + i1) d) := by
  have hlt : i0 * e1 + i1 < v.length := by
    rw [hv]
    calc i0 * e1 + i1 < i0 * e1 + e1 := Nat.add_lt_add_left h1 _
      _ = (i0 + 1) * e1 := by ring
      _ ≤ e0 * e1 := Nat.mul_le_mul_right _ h0
  rw [viewRead, if_pos ⟨h0, h1⟩, rd_ok v _ d hlt]

theorem Done_mono (P Q : Nat → Prop) (val : Nat → α) (n : Nat) (L : List α)
    (h : Done P val n L) (hPQ : ∀ c, c < n → Q c → P c) : Done Q val n L :=
  ⟨h.1, fun c hc hlt => h.2 c (hPQ c hlt hc) hlt⟩

theorem Done_set (P : Nat → Prop) (val : Nat → α) (n : Nat) (L : List α) (c0 : Nat)
    (h : Done P val n L) (hc0 : c0 < n) :
    wr L c0 (val c0) = .ok (L.set c0 (val c0))
      ∧ Done (fun c => P c ∨ c = c0) val n (L.set c0 (val c0)) := by
  refine ⟨by rw [wr, if_pos (by rw [h.1]; exact hc0)], by simpa using h.1, ?_⟩
  intro c hc hlt
  by_cases hcc : c0 = c
  · subst hcc
    rw [List.getElem?_set_self (by rw [h.1]; exact hlt)]
  · rw [List.getElem?_set_ne hcc]
    rcases hc with hc | hc
    · exact h.2 c hc hlt
    · exact absurd hc.symm hcc

theorem Done_all (val : Nat → α) (n : Nat) (L : List α) (P : Nat → Prop)
    (h : Done P val n L) (hP : ∀ c < n, P c) : L = (List.range n).map val := by
  apply List.ext_getElem?
  intro c
  by_cases hc : c < n
  · rw [h.2 c (hP c hc) hc]
    simp [List.getElem?_map, List.getElem?_range hc]
  · rw [List.getElem?_eq_none (by rw [h.1]; omega), List.getElem?_eq_none (by simp; omega)]

end Plumbing

theorem idx_lt (a b A B : Nat) (ha : a < A) (hb : b < B) : a * B + b < A * B :=
  calc a * B + b < a * B + B := Nat.add_lt_add_left hb _
    _ = (a + 1) * B := by ring
    _ ≤ A * B := Nat.mul_le_mul_right _ ha

theorem cell_div (k j W : Nat) (hj : j < W) : (k * W + j) / W = k := by
  rw [Nat.mul_comm, Nat.mul_add_div (by omega), Nat.div_eq_of_lt hj, Nat.add_zero]

theorem cell_mod (k j W : Nat) (hj : j < W) : (k * W + j) % W = j := by
  rw [Nat.mul_comm, Nat.mul_add_mod, Nat.mod_eq_of_lt hj]

theorem imul_ok (a b : Nat) (h : a * b < 2 ^ 31) : imul a b = .ok (a * b) := by
  rw [imul, if_pos h]

section Routines

variable {α : Type}

theorem dimension_mismatch_false (M N W : Nat) (va vb vresult : List α)
    (hMN : M * N < 2 ^ 31) (hNW : N * W < 2 ^ 31) (hMW : M * W < 2 ^ 31)
    (ha : va.length = M * N) (hb : vb.length = N * W) (hc : vresult.length = M * W) :
    dimension_mismatch M N W va vb vresult = .ok false := by
  simp [dimension_mismatch, imul_ok M N hMN, imul_ok N W hNW, imul_ok M W hMW, ha, hb, hc,
    pure, bind, Except.bind, Except.pure]

/-- Two nested loops over the rows and the columns that assign to cell
`k * W + j` the value `val (k * W + j)` fill the vector with `val`. -/
theorem row_major_fill (M W : Nat) (val : Nat → α) (step : List α → Nat → Nat → Except Fault (List α))
    (hstep : ∀ k < M, ∀ j < W, ∀ L, step L k j = wr L (k * W + j) (val (k * W + j)))
    (vresult : List α) (hc : vresult.length = M * W) :
    (List.range M).foldlM
        (fun L k => (List.range W).foldlM (fun L j => step L k j) L) vresult
      = .ok ((List.range (M * W)).map val) := by
  obtain ⟨r, hr, hI⟩ := range_foldlM_inv M
    (fun L k => (List.range W).foldlM (fun L j => step L k j) L)
    (fun k L => Done (fun c => c < k * W) val (M * W) L) vresult
    ⟨hc, fun c h _ => absurd h (by omega)⟩
    (by
      intro k hk L hL
      obtain ⟨r, hr, hI⟩ := range_foldlM_inv W (fun L j => step L k j)
        (fun j L => Done (fun c => c < k * W + j) val (M * W) L) L hL
        (by
          intro j hj L hL
          obtain ⟨h1, h2⟩ := Done_set _ val (M * W) L (k * W + j) hL (idx_lt k j M W hk hj)
          refine ⟨_, (hstep k hk j hj L).trans h1, Done_mono _ _ val _ _ h2 ?_⟩
          intro c _ hlt
          show c < k * W + j ∨ c = k * W + j
          omega)
      refine ⟨r, hr, Done_mono _ _ val _ _ hI ?_⟩
      intro c _ hlt
      have : (k + 1) * W = k * W + W := by ring
      show c < k * W + W
      omega)
  rw [hr]
  exact congrArg _ (Done_all val (M * W) r _ hI (fun c hc => hc))

variable [Zero α] [Add α] [Mul α]

theorem dot_succ (N W : Nat) (va vb : List α) (k j n : Nat) :
    dot N W va vb k j (n + 1)
      = dot N W va vb k j n + va.getD (k * N + n) 0 * vb.getD (n * W + j) 0 := by
  unfold dot
  rw [List.range_succ, List.foldl_append]
  rfl

theorem cpu_cell_ok (M N W : Nat) (va vb : List α) (k j : Nat) (ha : va.length = M * N)
    (hb : vb.length = N * W) (hk : k < M) (hj : j < W) :
    cpu_cell N W va vb k j = .ok (dot N W va vb k j N) := by
  obtain ⟨r, hr, hI⟩ := range_foldlM_inv N
    (fun result i => do
      let idx_a := k * N + i
      let idx_b := i * W + j
      let a ← rd va idx_a
      let b ← rd vb idx_b
      pure (result + a * b))
    (fun i acc => acc = dot N W va vb k j i) (0 : α) rfl
    (by
      intro i hi acc hacc
      refine ⟨_, ?_, (dot_succ N W va vb k j i).symm⟩
      simp only [rd_ok va _ 0 (by rw [ha]; exact idx_lt k i M N hk hi),
        rd_ok vb _ 0 (by rw [hb]; exact idx_lt i j N W hi hj), hacc, pure, bind, Except.bind,
        Except.pure])
  unfold cpu_cell
  rw [hr, hI]

theorem simple_thread_ok (M N W : Nat) (va vb : List α) (k j : Nat) (ha : va.length = M * N)
    (hb : vb.length = N * W) (hk : k < M) (hj : j < W) :
    simple_thread M N W va vb k j = .ok (dot N W va vb k j N) := by
  obtain ⟨r, hr, hI⟩ := range_foldlM_inv N
    (fun result i => do
      let a ← viewRead M N va k i
      let b ← viewRead N W vb i j
      pure (result + a * b))
    (fun i acc => acc = dot N W va vb k j i) (0 : α) rfl
    (by
      intro i hi acc hacc
      refine ⟨_, ?_, (dot_succ N W va vb k j i).symm⟩
      simp only [viewRead_ok M N va k i 0 hk hi ha, viewRead_ok N W vb i j 0 hi hj hb, hacc,
        pure, bind, Except.bind, Except.pure])
  unfold simple_thread
  rw [hr, hI]

theorem cpu_loops_ok (M N W : Nat) (va vb vresult : List α) (ha : va.length = M * N)
    (hb : vb.length = N * W) (hc : vresult.length = M * W) :
    cpu_loops M N W va vb vresult = .ok (product M N W va vb) := by
  unfold cpu_loops product
  apply row_major_fill M W (fun c => dot N W va vb (c / W) (c % W) N)
    (fun L k j => do
      let result ← cpu_cell N W va vb k j
      let idx_c := k * W + j
      wr L idx_c result) _ vresult hc
  intro k hk j hj L
  simp only [cpu_cell_ok M N W va vb k j ha hb hk hj, cell_div k j W hj, cell_mod k j W hj,
    pure, bind, Except.bind, Except.pure]

theorem simple_launch_ok (M N W : Nat) (va vb vresult : List α) (ha : va.length = M * N)
    (hb : vb.length = N * W) (hc : vresult.length = M * W) :
    simple_launch M N W va vb vresult = .ok (product M N W va vb) := by
  unfold simple_launch product
  apply row_major_fill M W (fun c => dot N W va vb (c / W) (c % W) N)
    (fun L k j => do
      let result ← simple_thread M N W va vb k j
      viewWrite M W L k j result) _ vresult hc
  intro k hk j hj L
  simp only [simple_thread_ok M N W va vb k j ha hb hk hj, cell_div k j W hj,
    cell_mod k j W hj, viewWrite, hk, hj, and_self, if_true, pure, bind, Except.bind,
    Except.pure]

end Routines

theorem tiledProgress_thread (ts W a b t c : Nat) (hts : 0 < ts)
    (h : tiledProgress ts W a b (t + 1) c) :
    tiledProgress ts W a b t c ∨ c = (a * ts + t / ts) * W + (b * ts + t % ts) := by
  unfold tiledProgress at h ⊢
  rcases h with h | ⟨h1, h | ⟨h2, h3⟩⟩
  · exact Or.inl (Or.inl h)
  · exact Or.inl (Or.inr ⟨h1, Or.inl h⟩)
  · by_cases hlt : c / W % ts * ts + c % W % ts < t
    · exact Or.inl (Or.inr ⟨h1, Or.inr ⟨h2, hlt⟩⟩)
    · right
      have ht : t = c / W % ts * ts + c % W % ts := by omega
      have hy : c % W % ts < ts := Nat.mod_lt _ hts
      have hx : t / ts = c / W % ts := by rw [ht]; exact cell_div _ _ ts hy
      have hy2 : t % ts = c % W % ts := by rw [ht]; exact cell_mod _ _ ts hy
      have hq : c / W = a * ts + c / W % ts := by
        have := Nat.div_add_mod (c / W) ts
        rw [h1, Nat.mul_comm] at this
        exact this.symm
      have hr : c % W = b * ts + c % W % ts := by
        have := Nat.div_add_mod (c % W) ts
        rw [h2, Nat.mul_comm] at this
        exact this.symm
      have hc := Nat.div_add_mod c W
      rw [hx, hy2, ← hq, ← hr, Nat.mul_comm]
      exact hc.symm

theorem tiledProgress_tile (ts W a b c : Nat) (hts : 0 < ts)
    (h : tiledProgress ts W a (b + 1) 0 c) : tiledProgress ts W a b (ts * ts) c := by
  unfold tiledProgress at h ⊢
  rcases h with h | ⟨h1, h | ⟨_, h3⟩⟩
  · exact Or.inl h
  · refine Or.inr ⟨h1, ?_⟩
    by_cases hlt : c % W / ts < b
    · exact Or.inl hlt
    · refine Or.inr ⟨by omega, ?_⟩
      exact idx_lt _ _ ts ts (Nat.mod_lt _ hts) (Nat.mod_lt _ hts)
  · exact absurd h3 (Nat.not_lt_zero _)

theorem tiledProgress_row (ts W nW a c : Nat) (hW : W = nW * ts) (hWpos : 0 < W)
    (h : tiledProgress ts W (a + 1) 0 0 c) : tiledProgress ts W a nW 0 c := by
  unfold tiledProgress at h ⊢
  have hcol : c % W / ts < nW := by
    apply Nat.div_lt_of_lt_mul
    rw [Nat.mul_comm, ← hW]
    exact Nat.mod_lt _ hWpos
  rcases h with h | ⟨_, h | ⟨_, h3⟩⟩
  · by_cases hlt : c / W / ts < a
    · exact Or.inl hlt
    · exact Or.inr ⟨by omega, Or.inl hcol⟩
  · exact absurd h (Nat.not_lt_zero _)
  · exact absurd h3 (Nat.not_lt_zero _)

theorem tiledProgress_all (ts M W nM c : Nat) (hM : M = nM * ts)
    (hc : c < M * W) : tiledProgress ts W nM 0 0 c := by
  left
  apply Nat.div_lt_of_lt_mul
  rw [Nat.mul_comm, ← hM]
  apply Nat.div_lt_of_lt_mul
  rw [Nat.mul_comm]
  exact hc

section Tiled

variable {α : Type} [Zero α] [Add α] [Mul α]

theorem dot_add (N W : Nat) (va vb : List α) (k j n m : Nat) :
    dot N W va vb k j (n + m)
      = (List.range m).foldl
          (fun acc x => acc + va.getD (k * N + (n + x)) 0 * vb.getD ((n + x) * W + j) 0)
          (dot N W va vb k j n) := by
  induction m with
  | zero => rfl
  | succ m ih =>
    rw [← Nat.add_assoc, dot_succ, ih, List.range_succ, List.foldl_append]
    rfl

end Tiled

section Tiled

variable {α : Type} [Zero α] [Add α] [Mul α]

theorem tile_thread_lt (ts t0 t M : Nat) (ht : t < ts * ts) (h0 : (t0 + 1) * ts ≤ M) :
    t0 * ts + t / ts < M := by
  have h1 : t / ts < ts := Nat.div_lt_of_lt_mul ht
  have h2 : (t0 + 1) * ts = t0 * ts + ts := by ring
  omega

theorem tile_thread_lt_mod (ts t0 t M : Nat) (hts : 0 < ts) (h0 : (t0 + 1) * ts ≤ M) :
    t0 * ts + t % ts < M := by
  have h1 : t % ts < ts := Nat.mod_lt _ hts
  have h2 : (t0 + 1) * ts = t0 * ts + ts := by ring
  omega

/-- One pass of the loop body for a thread: the `tile_size` products of the
block are added to the partial sum. -/
theorem tiled_block_sum (ts N W : Nat) (va vb : List α) (t0 t1 b t : Nat) (hts : 0 < ts)
    (ht : t < ts * ts) (c : α) :
    (List.range ts).foldlM
        (fun acc k => do
          let x ← rd ((List.range (ts * ts)).map
            (fun t => va.getD ((t0 * ts + t / ts) * N + (b * ts + t % ts)) 0)) (t / ts * ts + k)
          let y ← rd ((List.range (ts * ts)).map
            (fun t => vb.getD ((b * ts + t / ts) * W + (t1 * ts + t % ts)) 0)) (k * ts + t % ts)
          pure (acc + x * y))
        c
      = (.ok ((List.range ts).foldl
          (fun acc k => acc + va.getD ((t0 * ts + t / ts) * N + (b * ts + k)) 0
            * vb.getD ((b * ts + k) * W + (t1 * ts + t % ts)) 0) c) : Except Fault α) := by
  obtain ⟨r, hr, hI⟩ := range_foldlM_inv ts
    (fun acc k => do
      let x ← rd ((List.range (ts * ts)).map
        (fun t => va.getD ((t0 * ts + t / ts) * N + (b * ts + t % ts)) 0)) (t / ts * ts + k)
      let y ← rd ((List.range (ts * ts)).map
        (fun t => vb.getD ((b * ts + t / ts) * W + (t1 * ts + t % ts)) 0)) (k * ts + t % ts)
      (pure (acc + x * y) : Except Fault α))
    (fun n acc => acc = (List.range n).foldl
      (fun acc k => acc + va.getD ((t0 * ts + t / ts) * N + (b * ts + k)) 0
        * vb.getD ((b * ts + k) * W + (t1 * ts + t % ts)) 0) c) c rfl
    (by
      intro k hk acc hacc
      have h1 : t / ts * ts + k < ts * ts := idx_lt _ _ ts ts (Nat.div_lt_of_lt_mul ht) hk
      have h2 : k * ts + t % ts < ts * ts := idx_lt _ _ ts ts hk (Nat.mod_lt _ hts)
      refine ⟨acc + va.getD ((t0 * ts + t / ts) * N + (b * ts + k)) 0
        * vb.getD ((b * ts + k) * W + (t1 * ts + t % ts)) 0, ?_, ?_⟩
      · simp only [rd_map _ _ _ h1, rd_map _ _ _ h2, cell_div _ _ ts hk, cell_mod _ _ ts hk,
          cell_div _ _ ts (Nat.mod_lt t hts), cell_mod _ _ ts (Nat.mod_lt t hts), pure, bind,
          Except.bind, Except.pure]
      · show _ = List.foldl _ c (List.range (k + 1))
        rw [List.range_succ, List.foldl_append, ← hacc]
        rfl)
  rw [hr, hI]

end Tiled

section Tiled

variable {α : Type} [Zero α] [Add α] [Mul α]

theorem tiled_rounds_ok (ts M N W nb : Nat) (va vb : List α) (t0 t1 : Nat) (hts : 0 < ts)
    (hN : N = nb * ts) (ha : va.length = M * N) (hb : vb.length = N * W)
    (h0 : (t0 + 1) * ts ≤ M) (h1 : (t1 + 1) * ts ≤ W) :
    ∀ fuel b, b ≤ nb → nb - b ≤ fuel →
      tiled_rounds ts M N W va vb t0 t1 fuel (b * ts) (tileSums ts N W va vb t0 t1 (b * ts))
        = .ok (tileSums ts N W va vb t0 t1 N) := by
  intro fuel
  induction fuel with
  | zero =>
    intro b hbn hf
    have hb' : b = nb := by omega
    subst hb'
    rw [tiled_rounds, if_neg (by omega), hN]
  | succ fuel ih =>
    intro b hbn hf
    rw [tiled_rounds]
    by_cases hlt : b * ts < N
    · have hb' : b < nb := by
        by_contra hge
        have : nb * ts ≤ b * ts := Nat.mul_le_mul_right _ (by omega)
        omega
      have hblock : (b + 1) * ts ≤ N := by
        rw [hN]
        exact Nat.mul_le_mul_right _ hb'
      have hA : (List.range (ts * ts)).mapM
          (fun t => viewRead M N va (t0 * ts + t / ts) (b * ts + t % ts))
          = .ok ((List.range (ts * ts)).map
              (fun t => va.getD ((t0 * ts + t / ts) * N + (b * ts + t % ts)) 0)) :=
        mapM_range_pure _ _ _ (fun t ht =>
          viewRead_ok M N va _ _ 0 (tile_thread_lt ts t0 t M ht h0)
            (tile_thread_lt_mod ts b t N hts hblock) ha)
      have hB : (List.range (ts * ts)).mapM
          (fun t => viewRead N W vb (b * ts + t / ts) (t1 * ts + t % ts))
          = .ok ((List.range (ts * ts)).map
              (fun t => vb.getD ((b * ts + t / ts) * W + (t1 * ts + t % ts)) 0)) :=
        mapM_range_pure _ _ _ (fun t ht =>
          viewRead_ok N W vb _ _ 0 (tile_thread_lt ts b t N ht hblock)
            (tile_thread_lt_mod ts t1 t W hts h1) hb)
      have hC : (List.range (ts * ts)).mapM
          (fun t => do
            let c ← rd (tileSums ts N W va vb t0 t1 (b * ts)) t
            (List.range ts).foldlM
              (fun acc k => do
                let x ← rd ((List.range (ts * ts)).map
                  (fun t => va.getD ((t0 * ts + t / ts) * N + (b * ts + t % ts)) 0))
                  (t / ts * ts + k)
                let y ← rd ((List.range (ts * ts)).map
                  (fun t => vb.getD ((b * ts + t / ts) * W + (t1 * ts + t % ts)) 0))
                  (k * ts + t % ts)
                pure (acc + x * y))
              c)
          = .ok (tileSums ts N W va vb t0 t1 ((b + 1) * ts)) := by
        apply mapM_range_pure
        intro t ht
        have hrd : rd (tileSums ts N W va vb t0 t1 (b * ts)) t
            = .ok (dot N W va vb (t0 * ts + t / ts) (t1 * ts + t % ts) (b * ts)) :=
          rd_map _ _ _ ht
        rw [hrd]
        refine (tiled_block_sum ts N W va vb t0 t1 b t hts ht _).trans ?_
        rw [show (b + 1) * ts = b * ts + ts by ring, dot_add]
      rw [if_pos hlt, hA, hB]
      refine Eq.trans ?_ (ih (b + 1) hb' (by omega))
      simp only [bind, Except.bind] at hC ⊢
      rw [hC, show (b + 1) * ts = b * ts + ts by ring]
    · have hb' : b = nb := by
        by_contra hne
        have : (b + 1) * ts ≤ nb * ts := Nat.mul_le_mul_right _ (by omega)
        have h2 : (b + 1) * ts = b * ts + ts := by ring
        omega
      subst hb'
      rw [if_neg hlt, hN]

end Tiled

section Tiled

variable {α : Type} [Zero α] [Add α] [Mul α]

theorem tileSums_zero (ts N W : Nat) (va vb : List α) (t0 t1 : Nat) :
    tileSums ts N W va vb t0 t1 (0 * ts) = List.replicate (ts * ts) 0 := by
  apply List.ext_getElem?
  intro i
  by_cases hi : i < ts * ts
  · simp [tileSums, dot, List.getElem?_map, List.getElem?_range hi, List.getElem?_replicate, hi]
  · rw [List.getElem?_eq_none (by simp [tileSums]; omega),
      List.getElem?_eq_none (by simp; omega)]

theorem tiled_tile_ok (ts M N W nb : Nat) (va vb : List α) (a b : Nat) (hts : 0 < ts)
    (hN : N = nb * ts) (hva : va.length = M * N) (hvb : vb.length = N * W)
    (h0 : (a + 1) * ts ≤ M) (h1 : (b + 1) * ts ≤ W) (L : List α)
    (hL : Done (tiledProgress ts W a b 0) (fun c => dot N W va vb (c / W) (c % W) N) (M * W) L) :
    ∃ L', tiled_tile ts M N W va vb L a b = .ok L' ∧
      Done (tiledProgress ts W a (b + 1) 0) (fun c => dot N W va vb (c / W) (c % W) N)
        (M * W) L' := by
  have hfuel : nb - 0 ≤ N := by
    rw [hN]
    exact Nat.le_trans (Nat.sub_le _ _) (Nat.le_mul_of_pos_right nb hts)
  have hrounds := tiled_rounds_ok ts M N W nb va vb a b hts hN hva hvb h0 h1 N 0
    (Nat.zero_le _) hfuel
  rw [tileSums_zero, Nat.zero_mul] at hrounds
  obtain ⟨r, hr, hI⟩ := range_foldlM_inv (ts * ts)
    (fun av_c t => do
      let c ← rd (tileSums ts N W va vb a b N) t
      viewWrite M W av_c (a * ts + t / ts) (b * ts + t % ts) c)
    (fun n L => Done (tiledProgress ts W a b n) (fun c => dot N W va vb (c / W) (c % W) N)
      (M * W) L) L hL
    (by
      intro t ht L hL
      have hi0 := tile_thread_lt ts a t M ht h0
      have hi1 := tile_thread_lt_mod ts b t W hts h1
      obtain ⟨hw, hd⟩ := Done_set _ (fun c => dot N W va vb (c / W) (c % W) N) (M * W) L
        ((a * ts + t / ts) * W + (b * ts + t % ts)) hL (idx_lt _ _ M W hi0 hi1)
      refine ⟨_, ?_, Done_mono _ _ _ _ _ hd
        (fun c _ hc => tiledProgress_thread ts W a b t c hts hc)⟩
      have hrd : rd (tileSums ts N W va vb a b N) t
          = .ok (dot N W va vb (a * ts + t / ts) (b * ts + t % ts) N) := rd_map _ _ _ ht
      rw [← hw]
      simp only [hrd, viewWrite, hi0, hi1, and_self, if_true, cell_div _ _ W hi1,
        cell_mod _ _ W hi1, bind, Except.bind])
  refine ⟨r, ?_, Done_mono _ _ _ _ _ hI (fun c _ hc => tiledProgress_tile ts W a b c hts hc)⟩
  unfold tiled_tile
  rw [hrounds]
  exact hr

theorem tiled_launch_ok (ts M N W nM nb nW : Nat) (va vb vresult : List α) (hts : 0 < ts)
    (hM : M = nM * ts) (hN : N = nb * ts) (hW : W = nW * ts) (hWpos : 0 < W)
    (hva : va.length = M * N) (hvb : vb.length = N * W) (hc : vresult.length = M * W) :
    tiled_launch ts M N W va vb vresult = .ok (product M N W va vb) := by
  have hMd : M / ts = nM := by rw [hM]; exact Nat.mul_div_cancel _ hts
  have hWd : W / ts = nW := by rw [hW]; exact Nat.mul_div_cancel _ hts
  obtain ⟨r, hr, hI⟩ := range_foldlM_inv nM
    (fun av_c t0 =>
      (List.range nW).foldlM (fun av_c t1 => tiled_tile ts M N W va vb av_c t0 t1) av_c)
    (fun a L => Done (tiledProgress ts W a 0 0) (fun c => dot N W va vb (c / W) (c % W) N)
      (M * W) L) vresult
    ⟨hc, fun c h _ => by
      unfold tiledProgress at h
      rcases h with h | ⟨_, h | ⟨_, h⟩⟩ <;> exact absurd h (Nat.not_lt_zero _)⟩
    (by
      intro a ha L hL
      have h0 : (a + 1) * ts ≤ M := by rw [hM]; exact Nat.mul_le_mul_right _ ha
      obtain ⟨r, hr, hI⟩ := range_foldlM_inv nW
        (fun av_c t1 => tiled_tile ts M N W va vb av_c a t1)
        (fun b L => Done (tiledProgress ts W a b 0)
          (fun c => dot N W va vb (c / W) (c % W) N) (M * W) L) L hL
        (by
          intro b hb L hL
          have h1 : (b + 1) * ts ≤ W := by rw [hW]; exact Nat.mul_le_mul_right _ hb
          exact tiled_tile_ok ts M N W nb va vb a b hts hN hva hvb h0 h1 L hL)
      exact ⟨r, hr, Done_mono _ _ _ _ _ hI
        (fun c _ hc => tiledProgress_row ts W nW a c hW hWpos hc)⟩)
  unfold tiled_launch product
  rw [hMd, hWd, hr]
  exact congrArg _ (Done_all _ (M * W) r _ hI
    (fun c hc => tiledProgress_all ts M W nM c hM hc))

end Tiled

section Check

variable {α : Type}

theorem dimension_mismatch_eq (M N W : Nat) (va vb vresult : List α)
    (hMN : M * N < 2 ^ 31) (hNW : N * W < 2 ^ 31) (hMW : M * W < 2 ^ 31) :
    dimension_mismatch M N W va vb vresult
      = .ok (decide (va.length ≠ M * N ∨ vb.length ≠ N * W ∨ vresult.length ≠ M * W)) := by
  by_cases ha : va.length = M * N <;> by_cases hb : vb.length = N * W <;>
    by_cases hc : vresult.length = M * W <;>
    simp [dimension_mismatch, imul_ok M N hMN, imul_ok N W hNW, imul_ok M W hMW, ha, hb, hc,
      pure, bind, Except.bind, Except.pure]

theorem threw_spec (o : Outcome α) (vresult : List α) (P : Prop)
    (h1 : P → o = .threw vresult) (h2 : ¬ P → ∀ v, o ≠ .threw v) :
    ((∃ v, o = .threw v) ↔ P) ∧ ∀ v, o = .threw v → v = vresult := by
  by_cases hP : P
  · have ho := h1 hP
    refine ⟨⟨fun _ => hP, fun _ => ⟨vresult, ho⟩⟩, fun v hv => ?_⟩
    rw [ho] at hv
    cases hv
    rfl
  · exact ⟨⟨fun ⟨v, hv⟩ => absurd hv (h2 hP v), fun h => absurd h hP⟩,
      fun v hv => absurd hv (h2 hP v)⟩

variable [Zero α] [Add α] [Mul α]

theorem mxm_single_cpu_threw (M N W : Nat) (va vb vresult : List α)
    (hMN : M * N < 2 ^ 31) (hNW : N * W < 2 ^ 31) (hMW : M * W < 2 ^ 31) :
    ((∃ v, mxm_single_cpu M N W va vb vresult = .threw v)
        ↔ (va.length ≠ M * N ∨ vb.length ≠ N * W ∨ vresult.length ≠ M * W))
      ∧ ∀ v, mxm_single_cpu M N W va vb vresult = .threw v → v = vresult := by
  apply threw_spec
  · intro h
    unfold mxm_single_cpu
    rw [dimension_mismatch_eq M N W va vb vresult hMN hNW hMW, decide_eq_true h]
  · intro h v
    unfold mxm_single_cpu
    rw [dimension_mismatch_eq M N W va vb vresult hMN hNW hMW, decide_eq_false h]
    dsimp only
    split <;> exact fun e => (nomatch e)

theorem mxm_amp_simple_threw (M N W : Nat) (va vb vresult : List α)
    (hMN : M * N < 2 ^ 31) (hNW : N * W < 2 ^ 31) (hMW : M * W < 2 ^ 31) :
    ((∃ v, mxm_amp_simple M N W va vb vresult = .threw v)
        ↔ (va.length ≠ M * N ∨ vb.length ≠ N * W ∨ vresult.length ≠ M * W))
      ∧ ∀ v, mxm_amp_simple M N W va vb vresult = .threw v → v = vresult := by
  apply threw_spec
  · intro h
    unfold mxm_amp_simple
    rw [dimension_mismatch_eq M N W va vb vresult hMN hNW hMW, decide_eq_true h]
  · intro h v
    unfold mxm_amp_simple
    rw [dimension_mismatch_eq M N W va vb vresult hMN hNW hMW, decide_eq_false h]
    dsimp only
    split <;> exact fun e => (nomatch e)

theorem mxm_amp_tiled_threw (ts M N W : Nat) (va vb vresult : List α)
    (hMN : M * N < 2 ^ 31) (hNW : N * W < 2 ^ 31) (hMW : M * W < 2 ^ 31) :
    ((∃ v, mxm_amp_tiled ts M N W va vb vresult = .threw v)
        ↔ (va.length ≠ M * N ∨ vb.length ≠ N * W ∨ vresult.length ≠ M * W))
      ∧ ∀ v, mxm_amp_tiled ts M N W va vb vresult = .threw v → v = vresult := by
  apply threw_spec
  · intro h
    unfold mxm_amp_tiled
    rw [dimension_mismatch_eq M N W va vb vresult hMN hNW hMW, decide_eq_true h]
  · intro h v
    unfold mxm_amp_tiled
    rw [dimension_mismatch_eq M N W va vb vresult hMN hNW hMW, decide_eq_false h]
    dsimp only
    split_ifs
    · exact fun e => (nomatch e)
    · exact fun e => (nomatch e)
    · exact fun e => (nomatch e)
    · exact fun e => (nomatch e)
    · split <;> exact fun e => (nomatch e)

theorem mxm_single_cpu_ok (M N W : Nat) (va vb vresult : List α)
    (hMN : M * N < 2 ^ 31) (hNW : N * W < 2 ^ 31) (hMW : M * W < 2 ^ 31)
    (ha : va.length = M * N) (hb : vb.length = N * W) (hc : vresult.length = M * W) :
    mxm_single_cpu M N W va vb vresult = .returned (product M N W va vb) := by
  unfold mxm_single_cpu
  rw [dimension_mismatch_false M N W va vb vresult hMN hNW hMW ha hb hc,
    cpu_loops_ok M N W va vb vresult ha hb hc]

theorem mxm_amp_simple_ok (M N W : Nat) (va vb vresult : List α)
    (hM : 0 < M) (hN : 0 < N) (hW : 0 < W)
    (hMN : M * N < 2 ^ 31) (hNW : N * W < 2 ^ 31) (hMW : M * W < 2 ^ 31)
    (ha : va.length = M * N) (hb : vb.length = N * W) (hc : vresult.length = M * W) :
    mxm_amp_simple M N W va vb vresult = .returned (product M N W va vb) := by
  have h1 : checkExtent M N = .ok () := by rw [checkExtent, if_neg (by omega)]
  have h2 : checkExtent N W = .ok () := by rw [checkExtent, if_neg (by omega)]
  have h3 : checkExtent M W = .ok () := by rw [checkExtent, if_neg (by omega)]
  unfold mxm_amp_simple
  rw [dimension_mismatch_false M N W va vb vresult hMN hNW hMW ha hb hc, h1, h2, h3]
  simp only [bind, Except.bind, simple_launch_ok M N W va vb vresult ha hb hc]

theorem mxm_amp_tiled_ok (ts M N W : Nat) (va vb vresult : List α) (hts : 0 < ts)
    (hdM : ts ∣ M) (hdN : ts ∣ N) (hdW : ts ∣ W) (hM : 0 < M) (hN : 0 < N) (hW : 0 < W)
    (hMN : M * N < 2 ^ 31) (hNW : N * W < 2 ^ 31) (hMW : M * W < 2 ^ 31)
    (ha : va.length = M * N) (hb : vb.length = N * W) (hc : vresult.length = M * W) :
    mxm_amp_tiled ts M N W va vb vresult = .returned (product M N W va vb) := by
  have h1 : checkExtent M N = .ok () := by rw [checkExtent, if_neg (by omega)]
  have h2 : checkExtent N W = .ok () := by rw [checkExtent, if_neg (by omega)]
  have h3 : checkExtent M W = .ok () := by rw [checkExtent, if_neg (by omega)]
  obtain ⟨nM, hnM⟩ := hdM
  obtain ⟨nb, hnb⟩ := hdN
  obtain ⟨nW, hnW⟩ := hdW
  have hl := tiled_launch_ok ts M N W nM nb nW va vb vresult hts
    (by rw [hnM, Nat.mul_comm]) (by rw [hnb, Nat.mul_comm]) (by rw [hnW, Nat.mul_comm]) hW
    ha hb hc
  unfold mxm_amp_tiled
  rw [dimension_mismatch_false M N W va vb vresult hMN hNW hMW ha hb hc, h1, h2, h3,
    if_neg (by omega), if_neg (by simp [Nat.mod_eq_zero_of_dvd ⟨nM, hnM⟩]),
    if_neg (by simp [Nat.mod_eq_zero_of_dvd ⟨nW, hnW⟩]),
    if_neg (by simp [Nat.mod_eq_zero_of_dvd ⟨nb, hnb⟩])]
  simp only [bind, Except.bind, hl]

theorem product_length (M N W : Nat) (va vb : List α) : (product M N W va vb).length = M * W := by
  simp [product]

theorem product_cell (M N W : Nat) (va vb : List α) (k j : Nat) (hk : k < M) (hj : j < W) :
    (product M N W va vb)[k * W + j]?
      = some ((List.range N).foldl
          (fun acc i => acc + va.getD (k * N + i) 0 * vb.getD (i * W + j) 0) 0) := by
  unfold product
  rw [List.getElem?_map, List.getElem?_range (idx_lt k j M W hk hj)]
  simp only [Option.map_some', cell_div k j W hj, cell_mod k j W hj]
  rfl

end Check

end MatrixMult

namespace NumberTests

theorem imod_ok (a b : Nat) (h : b ≠ 0) : imod a b = .ok (a % b) := by
  rw [imod, if_neg h]

theorem idiv_ok (a b : Nat) (h : b ≠ 0) : idiv a b = .ok (a / b) := by
  rw [idiv, if_neg h]

theorem is_prime_loop_spec (n : Nat) :
    ∀ fuel i, 2 ≤ i → i ≤ n → n ≤ i + fuel → (∀ d, 2 ≤ d → d < i → ¬ d ∣ n) →
      ∃ b, is_prime_loop n fuel i = .ok b ∧ (b = true ↔ ∀ d, 2 ≤ d → d < n → ¬ d ∣ n) := by
  intro fuel
  induction fuel with
  | zero =>
    intro i _ hin hfuel hsmall
    have hi : i = n := by omega
    subst hi
    refine ⟨true, by rw [is_prime_loop, if_neg (lt_irrefl _)], ?_⟩
    simpa using hsmall
  | succ fuel ih =>
    intro i hi hin hfuel hsmall
    rw [is_prime_loop]
    by_cases hlt : i < n
    · rw [if_pos hlt, imod_ok n i (by omega)]
      by_cases hr : n % i = 0
      · refine ⟨false, by simp only [hr, bind, Except.bind, if_true, pure, Except.pure], ?_⟩
        constructor
        · intro h
          exact absurd h (by decide)
        · intro h
          exact absurd (Nat.dvd_of_mod_eq_zero hr) (h i hi hlt)
      · obtain ⟨b, hb, hiff⟩ := ih (i + 1) (by omega) (by omega) (by omega)
          (by
            intro d hd hdi
            by_cases hdi' : d = i
            · subst hdi'
              exact fun hdvd => hr (Nat.mod_eq_zero_of_dvd hdvd)
            · exact hsmall d hd (by omega))
        exact ⟨b, by simp only [hr, bind, Except.bind, if_false, hb], hiff⟩
    · have hi' : i = n := by omega
      subst hi'
      refine ⟨true, by rw [if_neg hlt], ?_⟩
      simpa using hsmall

theorem prime_of_no_small (k i : Nat) (hk : 2 ≤ k) (hsmall : ∀ d, 2 ≤ d → d < i → ¬ d ∣ k)
    (hlt : k < i * i) : k.Prime := by
  rw [Nat.prime_def_le_sqrt]
  refine ⟨hk, fun d hd hsq => hsmall d hd ?_⟩
  have h1 : d * d ≤ k := Nat.le_sqrt.mp hsq
  by_contra hge
  have h2 : i * i ≤ d * d := Nat.mul_le_mul (by omega) (by omega)
  omega

theorem prime_of_least (k i : Nat) (hi : 2 ≤ i) (hsmall : ∀ d, 2 ≤ d → d < i → ¬ d ∣ k)
    (hdvd : i ∣ k) : i.Prime := by
  rw [Nat.prime_def_lt']
  exact ⟨hi, fun d hd hlt hdi => hsmall d hd hlt (Nat.dvd_trans hdi hdvd)⟩

/-- The final `return` when what is left of `n` is a prime `k`. -/
theorem is_carmichael_return_spec (n k m : Nat) (hnk : n = m * k) (hk : k.Prime)
    (hcop : Nat.Coprime m k) (hsq : Squarefree m)
    (hkor : ∀ p : Nat, p.Prime → p ∣ m → (p - 1) ∣ (n - 1)) :
    ∃ b, is_carmichael_return n k = .ok b ∧
      (b = true ↔ (¬ n.Prime ∧ Squarefree n ∧
        ∀ p : Nat, p.Prime → p ∣ n → (p - 1) ∣ (n - 1))) := by
  have hk2 := hk.two_le
  have hkn : k ∣ n := ⟨m, by rw [hnk, Nat.mul_comm]⟩
  unfold is_carmichael_return
  by_cases hne : k ≠ n
  · rw [if_pos hne, imod_ok _ _ (by omega)]
    refine ⟨decide ((n - 1) % (k - 1) = 0), rfl, ?_⟩
    rw [decide_eq_true_iff]
    constructor
    · intro hmod
      have hdiv : (k - 1) ∣ (n - 1) := Nat.dvd_of_mod_eq_zero hmod
      refine ⟨?_, ?_, ?_⟩
      · intro hp
        rcases (Nat.dvd_prime hp).mp hkn with h1 | h1
        · omega
        · exact hne h1
      · rw [hnk]
        exact (Nat.squarefree_mul hcop).mpr ⟨hsq, hk.prime.squarefree⟩
      · intro p hp hpn
        rw [hnk] at hpn
        rcases (Nat.Prime.dvd_mul hp).mp hpn with h1 | h1
        · exact hkor p hp h1
        · rw [(Nat.prime_dvd_prime_iff_eq hp hk).mp h1]
          exact hdiv
    · intro h
      exact Nat.mod_eq_zero_of_dvd (h.2.2 k hk hkn)
  · rw [if_neg hne]
    refine ⟨false, rfl, ?_⟩
    constructor
    · intro h
      exact absurd h (by decide)
    · intro h
      have : k = n := by
        by_contra hc
        exact hne hc
      rw [← this] at h
      exact absurd hk h.1

theorem is_carmichael_loop_spec (n : Nat) :
    ∀ fuel k i m, n = m * k → 2 ≤ k → 2 ≤ i → (∀ d, 2 ≤ d → d < i → ¬ d ∣ k) →
      Nat.Coprime m k → Squarefree m →
      (∀ p : Nat, p.Prime → p ∣ m → (p - 1) ∣ (n - 1)) → k < i + fuel →
      ∃ b, is_carmichael_loop n fuel k i = .ok b ∧
        (b = true ↔ (¬ n.Prime ∧ Squarefree n ∧
          ∀ p : Nat, p.Prime → p ∣ n → (p - 1) ∣ (n - 1))) := by
  intro fuel
  induction fuel with
  | zero =>
    intro k i m hnk hk hi hsmall hcop hsq hkor hfuel
    have hq : ¬ i ≤ k / i := by
      have := Nat.div_le_self k i
      omega
    have hlt : k < i * i := (Nat.div_lt_iff_lt_mul (by omega)).mp (by omega)
    rw [is_carmichael_loop, idiv_ok k i (by omega)]
    show ∃ b, (if i ≤ k / i then _ else is_carmichael_return n k) = .ok b ∧ _
    rw [if_neg hq]
    exact is_carmichael_return_spec n k m hnk (prime_of_no_small k i hk hsmall hlt) hcop hsq hkor
  | succ fuel ih =>
    intro k i m hnk hk hi hsmall hcop hsq hkor hfuel
    rw [is_carmichael_loop, idiv_ok k i (by omega)]
    show ∃ b, (if i ≤ k / i then _ else is_carmichael_return n k) = .ok b ∧ _
    by_cases hq : i ≤ k / i
    · rw [if_pos hq, imod_ok k i (by omega)]
      have hii : i * i ≤ k := (Nat.le_div_iff_mul_le (by omega)).mp hq
      by_cases hr : k % i = 0
      · have hik : i ∣ k := Nat.dvd_of_mod_eq_zero hr
        have hip : i.Prime := prime_of_least k i hi hsmall hik
        have hkq : k = i * (k / i) := (Nat.mul_div_cancel' hik).symm
        have hin : i ∣ n := Nat.dvd_trans hik ⟨m, by rw [hnk, Nat.mul_comm]⟩
        simp only [hr, if_true, bind, Except.bind, idiv_ok k i (by omega : i ≠ 0),
          imod_ok (k / i) i (by omega : i ≠ 0)]
        by_cases hr1 : k / i % i = 0
        · refine ⟨false, by simp only [hr1, if_true, pure, Except.pure], ?_⟩
          constructor
          · intro h
            exact absurd h (by decide)
          · intro h
            have hsqn : i * i ∣ n := by
              obtain ⟨c, hc⟩ := Nat.dvd_of_mod_eq_zero hr1
              refine Nat.dvd_trans ⟨c, ?_⟩ (⟨m, by rw [hnk, Nat.mul_comm]⟩ : k ∣ n)
              rw [hkq, hc, Nat.mul_assoc]
            have := Nat.isUnit_iff.mp (h.2.1 i hsqn)
            omega
        · simp only [hr1, if_false, imod_ok (n - 1) (i - 1) (by omega : i - 1 ≠ 0)]
          by_cases hr2 : (n - 1) % (i - 1) = 0
          · have hnot : ¬ i ∣ k / i := fun hd => hr1 (Nat.mod_eq_zero_of_dvd hd)
            have hcop1 : Nat.Coprime m i := Nat.Coprime.coprime_dvd_right hik hcop
            obtain ⟨b, hb, hiff⟩ := ih (k / i) 2 (m * i)
              (by rw [Nat.mul_assoc, ← hkq]; exact hnk) (by omega) (le_refl 2)
              (by intro d hd hd2; omega)
              (Nat.Coprime.mul
                (Nat.Coprime.coprime_dvd_right (Nat.div_dvd_of_dvd hik) hcop)
                ((Nat.Prime.coprime_iff_not_dvd hip).mpr hnot))
              ((Nat.squarefree_mul hcop1).mpr ⟨hsq, hip.prime.squarefree⟩)
              (by
                intro p hp hpm
                rcases (Nat.Prime.dvd_mul hp).mp hpm with h1 | h1
                · exact hkor p hp h1
                · rw [(Nat.prime_dvd_prime_iff_eq hp hip).mp h1]
                  exact Nat.dvd_of_mod_eq_zero hr2)
              (by
                have h2 : i * 2 ≤ i * i := Nat.mul_le_mul_left i hi
                have h3 : k / i * 2 ≤ k / i * i := Nat.mul_le_mul_left _ hi
                have h4 : k / i * i ≤ k := Nat.div_mul_le_self k i
                omega)
            exact ⟨b, by simp only [hr2, ne_eq, not_true_eq_false, if_false, hb], hiff⟩
          · refine ⟨false, by simp only [hr2, ne_eq, not_false_eq_true, if_true, pure,
              Except.pure], ?_⟩
            constructor
            · intro h
              exact absurd h (by decide)
            · intro h
              exact absurd (Nat.mod_eq_zero_of_dvd (h.2.2 i hip hin)) hr2
      · obtain ⟨b, hb, hiff⟩ := ih k (i + 1) m hnk hk (by omega)
          (by
            intro d hd hdi
            by_cases hdi' : d = i
            · subst hdi'
              exact fun hdvd => hr (Nat.mod_eq_zero_of_dvd hdvd)
            · exact hsmall d hd (by omega))
          hcop hsq hkor (by omega)
        exact ⟨b, by simp only [hr, if_false, bind, Except.bind, hb], hiff⟩
    · rw [if_neg hq]
      have hlt : k < i * i := (Nat.div_lt_iff_lt_mul (by omega)).mp (by omega)
      exact is_carmichael_return_spec n k m hnk (prime_of_no_small k i hk hsmall hlt) hcop hsq
        hkor

end NumberTests

namespace TopoPath

theorem toNat_eq_iff (v a : Int) (hv : 0 ≤ v) (ha : 0 ≤ a) : v.toNat = a.toNat ↔ v = a := by
  constructor
  · intro h
    omega
  · intro h
    rw [h]

theorem nbrs_resize (topo : adj_list) (n : Nat) (hn : topo.length ≤ n) (v : Int) :
    nbrs (resize topo n) v = nbrs topo v := by
  unfold nbrs resize
  by_cases hv : 0 ≤ v
  · rw [if_pos hv, if_pos hv, List.take_of_length_le hn]
    simp only [List.getD_eq_getElem?_getD]
    by_cases hlt : v.toNat < topo.length
    · rw [List.getElem?_append_left hlt]
    · have hge : topo.length ≤ v.toNat := by omega
      rw [List.getElem?_append_right hge, List.getElem?_eq_none hge,
        List.getElem?_replicate]
      split <;> rfl
  · rw [if_neg hv, if_neg hv]

theorem resize_length (topo : adj_list) (n : Nat) (hn : topo.length ≤ n) :
    (resize topo n).length = n := by
  unfold resize
  rw [List.take_of_length_le hn, List.length_append, List.length_replicate]
  omega

theorem rowAt_ok (topo : adj_list) (a : Int) (ha : 0 ≤ a) (hlt : a.toNat < topo.length) :
    rowAt topo a = .ok (nbrs topo a) := by
  unfold rowAt nbrs
  rw [if_pos ha, List.getElem?_eq_getElem hlt]
  simp [List.getD, List.getElem?_eq_getElem hlt]

theorem setRow_ok (topo : adj_list) (a : Int) (row : List Int) (hlt : a.toNat < topo.length) :
    setRow topo a row = .ok (topo.set a.toNat row) := by
  rw [setRow, if_pos hlt]

theorem nbrs_set (topo : adj_list) (a : Int) (row : List Int) (ha : 0 ≤ a)
    (hlt : a.toNat < topo.length) (v : Int) :
    nbrs (topo.set a.toNat row) v = if v = a then row else nbrs topo v := by
  unfold nbrs
  by_cases hv : 0 ≤ v
  · rw [if_pos hv, if_pos hv]
    by_cases hva : v = a
    · subst hva
      rw [if_pos rfl]
      simp [List.getD, List.getElem?_set_self hlt]
    · rw [if_neg hva]
      have hne : a.toNat ≠ v.toNat := fun h => hva ((toNat_eq_iff v a hv ha).mp h.symm)
      simp [List.getD, List.getElem?_set_ne hne]
  · rw [if_neg hv, if_neg hv, if_neg (by omega)]

theorem nbrs_nil_of_ge (topo : adj_list) (v : Int) (h : (topo.length : Int) ≤ v) :
    nbrs topo v = [] := by
  unfold nbrs
  split
  · simp [List.getD, List.getElem?_eq_none (by omega : topo.length ≤ v.toNat)]
  · rfl

/-- What `add_edge` returns, in terms of the neighbour lists. -/
theorem add_edge_spec (topo : adj_list) (a b : Int) (ha : a < 2 ^ 31 - 1) (hb : b < 2 ^ 31 - 1) :
    ∃ r topo', add_edge topo a b = .ok (r, topo') ∧
      (r = false → (∀ v, nbrs topo' v = nbrs topo v) ∧
        (a = b ∨ a < 0 ∨ b < 0 ∨ b ∈ nbrs topo a ∨ a ∈ nbrs topo b)) ∧
      (r = true → a ≠ b ∧ 0 ≤ a ∧ 0 ≤ b ∧ b ∉ nbrs topo a ∧ a ∉ nbrs topo b ∧
        (a : Int) < topo'.length ∧ (b : Int) < topo'.length ∧
        ∀ v, nbrs topo' v =
          if v = b then nbrs topo b ++ [a] else if v = a then nbrs topo a ++ [b]
          else nbrs topo v) := by
  unfold add_edge
  by_cases h0 : a = b ∨ a < 0 ∨ b < 0
  · rw [if_pos h0]
    refine ⟨false, topo, rfl, fun _ => ⟨fun _ => rfl, ?_⟩, fun h => Bool.noConfusion h⟩
    rcases h0 with h | h | h
    · exact Or.inl h
    · exact Or.inr (Or.inl h)
    · exact Or.inr (Or.inr (Or.inl h))
  · rw [if_neg h0]
    have hab : a ≠ b := fun h => h0 (Or.inl h)
    have ha0 : 0 ≤ a := by
      by_contra h
      exact h0 (Or.inr (Or.inl (by omega)))
    have hb0 : 0 ≤ b := by
      by_contra h
      exact h0 (Or.inr (Or.inr (by omega)))
    have hmax : max a b + 1 < 2 ^ 31 := by
      rcases max_cases a b with ⟨h, _⟩ | ⟨h, _⟩ <;> rw [h] <;> omega
    rw [if_neg (by omega)]
    have hmax_a : a ≤ max a b := le_max_left a b
    have hmax_b : b ≤ max a b := le_max_right a b
    obtain ⟨topo1, htopo1, hn1, hla, hlb⟩ :
        ∃ topo1 : adj_list,
          (if (topo.length : Int) < max a b + 1 then resize topo (max a b + 1).toNat
            else topo) = topo1 ∧
          (∀ v, nbrs topo1 v = nbrs topo v) ∧ a.toNat < topo1.length ∧
            b.toNat < topo1.length := by
      by_cases hsz : (topo.length : Int) < max a b + 1
      · rw [if_pos hsz]
        have hle : topo.length ≤ (max a b + 1).toNat := by omega
        refine ⟨_, rfl, nbrs_resize topo _ hle, ?_, ?_⟩
        · rw [resize_length topo _ hle]
          omega
        · rw [resize_length topo _ hle]
          omega
      · rw [if_neg hsz]
        refine ⟨_, rfl, fun _ => rfl, ?_, ?_⟩ <;> omega
    simp only [htopo1]
    have hra := rowAt_ok topo1 a ha0 hla
    have hrb := rowAt_ok topo1 b hb0 hlb
    by_cases hin : b ∈ nbrs topo1 a ∨ a ∈ nbrs topo1 b
    · refine ⟨false, topo1, ?_, fun _ => ⟨hn1, ?_⟩, fun h => Bool.noConfusion h⟩
      · simp only [bind, Except.bind, pure, Except.pure, hra, hrb, if_pos hin]
      · rw [hn1 a, hn1 b] at hin
        rcases hin with h | h
        · exact Or.inr (Or.inr (Or.inr (Or.inl h)))
        · exact Or.inr (Or.inr (Or.inr (Or.inr h)))
    · have hs1 := setRow_ok topo1 a (nbrs topo1 a ++ [b]) hla
      have hlb2 : b.toNat < (topo1.set a.toNat (nbrs topo1 a ++ [b])).length := by
        rw [List.length_set]
        exact hlb
      have hrb2 := rowAt_ok _ b hb0 hlb2
      have hs2 := setRow_ok (topo1.set a.toNat (nbrs topo1 a ++ [b])) b
        (nbrs (topo1.set a.toNat (nbrs topo1 a ++ [b])) b ++ [a]) hlb2
      refine ⟨true, (topo1.set a.toNat (nbrs topo1 a ++ [b])).set b.toNat
        (nbrs (topo1.set a.toNat (nbrs topo1 a ++ [b])) b ++ [a]), ?_,
        fun h => Bool.noConfusion h, fun _ => ?_⟩
      · simp only [bind, Except.bind, pure, Except.pure, hra, hrb, if_neg hin, hs1, hrb2, hs2]
      · have hin2 := hin
        rw [hn1 a, hn1 b] at hin2
        refine ⟨hab, ha0, hb0, fun h => hin2 (Or.inl h), fun h => hin2 (Or.inr h), ?_, ?_, ?_⟩
        · rw [List.length_set, List.length_set]
          omega
        · rw [List.length_set, List.length_set]
          omega
        · intro v
          rw [nbrs_set _ b _ hb0 hlb2 v, nbrs_set topo1 a _ ha0 hla b, if_neg (Ne.symm hab),
            nbrs_set topo1 a _ ha0 hla v, hn1 a, hn1 b, hn1 v]

/-- What `remove_edge` returns, in terms of the neighbour lists. -/
theorem remove_edge_spec (topo : adj_list) (a b : Int) (ha : a < topo.length)
    (hb : b < topo.length) :
    ∃ r topo', remove_edge topo a b = .ok (r, topo') ∧
      (r = false → topo' = topo ∧ (a = b ∨ a < 0 ∨ b < 0 ∨ b ∉ nbrs topo a ∨ a ∉ nbrs topo b)) ∧
      (r = true → a ≠ b ∧ 0 ≤ a ∧ 0 ≤ b ∧ b ∈ nbrs topo a ∧ a ∈ nbrs topo b ∧
        ∀ v, nbrs topo' v =
          if v = b then (nbrs topo b).erase a else if v = a then (nbrs topo a).erase b
          else nbrs topo v) := by
  unfold remove_edge
  by_cases h0 : a = b ∨ a < 0 ∨ b < 0
  · rw [if_pos h0]
    refine ⟨false, topo, rfl, fun _ => ⟨rfl, ?_⟩, fun h => Bool.noConfusion h⟩
    rcases h0 with h | h | h
    · exact Or.inl h
    · exact Or.inr (Or.inl h)
    · exact Or.inr (Or.inr (Or.inl h))
  · rw [if_neg h0]
    have hab : a ≠ b := fun h => h0 (Or.inl h)
    have ha0 : 0 ≤ a := by
      by_contra h
      exact h0 (Or.inr (Or.inl (by omega)))
    have hb0 : 0 ≤ b := by
      by_contra h
      exact h0 (Or.inr (Or.inr (by omega)))
    have hla : a.toNat < topo.length := by omega
    have hlb : b.toNat < topo.length := by omega
    have hra := rowAt_ok topo a ha0 hla
    have hrb := rowAt_ok topo b hb0 hlb
    by_cases hin : b ∉ nbrs topo a ∨ a ∉ nbrs topo b
    · refine ⟨false, topo, ?_, fun _ => ⟨rfl, ?_⟩, fun h => Bool.noConfusion h⟩
      · simp only [bind, Except.bind, pure, Except.pure, hra, hrb, if_pos hin]
      · rcases hin with h | h
        · exact Or.inr (Or.inr (Or.inr (Or.inl h)))
        · exact Or.inr (Or.inr (Or.inr (Or.inr h)))
    · have hs1 := setRow_ok topo a ((nbrs topo a).erase b) hla
      have hlb2 : b.toNat < (topo.set a.toNat ((nbrs topo a).erase b)).length := by
        rw [List.length_set]
        exact hlb
      have hs2 := setRow_ok (topo.set a.toNat ((nbrs topo a).erase b)) b
        ((nbrs topo b).erase a) hlb2
      refine ⟨true, (topo.set a.toNat ((nbrs topo a).erase b)).set b.toNat
        ((nbrs topo b).erase a), ?_, fun h => Bool.noConfusion h, fun _ => ?_⟩
      · simp only [bind, Except.bind, pure, Except.pure, hra, hrb, if_neg hin, hs1, hs2]
      · have hin2 : b ∈ nbrs topo a ∧ a ∈ nbrs topo b := by
          constructor
          · by_contra h
            exact hin (Or.inl h)
          · by_contra h
            exact hin (Or.inr h)
        refine ⟨hab, ha0, hb0, hin2.1, hin2.2, ?_⟩
        intro v
        rw [nbrs_set _ b _ hb0 hlb2 v, nbrs_set topo a _ ha0 hla v]

/-- Adding the pair `a`, `b` to both rows of a simple graph keeps it simple. -/
theorem Simple_add (topo topo' : adj_list) (a b : Int) (hS : Simple topo) (hab : a ≠ b)
    (hna : b ∉ nbrs topo a) (hnb : a ∉ nbrs topo b)
    (h : ∀ v, nbrs topo' v =
      if v = b then nbrs topo b ++ [a] else if v = a then nbrs topo a ++ [b] else nbrs topo v) :
    Simple topo' := by
  obtain ⟨hsym, hirr, hnd⟩ := hS
  have hmem : ∀ x y, y ∈ nbrs topo' x ↔
      (y ∈ nbrs topo x ∨ (x = a ∧ y = b) ∨ (x = b ∧ y = a)) := by
    intro x y
    rw [h x]
    by_cases hxb : x = b
    · subst hxb
      rw [if_pos rfl, List.mem_append, List.mem_singleton]
      constructor
      · rintro (h1 | h1)
        · exact Or.inl h1
        · exact Or.inr (Or.inr ⟨rfl, h1⟩)
      · rintro (h1 | ⟨h1, _⟩ | ⟨_, h1⟩)
        · exact Or.inl h1
        · exact absurd h1.symm hab
        · exact Or.inr h1
    · rw [if_neg hxb]
      by_cases hxa : x = a
      · subst hxa
        rw [if_pos rfl, List.mem_append, List.mem_singleton]
        constructor
        · rintro (h1 | h1)
          · exact Or.inl h1
          · exact Or.inr (Or.inl ⟨rfl, h1⟩)
        · rintro (h1 | ⟨_, h1⟩ | ⟨h1, _⟩)
          · exact Or.inl h1
          · exact Or.inr h1
          · exact absurd h1 hxb
      · rw [if_neg hxa]
        constructor
        · exact fun h1 => Or.inl h1
        · rintro (h1 | ⟨h1, _⟩ | ⟨h1, _⟩)
          · exact h1
          · exact absurd h1 hxa
          · exact absurd h1 hxb
  refine ⟨?_, ?_, ?_⟩
  · intro x y
    rw [hmem x y, hmem y x, hsym x y]
    constructor
    · rintro (h1 | ⟨h1, h2⟩ | ⟨h1, h2⟩)
      · exact Or.inl h1
      · exact Or.inr (Or.inr ⟨h2, h1⟩)
      · exact Or.inr (Or.inl ⟨h2, h1⟩)
    · rintro (h1 | ⟨h1, h2⟩ | ⟨h1, h2⟩)
      · exact Or.inl h1
      · exact Or.inr (Or.inr ⟨h2, h1⟩)
      · exact Or.inr (Or.inl ⟨h2, h1⟩)
  · intro x hx
    rcases (hmem x x).mp hx with h1 | ⟨h1, h2⟩ | ⟨h1, h2⟩
    · exact hirr x h1
    · exact hab (h1.symm.trans h2)
    · exact hab (h2.symm.trans h1)
  · intro x
    rw [h x]
    by_cases hxb : x = b
    · rw [if_pos hxb]
      exact List.Nodup.append (hnd b) (List.nodup_singleton a)
        (List.disjoint_singleton.mpr hnb)
    · rw [if_neg hxb]
      by_cases hxa : x = a
      · rw [if_pos hxa]
        exact List.Nodup.append (hnd a) (List.nodup_singleton b)
          (List.disjoint_singleton.mpr hna)
      · rw [if_neg hxa]
        exact hnd x

/-- Erasing the pair `a`, `b` from both rows of a simple graph keeps it simple. -/
theorem Simple_remove (topo topo' : adj_list) (a b : Int) (hS : Simple topo) (hab : a ≠ b)
    (h : ∀ v, nbrs topo' v =
      if v = b then (nbrs topo b).erase a else if v = a then (nbrs topo a).erase b
      else nbrs topo v) :
    Simple topo' := by
  obtain ⟨hsym, hirr, hnd⟩ := hS
  have hmem : ∀ x y, y ∈ nbrs topo' x ↔
      (y ∈ nbrs topo x ∧ ¬ (x = a ∧ y = b) ∧ ¬ (x = b ∧ y = a)) := by
    intro x y
    rw [h x]
    by_cases hxb : x = b
    · subst hxb
      rw [if_pos rfl, (hnd x).mem_erase_iff]
      constructor
      · rintro ⟨h1, h2⟩
        exact ⟨h2, fun h3 => hab h3.1.symm, fun h3 => h1 h3.2⟩
      · rintro ⟨h1, _, h3⟩
        exact ⟨fun h4 => h3 ⟨rfl, h4⟩, h1⟩
    · rw [if_neg hxb]
      by_cases hxa : x = a
      · subst hxa
        rw [if_pos rfl, (hnd x).mem_erase_iff]
        constructor
        · rintro ⟨h1, h2⟩
          exact ⟨h2, fun h3 => h1 h3.2, fun h3 => hxb h3.1⟩
        · rintro ⟨h1, h2, _⟩
          exact ⟨fun h4 => h2 ⟨rfl, h4⟩, h1⟩
      · rw [if_neg hxa]
        constructor
        · exact fun h1 => ⟨h1, fun h3 => hxa h3.1, fun h3 => hxb h3.1⟩
        · exact fun h1 => h1.1
  refine ⟨?_, ?_, ?_⟩
  · intro x y
    rw [hmem x y, hmem y x, hsym x y]
    constructor
    · rintro ⟨h1, h2, h3⟩
      exact ⟨h1, fun h4 => h3 ⟨h4.2, h4.1⟩, fun h4 => h2 ⟨h4.2, h4.1⟩⟩
    · rintro ⟨h1, h2, h3⟩
      exact ⟨h1, fun h4 => h3 ⟨h4.2, h4.1⟩, fun h4 => h2 ⟨h4.2, h4.1⟩⟩
  · intro x hx
    exact hirr x ((hmem x x).mp hx).1
  · intro x
    rw [h x]
    by_cases hxb : x = b
    · rw [if_pos hxb]
      exact (hnd b).erase a
    · rw [if_neg hxb]
      by_cases hxa : x = a
      · rw [if_pos hxa]
        exact (hnd a).erase b
      · rw [if_neg hxa]
        exact hnd x

/-- A graph with the same neighbour lists as a simple graph is simple. -/
theorem Simple_congr (topo topo' : adj_list) (hS : Simple topo)
    (h : ∀ v, nbrs topo' v = nbrs topo v) : Simple topo' := by
  obtain ⟨hsym, hirr, hnd⟩ := hS
  refine ⟨fun x y => ?_, fun x => ?_, fun x => ?_⟩
  · rw [h x, h y]
    exact hsym x y
  · rw [h x]
    exact hirr x
  · rw [h x]
    exact hnd x

/-- In a simple graph, every neighbour of a vertex is a row of the list. -/
theorem Simple_mem_lt (topo : adj_list) (hS : Simple topo) (a b : Int) (h : b ∈ nbrs topo a) :
    0 ≤ b ∧ b < topo.length ∧ 0 ≤ a ∧ a < topo.length := by
  have h2 : a ∈ nbrs topo b := (hS.1 a b).mp h
  have key : ∀ x y : Int, y ∈ nbrs topo x → 0 ≤ x ∧ x < topo.length := by
    intro x y hy
    constructor
    · by_contra hx
      unfold nbrs at hy
      rw [if_neg hx] at hy
      exact List.not_mem_nil _ hy
    · by_contra hx
      rw [nbrs_nil_of_ge topo x (by omega)] at hy
      exact List.not_mem_nil _ hy
  exact ⟨(key b a h2).1, (key b a h2).2, (key a b h).1, (key a b h).2⟩

/-- The empty adjacency list is a simple graph. -/
theorem Simple_nil : Simple ([] : adj_list) := by
  have h : ∀ v : Int, nbrs ([] : adj_list) v = [] := by
    intro v
    unfold nbrs
    split <;> rfl
  refine ⟨fun x y => ?_, fun x => ?_, fun x => ?_⟩
  · rw [h x, h y]
    simp
  · rw [h x]
    simp
  · rw [h x]
    exact List.nodup_nil

/-- The graph with the single edge 0 - 1 is a simple graph. -/
theorem Simple_pair : Simple ([[1], [0]] : adj_list) := by
  obtain ⟨r, topo', h, _, ht⟩ := add_edge_spec [] 0 1 (by decide) (by decide)
  have hrun : add_edge ([] : adj_list) 0 1 = .ok (true, [[1], [0]]) := rfl
  rw [hrun] at h
  injection h with h
  injection h with hr htopo
  subst hr
  subst htopo
  obtain ⟨hab, _, _, hna, hnb, _, _, hv⟩ := ht rfl
  exact Simple_add [] _ 0 1 Simple_nil hab hna hnb hv

end TopoPath

/-! ## The claims -/

namespace BitonicSort

section Claim1

variable {α : Type} [LinearOrder α]

/-- C1. For every power-of-two tile edge `T ≥ 2` whose square `N = T * T` fits
an `unsigned`, every transpose block edge dividing `T` and every input of
`N` elements, `bitonic_sort_amp` returns and its output is non-decreasing:
`output[i - 1] ≤ output[i]` for every `1 ≤ i < N`. -/
theorem bitonic_sort_amp_sorted (k T B : Nat) (hT : T = 2 ^ k) (_hT2 : 2 ≤ T)
    (hN : T * T < 2 ^ 32) (hB : 0 < B) (hdiv : B ∣ T) (data_in data_out : List α)
    (hin : data_in.length = T * T) (hout : data_out.length = T * T) :
    ∃ r : SortResult α, bitonic_sort_amp (Config.square T B) data_in data_out = .ok r
      ∧ r.data_out.length = T * T
      ∧ ∀ i (h : i < r.data_out.length), 1 ≤ i → r.data_out[i - 1] ≤ r.data_out[i] := by
  have hpos : 0 < data_in.length := by rw [hin]; exact Nat.mul_pos (by omega) (by omega)
  refine ⟨_, bitonic_sort_amp_network k T B hT hN hB hdiv data_in data_out (data_in[0]) hin hout,
    tab_length _ _, ?_⟩
  intro i h h1
  simp only [tab_getElem]
  subst hT
  exact sortNet_mono k _ (i - 1) i (by omega) (by simpa [tab_length] using h)

/-- C1, witness: tile edge 2, input `[3, 2, 1, 0]`, output `[0, 1, 2, 3]`. -/
theorem bitonic_sort_amp_sorted_witness :
    (2 = 2 ^ 1 ∧ 2 * 2 < 2 ^ 32 ∧ 1 ∣ 2)
    ∧ (∃ r : SortResult Nat,
        bitonic_sort_amp (Config.square 2 1) [3, 2, 1, 0] [0, 0, 0, 0] = .ok r
        ∧ r.data_out.length = 2 * 2
        ∧ ∀ i (h : i < r.data_out.length), 1 ≤ i → r.data_out[i - 1] ≤ r.data_out[i])
    ∧ (bitonic_sort_amp (Config.square 2 1) [3, 2, 1, 0] [0, 0, 0, 0]).toOption.map
        SortResult.data_out = some [0, 1, 2, 3] :=
  ⟨by decide,
   bitonic_sort_amp_sorted 1 2 1 rfl (by decide) (by decide) (by decide) ⟨2, rfl⟩
     [3, 2, 1, 0] [0, 0, 0, 0] rfl rfl,
   by decide⟩

end Claim1

section Claim2

variable {α : Type} [LinearOrder α]

/-- C2. For every valid tile edge `T` and every input of `N = T * T` elements
the output of `bitonic_sort_amp` is a permutation of the input: every value
occurs in the output as often as in the input. -/
theorem bitonic_sort_amp_perm (k T B : Nat) (hT : T = 2 ^ k) (_hT2 : 2 ≤ T)
    (hN : T * T < 2 ^ 32) (hB : 0 < B) (hdiv : B ∣ T) (data_in data_out : List α)
    (hin : data_in.length = T * T) (hout : data_out.length = T * T) :
    ∃ r : SortResult α, bitonic_sort_amp (Config.square T B) data_in data_out = .ok r
      ∧ r.data_out.Perm data_in := by
  have hpos : 0 < data_in.length := by rw [hin]; exact Nat.mul_pos (by omega) (by omega)
  refine ⟨_, bitonic_sort_amp_network k T B hT hN hB hdiv data_in data_out (data_in[0]) hin hout,
    ?_⟩
  have h := sortNet_perm (k + k) 1 (T * T) (by rw [hT, pow_add, Nat.one_mul])
    (fn (data_in[0]) data_in)
  have h2 : tab (T * T) (fn (data_in[0]) data_in) = data_in := by
    rw [← hin]; exact tab_fn _ _
  rw [h2] at h
  exact h

/-- C2, witness: tile edge 2, input `[3, 1, 3, 2]`, output `[1, 2, 3, 3]`. -/
theorem bitonic_sort_amp_perm_witness :
    (2 = 2 ^ 1 ∧ 2 * 2 < 2 ^ 32 ∧ 1 ∣ 2)
    ∧ (∃ r : SortResult Nat,
        bitonic_sort_amp (Config.square 2 1) [3, 1, 3, 2] [0, 0, 0, 0] = .ok r
        ∧ r.data_out.Perm [3, 1, 3, 2])
    ∧ (bitonic_sort_amp (Config.square 2 1) [3, 1, 3, 2] [0, 0, 0, 0]).toOption.map
        SortResult.data_out = some [1, 2, 3, 3] :=
  ⟨by decide,
   bitonic_sort_amp_perm 1 2 1 rfl (by decide) (by decide) (by decide) ⟨2, rfl⟩
     [3, 1, 3, 2] [0, 0, 0, 0] rfl rfl,
   by decide⟩

end Claim2

section Claim3

variable {α : Type} [LinearOrder α]

/-- C3. Idempotence: for every valid tile edge `T` and every input of
`N = T * T` elements that is already non-decreasing, `bitonic_sort_amp`
returns the input element for element; and for every input, sorting the
output of a sort again returns it unchanged. -/
theorem bitonic_sort_amp_idempotent (k T B : Nat) (hT : T = 2 ^ k) (hT2 : 2 ≤ T)
    (hN : T * T < 2 ^ 32) (hB : 0 < B) (hdiv : B ∣ T) (data_in data_out : List α)
    (hin : data_in.length = T * T) (hout : data_out.length = T * T) :
    ((∀ i (hi : i < data_in.length), 1 ≤ i → data_in[i - 1] ≤ data_in[i]) →
      ∃ r : SortResult α, bitonic_sort_amp (Config.square T B) data_in data_out = .ok r
        ∧ r.data_out = data_in)
    ∧ (∃ r r' : SortResult α, bitonic_sort_amp (Config.square T B) data_in data_out = .ok r
        ∧ bitonic_sort_amp (Config.square T B) r.data_out data_out = .ok r'
        ∧ r'.data_out = r.data_out) := by
  have hpos : 0 < data_in.length := by rw [hin]; exact Nat.mul_pos (by omega) (by omega)
  have hrun := fun (l : List α) (hl : l.length = T * T) (d : α) =>
    bitonic_sort_amp_network k T B hT hN hB hdiv l data_out d hl hout
  have hperm : ∀ (l : List α) (hl : l.length = T * T) (d : α),
      (tab (T * T) (sortNet (k + k) (fn d l))).Perm l := by
    intro l hl d
    have h := sortNet_perm (k + k) 1 (T * T) (by rw [hT, pow_add, Nat.one_mul]) (fn d l)
    have h2 : tab (T * T) (fn d l) = l := by rw [← hl]; exact tab_fn _ _
    rw [h2] at h
    exact h
  have hsorted : ∀ (l : List α) (d : α),
      List.Sorted (· ≤ ·) (tab (T * T) (sortNet (k + k) (fn d l))) := by
    intro l d
    subst hT
    exact sortNet_list_sorted k _
  have hfix : ∀ (l : List α) (hl : l.length = T * T) (d : α), List.Sorted (· ≤ ·) l →
      tab (T * T) (sortNet (k + k) (fn d l)) = l :=
    fun l hl d hs => List.eq_of_perm_of_sorted (hperm l hl d) (hsorted l d) hs
  constructor
  · intro hadj
    exact ⟨_, hrun data_in hin (data_in[0]), hfix data_in hin _ (sorted_of_adjacent _ hadj)⟩
  · refine ⟨_, _, hrun data_in hin (data_in[0]),
      hrun (tab (T * T) (sortNet (k + k) (fn (data_in[0]) data_in))) (tab_length _ _)
        (data_in[0]), ?_⟩
    exact hfix _ (tab_length _ _) _ (hsorted _ _)

/-- C3, witness: tile edge 2, the sorted input `[1, 2, 3, 3]`. -/
theorem bitonic_sort_amp_idempotent_witness :
    (2 = 2 ^ 1 ∧ 2 * 2 < 2 ^ 32 ∧ 1 ∣ 2)
    ∧ (∀ i (hi : i < [1, 2, 3, 3].length), 1 ≤ i → [1, 2, 3, 3][i - 1] ≤ [1, 2, 3, 3][i])
    ∧ (∃ r : SortResult Nat,
        bitonic_sort_amp (Config.square 2 1) [1, 2, 3, 3] [0, 0, 0, 0] = .ok r
        ∧ r.data_out = [1, 2, 3, 3])
    ∧ (∃ r r' : SortResult Nat,
        bitonic_sort_amp (Config.square 2 1) [1, 2, 3, 3] [0, 0, 0, 0] = .ok r
        ∧ bitonic_sort_amp (Config.square 2 1) r.data_out [0, 0, 0, 0] = .ok r'
        ∧ r'.data_out = r.data_out) :=
  ⟨by decide, by decide,
   (bitonic_sort_amp_idempotent 1 2 1 rfl (by decide) (by decide) (by decide) ⟨2, rfl⟩
     [1, 2, 3, 3] [0, 0, 0, 0] rfl rfl).1 (by decide),
   (bitonic_sort_amp_idempotent 1 2 1 rfl (by decide) (by decide) (by decide) ⟨2, rfl⟩
     [1, 2, 3, 3] [0, 0, 0, 0] rfl rfl).2⟩

end Claim3

section Claim4

variable {α : Type}

/-- C4, amended. For every edge `n` that is a multiple of the transpose block
edge `B` and every source buffer of `n * n` elements viewed as an `n × n`
matrix, the launch of `transpose_kernel` over the whole matrix returns the
exact transpose of the source: the element at source position `(r, c)` ends
up at position `(c, r)`, and every destination index is written by exactly
one thread. -/
theorem transpose_stage_square (n B : Nat) (hB : 0 < B) (hdiv : B ∣ n) (src dst : List α)
    (hs : src.length = n * n) (hd : dst.length = n * n) :
    ∃ out, dispatch_transpose n n B src dst n n = .ok out ∧ out.length = n * n
      ∧ (∀ r c, r < n → c < n → out[c * n + r]? = src[r * n + c]?)
      ∧ (transposeTargets n n B n).Perm (List.range (n * n)) := by
  obtain ⟨out, h1, h2, h3⟩ := dispatch_transpose_square_ex n B hB hdiv src dst n hs hd
  refine ⟨out, h1, h2, h3, ?_⟩
  obtain ⟨m, hm⟩ := hdiv
  have hn : n = m * B := by rw [hm, Nat.mul_comm]
  subst hn
  exact transposeTargets_perm m B hB

/-- C4, witness: a `2 × 2` matrix with block edge 1. -/
theorem transpose_stage_square_witness :
    (0 < 1 ∧ 1 ∣ 2)
    ∧ ∃ out, dispatch_transpose 2 2 1 [10, 11, 12, 13] [0, 0, 0, 0] 2 2 = .ok out
      ∧ out.length = 2 * 2
      ∧ (∀ r c, r < 2 → c < 2 → out[c * 2 + r]? = [10, 11, 12, 13][r * 2 + c]?)
      ∧ (transposeTargets 2 2 1 2).Perm (List.range (2 * 2)) :=
  ⟨by decide, transpose_stage_square 2 1 (by decide) ⟨2, rfl⟩ [10, 11, 12, 13] [0, 0, 0, 0]
    rfl rfl⟩

/-- C4, counterexample: width 4, height 2, block edge 2. The source element at
`(0, 1)` (index 1) belongs at `(1, 0)` of the `2 × 4` transpose (index 4), but
index 4 receives the source element of index 5; index 2 is the target of two
threads and indices 6 and 7 of none. -/
theorem transpose_stage_nonsquare_counterexample :
    dispatch_transpose 4 2 2 [0, 1, 2, 3, 4, 5, 6, 7] [9, 9, 9, 9, 9, 9, 9, 9] 4 2
        = .ok [0, 2, 4, 6, 5, 7, 9, 9]
    ∧ ¬ (∀ r c, r < 4 → c < 2 →
          [0, 2, 4, 6, 5, 7, 9, 9][c * 4 + r]? = [0, 1, 2, 3, 4, 5, 6, 7][r * 2 + c]?)
    ∧ (transposeTargets 4 2 2 2).count 2 = 2
    ∧ (transposeTargets 4 2 2 2).count 6 = 0
    ∧ ¬ (transposeTargets 4 2 2 2).Perm (List.range (4 * 2)) := by
  refine ⟨rfl, ?_, by decide, by decide, by decide⟩
  intro h
  have := h 0 1 (by decide) (by decide)
  revert this
  decide

end Claim4

section Claim5

variable {α : Type}

/-- C5, amended. On a square matrix the transpose stage is its own inverse:
for every edge `n` that is a multiple of the block edge, every buffer `data`
of `n * n` elements and all contents `temp`, `dst` of the two destination
arrays, transposing `data` into `temp` and then the result into `dst` leaves
in `dst` the buffer `data`, element for element, whatever `dst` held. Steps 1
and 3 of the sandwich are the case where `dst` is the array `data` came
from. -/
theorem transpose_twice_square (n B : Nat) (hB : 0 < B) (hdiv : B ∣ n) (data temp dst : List α)
    (hs : data.length = n * n) (hd : temp.length = n * n) (hdst : dst.length = n * n) :
    ∃ temp', dispatch_transpose n n B data temp n n = .ok temp'
      ∧ dispatch_transpose n n B temp' dst n n = .ok data
      ∧ dispatch_transpose n n B temp' data n n = .ok data := by
  obtain ⟨t, h1, h2, h3⟩ := dispatch_transpose_square_ex n B hB hdiv data temp n hs hd
  have back : ∀ tgt : List α, tgt.length = n * n →
      dispatch_transpose n n B t tgt n n = .ok data := by
    intro tgt htgt
    obtain ⟨u, g1, g2, g3⟩ := dispatch_transpose_square_ex n B hB hdiv t tgt n h2 htgt
    rw [g1]
    congr 1
    apply List.ext_getElem?
    intro i
    by_cases hi : i < n * n
    · have hc := div_lt_sq n i hi
      have hr := mod_lt_sq n i hi
      have e := tile_split n i
      rw [← e, g3 (i % n) (i / n) hr hc, h3 (i / n) (i % n) hc hr]
    · rw [List.getElem?_eq_none (by omega), List.getElem?_eq_none (by omega)]
  exact ⟨t, h1, back dst hdst, back data hs⟩

/-- C5, witness: a `2 × 2` matrix with block edge 1; the second launch
overwrites a destination that held `[7, 7, 7, 7]`. -/
theorem transpose_twice_square_witness :
    (0 < 1 ∧ 1 ∣ 2)
    ∧ dispatch_transpose 2 2 1 [10, 12, 11, 13] [7, 7, 7, 7] 2 2 = .ok [10, 11, 12, 13]
    ∧ ∃ temp', dispatch_transpose 2 2 1 [10, 11, 12, 13] [0, 0, 0, 0] 2 2 = .ok temp'
      ∧ dispatch_transpose 2 2 1 temp' [7, 7, 7, 7] 2 2 = .ok [10, 11, 12, 13]
      ∧ dispatch_transpose 2 2 1 temp' [10, 11, 12, 13] 2 2 = .ok [10, 11, 12, 13] :=
  ⟨by decide, rfl, transpose_twice_square 2 1 (by decide) ⟨2, rfl⟩ [10, 11, 12, 13]
    [0, 0, 0, 0] [7, 7, 7, 7] rfl rfl rfl⟩

/-- C5, counterexample: width 4, height 2, block edge 2. Step 1 loses the
source values 1 and 3, and step 3 with the swapped arguments reads outside the
scratch buffer; the original buffer is not restored. -/
theorem transpose_twice_nonsquare_counterexample :
    dispatch_transpose 4 2 2 [0, 1, 2, 3, 4, 5, 6, 7] [9, 9, 9, 9, 9, 9, 9, 9] 4 2
        = .ok [0, 2, 4, 6, 5, 7, 9, 9]
    ∧ dispatch_transpose 4 2 2 [0, 2, 4, 6, 5, 7, 9, 9] [0, 1, 2, 3, 4, 5, 6, 7] 2 4
        = .error Fault.out_of_range
    ∧ dispatch_transpose 4 2 2 [0, 2, 4, 6, 5, 7, 9, 9] [0, 1, 2, 3, 4, 5, 6, 7] 2 4
        ≠ .ok [0, 1, 2, 3, 4, 5, 6, 7] := by
  have h : dispatch_transpose 4 2 2 [0, 2, 4, 6, 5, 7, 9, 9] [0, 1, 2, 3, 4, 5, 6, 7] 2 4
      = .error Fault.out_of_range := rfl
  refine ⟨rfl, h, ?_⟩
  rw [h]
  exact fun e => nomatch e

end Claim5

section Claim6

variable {α : Type} [LinearOrder α]

/-- C6, amended. For every power-of-two tile size `T ≥ 2` and every bitonic
sequence of `T` values placed in one tile (its first half non-decreasing and
its second half non-increasing, or the reverse), a single launch of
`bitonic_sort_kernel` with `level = T` and `levelMask = T` leaves that tile
sorted in non-decreasing order. -/
theorem bitonic_stage_sorts_bitonic (k T : Nat) (hT : T = 2 ^ k) (hT2 : 2 ≤ T)
    (h32 : T < 2 ^ 32) (tile : List α) (hlen : tile.length = T)
    (hb : ((∀ i (h : i < tile.length), 1 ≤ i → i < T / 2 → tile[i - 1] ≤ tile[i])
          ∧ (∀ i (h : i < tile.length), T / 2 < i → tile[i] ≤ tile[i - 1]))
        ∨ ((∀ i (h : i < tile.length), 1 ≤ i → i < T / 2 → tile[i] ≤ tile[i - 1])
          ∧ (∀ i (h : i < tile.length), T / 2 < i → tile[i - 1] ≤ tile[i]))) :
    ∃ out, dispatch_bitonic T T tile T T = .ok out ∧ out.length = T
      ∧ ∀ i (h : i < out.length), 1 ≤ i → out[i - 1] ≤ out[i] := by
  have hpos : 0 < tile.length := by omega
  have hk32 : k < 32 := by
    subst hT; exact (Nat.pow_lt_pow_iff_right (by norm_num : 1 < 2)).mp h32
  obtain ⟨q, rfl⟩ : ∃ q, k = q + 1 := by
    refine ⟨k - 1, ?_⟩
    have : k ≠ 0 := by
      intro h0; subst h0; subst hT; simp at hT2
    omega
  have hp : 2 ^ (q + 1) = 2 * 2 ^ q := by rw [pow_succ]; ring
  have hhalf : T / 2 = 2 ^ q := by rw [hT, hp]; omega
  have hj : u32 T >>> 1 < T := by
    rw [u32_of_lt T h32, Nat.shiftRight_eq_div_pow, pow_one]; omega
  have hrun := dispatch_bitonic_ok (q + 1) T 1 hT tile (tile[0]) T T hj (by omega)
  rw [Nat.one_mul] at hrun
  have hstage : stageFn T T T (fn (tile[0]) tile)
      = mergeNet (q + 1) (q + 1) (fn (tile[0]) tile) := by
    conv_lhs => rw [show stageFn T T T (fn (tile[0]) tile)
      = stageFn T (2 ^ (q + 1)) (2 ^ (q + 1)) (fn (tile[0]) tile) by rw [← hT]]
    rw [stageFn_two_pow (q + 1) T (q + 1) _ hT (by omega) (le_refl _), maskDir_two_pow]
    rfl
  have hfn : ∀ i (h : i < tile.length), fn (tile[0]) tile i = tile[i] :=
    fun i h => fn_eq_getElem _ _ _ h
  have hbit : (SortedBlk false (fn (tile[0]) tile) (0 * 2 ^ (q + 1)) (2 ^ q)
        ∧ SortedBlk true (fn (tile[0]) tile) (0 * 2 ^ (q + 1) + 2 ^ q) (2 ^ q))
      ∨ (SortedBlk true (fn (tile[0]) tile) (0 * 2 ^ (q + 1)) (2 ^ q)
        ∧ SortedBlk false (fn (tile[0]) tile) (0 * 2 ^ (q + 1) + 2 ^ q) (2 ^ q)) := by
    rw [Nat.zero_mul, Nat.zero_add]
    rcases hb with ⟨h1, h2⟩ | ⟨h1, h2⟩
    · left
      constructor
      · apply sortedBlk_up_of_adjacent
        intro o ho1 ho
        rw [Nat.zero_add, Nat.zero_add, hfn _ (by omega), hfn _ (by omega)]
        exact h1 o (by omega) ho1 (by omega)
      · apply sortedBlk_down_of_adjacent
        intro o ho1 ho
        have e : 2 ^ q + (o - 1) = 2 ^ q + o - 1 := by omega
        rw [hfn _ (by omega), hfn _ (by omega)]
        simp only [e]
        exact h2 (2 ^ q + o) (by omega) (by omega)
    · right
      constructor
      · apply sortedBlk_down_of_adjacent
        intro o ho1 ho
        rw [Nat.zero_add, Nat.zero_add, hfn _ (by omega), hfn _ (by omega)]
        exact h1 o (by omega) ho1 (by omega)
      · apply sortedBlk_up_of_adjacent
        intro o ho1 ho
        have e : 2 ^ q + (o - 1) = 2 ^ q + o - 1 := by omega
        rw [hfn _ (by omega), hfn _ (by omega)]
        simp only [e]
        exact h2 (2 ^ q + o) (by omega) (by omega)
  have hsorted := mergeNet_sorts (q + 1) q 0 false (fn (tile[0]) tile)
    (fun o ho => by rw [dirBit_block (q + 1) 0 o ho]; rfl) hbit
  refine ⟨_, hrun, tab_length _ _, ?_⟩
  intro i h h1
  have hi : i < T := by rw [tab_length] at h; exact h
  simp only [tab_getElem, hstage]
  have := hsorted (i - 1) i (by omega) (by omega)
  simpa [ord] using this

/-- C6, witness: the bitonic tile `[1, 3, 4, 2]`. -/
theorem bitonic_stage_sorts_bitonic_witness :
    (4 = 2 ^ 2 ∧ 4 < 2 ^ 32)
    ∧ (∃ out, dispatch_bitonic 4 4 [1, 3, 4, 2] 4 4 = .ok out ∧ out.length = 4
        ∧ ∀ i (h : i < out.length), 1 ≤ i → out[i - 1] ≤ out[i])
    ∧ dispatch_bitonic 4 4 [1, 3, 4, 2] 4 4 = .ok [1, 2, 3, 4] :=
  ⟨by decide,
   bitonic_stage_sorts_bitonic 2 4 rfl (by decide) (by decide) [1, 3, 4, 2] rfl
     (Or.inl ⟨by decide, by decide⟩),
   rfl⟩

/-- C6, counterexample: tile size 4, the tile `[1, 0, 1, 0]`. The single
launch with `level = 4` and `levelMask = 4` returns `[0, 1, 0, 1]`, which is
not sorted. -/
theorem bitonic_stage_alone_counterexample :
    dispatch_bitonic 4 4 [1, 0, 1, 0] 4 4 = .ok [0, 1, 0, 1]
    ∧ ¬ (∀ i (h : i < [0, 1, 0, 1].length), 1 ≤ i → [0, 1, 0, 1][i - 1] ≤ [0, 1, 0, 1][i]) :=
  ⟨rfl, by decide⟩

end Claim6

section Claim7

variable {α : Type} [LinearOrder α]

/-- C7, amended. The number of launches (`parallel_for_each`, row sorts,
column sorts and transposes together) issued by `bitonic_sort_amp` is
`log2 T + 4 * (log2 N - log2 T)` for every valid tile edge `T` and
`N = T * T`, whatever the data; for `T = 1024` and `N = 1024 * 1024` it is
50. -/
theorem dispatch_count (k T B : Nat) (hT : T = 2 ^ k) (_hT2 : 2 ≤ T) (hN : T * T < 2 ^ 32)
    (hB : 0 < B) (hdiv : B ∣ T) (data_in data_out : List α) (hin : data_in.length = T * T)
    (hout : data_out.length = T * T) :
    (∃ r : SortResult α, bitonic_sort_amp (Config.square T B) data_in data_out = .ok r
      ∧ r.log.length = Nat.log2 T + 4 * (Nat.log2 (T * T) - Nat.log2 T))
    ∧ (∀ src dst : List α, src.length = 1024 * 1024 → dst.length = 1024 * 1024 →
        ∃ r : SortResult α, bitonic_sort_amp Config.source src dst = .ok r
          ∧ r.log.length = 50) := by
  have hpos : 0 < data_in.length := by rw [hin]; exact Nat.mul_pos (by omega) (by omega)
  constructor
  · exact ⟨_, bitonic_sort_amp_network k T B hT hN hB hdiv data_in data_out (data_in[0])
      hin hout, specSchedule_length _ _⟩
  · intro src dst hs hd
    have hpos' : 0 < src.length := by rw [hs]; norm_num
    refine ⟨_, bitonic_sort_amp_network 10 1024 16 (by norm_num) (by norm_num) (by norm_num)
      ⟨64, by norm_num⟩ src dst (src[0]) hs hd, ?_⟩
    rw [specSchedule_length]
    have h1 : Nat.log2 1024 = 10 := by
      rw [show (1024 : Nat) = 2 ^ 10 by norm_num, Nat.log2_two_pow]
    have h2 : Nat.log2 (1024 * 1024) = 20 := by
      rw [show (1024 * 1024 : Nat) = 2 ^ 20 by norm_num, Nat.log2_two_pow]
    rw [h1, h2]

/-- C7, witness: tile edge 2 issues 5 launches. -/
theorem dispatch_count_witness :
    (2 = 2 ^ 1 ∧ 2 * 2 < 2 ^ 32 ∧ 1 ∣ 2)
    ∧ ((∃ r : SortResult Nat,
          bitonic_sort_amp (Config.square 2 1) [3, 2, 1, 0] [0, 0, 0, 0] = .ok r
          ∧ r.log.length = Nat.log2 2 + 4 * (Nat.log2 (2 * 2) - Nat.log2 2))
      ∧ (∀ src dst : List Nat, src.length = 1024 * 1024 → dst.length = 1024 * 1024 →
          ∃ r : SortResult Nat, bitonic_sort_amp Config.source src dst = .ok r
            ∧ r.log.length = 50)) :=
  ⟨by decide,
   dispatch_count 1 2 1 rfl (by decide) (by decide) (by decide) ⟨2, rfl⟩
     [3, 2, 1, 0] [0, 0, 0, 0] rfl rfl⟩

/-- C7, counterexample: for tile edge 2 and `N = 4` the formula of the claim,
`log2 T + 3 * (log2 N - log2 T)`, gives 4, and `bitonic_sort_amp` issues 5
launches: one row sort of the first loop and the four launches of the one
iteration of the second loop. -/
theorem dispatch_count_counterexample :
    (bitonic_sort_amp (Config.square 2 1) [3, 2, 1, 0] [0, 0, 0, 0]).toOption.map
        (fun r => r.log.length) = some 5
    ∧ Nat.log2 2 + 3 * (Nat.log2 (2 * 2) - Nat.log2 2) = 4 := by
  constructor
  · decide
  · have h1 : Nat.log2 2 = 1 := by
      rw [show (2 : Nat) = 2 ^ 1 by norm_num, Nat.log2_two_pow]
    have h2 : Nat.log2 (2 * 2) = 2 := by
      rw [show (2 * 2 : Nat) = 2 ^ 2 by norm_num, Nat.log2_two_pow]
    rw [h1, h2]

end Claim7

section Claim8

variable {α : Type} [LinearOrder α]

end Claim8

section Claim9

variable {α : Type} [LinearOrder α]

/-- C9, amended. `bitonic_sort_amp` aborts before any stage runs whenever `N`
is not the square of `T`, or the transpose block size does not divide the
matrix width and height, or `len(output) ≠ N`: an assertion fails exactly
when `N / T ≠ T`, or `B` does not divide `T`, or `len(output) ≠ N`, and for
the remaining `N ≠ T * T` the first launch is rejected because `T` does not
divide `N` (or the copy of a too short input fails before it). It completes
only when all three conditions hold. The length of the input is not compared
with the length of the output. -/
theorem bitonic_sort_amp_guards (T N B : Nat) (hT : 0 < T) (hT32 : T < 2 ^ 32) (hB : 0 < B)
    (data_in data_out : List α) :
    (bitonic_sort_amp (Config.tiled T N B) data_in data_out = .error Fault.assertion
      ↔ (N / T ≠ T ∨ T % B ≠ 0 ∨ data_out.length ≠ N))
    ∧ ((N ≠ T * T ∨ T % B ≠ 0 ∨ data_out.length ≠ N) →
        bitonic_sort_amp (Config.tiled T N B) data_in data_out = .error Fault.assertion
        ∨ (data_in.length < data_out.length
            ∧ bitonic_sort_amp (Config.tiled T N B) data_in data_out
                = .error Fault.out_of_range)
        ∨ (dispatch_bitonic N T (data_in.take data_out.length) 2 2 = .error Fault.bad_extent
            ∧ bitonic_sort_amp (Config.tiled T N B) data_in data_out
                = .error Fault.bad_extent))
    ∧ (∀ r, bitonic_sort_amp (Config.tiled T N B) data_in data_out = .ok r →
        N = T * T ∧ T % B = 0 ∧ data_out.length = N) := by
  have hiff : bitonic_sort_amp (Config.tiled T N B) data_in data_out = .error Fault.assertion
      ↔ (N / T ≠ T ∨ T % B ≠ 0 ∨ data_out.length ≠ N) := by
    have := assertion_iff (Config.tiled T N B) (by simp [Config.tiled]; omega)
      (by simp [Config.tiled]; omega) data_in data_out
    simp only [Config.tiled] at this ⊢
    rw [this]
    constructor
    · rintro (h | h | h | h)
      · exact Or.inl h
      · exact Or.inr (Or.inl h)
      · exact Or.inr (Or.inl h)
      · exact Or.inr (Or.inr h)
    · rintro (h | h | h)
      · exact Or.inl h
      · exact Or.inr (Or.inl h)
      · exact Or.inr (Or.inr (Or.inr h))
  have hcases : (N ≠ T * T ∨ T % B ≠ 0 ∨ data_out.length ≠ N) →
        bitonic_sort_amp (Config.tiled T N B) data_in data_out = .error Fault.assertion
        ∨ (data_in.length < data_out.length
            ∧ bitonic_sort_amp (Config.tiled T N B) data_in data_out
                = .error Fault.out_of_range)
        ∨ (dispatch_bitonic N T (data_in.take data_out.length) 2 2 = .error Fault.bad_extent
            ∧ bitonic_sort_amp (Config.tiled T N B) data_in data_out
                = .error Fault.bad_extent) := by
    intro hbad
    by_cases hassert : N / T ≠ T ∨ T % B ≠ 0 ∨ data_out.length ≠ N
    · exact Or.inl (hiff.mpr hassert)
    · have h1 : N / T = T := by
        by_contra h; exact hassert (Or.inl h)
      have h2 : T % B = 0 := by
        by_contra h; exact hassert (Or.inr (Or.inl h))
      have h3 : data_out.length = N := by
        by_contra h; exact hassert (Or.inr (Or.inr h))
      have hsq : N ≠ T * T := by
        rcases hbad with h | h | h
        · exact h
        · exact absurd h2 h
        · exact absurd h3 h
      by_cases hin : data_in.length < data_out.length
      · refine Or.inr (Or.inl ⟨hin, ?_⟩)
        unfold bitonic_sort_amp
        simp only [Config.tiled]
        rw [if_neg (by simp; omega), if_neg (by simp [h1]), if_neg (by simp [h2]),
          if_neg (by simp [h3]), if_pos hin]
        rfl
      · exact Or.inr (Or.inr
          (first_launch_rejected T N B hT hT32 h1 hsq h2 hB data_in data_out h3 hin))
  refine ⟨hiff, hcases, ?_⟩
  intro r hr
  by_contra hne
  have hbad : N ≠ T * T ∨ T % B ≠ 0 ∨ data_out.length ≠ N := by
    by_contra hall
    apply hne
    refine ⟨?_, ?_, ?_⟩
    · by_contra h; exact hall (Or.inl h)
    · by_contra h; exact hall (Or.inr (Or.inl h))
    · by_contra h; exact hall (Or.inr (Or.inr h))
  rcases hcases hbad with h | ⟨_, h⟩ | ⟨_, h⟩ <;>
    · rw [hr] at h; exact nomatch h

/-- C9, witness: tile edge 2, `N = 4`, with an output buffer of 3 elements;
the third assertion fails. -/
theorem bitonic_sort_amp_guards_witness :
    (0 < 2 ∧ 2 < 2 ^ 32 ∧ 0 < 1)
    ∧ ((bitonic_sort_amp (Config.tiled 2 4 1) [3, 2, 1, 0] [0, 0, 0] = .error Fault.assertion
          ↔ (4 / 2 ≠ 2 ∨ 2 % 1 ≠ 0 ∨ [0, 0, 0].length ≠ 4))
      ∧ ((4 ≠ 2 * 2 ∨ 2 % 1 ≠ 0 ∨ [0, 0, 0].length ≠ 4) →
          bitonic_sort_amp (Config.tiled 2 4 1) [3, 2, 1, 0] [0, 0, 0] = .error Fault.assertion
          ∨ ([3, 2, 1, 0].length < [0, 0, 0].length
              ∧ bitonic_sort_amp (Config.tiled 2 4 1) [3, 2, 1, 0] [0, 0, 0]
                  = .error Fault.out_of_range)
          ∨ (dispatch_bitonic 4 2 ([3, 2, 1, 0].take [0, 0, 0].length) 2 2
                = .error Fault.bad_extent
              ∧ bitonic_sort_amp (Config.tiled 2 4 1) [3, 2, 1, 0] [0, 0, 0]
                  = .error Fault.bad_extent))
      ∧ (∀ r, bitonic_sort_amp (Config.tiled 2 4 1) [3, 2, 1, 0] [0, 0, 0] = .ok r →
          4 = 2 * 2 ∧ 2 % 1 = 0 ∧ [0, 0, 0].length = 4))
    ∧ bitonic_sort_amp (Config.tiled 2 4 1) [3, 2, 1, 0] [0, 0, 0] = .error Fault.assertion
    ∧ bitonic_sort_amp (Config.tiled 2 5 1) [3, 2, 1, 0, 7] [0, 0, 0, 0, 0]
        = .error Fault.bad_extent :=
  ⟨by decide,
   bitonic_sort_amp_guards 2 4 1 (by decide) (by decide) (by decide) [3, 2, 1, 0] [0, 0, 0],
   rfl, rfl⟩

/-- C9, counterexample: a valid configuration (tile edge 2, `N = 4`), an output
buffer of 4 elements and an input of 5 elements. `len(input) ≠ len(output)`,
yet the call does not abort: it issues its five launches and returns the
sorted first four input elements; the fifth is dropped. -/
theorem bitonic_sort_amp_input_length_counterexample :
    [3, 2, 1, 0, 7].length ≠ [0, 0, 0, 0].length
    ∧ bitonic_sort_amp (Config.square 2 1) [3, 2, 1, 0, 7] [0, 0, 0, 0]
        = .ok { data_out := [0, 1, 2, 3]
                log := [Stage.bitonic .primary 2 2,
                        Stage.transpose .primary .scratch 2 2,
                        Stage.bitonic .scratch 2 0,
                        Stage.transpose .scratch .primary 2 2,
                        Stage.bitonic .primary 2 4] } :=
  ⟨by decide, rfl⟩

end Claim9

section Claim10

variable {α : Type} [LinearOrder α]

/-- C10. The launches of `bitonic_sort_amp` for tile edge `T` and `N = T * T`
are, in this order: for `level = 2, 4, ..., T` one row sort of the primary
buffer with `(ulevel, ulevelMask) = (level, level)`; then for
`level = 2 * T, 4 * T, ..., N` the transpose primary to scratch, the column
sort of scratch with `(level / T, (level & ~N) / T)`, the transpose scratch to
primary, and the row sort of primary with `(T, level)`. The sequence is the
same for every input. -/
theorem dispatch_schedule (k T B : Nat) (hT : T = 2 ^ k) (_hT2 : 2 ≤ T) (hN : T * T < 2 ^ 32)
    (hB : 0 < B) (hdiv : B ∣ T) (data_in data_out : List α) (hin : data_in.length = T * T)
    (hout : data_out.length = T * T) :
    ∃ r : SortResult α, bitonic_sort_amp (Config.square T B) data_in data_out = .ok r
      ∧ r.log = specSchedule T (T * T) := by
  have hpos : 0 < data_in.length := by rw [hin]; exact Nat.mul_pos (by omega) (by omega)
  exact ⟨_, bitonic_sort_amp_network k T B hT hN hB hdiv data_in data_out (data_in[0])
    hin hout, rfl⟩

/-- C10, witness: the five launches for tile edge 2, and the schedule for tile
edge 4. -/
theorem dispatch_schedule_witness :
    (2 = 2 ^ 1 ∧ 2 * 2 < 2 ^ 32 ∧ 1 ∣ 2)
    ∧ (∃ r : SortResult Nat,
        bitonic_sort_amp (Config.square 2 1) [3, 2, 1, 0] [0, 0, 0, 0] = .ok r
        ∧ r.log = specSchedule 2 (2 * 2))
    ∧ specSchedule 2 (2 * 2)
        = [Stage.bitonic .primary 2 2,
           Stage.transpose .primary .scratch 2 2,
           Stage.bitonic .scratch 2 0,
           Stage.transpose .scratch .primary 2 2,
           Stage.bitonic .primary 2 4]
    ∧ specSchedule 4 (4 * 4)
        = [Stage.bitonic .primary 2 2,
           Stage.bitonic .primary 4 4,
           Stage.transpose .primary .scratch 4 4,
           Stage.bitonic .scratch 2 2,
           Stage.transpose .scratch .primary 4 4,
           Stage.bitonic .primary 4 8,
           Stage.transpose .primary .scratch 4 4,
           Stage.bitonic .scratch 4 0,
           Stage.transpose .scratch .primary 4 4,
           Stage.bitonic .primary 4 16] :=
  ⟨by decide,
   dispatch_schedule 1 2 1 rfl (by decide) (by decide) (by decide) ⟨2, rfl⟩
     [3, 2, 1, 0] [0, 0, 0, 0] rfl rfl,
   by
     have h1 : Nat.log2 2 = 1 := @Nat.log2_two_pow 1
     have h2 : Nat.log2 (2 * 2) = 2 := @Nat.log2_two_pow 2
     rw [specSchedule, h1, h2]
     decide,
   by
     have h1 : Nat.log2 4 = 2 := @Nat.log2_two_pow 2
     have h2 : Nat.log2 (4 * 4) = 4 := @Nat.log2_two_pow 4
     rw [specSchedule, h1, h2]
     decide⟩

end Claim10

section Claim11

variable {α : Type} [LinearOrder α]

/-- C11, as stated, fails: on a tile of `T = 4` threads a launch with
`ulevel = 2` runs the loop body once, for `j = 1`, not `log2 4 = 2` times; the
buffer `[3, 2, 1, 0]` comes back as `[2, 3, 1, 0]`, the result of that single
round. -/
theorem kernel_rounds_counterexample :
    roundsTrace 32 (u32 2 >>> 1) = [1] ∧ Nat.log2 4 = 2 ∧
      roundsLoop 4 2 0 32 (u32 2 >>> 1) ([3, 2, 1, 0] : List Nat)
        = roundTile 4 2 1 [3, 2, 1, 0] 0 ∧
      bitonic_sort_kernel 4 ([3, 2, 1, 0] : List Nat) 2 2 0 = .ok [2, 3, 1, 0] :=
  ⟨by decide, @Nat.log2_two_pow 2, rfl, rfl⟩

/-- C11, amended. A launch of `bitonic_sort_kernel` on a tile of `T = 2 ^ k`
threads with `ulevel / 2 < T`: the tile is loaded from positions
`tile * T + l`; the loop body runs once for each `j` of `roundsTrace`, which
is `log2 ulevel` times, rounded down (`log2 T` times only when
`T ≤ ulevel < 2 * T`); the store puts slot `l` of the shared array at position
`tile * T + l`, the position it was loaded from, and leaves the rest of the
buffer as it was. -/
theorem kernel_rounds_and_store (k T : Nat) (hT : T = 2 ^ k) (buf : List α)
    (ulevel mask tile : Nat) (hj : u32 ulevel >>> 1 < T) (hlen : (tile + 1) * T ≤ buf.length) :
    ∃ sh_data sh_done out : List α,
      loadTile T buf tile = .ok sh_data ∧ sh_data.length = T ∧
      (∀ l < T, sh_data[l]? = buf[tile * T + l]?) ∧
      roundsLoop T mask tile 32 (u32 ulevel >>> 1) sh_data = .ok sh_done ∧
      roundsLoop T mask tile 32 (u32 ulevel >>> 1) sh_data
        = (roundsTrace 32 (u32 ulevel >>> 1)).foldlM
            (fun s j => roundTile T mask j s tile) sh_data ∧
      (roundsTrace 32 (u32 ulevel >>> 1)).length = Nat.log2 (u32 ulevel) ∧
      sh_done.length = T ∧
      bitonic_sort_kernel T buf ulevel mask tile = .ok out ∧ out.length = buf.length ∧
      (∀ l < T, out[tile * T + l]? = sh_done[l]?) ∧
      (∀ i, (i < tile * T ∨ (tile + 1) * T ≤ i) → out[i]? = buf[i]?) := by
  have hTpos : 0 < T := by rw [hT]; exact Nat.two_pow_pos k
  have hsplit : (tile + 1) * T = tile * T + T := by ring
  have hin : ∀ l < T, tile * T + l < buf.length := by
    intro l hl
    omega
  have d : α := buf[0]
  have hfuel : u32 ulevel >>> 1 < 2 ^ 32 := by
    rw [Nat.shiftRight_eq_div_pow]
    exact Nat.lt_of_le_of_lt (Nat.div_le_self _ _) (u32_lt ulevel)
  have hload : loadTile T buf tile = .ok (tab T (fun l => fn d buf (tile * T + l))) :=
    mapM_range_ok _ _ _ (fun l hl => readAt_fn d buf _ (hin l hl))
  have hrounds := roundsLoop_ok k T mask tile hT 32 _ (fn d buf) hj hfuel
  refine ⟨_, _, _, hload, tab_length _ _, ?_, hrounds, roundsLoop_trace T mask tile 32 _ hfuel _,
    kernel_rounds ulevel, tab_length _ _, kernel_ok k T hT buf d ulevel mask tile hj hlen,
    setAll_length _ _ _ _, ?_, ?_⟩
  · intro l hl
    rw [tab_getElem?, if_pos hl, List.getElem?_eq_getElem (hin l hl),
      fn_eq_getElem d buf _ (hin l hl)]
  · intro l hl
    rw [tab_getElem?, if_pos hl]
    exact setAll_hit (fun l => tile * T + l) _ (List.range T) buf l (List.mem_range.mpr hl)
      (nodup_tile T tile) (hin l hl)
  · intro i hi
    apply setAll_frame
    intro x hx
    have := List.mem_range.mp hx
    show tile * T + x ≠ i
    omega

/-- C11, witness: the second tile of four threads in
a buffer of eight elements, at `ulevel = 4`. -/
theorem kernel_rounds_and_store_witness :
    ∃ sh_data sh_done out : List Nat,
      loadTile 4 [7, 6, 5, 4, 3, 2, 1, 0] 1 = .ok sh_data ∧ sh_data.length = 4 ∧
      (∀ l < 4, sh_data[l]? = [7, 6, 5, 4, 3, 2, 1, 0][1 * 4 + l]?) ∧
      roundsLoop 4 4 1 32 (u32 4 >>> 1) sh_data = .ok sh_done ∧
      roundsLoop 4 4 1 32 (u32 4 >>> 1) sh_data
        = (roundsTrace 32 (u32 4 >>> 1)).foldlM
            (fun s j => roundTile 4 4 j s 1) sh_data ∧
      (roundsTrace 32 (u32 4 >>> 1)).length = Nat.log2 (u32 4) ∧
      sh_done.length = 4 ∧
      bitonic_sort_kernel 4 [7, 6, 5, 4, 3, 2, 1, 0] 4 4 1 = .ok out ∧
      out.length = [7, 6, 5, 4, 3, 2, 1, 0].length ∧
      (∀ l < 4, out[1 * 4 + l]? = sh_done[l]?) ∧
      (∀ i, (i < 1 * 4 ∨ (1 + 1) * 4 ≤ i) → out[i]? = [7, 6, 5, 4, 3, 2, 1, 0][i]?) :=
  kernel_rounds_and_store 2 4 rfl [7, 6, 5, 4, 3, 2, 1, 0] 4 4 1 (by decide) (by decide)

end Claim11

section Claim12

variable {α : Type}

/-- C12. A transpose launch changes only its destination. With the two arrays
of `bitonic_sort_amp` in one device state and `transpose_kernel` given the
names of its source and destination (`dispatch_transpose_ref`): whenever a
launch with distinct source and destination returns, the array its source
parameter refers to is the same list as before, and so is the log, for every
extent, block edge and state. Step 1 of the sandwich is that launch with
`data` as source and `temp` as destination, step 3 with `temp` as source and
`data` as destination, each followed by its entry in the log; so whenever
step 1 returns `data` is unchanged and whenever step 3 returns `temp` is
unchanged. On a square matrix of edge `n` that the block edge `B` divides
both steps do return, step 1 replacing `temp` only and step 3 replacing
`data` only. -/
theorem transpose_frame (n N B : Nat) (hB : 0 < B) (hdiv : B ∣ n) (hn : n < 2 ^ 32)
    (dev : Device α) (hdata : dev.data.length = n * n) (htemp : dev.temp.length = n * n) :
    (∀ (W H B' width height : Nat) (src dst : Buffer) (d d' : Device α), src ≠ dst →
        dispatch_transpose_ref W H B' d src dst width height = .ok d' →
        d'.get src = d.get src ∧ d'.log = d.log) ∧
    (∀ (cfg : Config) (d : Device α), transpose_into_temp cfg d
        = (dispatch_transpose_ref cfg.MATRIX_WIDTH cfg.MATRIX_HEIGHT cfg.TRANSPOSE_BLOCK_SIZE d
            .primary .scratch (u32 cfg.MATRIX_WIDTH) (u32 cfg.MATRIX_HEIGHT)).map
          (fun d' => { d' with log := d'.log ++
            [Stage.transpose .primary .scratch (u32 cfg.MATRIX_WIDTH)
              (u32 cfg.MATRIX_HEIGHT)] })) ∧
    (∀ (cfg : Config) (d : Device α), transpose_into_data cfg d
        = (dispatch_transpose_ref cfg.MATRIX_WIDTH cfg.MATRIX_HEIGHT cfg.TRANSPOSE_BLOCK_SIZE d
            .scratch .primary (u32 cfg.MATRIX_HEIGHT) (u32 cfg.MATRIX_WIDTH)).map
          (fun d' => { d' with log := d'.log ++
            [Stage.transpose .scratch .primary (u32 cfg.MATRIX_HEIGHT)
              (u32 cfg.MATRIX_WIDTH)] })) ∧
    (∃ temp : List α, transpose_into_temp (Config.tiled n N B) dev
        = .ok { data := dev.data, temp := temp,
                log := dev.log ++ [Stage.transpose .primary .scratch n n] }) ∧
    (∃ data : List α, transpose_into_data (Config.tiled n N B) dev
        = .ok { data := data, temp := dev.temp,
                log := dev.log ++ [Stage.transpose .scratch .primary n n] }) ∧
    (∀ (cfg : Config) (d d' : Device α), transpose_into_temp cfg d = .ok d' →
        d'.data = d.data) ∧
    (∀ (cfg : Config) (d d' : Device α), transpose_into_data cfg d = .ok d' →
        d'.temp = d.temp) := by
  have hu : u32 n = n := u32_of_lt n hn
  refine ⟨?_, transpose_into_temp_ref, transpose_into_data_ref, ?_, ?_, ?_, ?_⟩
  · intro W H B' width height src dst d d' hne h
    exact dispatch_transpose_ref_frame W H B' d d' src dst width height hne h
  · obtain ⟨out, hout, -, -⟩ :=
      dispatch_transpose_square_ex n B hB hdiv dev.data dev.temp n hdata htemp
    refine ⟨out, ?_⟩
    simp only [transpose_into_temp, Config.tiled, hu, hout, pure, bind, Except.bind, Except.pure]
  · obtain ⟨out, hout, -, -⟩ :=
      dispatch_transpose_square_ex n B hB hdiv dev.temp dev.data n htemp hdata
    refine ⟨out, ?_⟩
    simp only [transpose_into_data, Config.tiled, hu, hout, pure, bind, Except.bind, Except.pure]
  · intro cfg d d' h
    rw [transpose_into_temp_ref] at h
    cases h1 : dispatch_transpose_ref cfg.MATRIX_WIDTH cfg.MATRIX_HEIGHT
        cfg.TRANSPOSE_BLOCK_SIZE d .primary .scratch (u32 cfg.MATRIX_WIDTH)
        (u32 cfg.MATRIX_HEIGHT) with
    | error e =>
      rw [h1] at h
      cases h
    | ok d1 =>
      rw [h1] at h
      cases h
      exact (dispatch_transpose_ref_frame _ _ _ d d1 .primary .scratch _ _ (by decide) h1).1
  · intro cfg d d' h
    rw [transpose_into_data_ref] at h
    cases h1 : dispatch_transpose_ref cfg.MATRIX_WIDTH cfg.MATRIX_HEIGHT
        cfg.TRANSPOSE_BLOCK_SIZE d .scratch .primary (u32 cfg.MATRIX_HEIGHT)
        (u32 cfg.MATRIX_WIDTH) with
    | error e =>
      rw [h1] at h
      cases h
    | ok d1 =>
      rw [h1] at h
      cases h
      exact (dispatch_transpose_ref_frame _ _ _ d d1 .scratch .primary _ _ (by decide) h1).1

/-- C12, witness: a `2 × 2` matrix with block edge 1; step 1 leaves
`data = [1, 2, 3, 4]` and fills `temp` with `[1, 3, 2, 4]`. A launch whose
source and destination are the same array does change its source: the
condition that they are distinct is needed. -/
theorem transpose_frame_witness :
    transpose_into_temp (Config.tiled 2 4 1)
        ({ data := [1, 2, 3, 4], temp := [0, 0, 0, 0], log := [] } : Device Nat)
      = .ok { data := [1, 2, 3, 4], temp := [1, 3, 2, 4],
              log := [Stage.transpose .primary .scratch 2 2] } ∧
    dispatch_transpose_ref 2 2 1
        ({ data := [1, 2, 3, 4], temp := [0, 0, 0, 0], log := [] } : Device Nat)
        .primary .scratch 2 2
      = .ok { data := [1, 2, 3, 4], temp := [1, 3, 2, 4], log := [] } ∧
    dispatch_transpose_ref 2 2 1
        ({ data := [1, 2, 3, 4], temp := [0, 0, 0, 0], log := [] } : Device Nat)
        .primary .primary 2 2
      = .ok { data := [1, 2, 2, 4], temp := [0, 0, 0, 0], log := [] } ∧
    ∃ temp : List Nat, transpose_into_temp (Config.tiled 2 4 1)
        ({ data := [1, 2, 3, 4], temp := [0, 0, 0, 0], log := [] } : Device Nat)
      = .ok { data := [1, 2, 3, 4], temp := temp,
              log := [] ++ [Stage.transpose .primary .scratch 2 2] } :=
  ⟨rfl, rfl, rfl, (transpose_frame 2 4 1 (by decide) ⟨2, rfl⟩ (by decide)
    ({ data := [1, 2, 3, 4], temp := [0, 0, 0, 0], log := [] } : Device Nat) rfl rfl).2.2.2.1⟩

end Claim12

end BitonicSort

namespace MatrixMult

section Claim13

variable {α : Type} [Zero α] [Add α] [Mul α]

/-- C13. For a tile edge `tile_size ≥ 1`, positive `M`, `N`, `W` that are
multiples of it (with the three products in the range of `int`) and vectors
`va`, `vb`, `vresult` of sizes `M*N`, `N*W`, `M*W`, the three routines
`mxm_single_cpu`, `mxm_amp_simple` and `mxm_amp_tiled` all return, and all
leave the same matrix in `vresult`: element `k*W + j` is the sum of
`va[k*N+i] * vb[i*W+j]` over `i < N`, the products added to `0` one after the
other in increasing `i`. No law of `+` and `*` is used. -/
theorem mxm_amp_agree (tile_size M N W : Nat) (hts : 0 < tile_size) (hdM : tile_size ∣ M)
    (hdN : tile_size ∣ N) (hdW : tile_size ∣ W) (hM : 0 < M) (hN : 0 < N) (hW : 0 < W)
    (hMN : M * N < 2 ^ 31) (hNW : N * W < 2 ^ 31) (hMW : M * W < 2 ^ 31)
    (va vb vresult : List α) (ha : va.length = M * N) (hb : vb.length = N * W)
    (hc : vresult.length = M * W) :
    mxm_single_cpu M N W va vb vresult = .returned (product M N W va vb) ∧
    mxm_amp_simple M N W va vb vresult = .returned (product M N W va vb) ∧
    mxm_amp_tiled tile_size M N W va vb vresult = .returned (product M N W va vb) ∧
    (product M N W va vb).length = M * W ∧
    ∀ k < M, ∀ j < W, (product M N W va vb)[k * W + j]?
      = some ((List.range N).foldl
          (fun acc i => acc + va.getD (k * N + i) 0 * vb.getD (i * W + j) 0) 0) :=
  ⟨mxm_single_cpu_ok M N W va vb vresult hMN hNW hMW ha hb hc,
    mxm_amp_simple_ok M N W va vb vresult hM hN hW hMN hNW hMW ha hb hc,
    mxm_amp_tiled_ok tile_size M N W va vb vresult hts hdM hdN hdW hM hN hW hMN hNW hMW ha hb hc,
    product_length M N W va vb,
    fun k hk j hj => product_cell M N W va vb k j hk hj⟩

/-- C13, witness: two `2 × 2` matrices of natural numbers with tile edge 2;
the product is `[19, 22, 43, 50]`. -/
theorem mxm_amp_agree_witness :
    product 2 2 2 [1, 2, 3, 4] [5, 6, 7, 8] = [19, 22, 43, 50] ∧
    mxm_single_cpu 2 2 2 [1, 2, 3, 4] [5, 6, 7, 8] [0, 0, 0, 0]
      = .returned (product 2 2 2 [1, 2, 3, 4] [5, 6, 7, 8]) ∧
    mxm_amp_simple 2 2 2 [1, 2, 3, 4] [5, 6, 7, 8] [0, 0, 0, 0]
      = .returned (product 2 2 2 [1, 2, 3, 4] [5, 6, 7, 8]) ∧
    mxm_amp_tiled 2 2 2 2 [1, 2, 3, 4] [5, 6, 7, 8] [0, 0, 0, 0]
      = .returned (product 2 2 2 [1, 2, 3, 4] [5, 6, 7, 8]) :=
  have h := mxm_amp_agree 2 2 2 2 (by decide) ⟨1, rfl⟩ ⟨1, rfl⟩ ⟨1, rfl⟩ (by decide) (by decide)
    (by decide) (by decide) (by decide) (by decide) [1, 2, 3, 4] [5, 6, 7, 8] [0, 0, 0, 0]
    rfl rfl rfl
  ⟨by decide, h.1, h.2.1, h.2.2.1⟩

end Claim13

section Claim14

variable {α : Type} [Zero α] [Add α] [Mul α]

/-- C14. For all non-negative `M`, `N`, `W` whose three products are in the
range of `int` and all vectors, each of `mxm_single_cpu`, `mxm_amp_simple`
and `mxm_amp_tiled` throws the dimension error if and only if
`va.size() != M*N` or `vb.size() != N*W` or `vresult.size() != M*W`, and when
it throws, `vresult` is as it was passed. -/
theorem dimension_error_iff (tile_size M N W : Nat) (hMN : M * N < 2 ^ 31)
    (hNW : N * W < 2 ^ 31) (hMW : M * W < 2 ^ 31) (va vb vresult : List α) :
    (((∃ v, mxm_single_cpu M N W va vb vresult = .threw v)
        ↔ (va.length ≠ M * N ∨ vb.length ≠ N * W ∨ vresult.length ≠ M * W))
      ∧ ∀ v, mxm_single_cpu M N W va vb vresult = .threw v → v = vresult) ∧
    (((∃ v, mxm_amp_simple M N W va vb vresult = .threw v)
        ↔ (va.length ≠ M * N ∨ vb.length ≠ N * W ∨ vresult.length ≠ M * W))
      ∧ ∀ v, mxm_amp_simple M N W va vb vresult = .threw v → v = vresult) ∧
    (((∃ v, mxm_amp_tiled tile_size M N W va vb vresult = .threw v)
        ↔ (va.length ≠ M * N ∨ vb.length ≠ N * W ∨ vresult.length ≠ M * W))
      ∧ ∀ v, mxm_amp_tiled tile_size M N W va vb vresult = .threw v → v = vresult) :=
  ⟨mxm_single_cpu_threw M N W va vb vresult hMN hNW hMW,
    mxm_amp_simple_threw M N W va vb vresult hMN hNW hMW,
    mxm_amp_tiled_threw tile_size M N W va vb vresult hMN hNW hMW⟩

/-- C14, witness: for `M = N = W = 1` an output vector of two elements makes
`mxm_single_cpu` throw and stays `[7, 7]`; vectors of one element each do not
make it throw. -/
theorem dimension_error_iff_witness :
    mxm_single_cpu 1 1 1 [2] [3] [7, 7] = .threw [7, 7] ∧
    mxm_single_cpu 1 1 1 [2] [3] [7] = .returned [6] ∧
    ((∃ v, mxm_single_cpu 1 1 1 [2] [3] [7, 7] = .threw v)
      ↔ (([2] : List Nat).length ≠ 1 * 1 ∨ ([3] : List Nat).length ≠ 1 * 1
          ∨ ([7, 7] : List Nat).length ≠ 1 * 1)) :=
  ⟨rfl, rfl,
    (dimension_error_iff 1 1 1 1 (by decide) (by decide) (by decide) [2] [3] [7, 7]).1.1⟩

end Claim14

end MatrixMult

namespace NumberTests

section Claim15

/-- C15. For every `n`, `is_carmichael(n)` returns (it neither exhausts its
iterations nor divides by zero), and it returns `true` exactly when `n`
satisfies Korselt's criterion: `n` is composite, squarefree, and `p - 1`
divides `n - 1` for every prime `p` dividing `n`. In particular it returns
`false` for every `n < 2` and for every prime. -/
theorem is_carmichael_spec (n : Int) :
    ∃ b, is_carmichael n = .ok b ∧ (b = true ↔ Korselt n) ∧ (n < 2 → b = false)
      ∧ (Nat.Prime n.toNat → b = false) := by
  unfold is_carmichael Korselt
  by_cases h2 : n < 2
  · rw [if_pos h2]
    refine ⟨false, rfl, ?_, fun _ => rfl, fun _ => rfl⟩
    constructor
    · intro h
      exact absurd h (by decide)
    · intro h
      exact absurd h.1 (by omega)
  · rw [if_neg h2]
    have hn : 2 ≤ n.toNat := by omega
    obtain ⟨b, hb, hiff⟩ := is_carmichael_loop_spec n.toNat n.toNat n.toNat 2 1
      (Nat.one_mul _).symm hn (le_refl 2) (by intro d hd hd2; omega)
      (Nat.coprime_one_left _) squarefree_one
      (by
        intro p hp hp1
        have := hp.two_le
        have := Nat.le_of_dvd Nat.one_pos hp1
        omega)
      (by omega)
    refine ⟨b, hb, ?_, fun h => absurd h h2, ?_⟩
    · rw [hiff]
      constructor
      · intro h
        exact ⟨by omega, h⟩
      · intro h
        exact h.2
    · intro hp
      cases b with
      | false => rfl
      | true => exact absurd hp (hiff.mp rfl).1

/-- C15, witness: `561 = 3 * 11 * 17` is accepted and satisfies Korselt's
criterion; the prime `7`, the square `9` and `1` are rejected. -/
theorem is_carmichael_spec_witness :
    is_carmichael 561 = .ok true ∧ Korselt 561 ∧ is_carmichael 7 = .ok false
      ∧ is_carmichael 9 = .ok false ∧ is_carmichael 1 = .ok false := by
  obtain ⟨b, hb, hiff, -, -⟩ := is_carmichael_spec 561
  have h561 : is_carmichael 561 = .ok true := rfl
  have hbt : b = true := by
    rw [h561] at hb
    cases hb
    rfl
  exact ⟨h561, hiff.mp hbt, rfl, rfl, rfl⟩

end Claim15

section Claim16

/-- C16. For every `n`, `is_prime(n)` returns, and it returns `true` exactly
when `n ≥ 2` has no divisor `d` with `2 ≤ d < n`, that is, exactly when `n`
is a prime number; it returns `false` for every `n < 2`. -/
theorem is_prime_iff (n : Int) :
    ∃ b, is_prime n = .ok b ∧ (b = true ↔ NoProperDivisor n) ∧ (b = true ↔ Nat.Prime n.toNat)
      ∧ (n < 2 → b = false) := by
  unfold is_prime
  by_cases h2 : n < 2
  · rw [if_pos h2]
    refine ⟨false, rfl, ?_, ?_, fun _ => rfl⟩
    · constructor
      · intro h
        exact absurd h (by decide)
      · intro h
        exact absurd h.1 (by omega)
    · constructor
      · intro h
        exact absurd h (by decide)
      · intro h
        have := h.two_le
        omega
  · rw [if_neg h2]
    have hn : 2 ≤ n.toNat := by omega
    obtain ⟨b, hb, hiff⟩ := is_prime_loop_spec n.toNat n.toNat 2 (le_refl 2) hn (by omega)
      (by intro d hd hd2; omega)
    refine ⟨b, hb, ?_, ?_, fun h => absurd h h2⟩
    · rw [hiff]
      unfold NoProperDivisor
      constructor
      · intro h
        exact ⟨by omega, h⟩
      · intro h
        exact h.2
    · rw [hiff, Nat.prime_def_lt']
      constructor
      · intro h
        exact ⟨hn, h⟩
      · intro h
        exact h.2

/-- C16, witness: `7` is accepted and is prime; `9`, `1` and `-3` are
rejected. -/
theorem is_prime_iff_witness :
    is_prime 7 = .ok true ∧ Nat.Prime 7 ∧ is_prime 9 = .ok false ∧ is_prime 1 = .ok false
      ∧ is_prime (-3) = .ok false := by
  obtain ⟨b, hb, -, hiff, -⟩ := is_prime_iff 7
  have h7 : is_prime 7 = .ok true := rfl
  have hbt : b = true := by
    rw [h7] at hb
    cases hb
    rfl
  exact ⟨h7, hiff.mp hbt, rfl, rfl, rfl⟩

end Claim16

end NumberTests

namespace BitonicSort

section Claim17

variable {α : Type} [LinearOrder α]

/-- C17. The tiled schedule refines the classical network. For every tile
edge `T = 2 ^ k` with `T * T < 2 ^ 32`, block edge `B` dividing `T` and every
input of `N = T * T` elements, `bitonic_sort_amp` returns the output of the
naive reference `naiveSort N`, which for `level = 2, 4, ..., N` and
`j = level / 2, ..., 1` compare-exchanges every index `i` with `i XOR j`,
ascending when `(i & level) == 0`. And for each `level = 2 ^ (k + s) > T`, on
every state with two buffers of `N` elements, steps 1 to 3 of the iteration
(transpose, column sort with `(level / T, (level & ~N) / T)`, transpose back)
return and change `data` as the rounds `j = level / 2, ..., T` of the naive
reference do, step 4 returns and changes `data` as the rounds
`j = T / 2, ..., 1` do, and the four steps are the iteration. -/
theorem tiled_refines_naive (k T B : Nat) (hT : T = 2 ^ k) (hN : T * T < 2 ^ 32)
    (hB : 0 < B) (hdiv : B ∣ T) (data_in data_out : List α)
    (hin : data_in.length = T * T) (hout : data_out.length = T * T) :
    (∃ r : SortResult α, bitonic_sort_amp (Config.square T B) data_in data_out = .ok r ∧
      r.data_out = naiveSort (T * T) data_in) ∧
    (∀ s, 1 ≤ s → s ≤ k → ∀ dev : Device α,
      dev.data.length = T * T → dev.temp.length = T * T →
      ∃ dev3 dev4 : Device α,
        (transpose_into_temp (Config.square T B) dev
          >>= sort_columns (Config.square T B) (2 ^ (k + s) / u32 T)
                ((2 ^ (k + s) &&& not32 (T * T)) / u32 T)
          >>= transpose_into_data (Config.square T B)) = .ok dev3 ∧
        dev3.data = naiveRounds (2 ^ (k + s))
          ((halvings (2 ^ (k + s))).filter (fun j => decide (T ≤ j))) dev.data ∧
        sort_rows (Config.square T B) (u32 T) (2 ^ (k + s)) dev3 = .ok dev4 ∧
        dev4.data = naiveRounds (2 ^ (k + s))
          ((halvings (2 ^ (k + s))).filter (fun j => decide (j < T))) dev3.data ∧
        sandwich (Config.square T B) (2 ^ (k + s)) dev = .ok dev4) := by
  have hk := valid_exponent k T hT hN
  have hNN : 2 ^ k * 2 ^ k = 2 ^ (k + k) := by rw [pow_add]
  constructor
  · cases data_in with
    | nil =>
      have h0 : T * T = 0 := by simpa using hin.symm
      have hpos : 0 < T := by rw [hT]; exact Nat.two_pow_pos k
      have := Nat.mul_pos hpos hpos
      omega
    | cons d rest =>
      refine ⟨_, bitonic_sort_amp_network k T B hT hN hB hdiv (d :: rest) data_out d hin hout, ?_⟩
      subst hT
      have hd : (d :: rest) = tab (2 ^ k * 2 ^ k) (fn d (d :: rest)) := by
        rw [← hin, tab_fn]
      show tab (2 ^ k * 2 ^ k) (sortNet (k + k) (fn d (d :: rest)))
        = naiveSort (2 ^ k * 2 ^ k) (d :: rest)
      conv_rhs => rw [hd]
      rw [hNN, naiveSort_sortNet]
  · intro s _ hs dev hdata htemp
    subst hT
    obtain ⟨m, hm⟩ := hdiv
    have hTm : 2 ^ k = m * B := by rw [hm, Nat.mul_comm]
    cases hdev : dev.data with
    | nil =>
      rw [hdev] at hdata
      have h0 : 2 ^ k * 2 ^ k = 0 := by simpa using hdata.symm
      have hpos : 0 < 2 ^ k := Nat.two_pow_pos k
      have := Nat.mul_pos hpos hpos
      omega
    | cons d rest =>
      have hf : dev.data = tab (2 ^ k * 2 ^ k) (fn d dev.data) := by
        rw [← hdata, tab_fn]
      have hu : u32 (2 ^ k) = 2 ^ k := u32_two_pow k (by omega)
      obtain ⟨temp, _, h123⟩ := cross_steps_ok k m B s hk hB hTm hs dev (fn d dev.data) hf htemp
      have h4 := row_step_ok k B s hk
        ({ data := tab (2 ^ k * 2 ^ k) (ceRange (dirBit (k + s)) k s (fn d dev.data))
           temp := temp
           log := dev.log ++ [Stage.transpose .primary .scratch (2 ^ k) (2 ^ k)]
             ++ [Stage.bitonic .scratch (2 ^ (k + s) / 2 ^ k)
                   ((2 ^ (k + s) &&& not32 (2 ^ k * 2 ^ k)) / 2 ^ k)]
             ++ [Stage.transpose .scratch .primary (2 ^ k) (2 ^ k)] } : Device α)
        (ceRange (dirBit (k + s)) k s (fn d dev.data)) rfl
      have hc1 : 2 ^ k * 2 ^ k = 2 ^ (k - s) * 2 ^ (k + s) := by
        rw [← pow_add, ← pow_add]; congr 1; omega
      have hc2 : 2 ^ k * 2 ^ k = 2 ^ k * 2 ^ (0 + k) := by rw [Nat.zero_add]
      rw [← hdev]
      refine ⟨_, _, h123, ?_, h4, ?_, ?_⟩
      · show tab (2 ^ k * 2 ^ k) (ceRange (dirBit (k + s)) k s (fn d dev.data)) = _
        conv_rhs => rw [hf]
        rw [halvings_two_pow, descending_filter_ge,
          naiveRounds_ceRange (k + s) k s _ _ hc1]
      · show tab (2 ^ k * 2 ^ k)
            (ceRange (dirBit (k + s)) 0 k (ceRange (dirBit (k + s)) k s (fn d dev.data)))
          = naiveRounds (2 ^ (k + s)) _
              (tab (2 ^ k * 2 ^ k) (ceRange (dirBit (k + s)) k s (fn d dev.data)))
        rw [halvings_two_pow, descending_filter_lt,
          naiveRounds_ceRange (k + s) 0 k _ _ hc2]
      · rw [sandwich_steps, if_neg (by
          show Config.BITONIC_BLOCK_SIZE (Config.square (2 ^ k) B) ≠ 0
          exact Nat.ne_of_gt (Nat.two_pow_pos k))]
        show (transpose_into_temp (Config.square (2 ^ k) B) dev
          >>= sort_columns (Config.square (2 ^ k) B) (2 ^ (k + s) / u32 (2 ^ k))
                ((2 ^ (k + s) &&& not32 (2 ^ k * 2 ^ k)) / u32 (2 ^ k))
          >>= transpose_into_data (Config.square (2 ^ k) B)
          >>= sort_rows (Config.square (2 ^ k) B) (u32 (2 ^ k)) (2 ^ (k + s))) = _
        rw [h123]
        exact h4

/-- C17, witness: tile edge 2 and the input `[3, 1, 0, 2]`; the tiled
schedule and the naive reference both return `[0, 1, 2, 3]`. -/
theorem tiled_refines_naive_witness :
    naiveSort (2 * 2) ([3, 1, 0, 2] : List Nat) = [0, 1, 2, 3] ∧
    ∃ r : SortResult Nat,
      bitonic_sort_amp (Config.square 2 1) [3, 1, 0, 2] [0, 0, 0, 0] = .ok r ∧
      r.data_out = naiveSort (2 * 2) [3, 1, 0, 2] := by
  obtain ⟨r, hr, hn⟩ := (tiled_refines_naive 1 2 1 rfl (by decide) (by decide) ⟨2, rfl⟩
    [3, 1, 0, 2] [0, 0, 0, 0] rfl rfl).1
  have hrun : (bitonic_sort_amp (Config.square 2 1) ([3, 1, 0, 2] : List Nat)
      [0, 0, 0, 0]).toOption.map (fun x => x.data_out) = some [0, 1, 2, 3] := by decide
  rw [hr] at hrun
  have hd : r.data_out = [0, 1, 2, 3] := by simpa [Except.toOption] using hrun
  exact ⟨hn ▸ hd, r, hr, hn⟩

end Claim17

section Claim18

variable {α : Type} [LinearOrder α]

/-- C18. One round `j` of `bitonic_sort_kernel` on a tile of `T = 2 ^ k`
threads (`j < T`): the round returns, and thread `local_idx` ends with the
value of its partner `local_idx XOR j` exactly when
`(shared[local_idx & ~j] <= shared[local_idx | j]) == ((levelMask & global_idx) != 0)`,
otherwise with its own. Hence for every pair `(p, q) = (l & ~j, l | j)` whose
two threads have the same direction flag, after the round `shared[p]` and
`shared[q]` are the minimum and the maximum of the two old values when the
flag is false, and the maximum and the minimum when it is true. -/
theorem round_semantics (k T : Nat) (hT : T = 2 ^ k) (hk : k ≤ 32) (mask j tile : Nat)
    (hj : j < T) (sh : List α) (hlen : sh.length = T) (d : α) :
    ∃ out : List α, roundTile T mask j sh tile = .ok out ∧ out.length = T ∧
      (∀ l < T, fn d out l
        = if (decide (fn d sh (l &&& not32 j) ≤ fn d sh (l ||| j)))
              == (decide (mask &&& (tile * T + l) ≠ 0))
          then fn d sh (l ^^^ j) else fn d sh l) ∧
      (∀ l < T, ∀ flag : Bool,
        decide (mask &&& (tile * T + (l &&& not32 j)) ≠ 0) = flag →
        decide (mask &&& (tile * T + (l ||| j)) ≠ 0) = flag →
        fn d out (l &&& not32 j)
            = (if flag then max (fn d sh (l &&& not32 j)) (fn d sh (l ||| j))
                else min (fn d sh (l &&& not32 j)) (fn d sh (l ||| j))) ∧
        fn d out (l ||| j)
            = (if flag then min (fn d sh (l &&& not32 j)) (fn d sh (l ||| j))
                else max (fn d sh (l &&& not32 j)) (fn d sh (l ||| j)))) := by
  have hT32 : T ≤ 2 ^ 32 := by rw [hT]; exact Nat.pow_le_pow_right (by norm_num) hk
  have hout : roundTile T mask j sh tile
      = .ok (tab T (fun l =>
          if (decide (fn d sh (l &&& not32 j) ≤ fn d sh (l ||| j)))
              == (decide (mask &&& (tile * T + l) ≠ 0))
          then fn d sh (l ^^^ j) else fn d sh l)) :=
    mapM_range_ok _ _ _ (fun l hl => roundThread_fn k T mask j l _ sh d hT hlen hj hl)
  refine ⟨_, hout, tab_length _ _, fun l hl => fn_tab d T _ l hl, ?_⟩
  intro l hl flag hp hq
  have h1 : l &&& not32 j < T := and_not32_lt l j T hl
  have h2 : l ||| j < T := by subst hT; exact Nat.or_lt_two_pow hl hj
  obtain ⟨e1, e2, e3, e4, e5, e6⟩ := pair_indices l j (by omega) (by omega)
  constructor
  · rw [fn_tab d T _ _ h1]
    simp only [e1, e2, e3, hp]
    exact exchange_lower _ _ flag
  · rw [fn_tab d T _ _ h2]
    simp only [e4, e5, e6, hq]
    exact exchange_upper _ _ flag

/-- C18, witness: four threads, `j = 2`, flags false; the pairs `(0, 2)` and
`(1, 3)` of `[3, 1, 2, 0]` are put in ascending order. -/
theorem round_semantics_witness :
    roundTile 4 4 2 ([3, 1, 2, 0] : List Nat) 0 = .ok [2, 0, 3, 1] ∧
    ∃ out : List Nat, roundTile 4 4 2 [3, 1, 2, 0] 0 = .ok out ∧ out.length = 4 ∧
      (∀ l < 4, fn 0 out l
        = if (decide (fn 0 [3, 1, 2, 0] (l &&& not32 2) ≤ fn 0 [3, 1, 2, 0] (l ||| 2)))
              == (decide (4 &&& (0 * 4 + l) ≠ 0))
          then fn 0 [3, 1, 2, 0] (l ^^^ 2) else fn 0 [3, 1, 2, 0] l) ∧
      (∀ l < 4, ∀ flag : Bool,
        decide (4 &&& (0 * 4 + (l &&& not32 2)) ≠ 0) = flag →
        decide (4 &&& (0 * 4 + (l ||| 2)) ≠ 0) = flag →
        fn 0 out (l &&& not32 2)
            = (if flag then max (fn 0 [3, 1, 2, 0] (l &&& not32 2)) (fn 0 [3, 1, 2, 0] (l ||| 2))
                else min (fn 0 [3, 1, 2, 0] (l &&& not32 2)) (fn 0 [3, 1, 2, 0] (l ||| 2))) ∧
        fn 0 out (l ||| 2)
            = (if flag then min (fn 0 [3, 1, 2, 0] (l &&& not32 2)) (fn 0 [3, 1, 2, 0] (l ||| 2))
                else max (fn 0 [3, 1, 2, 0] (l &&& not32 2)) (fn 0 [3, 1, 2, 0] (l ||| 2)))) :=
  ⟨rfl, round_semantics 2 4 rfl (by decide) 4 2 0 (by decide) [3, 1, 2, 0] rfl 0⟩

end Claim18

section Claim19

variable {α : Type} [LinearOrder α]

/-- C19. For every valid tile edge `T = 2 ^ k` and every input of `T * T`
elements, the launches of the first loop for the levels `2`, `4`, ..., `L`
(`L = 2 ^ p ≤ T`) return, and afterwards every aligned block of `L`
consecutive elements is sorted: non-decreasing when `L & start` is zero for
the start index of the block, non-increasing otherwise. The whole first loop
returns the result of the launches for the levels up to `T` and leaves `temp`
alone; after it every tile is sorted, the even tiles non-decreasing and the
odd tiles non-increasing. -/
theorem phase1_blocks_sorted (k T B : Nat) (hT : T = 2 ^ k) (hN : T * T < 2 ^ 32)
    (data_in : List α) (hin : data_in.length = T * T) (d : α) (p : Nat) (hp : p ≤ k) :
    (∃ out : List α,
      phase1_levels (Config.square T B) (doublings 2 p) data_in = .ok out ∧
      out.length = T * T ∧
      ∀ c, (c + 1) * 2 ^ p ≤ T * T →
        SortedBlk (maskDir (2 ^ p) (c * 2 ^ p)) (fn d out) (c * 2 ^ p) (2 ^ p)) ∧
    (∀ (temp : List α) (log : List Stage), ∃ dev' : Device α,
      phase1 (Config.square T B) 64 2 { data := data_in, temp := temp, log := log } = .ok dev' ∧
      phase1_levels (Config.square T B) (doublings 2 k) data_in = .ok dev'.data ∧
      dev'.temp = temp ∧
      ∀ c < T, SortedBlk (decide (c % 2 = 1)) (fn d dev'.data) (c * T) T) := by
  have hk := valid_exponent k T hT hN
  subst hT
  have hdata : data_in = tab (2 ^ k * 2 ^ k) (fn d data_in) := by
    rw [← hin, tab_fn]
  have hblock : ∀ q c, (c + 1) * 2 ^ q ≤ 2 ^ k * 2 ^ k →
      SortedBlk (decide (c % 2 = 1))
        (fn d (tab (2 ^ k * 2 ^ k) (sortNet q (fn d data_in)))) (c * 2 ^ q) (2 ^ q) := by
    intro q c hc o o' hoo ho'
    have hs : (c + 1) * 2 ^ q = c * 2 ^ q + 2 ^ q := by ring
    rw [fn_tab _ _ _ _ (by omega), fn_tab _ _ _ _ (by omega)]
    exact sortNet_sorted q (fn d data_in) c o o' hoo ho'
  constructor
  · refine ⟨tab (2 ^ k * 2 ^ k) (sortNet p (fn d data_in)), ?_, tab_length _ _, ?_⟩
    · conv_lhs => rw [hdata]
      exact phase1_levels_ok k B p hk hp (fn d data_in)
    · intro c hc
      have hdir : maskDir (2 ^ p) (c * 2 ^ p) = decide (c % 2 = 1) := by
        rw [maskDir_two_pow]
        exact dirBit_block p c 0 (Nat.two_pow_pos p)
      rw [hdir]
      exact hblock p c hc
  · intro temp log
    have h1 := phase1_ok k B hk (fn d data_in) k 0 64 (by omega) (by omega)
      { data := data_in, temp := temp, log := log } hdata
    simp only [Nat.zero_add, pow_one] at h1
    refine ⟨_, h1, ?_, rfl, ?_⟩
    · conv_lhs => rw [hdata]
      exact phase1_levels_ok k B k hk (le_refl k) (fn d data_in)
    · intro c hc
      exact hblock k c (Nat.mul_le_mul_right _ hc)

/-- C19, witness: tile edge 2 and the input `[3, 2, 1, 0]`; the launch for
level 2 leaves `[2, 3, 1, 0]`, the first tile ascending and the second
descending. -/
theorem phase1_blocks_sorted_witness :
    phase1_levels (Config.square 2 1) (doublings 2 1) ([3, 2, 1, 0] : List Nat)
      = .ok [2, 3, 1, 0] ∧
    ∃ out : List Nat,
      phase1_levels (Config.square 2 1) (doublings 2 1) [3, 2, 1, 0] = .ok out ∧
      out.length = 2 * 2 ∧
      ∀ c, (c + 1) * 2 ^ 1 ≤ 2 * 2 →
        SortedBlk (maskDir (2 ^ 1) (c * 2 ^ 1)) (fn 0 out) (c * 2 ^ 1) (2 ^ 1) :=
  ⟨rfl, (phase1_blocks_sorted 1 2 1 rfl (by decide) [3, 2, 1, 0] rfl 0 1 (le_refl 1)).1⟩

end Claim19

section Claim20

variable {α : Type} [LinearOrder α]

/-- C20. Bitonic merge. For a tile edge `T = 2 ^ k`, a buffer of `m` tiles and
a level `L = 2 ^ p ≤ T`: if an aligned block of `L` elements is bitonic (its
first `L / 2` elements non-decreasing and its last `L / 2` non-increasing, or
the reverse), one launch of `bitonic_sort_kernel` with `ulevel = L` and
`ulevelmask = L` returns and leaves that block sorted, non-decreasing when
`L & global index` is zero on the block and non-increasing otherwise (the
flag is the same for all indices of the block), and the block holds the same
values as before, each as often as before. -/
theorem stage_merges_block (k T m : Nat) (hT : T = 2 ^ k) (hk : k ≤ 31) (p : Nat) (hp : p ≤ k)
    (data : List α) (hlen : data.length = m * T) (d : α) (c : Nat)
    (hc : (c + 1) * 2 ^ p ≤ m * T)
    (hb : (SortedBlk false (fn d data) (c * 2 ^ p) (2 ^ p / 2)
            ∧ SortedBlk true (fn d data) (c * 2 ^ p + 2 ^ p / 2) (2 ^ p / 2))
        ∨ (SortedBlk true (fn d data) (c * 2 ^ p) (2 ^ p / 2)
            ∧ SortedBlk false (fn d data) (c * 2 ^ p + 2 ^ p / 2) (2 ^ p / 2))) :
    ∃ out : List α, dispatch_bitonic (m * T) T data (2 ^ p) (2 ^ p) = .ok out ∧
      out.length = data.length ∧
      (∀ o < 2 ^ p, maskDir (2 ^ p) (c * 2 ^ p + o) = maskDir (2 ^ p) (c * 2 ^ p)) ∧
      SortedBlk (maskDir (2 ^ p) (c * 2 ^ p)) (fn d out) (c * 2 ^ p) (2 ^ p) ∧
      ((out.drop (c * 2 ^ p)).take (2 ^ p)).Perm ((data.drop (c * 2 ^ p)).take (2 ^ p)) := by
  have hs : (c + 1) * 2 ^ p = c * 2 ^ p + 2 ^ p := by ring
  have hj : u32 (2 ^ p) >>> 1 < T := by
    rw [u32_two_pow p (by omega), hT, Nat.shiftRight_eq_div_pow, pow_one]
    have h1 : 2 ^ p ≤ 2 ^ k := Nat.pow_le_pow_right (by norm_num) hp
    have h2 := Nat.two_pow_pos p
    omega
  have hout : dispatch_bitonic (m * T) T data (2 ^ p) (2 ^ p)
      = .ok (tab (m * T) (mergeNet p p (fn d data))) := by
    rw [dispatch_bitonic_ok k T m hT data d _ _ hj hlen, stageFn_two_pow k T p _ hT hk hp,
      maskDir_two_pow]
    rfl
  have hdir : ∀ o < 2 ^ p, maskDir (2 ^ p) (c * 2 ^ p + o) = decide (c % 2 = 1) := by
    intro o ho
    rw [maskDir_two_pow]
    exact dirBit_block p c o ho
  have hval : ∀ o < 2 ^ p, fn d (tab (m * T) (mergeNet p p (fn d data))) (c * 2 ^ p + o)
      = mergeNet p p (fn d data) (c * 2 ^ p + o) :=
    fun o ho => fn_tab _ _ _ _ (by omega)
  refine ⟨_, hout, by rw [tab_length, hlen], ?_, ?_, ?_⟩
  · intro o ho
    have h0 := hdir 0 (Nat.two_pow_pos p)
    rw [Nat.add_zero] at h0
    rw [hdir o ho, h0]
  · have h0 := hdir 0 (Nat.two_pow_pos p)
    rw [Nat.add_zero] at h0
    rw [h0]
    intro o o' hoo ho'
    rw [hval o (by omega), hval o' ho']
    cases p with
    | zero =>
      have ho0 : o' = 0 := by simpa using ho'
      have ho1 : o = 0 := by omega
      subst ho0 ho1
      show ord _ (fn d data _) (fn d data _)
      unfold ord
      split <;> exact le_refl _
    | succ q =>
      have hhalf : 2 ^ (q + 1) / 2 = 2 ^ q := by rw [pow_succ]; omega
      rw [hhalf] at hb
      exact mergeNet_sorts (q + 1) q c _ (fn d data)
        (fun x hx => dirBit_block (q + 1) c x hx) hb o o' hoo ho'
  · rw [drop_take_tab _ d _ _ (by rw [tab_length]; omega),
      drop_take_tab data d _ _ (by rw [hlen]; omega)]
    have h1 : tab (2 ^ p) (fun o => fn d (tab (m * T) (mergeNet p p (fn d data))) (c * 2 ^ p + o))
        = tab (2 ^ p) (fun o => mergeNet p p (fn d data) (c * 2 ^ p + o)) :=
      tab_congr _ _ _ hval
    rw [h1]
    exact mergeNet_block_perm p p c (le_refl p) (fn d data)

/-- C20, witness: one tile of four elements holding the bitonic sequence
`[1, 3, 2, 0]` is merged to `[0, 1, 2, 3]`. -/
theorem stage_merges_block_witness :
    dispatch_bitonic (1 * 4) 4 ([1, 3, 2, 0] : List Nat) (2 ^ 2) (2 ^ 2) = .ok [0, 1, 2, 3] ∧
    ∃ out : List Nat, dispatch_bitonic (1 * 4) 4 [1, 3, 2, 0] (2 ^ 2) (2 ^ 2) = .ok out ∧
      out.length = [1, 3, 2, 0].length ∧
      (∀ o < 2 ^ 2, maskDir (2 ^ 2) (0 * 2 ^ 2 + o) = maskDir (2 ^ 2) (0 * 2 ^ 2)) ∧
      SortedBlk (maskDir (2 ^ 2) (0 * 2 ^ 2)) (fn 0 out) (0 * 2 ^ 2) (2 ^ 2) ∧
      ((out.drop (0 * 2 ^ 2)).take (2 ^ 2)).Perm
        (([1, 3, 2, 0] : List Nat).drop (0 * 2 ^ 2) |>.take (2 ^ 2)) :=
  ⟨rfl, stage_merges_block 2 4 1 rfl (by decide) 2 (le_refl 2) [1, 3, 2, 0] rfl 0 0
    (by decide)
    (Or.inl ⟨by
        intro o o' h1 h2
        have h3 : o' < 2 := h2
        interval_cases o' <;> interval_cases o <;> simp [ord, fn],
      by
        intro o o' h1 h2
        have h3 : o' < 2 := h2
        interval_cases o' <;> interval_cases o <;> simp [ord, fn]⟩)⟩

end Claim20

section Claim21

variable {α : Type} [LinearOrder α]

/-- C21. The mask of the column sort is a function of `level` alone. For a
tile edge `T = 2 ^ k` with `N = T * T < 2 ^ 32` and a power-of-two `level`
with `2 * T ≤ level ≤ N`: the iteration of the second loop of
`bitonic_sort_amp` at `level` (lines 158-196) is the four launches in which
the column sort gets `ulevel = level / T` and the mask `level / T` when
`level < N` and `0` when `level = N`, which is the value of
`(level & ~N) / T` in 32-bit unsigned arithmetic; on buffers of `N` elements
the iteration returns and that mask is the one in its second launch. For
`level < N` the mask is a single bit below `T`, and in every round of the
column sort the thread with local index `l` of any tile computes what it
would compute with its local index in place of the global one: the direction
is that bit of `l`. At `level = N` the flag is false for every thread, so
every comparison is ascending. -/
theorem cross_tile_mask (k T B p level : Nat) (hT : T = 2 ^ k) (hN : T * T < 2 ^ 32)
    (hlev : level = 2 ^ p) (hlo : 2 * T ≤ level) (hhi : level ≤ T * T) :
    (∀ dev : Device α, sandwich (Config.square T B) level dev =
      (transpose_into_temp (Config.square T B) dev
        >>= sort_columns (Config.square T B) (level / T)
              (if level < T * T then level / T else 0)
        >>= transpose_into_data (Config.square T B)
        >>= sort_rows (Config.square T B) T level)) ∧
    (0 < B → B ∣ T → ∀ dev : Device α, dev.data.length = T * T → dev.temp.length = T * T →
      ∃ dev', sandwich (Config.square T B) level dev = .ok dev' ∧
        dev'.log = dev.log ++
          [Stage.transpose .primary .scratch T T,
           Stage.bitonic .scratch (level / T) (if level < T * T then level / T else 0),
           Stage.transpose .scratch .primary T T,
           Stage.bitonic .primary T level]) ∧
    (level &&& not32 (T * T)) / u32 T = (if level < T * T then level / T else 0) ∧
    (level < T * T →
      (∃ s, s < k ∧ level / T = 2 ^ s) ∧
      ∀ (j tile l : Nat) (sh : List α), l < T →
        roundThread ((level &&& not32 (T * T)) / u32 T) j sh l (tile * T + l)
            = roundThread (level / T) j sh l l ∧
        maskDir ((level &&& not32 (T * T)) / u32 T) (tile * T + l)
            = decide (level / T &&& l ≠ 0)) ∧
    (level = T * T → ∀ (j l g : Nat) (sh : List α),
        roundThread ((level &&& not32 (T * T)) / u32 T) j sh l g = roundThread 0 j sh l g ∧
        maskDir ((level &&& not32 (T * T)) / u32 T) g = false) := by
  obtain ⟨hval, hbelow, htop⟩ := cross_mask_cases k T p level hT hN hlev hlo hhi
  have hk := valid_exponent k T hT hN
  have hu : u32 T = T := by
    rw [hT]
    exact u32_two_pow k (by omega)
  have hTpos : 0 < T := by
    rw [hT]
    exact Nat.two_pow_pos k
  refine ⟨?_, ?_, hval, ?_, ?_⟩
  · intro dev
    rw [sandwich_steps]
    show (if T = 0 then _ else
      transpose_into_temp (Config.square T B) dev
        >>= sort_columns (Config.square T B) (level / u32 T)
              ((level &&& not32 (T * T)) / u32 T)
        >>= transpose_into_data (Config.square T B)
        >>= sort_rows (Config.square T B) (u32 T) level) = _
    rw [if_neg (by omega), hval, hu]
  · intro hB hdiv dev hdata htemp
    obtain ⟨m, hm⟩ := hdiv
    have hpos : 0 < dev.data.length := by
      rw [hdata]
      exact Nat.mul_pos hTpos hTpos
    subst hT
    subst hlev
    obtain ⟨s, hs1, hs, rfl⟩ := level_exponent k p hlo hhi
    have hf : dev.data = tab (2 ^ k * 2 ^ k) (fn (dev.data[0]) dev.data) := by
      rw [← hdata, tab_fn]
    obtain ⟨temp, _, hrun⟩ := sandwich_ok k m B s hk hB (by rw [hm, Nat.mul_comm]) hs dev
      (fn (dev.data[0]) dev.data) hf htemp
    refine ⟨_, hrun, ?_⟩
    show dev.log ++ sandwichLog (2 ^ k) (2 ^ k * 2 ^ k) (2 ^ (k + s)) = _
    unfold sandwichLog
    rw [hu] at hval
    rw [hval]
  · intro hlt
    obtain ⟨hbit, hdir⟩ := hbelow hlt
    refine ⟨hbit, ?_⟩
    intro j tile l sh hl
    refine ⟨roundThread_flag _ _ j l _ _ sh ?_, hdir tile l hl⟩
    rw [hdir tile l hl]
    rfl
  · intro heq j l g sh
    refine ⟨roundThread_flag _ _ j l _ _ sh ?_, htop heq g⟩
    rw [htop heq g, maskDir_zero g]

/-- C21, witness: tile edge 4, `N = 16`; at `level = 8` the mask is `2`, at
`level = 16` it is `0`, and the iteration at `level = 8` on the buffer
`15, 14, ..., 0` issues the column sort with `ulevel = 2` and mask `2`. -/
theorem cross_tile_mask_witness :
    (8 &&& not32 (4 * 4)) / u32 4 = 2 ∧ (16 &&& not32 (4 * 4)) / u32 4 = 0 ∧
    ((8 &&& not32 (4 * 4)) / u32 4 = (if 8 < 4 * 4 then 8 / 4 else 0)) ∧
    ∃ dev', sandwich (Config.square 4 1) 8
        ({ data := [15, 14, 13, 12, 11, 10, 9, 8, 7, 6, 5, 4, 3, 2, 1, 0],
           temp := [0, 0, 0, 0, 0, 0, 0, 0, 0, 0, 0, 0, 0, 0, 0, 0], log := [] } : Device Nat)
          = .ok dev' ∧
        dev'.log = [] ++
          [Stage.transpose .primary .scratch 4 4,
           Stage.bitonic .scratch (8 / 4) (if 8 < 4 * 4 then 8 / 4 else 0),
           Stage.transpose .scratch .primary 4 4,
           Stage.bitonic .primary 4 8] :=
  have h := cross_tile_mask 2 4 1 3 8 (rfl : 4 = 2 ^ 2) (by decide) (rfl : 8 = 2 ^ 3) (by decide)
    (by decide)
  ⟨by decide, by decide, h.2.2.1,
    h.2.1 (by decide) ⟨4, rfl⟩
      ({ data := [15, 14, 13, 12, 11, 10, 9, 8, 7, 6, 5, 4, 3, 2, 1, 0],
         temp := [0, 0, 0, 0, 0, 0, 0, 0, 0, 0, 0, 0, 0, 0, 0, 0], log := [] } : Device Nat)
      rfl rfl⟩

end Claim21

section Claim22

variable {α : Type} [LinearOrder α]

/-- C22. The orchestrator runs to completion. For a tile edge `T = 2 ^ k ≥ 2`
with `N = T * T < 2 ^ 32`: the body of the first loop runs for the levels
`2, 4, ..., T`, that is `log2 T` times, and the body of the second loop for
the levels `2 * T, ..., N`, that is `log2 N - log2 T` times; for each of these
levels `level * 2` is below `2 ^ 32`, so the doubling does not wrap before the
loop is left; the last level of the second loop is `N`; the two loops of the
embedding are the folds of their bodies over these levels. The loop over `j`
of the kernel is the fold of its body over at most 31 values of `j`, for
every `ulevel`. On buffers of `N` elements the whole call returns. -/
theorem orchestrator_terminates (k T B : Nat) (hT : T = 2 ^ k) (hT2 : 2 ≤ T)
    (hN : T * T < 2 ^ 32) (hB : 0 < B) (hdiv : B ∣ T) (data_in data_out : List α)
    (hin : data_in.length = T * T) (hout : data_out.length = T * T) :
    levelsTrace (u32 T) 64 2 = doublings 2 k ∧
    levelsTrace (u32 (T * T)) 64 (u32 (T * 2)) = doublings (2 * T) k ∧
    (doublings 2 k).length = Nat.log2 T ∧
    (doublings (2 * T) k).length = Nat.log2 (T * T) - Nat.log2 T ∧
    (∀ level ∈ doublings 2 k ++ doublings (2 * T) k, level * 2 < 2 ^ 32) ∧
    (doublings (2 * T) k).getLast? = some (T * T) ∧
    (∀ dev : Device α, phase1 (Config.square T B) 64 2 dev
      = (levelsTrace (u32 T) 64 2).foldlM (phase1_step (Config.square T B)) dev) ∧
    (∀ dev : Device α, phase2 (Config.square T B) 64 (u32 (T * 2)) dev
      = (levelsTrace (u32 (T * T)) 64 (u32 (T * 2))).foldlM
          (fun dev level => sandwich (Config.square T B) level dev) dev) ∧
    (∀ (T' mask tile ulevel : Nat) (sh : List α),
      roundsLoop T' mask tile 32 (u32 ulevel >>> 1) sh
        = (roundsTrace 32 (u32 ulevel >>> 1)).foldlM (fun s j => roundTile T' mask j s tile) sh
      ∧ (roundsTrace 32 (u32 ulevel >>> 1)).length ≤ 31) ∧
    ∃ r : SortResult α, bitonic_sort_amp (Config.square T B) data_in data_out = .ok r := by
  have hk := valid_exponent k T hT hN
  have hpos : 0 < data_in.length := by rw [hin]; exact Nat.mul_pos (by omega) (by omega)
  have hrun := bitonic_sort_amp_network k T B hT hN hB hdiv data_in data_out (data_in[0]) hin hout
  subst hT
  have hk1 : 1 ≤ k := by
    rcases Nat.eq_zero_or_pos k with h | h
    · subst h; simp at hT2
    · exact h
  have hu : u32 (2 ^ k) = 2 ^ k := u32_two_pow k (by omega)
  have hNN : 2 ^ k * 2 ^ k = 2 ^ (k + k) := by rw [pow_add]
  have huN : u32 (2 ^ k * 2 ^ k) = 2 ^ (k + k) := by rw [hNN]; exact u32_two_pow _ (by omega)
  have hstart : u32 (2 ^ k * 2) = 2 ^ (k + 1) := by
    rw [← pow_succ]; exact u32_two_pow _ (by omega)
  have h2T : 2 * 2 ^ k = 2 ^ (k + 1) := by rw [pow_succ]; ring
  have ht1 : levelsTrace (u32 (2 ^ k)) 64 2 = doublings 2 k := by
    have := levelsTrace_doublings k (by omega) k 1 64 (by omega) (by omega)
    rw [pow_one] at this
    rw [hu, this]
  have ht2 : levelsTrace (u32 (2 ^ k * 2 ^ k)) 64 (u32 (2 ^ k * 2)) = doublings (2 * 2 ^ k) k := by
    rw [huN, hstart, h2T]
    exact levelsTrace_doublings (k + k) (by omega) k (k + 1) 64 (by omega) (by omega)
  refine ⟨ht1, ht2, ?_, ?_, ?_, ?_, ?_, ?_, ?_, _, hrun⟩
  · rw [doublings_length, Nat.log2_two_pow]
  · rw [doublings_length, hNN, Nat.log2_two_pow, Nat.log2_two_pow]
    omega
  · intro level hl
    rcases List.mem_append.mp hl with h | h
    · obtain ⟨i, hi, rfl⟩ := doublings_mem _ _ _ h
      have : 2 * 2 ^ i * 2 = 2 ^ (i + 2) := by rw [pow_add]; ring
      rw [this]
      exact Nat.pow_lt_pow_right (by norm_num) (by omega)
    · obtain ⟨i, hi, rfl⟩ := doublings_mem _ _ _ h
      have : 2 * 2 ^ k * 2 ^ i * 2 = 2 ^ (k + i + 2) := by rw [pow_add, pow_add]; ring
      rw [this]
      exact Nat.pow_lt_pow_right (by norm_num) (by omega)
  · obtain ⟨k', rfl⟩ : ∃ k', k = k' + 1 := ⟨k - 1, by omega⟩
    rw [doublings_getLast]
    congr 1
    rw [pow_succ]
    ring
  · intro dev
    have := phase1_trace (Config.square (2 ^ k) B) 64 2 dev
      (by
        show (levelsTrace (u32 (2 ^ k)) 64 2).length < 64
        rw [ht1, doublings_length]
        omega)
    exact this
  · intro dev
    have := phase2_trace (Config.square (2 ^ k) B) 64 (u32 (2 ^ k * 2)) dev
      (by
        show (levelsTrace (u32 (2 ^ k * 2 ^ k)) 64 (u32 (2 ^ k * 2))).length < 64
        rw [ht2, doublings_length]
        omega)
    exact this
  · intro T' mask tile ulevel sh
    have hlt : u32 ulevel >>> 1 < 2 ^ 32 := by
      rw [Nat.shiftRight_eq_div_pow]
      exact Nat.lt_of_le_of_lt (Nat.div_le_self _ _) (u32_lt ulevel)
    refine ⟨roundsLoop_trace T' mask tile 32 _ hlt sh, ?_⟩
    rw [kernel_rounds]
    by_cases h0 : u32 ulevel = 0
    · rw [h0]
      simp [Nat.log2]
    · have := (Nat.log2_lt h0).mpr (u32_lt ulevel)
      omega

/-- C22, witness: tile edge 2; the first loop runs for level 2, the second for
level 4, and the call returns. -/
theorem orchestrator_terminates_witness :
    levelsTrace (u32 2) 64 2 = [2] ∧ levelsTrace (u32 (2 * 2)) 64 (u32 (2 * 2)) = [4] ∧
    (levelsTrace (u32 2) 64 2 = doublings 2 1) ∧
    ∃ r : SortResult Nat,
      bitonic_sort_amp (Config.square 2 1) [3, 2, 1, 0] [0, 0, 0, 0] = .ok r :=
  have h := orchestrator_terminates 1 2 1 rfl (by decide) (by decide) (by decide) ⟨2, rfl⟩
    ([3, 2, 1, 0] : List Nat) [0, 0, 0, 0] rfl rfl
  ⟨by decide, by decide, h.1, h.2.2.2.2.2.2.2.2.2⟩

end Claim22

section Claim23

variable {α : Type} [LinearOrder α]

/-- C23, as stated, fails: with the macros of the source, where
`MATRIX_WIDTH = MATRIX_HEIGHT = BITONIC_BLOCK_SIZE`, a buffer of exactly one
tile of `T = 2` elements is rejected by the first `assert`
(`NUM_ELEMENTS / MATRIX_WIDTH = 1`, not `2`). -/
theorem single_tile_rejected_counterexample :
    bitonic_sort_amp (Config.tiled 2 2 1) ([2, 1] : List Nat) [0, 0] = .error .assertion
      ∧ (Config.tiled 2 2 1).NUM_ELEMENTS / (Config.tiled 2 2 1).MATRIX_WIDTH = 1
      ∧ (Config.tiled 2 2 1).MATRIX_WIDTH = 2 :=
  ⟨rfl, rfl, rfl⟩

/-- C23, amended. When `N` is exactly one tile (`N = T = 2 ^ k`, `T < 2 ^ 31`)
and the matrix macros are `MATRIX_WIDTH = MATRIX_HEIGHT = W` with `W * W = N`
and a transpose block edge dividing `W`, the call is accepted and runs the
first loop only: the launches are the `log2 T` row sorts of the levels
`2, ..., T`, none of them a transpose, the body of the second loop runs for
no level, and the output is a permutation of the input in non-decreasing
order. -/
theorem single_tile_phase1_only (k T W B : Nat) (hT : T = 2 ^ k) (hT31 : T < 2 ^ 31)
    (hW : W * W = T) (hB : 0 < B) (hdiv : B ∣ W) (data_in data_out : List α)
    (hin : data_in.length = T) (hout : data_out.length = T) :
    ∃ r : SortResult α,
      bitonic_sort_amp { BITONIC_BLOCK_SIZE := T, NUM_ELEMENTS := T, MATRIX_WIDTH := W,
                         MATRIX_HEIGHT := W, TRANSPOSE_BLOCK_SIZE := B } data_in data_out
        = .ok r ∧
      r.log = phase1Log (doublings 2 k) ∧ r.log.length = Nat.log2 T ∧
      (∀ st ∈ r.log, ∃ level, st = Stage.bitonic .primary level level) ∧
      levelsTrace (u32 T) 64 (u32 (T * 2)) = [] ∧
      r.data_out.Perm data_in ∧
      ∀ i (h : i < r.data_out.length), 1 ≤ i → r.data_out[i - 1] ≤ r.data_out[i] := by
  subst hT
  have hk : k ≤ 30 := by
    have := (Nat.pow_lt_pow_iff_right (by norm_num : 1 < 2)).mp hT31
    omega
  have hpos : 0 < data_in.length := by rw [hin]; exact Nat.two_pow_pos k
  refine ⟨_, single_tile_run k W B hk hW hB hdiv data_in data_out (data_in[0]) hin hout,
    rfl, ?_, ?_, ?_, ?_, ?_⟩
  · show (phase1Log (doublings 2 k)).length = _
    rw [phase1Log_length, doublings_length, Nat.log2_two_pow]
  · intro st hst
    obtain ⟨level, _, rfl⟩ := List.mem_map.mp hst
    exact ⟨level, rfl⟩
  · have hstart : u32 (2 ^ k * 2) = 2 ^ (k + 1) := by
      rw [← pow_succ]; exact u32_two_pow _ (by omega)
    rw [hstart, u32_two_pow k (by omega), levelsTrace, if_neg]
    rw [pow_succ]
    have := Nat.two_pow_pos k
    omega
  · show (tab (2 ^ k) (sortNet k (fn (data_in[0]) data_in))).Perm data_in
    have h := sortNet_perm k 1 (2 ^ k) (by rw [Nat.one_mul]) (fn (data_in[0]) data_in)
    rw [← hin, tab_fn] at h
    rw [← hin]
    exact h
  · intro i h h1
    simp only [tab_getElem]
    exact sortNet_single_block k _ (i - 1) i (by omega) (by simpa [tab_length] using h)

/-- C23, witness: one tile of four elements with `MATRIX_WIDTH = 2`; the two
row sorts leave `[0, 1, 2, 3]`. -/
theorem single_tile_phase1_only_witness :
    (bitonic_sort_amp { BITONIC_BLOCK_SIZE := 4, NUM_ELEMENTS := 4, MATRIX_WIDTH := 2,
                        MATRIX_HEIGHT := 2, TRANSPOSE_BLOCK_SIZE := 1 }
        ([3, 1, 0, 2] : List Nat) [0, 0, 0, 0]).toOption.map SortResult.data_out
      = some [0, 1, 2, 3] ∧
    ∃ r : SortResult Nat,
      bitonic_sort_amp { BITONIC_BLOCK_SIZE := 4, NUM_ELEMENTS := 4, MATRIX_WIDTH := 2,
                         MATRIX_HEIGHT := 2, TRANSPOSE_BLOCK_SIZE := 1 } [3, 1, 0, 2] [0, 0, 0, 0]
        = .ok r ∧
      r.log = phase1Log (doublings 2 2) ∧ r.log.length = Nat.log2 4 ∧
      (∀ st ∈ r.log, ∃ level, st = Stage.bitonic .primary level level) ∧
      levelsTrace (u32 4) 64 (u32 (4 * 2)) = [] ∧
      r.data_out.Perm [3, 1, 0, 2] ∧
      ∀ i (h : i < r.data_out.length), 1 ≤ i → r.data_out[i - 1] ≤ r.data_out[i] :=
  ⟨by decide,
    single_tile_phase1_only 2 4 2 1 rfl (by decide) rfl (by decide) ⟨2, rfl⟩
      [3, 1, 0, 2] [0, 0, 0, 0] rfl rfl⟩

end Claim23

section Claim24

variable {α : Type} [LinearOrder α]

/-- C24. Index safety under the schedule of `bitonic_sort_amp`, for a tile
edge `T = 2 ^ k` with `T * T < 2 ^ 32` and a block edge `B` dividing `T`. In a
launch with `ulevel = 2 ^ q ≤ T` the loop runs for `j = 2 ^ (q - 1), ..., 1`,
and for each of these `j` and every local index `l < T` the indices `l & ~j`,
`l | j` and `l ^ j` are below `T`; every launch of the kernel in the schedule
has such a `ulevel`; the global index of a thread is below `N`; every index
read or written by `transpose_kernel` on the `T × T` matrix is below `N`. The
call, in which every access is bounds checked, returns after the launches of
the schedule. -/
theorem indices_in_range (k T B : Nat) (hT : T = 2 ^ k) (hN : T * T < 2 ^ 32) (hB : 0 < B)
    (hdiv : B ∣ T) (data_in data_out : List α) (hin : data_in.length = T * T)
    (hout : data_out.length = T * T) :
    (∀ q ≤ k, roundsTrace 32 (u32 (2 ^ q) >>> 1) = descending 0 q ∧
      ∀ j ∈ roundsTrace 32 (u32 (2 ^ q) >>> 1), ∀ l < T,
        l &&& not32 j < T ∧ l ||| j < T ∧ l ^^^ j < T) ∧
    (∀ st ∈ specSchedule T (T * T), ∀ (buf : Buffer) (ulevel mask : Nat),
      st = Stage.bitonic buf ulevel mask → ulevel ≤ T ∧ ∃ q ≤ k, ulevel = 2 ^ q) ∧
    (∀ tile < T * T / T, ∀ l < T, tile * T + l < T * T) ∧
    (∀ t < (T / B) * (T / B), ∀ x < B * B,
      srcIndex B T (t / (T / B)) (t % (T / B)) x < T * T
        ∧ dstIndex B T (t / (T / B)) (t % (T / B)) x < T * T) ∧
    ∃ r : SortResult α, bitonic_sort_amp (Config.square T B) data_in data_out = .ok r ∧
      r.log = specSchedule T (T * T) := by
  have hk := valid_exponent k T hT hN
  have hpos : 0 < data_in.length := by
    rw [hin, hT]; exact Nat.mul_pos (Nat.two_pow_pos k) (Nat.two_pow_pos k)
  have hrun := bitonic_sort_amp_network k T B hT hN hB hdiv data_in data_out (data_in[0]) hin hout
  subst hT
  have hTpos : 0 < 2 ^ k := Nat.two_pow_pos k
  refine ⟨?_, ?_, ?_, ?_, _, hrun, rfl⟩
  · intro q hq
    have htrace := kernel_trace q (by omega)
    refine ⟨htrace, ?_⟩
    intro j hj l hl
    rw [htrace] at hj
    obtain ⟨t, _, ht, rfl⟩ := descending_mem 0 q j hj
    have hjT : 2 ^ t < 2 ^ k := Nat.pow_lt_pow_right (by norm_num) (by omega)
    exact ⟨and_not32_lt l _ _ hl, Nat.or_lt_two_pow hl hjT, Nat.xor_lt_two_pow hl hjT⟩
  · intro st hst buf ulevel mask he
    obtain ⟨q, hq, hu, _⟩ := schedule_stage_shape k hk st hst buf ulevel mask he
    refine ⟨?_, q, hq, hu⟩
    rw [hu]
    exact Nat.pow_le_pow_right (by norm_num) hq
  · intro tile htile l hl
    rw [Nat.mul_div_cancel _ hTpos] at htile
    have h1 : (tile + 1) * 2 ^ k ≤ 2 ^ k * 2 ^ k := Nat.mul_le_mul_right _ htile
    have h2 : (tile + 1) * 2 ^ k = tile * 2 ^ k + 2 ^ k := by ring
    omega
  · obtain ⟨m, hm⟩ := hdiv
    have hmB : 2 ^ k = m * B := by rw [hm, Nat.mul_comm]
    intro t ht x hx
    rw [hmB] at ht ⊢
    rw [Nat.mul_div_cancel _ hB] at ht ⊢
    exact ⟨srcIndex_lt m B t x ht hx, dstIndex_lt m B t x ht hx⟩

/-- C24, witness: tile edge 4, `ulevel = 4`: the rounds are `j = 2, 1` and the
three indices of every thread stay below 4. -/
theorem indices_in_range_witness :
    roundsTrace 32 (u32 (2 ^ 2) >>> 1) = [2, 1] ∧
    (roundsTrace 32 (u32 (2 ^ 2) >>> 1) = descending 0 2 ∧
      ∀ j ∈ roundsTrace 32 (u32 (2 ^ 2) >>> 1), ∀ l < 4,
        l &&& not32 j < 4 ∧ l ||| j < 4 ∧ l ^^^ j < 4) :=
  ⟨by decide,
    (indices_in_range 2 4 2 rfl (by decide) (by decide) ⟨2, rfl⟩
      (List.range 16) (List.range 16) rfl rfl).1 2 (le_refl 2)⟩

end Claim24

section Claim25

variable {α : Type} [LinearOrder α]

/-- C25. A launch of `bitonic_sort_kernel` with a well-formed mask preserves
the contents of every tile. For a tile edge `T = 2 ^ k`, `ulevel = 2 ^ q ≤ T`
and a mask with `mask & (ulevel - 1) = 0`: in every round `j = 2 ^ t`, `t < q`,
the threads `g` and `g XOR j` of a pair compute the same direction flag; every
such round returns a permutation of the shared array of the tile; the launch
returns, and every tile of the buffer holds afterwards a permutation of what
it held before. Every launch of the kernel in the schedule of
`bitonic_sort_amp` has such a `ulevel` and mask. -/
theorem stage_preserves_tiles (k T m q mask : Nat) (hT : T = 2 ^ k) (hk : k ≤ 31)
    (hq : q ≤ k) (hmask : mask &&& (2 ^ q - 1) = 0) (data : List α) (d : α)
    (hlen : data.length = m * T) :
    (∀ t < q, ∀ g, decide (mask &&& (g ^^^ 2 ^ t) ≠ 0) = decide (mask &&& g ≠ 0)) ∧
    (∀ t < q, ∀ (tile : Nat) (sh : List α), sh.length = T →
      ∃ out : List α, roundTile T mask (2 ^ t) sh tile = .ok out ∧ out.Perm sh) ∧
    (∃ out : List α, dispatch_bitonic (m * T) T data (2 ^ q) mask = .ok out ∧
      out.length = data.length ∧
      ∀ tile < m, ((out.drop (tile * T)).take T).Perm ((data.drop (tile * T)).take T)) ∧
    (T * T < 2 ^ 32 → ∀ st ∈ specSchedule T (T * T), ∀ (buf : Buffer) (ulevel mask' : Nat),
      st = Stage.bitonic buf ulevel mask' →
        ∃ q', q' ≤ k ∧ ulevel = 2 ^ q' ∧ mask' &&& (ulevel - 1) = 0) := by
  subst hT
  have hflag : ∀ t < q, ∀ g, maskDir mask (partner (2 ^ t) g) = maskDir mask g :=
    fun t ht g => maskDir_partner mask q t g hmask ht
  refine ⟨?_, ?_, ?_, ?_⟩
  · intro t ht g
    have h := hflag t ht g
    rw [partner_xor] at h
    exact h
  · intro t ht tile sh hsh
    have hj : 2 ^ t < 2 ^ k := Nat.pow_lt_pow_right (by norm_num) (by omega)
    have hsh' : sh = tab (2 ^ k) (fun x => (fun g => fn d sh (g - tile * 2 ^ k)) (tile * 2 ^ k + x)) := by
      conv_lhs => rw [← tab_fn d sh, hsh]
      apply tab_congr
      intro x _
      show fn d sh x = fn d sh (tile * 2 ^ k + x - tile * 2 ^ k)
      rw [Nat.add_sub_cancel_left]
    have hround := roundTile_ok k (2 ^ k) mask (2 ^ t) tile
      (fun g => fn d sh (g - tile * 2 ^ k)) rfl hj
    rw [← hsh'] at hround
    refine ⟨_, hround, ?_⟩
    have hce : tab (2 ^ k) (fun x => roundFn (2 ^ k) mask (2 ^ t)
          (fun g => fn d sh (g - tile * 2 ^ k)) (tile * 2 ^ k + x))
        = tab (2 ^ k) (fun x => ce (2 ^ t) (maskDir mask)
          (fun g => fn d sh (g - tile * 2 ^ k)) (tile * 2 ^ k + x)) := by
      apply tab_congr
      intro x _
      exact roundFn_eq_ce k (2 ^ k) t mask rfl (by omega) (by omega) _ _
    rw [hce]
    have hperm := ce_block_perm t k tile (by omega) (maskDir mask) (hflag t ht)
      (fun g => fn d sh (g - tile * 2 ^ k))
    rw [← hsh'] at hperm
    exact hperm
  · have hj : u32 (2 ^ q) >>> 1 < 2 ^ k := by
      rw [u32_two_pow q (by omega), Nat.shiftRight_eq_div_pow, pow_one]
      have h1 : 2 ^ q ≤ 2 ^ k := Nat.pow_le_pow_right (by norm_num) hq
      have h2 := Nat.two_pow_pos q
      omega
    have hout : dispatch_bitonic (m * 2 ^ k) (2 ^ k) data (2 ^ q) mask
        = .ok (tab (m * 2 ^ k) (ceRange (maskDir mask) 0 q (fn d data))) := by
      rw [dispatch_bitonic_ok k (2 ^ k) m rfl data d _ _ hj hlen,
        stageFn_two_pow k (2 ^ k) q _ rfl hk hq]
    refine ⟨_, hout, by rw [tab_length, hlen], ?_⟩
    intro tile htile
    have hle : (tile + 1) * 2 ^ k ≤ m * 2 ^ k := Nat.mul_le_mul_right _ htile
    have hs : (tile + 1) * 2 ^ k = tile * 2 ^ k + 2 ^ k := by ring
    rw [drop_take_tab _ d _ _ (by rw [tab_length]; omega),
      drop_take_tab data d _ _ (by rw [hlen]; omega)]
    have h1 : tab (2 ^ k) (fun o => fn d (tab (m * 2 ^ k) (ceRange (maskDir mask) 0 q (fn d data)))
          (tile * 2 ^ k + o))
        = tab (2 ^ k) (fun o => ceRange (maskDir mask) 0 q (fn d data) (tile * 2 ^ k + o)) :=
      tab_congr _ _ _ (fun o ho => fn_tab _ _ _ _ (by omega))
    rw [h1]
    exact ceRange_block_perm q k tile hq (maskDir mask) hflag (fn d data)
  · intro hN st hst buf ulevel mask' he
    exact schedule_stage_shape k (valid_exponent k (2 ^ k) rfl hN) st hst buf ulevel mask' he

/-- C25, witness: tile edge 2, `ulevel = 2`, mask `2`: the tiles `[2, 1]` and
`[0, 3]` become `[1, 2]` and `[3, 0]`. -/
theorem stage_preserves_tiles_witness :
    dispatch_bitonic (2 * 2) 2 ([2, 1, 0, 3] : List Nat) (2 ^ 1) 2 = .ok [1, 2, 3, 0] ∧
    ∃ out : List Nat, dispatch_bitonic (2 * 2) 2 [2, 1, 0, 3] (2 ^ 1) 2 = .ok out ∧
      out.length = ([2, 1, 0, 3] : List Nat).length ∧
      ∀ tile < 2, ((out.drop (tile * 2)).take 2).Perm
        ((([2, 1, 0, 3] : List Nat).drop (tile * 2)).take 2) :=
  ⟨rfl, (stage_preserves_tiles 1 2 2 1 2 rfl (by decide) (le_refl 1) (by decide)
    [2, 1, 0, 3] 0 rfl).2.2.1⟩

end Claim25

section Claim26

/-- C26. A malformed mask can lose data. With a tile of two threads,
`ulevel = 2` and `ulevelmask = 1` (which has a bit below `ulevel`), the tile
`[2, 1]` comes back from `bitonic_sort_kernel` as `[1, 1]` without a fault:
the value `2` is lost and `1` is duplicated, so the output is not a
permutation of the input. Hence there are a level, a mask and a tile content
for which the output of the kernel is not a permutation of its input. -/
theorem malformed_mask_corrupts :
    bitonic_sort_kernel 2 ([2, 1] : List Nat) 2 1 0 = .ok [1, 1] ∧
    dispatch_bitonic 2 2 ([2, 1] : List Nat) 2 1 = .ok [1, 1] ∧
    1 &&& (2 - 1) ≠ 0 ∧
    ¬ List.Perm ([1, 1] : List Nat) [2, 1] ∧
    ([1, 1] : List Nat).count 2 = 0 ∧ ([1, 1] : List Nat).count 1 = 2 ∧
    ∃ (T ulevel ulevelmask tile : Nat) (data out : List Nat),
      bitonic_sort_kernel T data ulevel ulevelmask tile = .ok out ∧ ¬ out.Perm data :=
  have hperm : ¬ List.Perm ([1, 1] : List Nat) [2, 1] := fun h =>
    absurd (h.mem_iff.mpr (by decide : (2 : Nat) ∈ [2, 1])) (by decide)
  ⟨rfl, rfl, by decide, hperm, by decide, by decide, 2, 2, 1, 0, [2, 1], [1, 1], rfl, hperm⟩

end Claim26

end BitonicSort

namespace TopoPath

section Claim27

/-- C27. `add_edge` and `remove_edge` keep the adjacency list a simple undirected graph. Let
`topo` be symmetric (`b ∈ topo[a]` iff `a ∈ topo[b]`), without self-loops and without duplicate
neighbours, where the neighbour list of a vertex that is no row of `topo` is empty. Then for all
`a`, `b` below `INT_MAX` (the range in which `max(a, b) + 1` is an `int`) `add_edge` returns, the
list it leaves is again such a graph, it returns `false` exactly when no neighbour list has
changed, which is exactly when `a = b`, an endpoint is negative or the edge is already present,
and after a `true` the call `remove_edge(topo, a, b)` returns `true` and restores every neighbour
list. For all `a`, `b` below `topo.size()`, `remove_edge` returns, the list it leaves is again
such a graph, and it returns `false` exactly when no neighbour list has changed, which is exactly
when `a = b`, an endpoint is negative or the edge is absent. -/
theorem edges_keep_simple (topo : adj_list) (hS : Simple topo) (a b : Int) :
    (a < 2 ^ 31 - 1 → b < 2 ^ 31 - 1 →
      ∃ r topo', add_edge topo a b = .ok (r, topo') ∧ Simple topo' ∧
        (r = false ↔ ∀ v, nbrs topo' v = nbrs topo v) ∧
        (r = false ↔ (a = b ∨ a < 0 ∨ b < 0 ∨ b ∈ nbrs topo a)) ∧
        (r = true → ∃ topo'', remove_edge topo' a b = .ok (true, topo'') ∧
          ∀ v, nbrs topo'' v = nbrs topo v)) ∧
    (a < topo.length → b < topo.length →
      ∃ r topo', remove_edge topo a b = .ok (r, topo') ∧ Simple topo' ∧
        (r = false ↔ ∀ v, nbrs topo' v = nbrs topo v) ∧
        (r = false ↔ (a = b ∨ a < 0 ∨ b < 0 ∨ b ∉ nbrs topo a))) := by
  constructor
  · intro ha hb
    obtain ⟨r, topo', hrun, hf, ht⟩ := add_edge_spec topo a b ha hb
    cases r with
    | false =>
      obtain ⟨hsame, hcase⟩ := hf rfl
      refine ⟨false, topo', hrun, Simple_congr topo topo' hS hsame, ?_, ?_,
        fun h => Bool.noConfusion h⟩
      · exact ⟨fun _ => hsame, fun _ => rfl⟩
      · refine ⟨fun _ => ?_, fun _ => rfl⟩
        rcases hcase with h | h | h | h | h
        · exact Or.inl h
        · exact Or.inr (Or.inl h)
        · exact Or.inr (Or.inr (Or.inl h))
        · exact Or.inr (Or.inr (Or.inr h))
        · exact Or.inr (Or.inr (Or.inr ((hS.1 a b).mpr h)))
    | true =>
      obtain ⟨hab, ha0, hb0, hna, hnb, hla, hlb, hv⟩ := ht rfl
      have hS' : Simple topo' := Simple_add topo topo' a b hS hab hna hnb hv
      have hrow_a : nbrs topo' a = nbrs topo a ++ [b] := by
        rw [hv a, if_neg hab, if_pos rfl]
      have hrow_b : nbrs topo' b = nbrs topo b ++ [a] := by
        rw [hv b, if_pos rfl]
      refine ⟨true, topo', hrun, hS', ?_, ?_, fun _ => ?_⟩
      · refine ⟨fun h => Bool.noConfusion h, fun h => ?_⟩
        have hlen := congrArg List.length (h a)
        rw [hrow_a, List.length_append, List.length_singleton] at hlen
        omega
      · refine ⟨fun h => Bool.noConfusion h, fun h => ?_⟩
        rcases h with h | h | h | h
        · exact absurd h hab
        · omega
        · omega
        · exact absurd h hna
      · obtain ⟨r2, topo'', hrun2, hf2, ht2⟩ := remove_edge_spec topo' a b hla hlb
        cases r2 with
        | false =>
          obtain ⟨_, hcase⟩ := hf2 rfl
          rcases hcase with h | h | h | h | h
          · exact absurd h hab
          · omega
          · omega
          · rw [hrow_a] at h
            exact absurd (List.mem_append_right _ (List.mem_singleton_self b)) h
          · rw [hrow_b] at h
            exact absurd (List.mem_append_right _ (List.mem_singleton_self a)) h
        | true =>
          obtain ⟨_, _, _, _, _, hv2⟩ := ht2 rfl
          refine ⟨topo'', hrun2, fun v => ?_⟩
          rw [hv2 v, hrow_a, hrow_b, hv v]
          by_cases hvb : v = b
          · rw [if_pos hvb, List.erase_append_right _ hnb, hvb]
            simp
          · rw [if_neg hvb, if_neg hvb]
            by_cases hva : v = a
            · rw [if_pos hva, List.erase_append_right _ hna, hva]
              simp
            · rw [if_neg hva, if_neg hva]
  · intro ha hb
    obtain ⟨r, topo', hrun, hf, ht⟩ := remove_edge_spec topo a b ha hb
    cases r with
    | false =>
      obtain ⟨hsame, hcase⟩ := hf rfl
      subst hsame
      refine ⟨false, topo', hrun, hS, ?_, ?_⟩
      · exact ⟨fun _ _ => rfl, fun _ => rfl⟩
      · refine ⟨fun _ => ?_, fun _ => rfl⟩
        rcases hcase with h | h | h | h | h
        · exact Or.inl h
        · exact Or.inr (Or.inl h)
        · exact Or.inr (Or.inr (Or.inl h))
        · exact Or.inr (Or.inr (Or.inr h))
        · exact Or.inr (Or.inr (Or.inr (fun h2 => h ((hS.1 a b).mp h2))))
    | true =>
      obtain ⟨hab, ha0, hb0, hina, hinb, hv⟩ := ht rfl
      refine ⟨true, topo', hrun, Simple_remove topo topo' a b hS hab hv, ?_, ?_⟩
      · refine ⟨fun h => Bool.noConfusion h, fun h => ?_⟩
        have hlen := congrArg List.length (h a)
        rw [hv a, if_neg hab, if_pos rfl, List.length_erase_of_mem hina] at hlen
        have hpos := List.length_pos_of_mem hina
        omega
      · refine ⟨fun h => Bool.noConfusion h, fun h => ?_⟩
        rcases h with h | h | h | h
        · exact absurd h hab
        · omega
        · omega
        · exact absurd hina h

/-- C27, witness: on the graph with the single edge 0 - 1, adding the edge 0 - 2 returns `true`
with the rows `[1, 2]`, `[0]`, `[0]`, adding 0 - 1 again returns `false`, and removing 0 - 1
returns `true` and leaves two empty rows. -/
theorem edges_keep_simple_witness :
    Simple ([[1], [0]] : adj_list) ∧
    add_edge [[1], [0]] 0 2 = .ok (true, [[1, 2], [0], [0]]) ∧
    add_edge [[1], [0]] 0 1 = .ok (false, [[1], [0]]) ∧
    remove_edge [[1], [0]] 0 1 = .ok (true, [[], []]) ∧
    (∃ r topo', add_edge [[1], [0]] 0 2 = .ok (r, topo') ∧ Simple topo' ∧
        (r = false ↔ ∀ v, nbrs topo' v = nbrs ([[1], [0]] : adj_list) v) ∧
        (r = false ↔ ((0 : Int) = 2 ∨ (0 : Int) < 0 ∨ (2 : Int) < 0 ∨
          (2 : Int) ∈ nbrs ([[1], [0]] : adj_list) 0)) ∧
        (r = true → ∃ topo'', remove_edge topo' 0 2 = .ok (true, topo'') ∧
          ∀ v, nbrs topo'' v = nbrs ([[1], [0]] : adj_list) v)) ∧
    (∃ r topo', remove_edge [[1], [0]] 0 1 = .ok (r, topo') ∧ Simple topo' ∧
        (r = false ↔ ∀ v, nbrs topo' v = nbrs ([[1], [0]] : adj_list) v) ∧
        (r = false ↔ ((0 : Int) = 1 ∨ (0 : Int) < 0 ∨ (1 : Int) < 0 ∨
          (1 : Int) ∉ nbrs ([[1], [0]] : adj_list) 0))) :=
  ⟨Simple_pair, rfl, rfl, rfl,
    (edges_keep_simple [[1], [0]] Simple_pair 0 2).1 (by decide) (by decide),
    (edges_keep_simple [[1], [0]] Simple_pair 0 1).2 (by decide) (by decide)⟩

end Claim27

end TopoPath

namespace BitonicSort

section Claim28

variable {α : Type} [LinearOrder α]

/-- C28. The barriers make every interleaving of the threads of a tile
equivalent to the phase by phase kernel. Let the tile have `T > 0` threads,
`sh_data` hold any `T` values at launch, and `bitonic_sort_kernel` return
`out`. Then under every schedule the tile runs without a fault into a state
that is in one of the four phases of `InPhase`; when a thread is at the write
of line 88 or at the barrier of line 89 of round `j`, every thread of the tile
is (so all of them have finished the reads of line 86, and by `WritePhase`
hold the `result` computed from `sh_data` as it stood before the round); when
a thread is at the reads of line 86 or at the barrier of line 87 of round `j`,
every thread is (so every write of the round before is in `sh_data`, and by
`ReadPhase` none of this round); when every thread has returned, `data` is
`out`; while some thread has not returned, some thread can take a step; every
step of a thread that can take one lowers `remaining`, which starts at
`T * (6 * iters (ulevel >> 1) + 3)`; and from the state reached the tile can
be run until every thread has returned, with `data = out`. -/
theorem barrier_interleavings (T ulevel ulevelmask tile : Nat) (hT : 0 < T)
    (data sh0 out : List α) (hsh : sh0.length = T)
    (hsync : bitonic_sort_kernel T data ulevel ulevelmask tile = .ok out) (sched : List Nat) :
    ∃ s, run T ulevel ulevelmask tile sched (initTile T data sh0) = .ok s ∧
      InPhase T ulevel ulevelmask tile data out s ∧
      (∀ (i : Nat) (pc : Pc α) (j : Nat), s.pcs[i]? = some pc →
        (pc.inWrite j = true → ∀ pc' ∈ s.pcs, pc'.inWrite j = true) ∧
        (pc.inRead j = true → ∀ pc' ∈ s.pcs, pc'.inRead j = true)) ∧
      (finished s = true → s.data = out) ∧
      (finished s = false → ∃ i < T, enabled s i = true) ∧
      (∀ i, enabled s i = true →
        ∃ s', step T ulevel ulevelmask tile s i = .ok s' ∧
          remaining ulevel s' < remaining ulevel s) ∧
      remaining ulevel s ≤ T * (6 * iters (u32 ulevel >>> 1) + 3) ∧
      ∃ sched' s', sched'.length ≤ remaining ulevel s ∧
        run T ulevel ulevelmask tile sched' s = .ok s' ∧ finished s' = true ∧
        s'.data = out := by
  have h0 := phase_init T ulevel ulevelmask tile data sh0 out hsh hsync
  obtain ⟨s, hrun, hP⟩ := phase_run T ulevel ulevelmask tile data out sched _ h0
  refine ⟨s, hrun, hP, ?_, ?_, ?_, ?_, ?_, ?_⟩
  · intro i pc j hpc
    exact phase_halves T ulevel ulevelmask tile data out s hP i pc j hpc
  · exact phase_finished T ulevel ulevelmask tile data out s hT hP
  · exact phase_enabled T ulevel ulevelmask tile data out s hT hP
  · intro i he
    obtain ⟨s', h1, _⟩ := phase_step T ulevel ulevelmask tile data out s hP i
    exact ⟨s', h1, step_decreases T ulevel ulevelmask tile s s' i he h1⟩
  · rw [← remaining_init T ulevel data sh0]
    exact run_remaining T ulevel ulevelmask tile sched _ s hrun
  · exact phase_complete T ulevel ulevelmask tile data out hT _ s hP (Nat.le_refl _)

/-- C28, witness: a tile of two threads holding `[2, 1]`, `ulevel = 2`,
mask `2`, stale `sh_data = [7, 7]`. The kernel returns `[1, 2]`; under a
schedule of fifteen steps that lets thread 1 go first wherever it can, both
threads return and the buffer is `[1, 2]`; a schedule that stops after the
first thread has written its slot ends in the write half of round 1. -/
theorem barrier_interleavings_witness :
    bitonic_sort_kernel 2 ([2, 1] : List Nat) 2 2 0 = .ok [1, 2] ∧
    run 2 2 2 0 [1, 0, 1, 1, 1, 1, 0, 0, 0, 0, 1, 0, 1, 1, 0] (initTile 2 ([2, 1] : List Nat) [7, 7])
      = .ok { data := [1, 2], sh_data := [1, 2], pcs := [Pc.done, Pc.done] } ∧
    run 2 2 2 0 [1, 0, 1, 1, 1, 1, 0, 0, 0, 0, 1] (initTile 2 ([2, 1] : List Nat) [7, 7])
      = .ok { data := [2, 1], sh_data := [2, 2], pcs := [Pc.write 1 1, Pc.barrierB 1] } ∧
    ∃ s, run 2 2 2 0 [1, 0, 1, 1, 1, 1, 0, 0, 0, 0, 1] (initTile 2 ([2, 1] : List Nat) [7, 7])
        = .ok s ∧
      InPhase 2 2 2 0 [2, 1] [1, 2] s ∧
      (finished s = true → s.data = [1, 2]) ∧
      (finished s = false → ∃ i < 2, enabled s i = true) ∧
      ∃ sched' s', sched'.length ≤ remaining 2 s ∧
        run 2 2 2 0 sched' s = .ok s' ∧ finished s' = true ∧ s'.data = [1, 2] :=
  have h := barrier_interleavings 2 2 2 0 (by decide) ([2, 1] : List Nat) [7, 7] [1, 2] rfl
    (by rfl) [1, 0, 1, 1, 1, 1, 0, 0, 0, 0, 1]
  ⟨rfl, rfl, rfl,
    h.elim fun s hs => ⟨s, hs.1, hs.2.1, hs.2.2.2.1, hs.2.2.2.2.1, hs.2.2.2.2.2.2.2⟩⟩

end Claim28

end BitonicSort
